import Mathlib

set_option autoImplicit false

namespace CaDiCaL

/-- Modulus of the C++ type unsigned long (64 bits). -/
def ULONG : Nat := 2 ^ 64

/-- The fields of class Reluctant (reluctant.hpp); u, v, limit, period and
countdown are unsigned long, kept as naturals below ULONG. -/
structure Reluctant where
  u : Nat
  v : Nat
  limit : Nat
  period : Nat
  countdown : Nat
  trigger : Bool
  limited : Bool
deriving DecidableEq

namespace Reluctant

/-- Line (DK) of Reluctant::tick on the pair (u, v): the negation of the
unsigned u is ULONG - u modulo ULONG, and u + 1 and 2 * v wrap around. -/
def dkStep (uv : Nat × Nat) : Nat × Nat :=
  if uv.1 &&& ((ULONG - uv.1) % ULONG) = uv.2 then ((uv.1 + 1) % ULONG, 1)
  else (uv.1, (2 * uv.2) % ULONG)

/-- Reluctant::enable (int p, long l). The signed arguments are converted to
unsigned long on assignment; limit is only written when l is positive. -/
def enable (r : Reluctant) (p l : Int) : Reluctant :=
  { u := 1, v := 1,
    limit := if l ≤ 0 then r.limit else (l % (ULONG : Int)).toNat,
    period := (p % (ULONG : Int)).toNat,
    countdown := (p % (ULONG : Int)).toNat,
    trigger := false,
    limited := decide (0 < l) }

/-- Reluctant::disable. -/
def disable (r : Reluctant) : Reluctant :=
  { r with period := 0, trigger := false }

/-- Reluctant::tick; the pre-decrement of the unsigned countdown wraps. -/
def tick (r : Reluctant) : Reluctant :=
  if r.period = 0 then r
  else if r.trigger then r
  else
    let c := (r.countdown + (ULONG - 1)) % ULONG
    if c ≠ 0 then { r with countdown := c }
    else
      let uv := dkStep (r.u, r.v)
      let uv : Nat × Nat :=
        if r.limited && decide (r.limit ≤ uv.2) then (1, 1) else uv
      { r with u := uv.1, v := uv.2,
               countdown := (uv.2 * r.period) % ULONG, trigger := true }

/-- Reluctant::operator bool: returns the trigger and clears it. -/
def toBool (r : Reluctant) : Bool × Reluctant :=
  if !r.trigger then (false, r) else (true, { r with trigger := false })

/-- One round of the caller: a tick followed by a read of the trigger. -/
def tickRead (r : Reluctant) : Bool × Reluctant := (tick r).toBool

/-- The state after n rounds of tick-then-read. -/
def afterRounds (r : Reluctant) : Nat → Reluctant
  | 0 => r
  | n + 1 => (tickRead (afterRounds r n)).2

/-- Whether the n-th tick (counting from 1) raises the trigger when the
trigger is read after every tick. -/
def raisedAt (r : Reluctant) : Nat → Bool
  | 0 => false
  | n + 1 => (tickRead (afterRounds r n)).1

/-- The two operations of a caller on the sequence: a call of tick and a read of the
trigger through operator bool. -/
inductive Op where
  | tick
  | read
deriving DecidableEq

/-- The state after a sequence of calls, applied from the first to the last. -/
def applyOps (r : Reluctant) (ops : List Op) : Reluctant :=
  ops.foldl (fun st op => match op with
    | Op.tick => tick st
    | Op.read => (toBool st).2) r

end Reluctant

/-- The largest power of two not exceeding i, searched upwards from the
power of two p; the first argument bounds the number of doublings. -/
def pow2Floor : Nat → Nat → Nat → Nat
  | 0, p, _ => p
  | fuel + 1, p, i => if i < 2 * p then p else pow2Floor fuel (2 * p) i

/-- The standard Luby sequence by its usual recursion: with 2^(k-1) the
largest power of two not exceeding i, the value is 2^(k-1) when i = 2^k - 1
and the value at i - 2^(k-1) + 1 otherwise. The first argument bounds the
depth of the recursion. -/
def lubyAux : Nat → Nat → Nat
  | 0, _ => 1
  | fuel + 1, i =>
    if i + 1 = 2 * pow2Floor i 1 i then pow2Floor i 1 i
    else lubyAux fuel (i + 1 - pow2Floor i 1 i)

/-- The i-th element (counting from 1) of the Luby sequence
1,1,2,1,1,2,4,1,1,2,1,1,2,4,8,... -/
def luby (i : Nat) : Nat := lubyAux i i

/-- Sum of the first k elements of the Luby sequence. -/
def lubySum : Nat → Nat
  | 0 => 0
  | k + 1 => lubySum k + luby (k + 1)

end CaDiCaL

namespace CaDiCaL

/-! ### The double arithmetic of the effort limits -/

/-- The number of low bits of m that do not fit into the 53-bit significand of a
double: the number of halvings after which m is below 2^53. The first argument bounds
the number of halvings. -/
def excessBits : Nat → Nat → Nat
  | 0, _ => 0
  | fuel + 1, m => if m < 2 ^ 53 then 0 else excessBits fuel (m / 2) + 1

/-- Rounding of the natural number m to a double (IEEE 754 binary64, round to nearest,
ties to even, the default rounding of C++ double arithmetic): the result is the pair of a
significand of at most 53 bits and an exponent, of value significand * 2^exponent. -/
def round53 (m : Nat) : Nat × Nat :=
  if 2 ^ excessBits 200 m < 2 * (m % 2 ^ excessBits 200 m) ∨
      (2 * (m % 2 ^ excessBits 200 m) = 2 ^ excessBits 200 m ∧
        (m / 2 ^ excessBits 200 m) % 2 = 1) then
    (m / 2 ^ excessBits 200 m + 1, excessBits 200 m)
  else (m / 2 ^ excessBits 200 m, excessBits 200 m)

/-- The significand of the double literal 1e-3, which is 0x1.0624dd2f1a9fcp-10: the
double nearest to 0.001 is 4611686018427388 * 2^-62. -/
def milliSig : Nat := 4611686018427388

/-- The magnitude of the result of the statement `x *= 1e-3 * releff` for the
magnitudes x of a long and releff of an int. The int is converted to double exactly and
multiplied with the double 1e-3, which gives f.1 * 2^(f.2 - 62) for
f = round53 (milliSig * releff); x is converted to double, which gives d.1 * 2^d.2 for
d = round53 x; the product of the two doubles is rounded to p.1 * 2^(p.2 + d.2 + f.2 - 62)
for p = round53 (d.1 * f.1) and converted to long by truncation. No exponent of these
values leaves the range of a double; a result outside the range of long is not wrapped. -/
def scaleMagnitude (x releff : Nat) : Nat :=
  ((round53 ((round53 x).1 * (round53 (milliSig * releff)).1)).1 *
      2 ^ ((round53 ((round53 x).1 * (round53 (milliSig * releff)).1)).2 +
        (round53 x).2 + (round53 (milliSig * releff)).2)) / 2 ^ 62

/-- The statement `x *= 1e-3 * releff` for a long x and an int releff, as in
`delta *= 1e-3 * opts.coverreleff` of cover.cpp and `limit *= 1e-3 * opts.transredreleff`
of transred.cpp, in IEEE 754 double arithmetic: rounding is symmetric in the sign and the
conversion to long truncates toward zero, so the result is the magnitude computed from
the magnitudes with the sign of the product. -/
def scaleEffort (x releff : Int) : Int :=
  Int.sign x * Int.sign releff * (scaleMagnitude x.natAbs releff.natAbs : Nat)

end CaDiCaL

namespace CaDiCaL

/-! ### Data model (clause.hpp, watch.hpp, internal.hpp, external.hpp) -/

/-- A clause record: the literal array and the flags used by the inprocessing
code; pos is the cursor of the watch replacement search. -/
structure Clause where
  literals : List Int
  garbage : Bool
  redundant : Bool
  hyper : Bool
  frozen : Bool
  covered : Bool
  transred : Bool
  pos : Nat
deriving DecidableEq, Inhabited

/-- The size field of a clause is the length of its literal array. -/
def Clause.size (c : Clause) : Nat := c.literals.length

/-- A watch: the watched clause (a pointer, here its index in the clause
list), the blocking literal and a copy of the clause size. -/
structure Watch where
  clause : Nat
  blit : Int
  size : Nat
deriving DecidableEq, Inhabited

/-- Watch::binary. -/
def Watch.binary (w : Watch) : Bool := w.size == 2

/-- The counters of Stats read or written by cover, transred and extend. -/
structure Stats where
  propagations_cover : Int
  propagations_search : Int
  propagations_transred : Int
  cover_count : Int
  cover_asymmetric : Int
  cover_blocked : Int
  cover_total : Int
  transreds : Int
  transitive : Int
  failed : Int
  transredunits : Int
  extensions : Int
  extended : Int
  weakened : Int
  weakenedlen : Int
  current_irredundant : Int
  current_redundant : Int
  active : Int
deriving DecidableEq, Inhabited

/-- The options read by cover and transred. -/
structure Options where
  cover : Bool
  restoreflush : Bool
  coverreleff : Int
  covermineff : Int
  covermaxeff : Int
  transred : Bool
  transredreleff : Int
  transredmineff : Int
  transredmaxeff : Int
  simplify : Bool
  reportall : Bool
deriving DecidableEq, Inhabited

/-- The part of External used by the extension stack code. -/
structure External where
  max_var : Int
  vals2 : List Bool
  e2i : List Int
  extension : List Int
  witness : Int → Bool
  extended : Bool

/-- The part of Internal used by cover, transred and extend. The arrays vals
(indexed by literal), marks and frozentab (indexed by variable), the watch
table and the occurrence table (indexed by literal) are total functions; a
clause pointer is an index into clauses; activetab tells which variables are active. -/
structure Internal where
  unsat : Bool
  level : Int
  max_var : Int
  vals : Int → Int
  marks : Nat → Int
  frozentab : Nat → Nat
  activetab : Nat → Bool
  i2e : Nat → Int
  clauses : List Clause
  wtab : Int → List Watch
  otab : Int → List Nat
  trail : List Int
  propagated : Nat
  last_transred_propagations : Int
  stats : Stats
  opts : Options
  external : External

/-- The scratch vectors and cursors of struct Coveror (cover.cpp). -/
structure Coveror where
  added : List Int
  clause : List Int
  extend : List Int
  covered : List Int
  intersection : List Int
  next_asymmetric : Nat
  next_covered : Nat
deriving DecidableEq, Inhabited

/-- The constructor Coveror (): empty vectors, both cursors zero. -/
def Coveror.init : Coveror := ⟨[], [], [], [], [], 0, 0⟩

namespace Internal

/-- Internal::val: the entry of vals at the literal. -/
def val (s : Internal) (lit : Int) : Int := s.vals lit

/-- Writing one entry of the array vals. -/
def setVal (vals : Int → Int) (lit v : Int) : Int → Int :=
  fun x => if x = lit then v else vals x

/-- The clause behind a clause pointer. -/
def clauseAt (s : Internal) (c : Nat) : Clause := s.clauses.getD c default

/-- Writing through a clause pointer. -/
def setClause (s : Internal) (c : Nat) (cl : Clause) : Internal :=
  { s with clauses := s.clauses.set c cl }

/-- Internal::watches. -/
def watches (s : Internal) (lit : Int) : List Watch := s.wtab lit

/-- Internal::occs. -/
def occs (s : Internal) (lit : Int) : List Nat := s.otab lit

/-- Modelled from the spec: Internal::marked (internal.hpp) is not in src. The mark
of a literal is the signed mark of its variable, negated for a negative literal. -/
def marked (s : Internal) (lit : Int) : Int :=
  if lit < 0 then - s.marks lit.natAbs else s.marks lit.natAbs

/-- Modelled from the spec: Internal::mark (internal.hpp) is not in src. Marking a
literal stores its sign at its variable. -/
def mark (s : Internal) (lit : Int) : Internal :=
  { s with marks := fun x => if x = lit.natAbs then Int.sign lit else s.marks x }

/-- Modelled from the spec: Internal::unmark (internal.hpp) is not in src. It clears
the mark of the variable of the literal. -/
def unmark (s : Internal) (lit : Int) : Internal :=
  { s with marks := fun x => if x = lit.natAbs then 0 else s.marks x }

/-- Modelled from the spec: the overload of Internal::unmark on a vector of literals
(internal.hpp, not in src) unmarks every literal of the vector. -/
def unmarkAll (s : Internal) (lits : List Int) : Internal :=
  lits.foldl unmark s

/-- Modelled from the spec: Internal::frozen (internal.hpp) is not in src. A literal is
frozen when the freeze counter of its variable is positive. -/
def frozen (s : Internal) (lit : Int) : Bool := decide (0 < s.frozentab lit.natAbs)

/-- Modelled from the spec: Internal::externalize (internal.hpp) is not in src. The
internal variable is translated through the table i2e and the sign is kept. -/
def externalize (s : Internal) (lit : Int) : Int :=
  if lit < 0 then - s.i2e lit.natAbs else s.i2e lit.natAbs

/-- Modelled from the spec: Internal::mark_garbage (collect.cpp) is not in src. It
sets the garbage flag of the clause. -/
def mark_garbage (s : Internal) (c : Nat) : Internal :=
  s.setClause c { s.clauseAt c with garbage := true }

end Internal

end CaDiCaL

namespace CaDiCaL

/-! ### extend.cpp -/

namespace External

/-- Modelled from the spec: External::val (external.hpp) is not in src. The external
assignment is the Boolean vector vals2 indexed by variable; a literal has value 1 when
it is satisfied and -1 otherwise, and a variable beyond the vector counts as false. -/
def val (vals2 : List Bool) (elit : Int) : Int :=
  let res : Int := if vals2.getD elit.natAbs false then 1 else -1
  if elit < 0 then -res else res

/-- The flip in External::extend: the vector is padded with false up to the index
and the entry at the index is negated. -/
def flip (vals2 : List Bool) (idx : Nat) : List Bool :=
  let padded := vals2 ++ List.replicate (idx + 1 - vals2.length) false
  padded.set idx (!(padded.getD idx false))

/-- The first inner loop of External::extend, the walk over the clause of a block:
the argument is the part of the stack below the cursor, nearest entry first; the
result is the flag satisfied and the part of the stack below the zero that ended the
walk. The result is none when the walk would step below the first entry. -/
def extendClauseWalk (vals2 : List Bool) : List Int → Bool → Option (Bool × List Int)
  | [], _ => none
  | lit :: rest, satisfied =>
    if lit = 0 then some (satisfied, rest)
    else if satisfied then extendClauseWalk vals2 rest satisfied
    else extendClauseWalk vals2 rest (decide (0 < val vals2 lit))

/-- The walk over the witness of a satisfied block, which only moves the cursor. -/
def extendSkipWalk : List Int → Option (List Int)
  | [] => none
  | lit :: rest => if lit = 0 then some rest else extendSkipWalk rest

/-- The walk over the witness of a falsified block: every literal that is false when
it is visited is flipped and counted. The state is the vector vals2 and the counter
of flips. -/
def extendFlipWalk : List Int → List Bool × Int → Option ((List Bool × Int) × List Int)
  | [], _ => none
  | lit :: rest, st =>
    if lit = 0 then some (st, rest)
    else if val st.1 lit < 0 then extendFlipWalk rest (flip st.1 lit.natAbs, st.2 + 1)
    else extendFlipWalk rest st

/-- One iteration of the outer loop of External::extend: one block is processed. -/
def extendBlock (stack : List Int) (st : List Bool × Int) :
    Option ((List Bool × Int) × List Int) :=
  match extendClauseWalk st.1 stack false with
  | none => none
  | some (true, rest) =>
    match extendSkipWalk rest with
    | none => none
    | some rest2 => some (st, rest2)
  | some (false, rest) => extendFlipWalk rest st

/-- The outer loop of External::extend, while (i != begin); the first argument
bounds the number of iterations. -/
def extendLoop : Nat → List Int → List Bool × Int → Option (List Bool × Int)
  | _, [], st => some st
  | 0, _ :: _, _ => none
  | fuel + 1, lit :: rest, st =>
    match extendBlock (lit :: rest) st with
    | none => none
    | some (st2, rest2) => extendLoop fuel rest2 st2

/-- The first loop of External::extend: the values of the internal literals are
copied into vals2 for the external variables i = 1 .. max_var that have an internal
literal; n counts the remaining variables. -/
def extendInit (ival : Int → Int) (e2i : List Int) : Nat → Nat → List Bool → List Bool
  | 0, _, vals2 => vals2
  | n + 1, i, vals2 =>
    let ilit := e2i.getD i 0
    if ilit = 0 then extendInit ival e2i n (i + 1) vals2
    else
      let padded := vals2 ++ List.replicate (i + 1 - vals2.length) false
      extendInit ival e2i n (i + 1) (padded.set i (decide (0 < ival ilit)))

/-- External::extend. The stack is walked from its end, so the loop gets it
reversed. The result is none when a walk would step below the first entry. -/
def extend (s : Internal) : Option Internal :=
  let e := s.external
  let vals2 := extendInit s.vals e.e2i e.max_var.toNat 1 e.vals2
  match extendLoop e.extension.length e.extension.reverse (vals2, s.stats.extended) with
  | none => none
  | some (vals2, flips) =>
    some { s with
      stats := { s.stats with extensions := s.stats.extensions + 1, extended := flips },
      external := { e with vals2 := vals2, extended := true } }

/-- The claim's description of one block step, for comparison with extendBlock: a
block whose clause has a true literal leaves the assignment and the counter as they
are; otherwise the witness is walked from its last literal to its first and the
variable of every literal that is false when visited is inverted and counted. -/
def blockStepSpec (W C : List Int) (st : List Bool × Int) : List Bool × Int :=
  if C.any (fun c => decide (0 < val st.1 c)) then st
  else W.foldr (fun w acc => if val acc.1 w < 0 then (flip acc.1 w.natAbs, acc.2 + 1) else acc) st

end External

end CaDiCaL

namespace CaDiCaL

/-! ### extend.cpp: pushing on the extension stack, traversing witnesses -/

namespace Internal

/-- External::push_zero_on_extension_stack. -/
def push_zero_on_extension_stack (s : Internal) : Internal :=
  { s with external := { s.external with extension := s.external.extension ++ [0] } }

/-- External::push_clause_literal_on_extension_stack: the externalized literal is
pushed. -/
def push_clause_literal_on_extension_stack (s : Internal) (ilit : Int) : Internal :=
  { s with external := { s.external with
      extension := s.external.extension ++ [s.externalize ilit] } }

/-- External::push_witness_literal_on_extension_stack: the externalized literal is
pushed and marked as witness; the witness marks are kept as a set of literals. -/
def push_witness_literal_on_extension_stack (s : Internal) (ilit : Int) : Internal :=
  { s with external := { s.external with
      extension := s.external.extension ++ [s.externalize ilit],
      witness := fun x => if x = s.externalize ilit then true else s.external.witness x } }

/-- External::push_clause_on_extension_stack (Clause * c, int pivot), with the clause
given by its literals. -/
def push_clause_on_extension_stack (s : Internal) (lits : List Int) (pivot : Int) : Internal :=
  let s := { s with stats := { s.stats with
    weakened := s.stats.weakened + 1,
    weakenedlen := s.stats.weakenedlen + lits.length } }
  let s := s.push_zero_on_extension_stack
  let s := s.push_witness_literal_on_extension_stack pivot
  let s := s.push_zero_on_extension_stack
  lits.foldl push_clause_literal_on_extension_stack s

/-- External::push_binary_clause_on_extension_stack. -/
def push_binary_clause_on_extension_stack (s : Internal) (pivot other : Int) : Internal :=
  let s := { s with stats := { s.stats with
    weakened := s.stats.weakened + 1,
    weakenedlen := s.stats.weakenedlen + 2 } }
  let s := s.push_zero_on_extension_stack
  let s := s.push_witness_literal_on_extension_stack pivot
  let s := s.push_zero_on_extension_stack
  let s := s.push_clause_literal_on_extension_stack pivot
  s.push_clause_literal_on_extension_stack other

/-- External::push_external_clause_and_witness_on_extension_stack. The call
init (abs (elit)), whose code is not in src, is modelled by raising max_var to the
variable of the literal. -/
def push_external_clause_and_witness_on_extension_stack (s : Internal)
    (c w : List Int) : Internal :=
  let e := s.external
  let e := { e with extension := e.extension ++ [0] }
  let e := w.foldl (fun e elit => { e with
    max_var := max e.max_var elit.natAbs,
    extension := e.extension ++ [elit],
    witness := fun x => if x = elit then true else e.witness x }) e
  let e := { e with extension := e.extension ++ [0] }
  let e := c.foldl (fun e elit => { e with
    max_var := max e.max_var elit.natAbs,
    extension := e.extension ++ [elit] }) e
  { s with external := e }

end Internal

namespace External

/-- The clause walk of External::traverse_witnesses on the stack below the cursor,
nearest entry first: the result is the flag satisfied, the vector clause and the rest of
the stack; fixed gives the root-level value of an external literal (External::fixed,
not in src). -/
def traverseClauseWalk (fixed : Int → Int) :
    List Int → Bool → List Int → Option (Bool × List Int × List Int)
  | [], _, _ => none
  | lit :: rest, satisfied, clause =>
    if lit = 0 then some (satisfied, clause, rest)
    else if satisfied then traverseClauseWalk fixed rest satisfied clause
    else if fixed lit < 0 then traverseClauseWalk fixed rest satisfied clause
    else if 0 < fixed lit then traverseClauseWalk fixed rest true clause
    else traverseClauseWalk fixed rest satisfied (clause ++ [lit])

/-- The witness walk of External::traverse_witnesses. -/
def traverseWitnessWalk (fixed : Int → Int) (satisfied : Bool) :
    List Int → List Int → Option (List Int × List Int)
  | [], _ => none
  | lit :: rest, witness =>
    if lit = 0 then some (witness, rest)
    else if satisfied then traverseWitnessWalk fixed satisfied rest witness
    else if fixed lit ≠ 0 then traverseWitnessWalk fixed satisfied rest witness
    else traverseWitnessWalk fixed satisfied rest (witness ++ [lit])

/-- The loop of External::traverse_witnesses on the reversed stack: it is the function
called for every pair (clause, witness); the result is the returned flag and the list of
the calls made, in order. The first argument bounds the number of iterations. -/
def traverseLoop (fixed : Int → Int) (it : List Int → List Int → Bool) :
    Nat → List Int → List (List Int × List Int) → Option (Bool × List (List Int × List Int))
  | _, [], calls => some (true, calls)
  | 0, _ :: _, _ => none
  | fuel + 1, lit :: rest, calls =>
    match traverseClauseWalk fixed (lit :: rest) false [] with
    | none => none
    | some (satisfied, clause, rest1) =>
      match traverseWitnessWalk fixed satisfied rest1 [] with
      | none => none
      | some (witness, rest2) =>
        if satisfied then traverseLoop fixed it fuel rest2 calls
        else if it clause.reverse witness.reverse then
          traverseLoop fixed it fuel rest2 (calls ++ [(clause.reverse, witness.reverse)])
        else some (false, calls ++ [(clause.reverse, witness.reverse)])

/-- External::traverse_witnesses. -/
def traverse_witnesses (s : Internal) (fixed : Int → Int) (it : List Int → List Int → Bool) :
    Option (Bool × List (List Int × List Int)) :=
  if s.unsat then some (true, [])
  else traverseLoop fixed it s.external.extension.length s.external.extension.reverse []

end External

end CaDiCaL

namespace CaDiCaL

/-! ### transred.cpp -/

/-- The collaborators of the inprocessing code whose code is not in src: the
terminator callback (by the number of calls made before) and the standard propagator
Internal::propagate. -/
structure Env where
  terminating : Nat → Bool
  propagate : Internal → Bool × Internal

namespace Internal

/-- Modelled from the spec: Internal::assign_unit is not in src. At level 0 the
literal becomes true, its negation false, and the literal is pushed on the trail. -/
def assign_unit (s : Internal) (lit : Int) : Internal :=
  { s with vals := setVal (setVal s.vals lit 1) (-lit) (-1), trail := s.trail ++ [lit] }

/-- Modelled from the spec: Internal::learn_empty_clause is not in src. The empty
clause is recorded in the flag unsat. -/
def learn_empty_clause (s : Internal) : Internal := { s with unsat := true }

/-- Modelled from the spec: Internal::sort_watches is not in src. In every watch list
the watches of binary clauses are moved to the front, the order otherwise kept. -/
def sort_watches (s : Internal) : Internal :=
  { s with wtab := fun lit =>
      (s.wtab lit).filter (fun w => w.binary) ++ (s.wtab lit).filter (fun w => !w.binary) }

/-- The state of the search of one candidate: the solver (its marks change), the
working stack and the two flags. -/
structure Bfs where
  s : Internal
  work : List Int
  transitive : Bool
  failed : Bool

/-- The inner for loop of transred over the watches of -lit, for the candidate
clause c with target dst. -/
def transredScan (c : Nat) (irredundant : Bool) (dst : Int) : List Watch → Bfs → Bfs
  | [], b => b
  | w :: ws, b =>
    if b.transitive || b.failed then b
    else if !w.binary then b
    else if w.clause = c then transredScan c irredundant dst ws b
    else if irredundant && (b.s.clauseAt w.clause).redundant then
      transredScan c irredundant dst ws b
    else if (b.s.clauseAt w.clause).garbage then transredScan c irredundant dst ws b
    else if w.blit = dst then transredScan c irredundant dst ws { b with transitive := true }
    else if 0 < b.s.marked w.blit then transredScan c irredundant dst ws b
    else if b.s.marked w.blit < 0 then transredScan c irredundant dst ws { b with failed := true }
    else transredScan c irredundant dst ws
      { b with s := b.s.mark w.blit, work := b.work ++ [w.blit] }

/-- The while loop of the search: j is the number of propagated entries of work, the
last argument counts the propagations; the first argument bounds the number of
iterations and the result is none when it is used up. -/
def transredBfs (c : Nat) (irredundant : Bool) (dst : Int) :
    Nat → Nat → Bfs → Int → Option (Bfs × Int)
  | fuel, j, b, props =>
    if b.transitive || b.failed || b.work.length ≤ j then some (b, props)
    else match fuel with
      | 0 => none
      | fuel + 1 =>
        let lit := b.work.getD j 0
        transredBfs c irredundant dst fuel (j + 1)
          (transredScan c irredundant dst (b.s.watches (-lit)) b) (props + 1)

/-- The source and target of the search for the candidate with literals l0 and l1: the
search runs from -l0 to l1 unless -l0 has fewer watches than the target, in which
case it runs from -l1 to l0. -/
def transredDirection (s : Internal) (l0 l1 : Int) : Int × Int :=
  let src := -l0
  let dst := l1
  if (s.watches (-src)).length < (s.watches dst).length then (-dst, -src) else (src, dst)

/-- The search of one candidate c, from the choice of the direction to the end of
the while loop: the result is the final search state and the counter propagations. -/
def transredSearch (c : Nat) (s : Internal) (props : Int) : Option (Bfs × Int) :=
  let cl := s.clauseAt c
  let sd := transredDirection s (cl.literals.getD 0 0) (cl.literals.getD 1 0)
  transredBfs c (!cl.redundant) sd.2 (2 * s.clauses.length + 2) 0
    ⟨s.mark sd.1, [sd.1], false, false⟩ props

/-- The candidate with its flag transred set (marked as checked). -/
def transredFlag (s : Internal) (c : Nat) : Internal :=
  s.setClause c { s.clauseAt c with transred := true }

/-- The state in which the failed literal src has been counted and its negation
assigned as a unit. -/
def transredUnit (s : Internal) (src : Int) : Internal :=
  ({ s with stats := { s.stats with
      failed := s.stats.failed + 1,
      transredunits := s.stats.transredunits + 1 } }).assign_unit (-src)

/-- The end of the body of the main loop: the working stack is unassigned (unmarked
from its last entry to its first), then a transitive candidate is counted and marked
garbage, or the negation of a failed src is assigned and propagated. -/
def transredFinish (env : Env) (c : Nat) (src : Int) (b : Bfs) : Internal :=
  if b.transitive then
    ({ (b.work.reverse.foldl unmark b.s) with
        stats := { (b.work.reverse.foldl unmark b.s).stats with
          transitive := (b.work.reverse.foldl unmark b.s).stats.transitive + 1 } }
      ).mark_garbage c
  else if b.failed then
    if !(env.propagate (transredUnit (b.work.reverse.foldl unmark b.s) src)).1 then
      (env.propagate (transredUnit (b.work.reverse.foldl unmark b.s) src)).2.learn_empty_clause
    else (env.propagate (transredUnit (b.work.reverse.foldl unmark b.s) src)).2
  else b.work.reverse.foldl unmark b.s

/-- The body of the main loop of transred for the clause c; the second component is
the local counter propagations. -/
def transredCandidate (env : Env) (c : Nat) (s : Internal) (props : Int) :
    Option (Internal × Int) :=
  if (s.clauseAt c).garbage then some (s, props)
  else if (s.clauseAt c).size ≠ 2 then some (s, props)
  else if (s.clauseAt c).redundant && (s.clauseAt c).hyper then some (s, props)
  else if (s.clauseAt c).transred then some (s, props)
  else if (transredFlag s c).val (-((s.clauseAt c).literals.getD 0 0)) ≠ 0 ||
      (transredFlag s c).val ((s.clauseAt c).literals.getD 1 0) ≠ 0 then
    some (transredFlag s c, props)
  else
    match transredSearch c (transredFlag s c) props with
    | none => none
    | some (b, props) =>
      some (transredFinish env c
        (transredDirection (transredFlag s c) ((s.clauseAt c).literals.getD 0 0)
          ((s.clauseAt c).literals.getD 1 0)).1 b, props)

/-- The main loop of transred over the clause pointers from i to end; tcalls counts
the calls of the terminator made so far. -/
def transredLoop (env : Env) (limit : Int) : List Nat → Internal → Int → Nat →
    Option (Internal × Int)
  | [], s, props, _ => some (s, props)
  | c :: rest, s, props, tcalls =>
    if s.unsat then some (s, props)
    else if env.terminating tcalls then some (s, props)
    else if ¬ props < limit then some (s, props)
    else match transredCandidate env c s props with
      | none => none
      | some (s, props) => transredLoop env limit rest s props (tcalls + 1)

/-- The search for the first clause not yet checked: the number of clauses skipped. -/
def transredFirst : List Clause → Nat
  | [] => 0
  | c :: cs =>
    if c.garbage then transredFirst cs + 1
    else if c.size ≠ 2 then transredFirst cs + 1
    else if c.redundant && c.hyper then transredFirst cs + 1
    else if !c.transred then 0
    else transredFirst cs + 1

/-- Internal::transred. -/
def transred (env : Env) (s : Internal) : Option Internal :=
  if s.unsat || env.terminating 0 then some s
  else if s.stats.current_redundant = 0 && s.stats.current_irredundant = 0 then some s
  else
    let s := { s with stats := { s.stats with transreds := s.stats.transreds + 1 } }
    let limit := scaleEffort (s.stats.propagations_search - s.last_transred_propagations)
      s.opts.transredreleff
    let limit := if limit < s.opts.transredmineff then s.opts.transredmineff else limit
    let limit := if limit > s.opts.transredmaxeff then s.opts.transredmaxeff else limit
    let i := transredFirst s.clauses
    let si : Internal × Nat :=
      if i = s.clauses.length then
        ({ s with clauses := s.clauses.map (fun c => { c with transred := false }) }, 0)
      else (s, i)
    let s := si.1.sort_watches
    match transredLoop env limit ((List.range s.clauses.length).drop si.2) s 0 1 with
    | none => none
    | some (s, props) =>
      some { s with
        last_transred_propagations := s.stats.propagations_search,
        stats := { s.stats with
          propagations_transred := s.stats.propagations_transred + props } }

/-- The binary implication graph without the clause c: an edge from a to b is a
non-garbage clause other than c whose literals are -a and b; with irr set only
irredundant clauses give edges. -/
def Edge (s : Internal) (c : Nat) (irr : Bool) (a b : Int) : Prop :=
  ∃ d, d ≠ c ∧ d < s.clauses.length ∧ (s.clauseAt d).garbage = false ∧
    (irr = true → (s.clauseAt d).redundant = false) ∧
    ((s.clauseAt d).literals = [-a, b] ∨ (s.clauseAt d).literals = [b, -a])

/-- The binary implication graph over all non-garbage binary clauses. -/
def EdgeAll (s : Internal) (a b : Int) : Prop :=
  ∃ d, d < s.clauses.length ∧ (s.clauseAt d).garbage = false ∧
    ((s.clauseAt d).literals = [-a, b] ∨ (s.clauseAt d).literals = [b, -a])

/-- Consistency of the watches of binary clauses: a binary watch of a non-garbage
clause in the list of lit points to a clause made of lit and the blocking literal. -/
def BinWatchOK (s : Internal) : Prop :=
  ∀ lit w, w ∈ s.wtab lit → w.binary = true → (s.clauseAt w.clause).garbage = false →
    w.clause < s.clauses.length ∧
    ((s.clauseAt w.clause).literals = [lit, w.blit] ∨
     (s.clauseAt w.clause).literals = [w.blit, lit])

/-- A total assignment of the literals: opposite (nonzero) literals get opposite
values, and 0, which is no literal, counts as false. -/
def Consistent (τ : Int → Bool) : Prop := τ 0 = false ∧ ∀ l, l ≠ 0 → τ (-l) = !τ l

/-- The assignment satisfies every non-garbage clause other than c. -/
def SatisfiesBut (s : Internal) (c : Nat) (τ : Int → Bool) : Prop :=
  ∀ d, d ≠ c → d < s.clauses.length → (s.clauseAt d).garbage = false →
    ∃ l ∈ (s.clauseAt d).literals, τ l = true

end Internal

end CaDiCaL

namespace CaDiCaL

namespace Internal

/-- What the search keeps true: the clauses and watches are those of the base state,
every marked variable is the variable of a literal of the working stack and carries the
sign of that literal, every literal of the working stack is reachable from src, and the
two flags are justified by paths. -/
structure SearchInv (s : Internal) (c : Nat) (irr : Bool) (src dst : Int) (b : Bfs) : Prop where
  frame : b.s = { s with marks := b.s.marks }
  marks_work : ∀ v, b.s.marks v ≠ 0 → ∃ l ∈ b.work, l.natAbs = v ∧ b.s.marks v = Int.sign l
  work_reach : ∀ l ∈ b.work, Relation.ReflTransGen (Edge s c irr) src l
  trans_path : b.transitive = true → Relation.TransGen (Edge s c irr) src dst
  failed_pair : b.failed = true → ∃ l, l ≠ 0 ∧ Relation.ReflTransGen (Edge s c irr) src l ∧
    Relation.ReflTransGen (Edge s c irr) src (-l)

end Internal

end CaDiCaL

namespace CaDiCaL

/-! ### cover.cpp -/

namespace Internal

/-- Internal::cover_push_extension: the prefix of one block is appended to
coveror.extend. The flag found of the source only feeds assertions. -/
def cover_push_extension (lit : Int) (cv : Coveror) : Coveror :=
  { cv with extend := cv.extend ++ [0, lit] ++ cv.clause.filter (fun other => other ≠ lit)
      ++ cv.covered.filter (fun other => other ≠ lit) }

/-- The two writes vals[lit] = -1, vals[-lit] = 1. -/
def assumeFalse (s : Internal) (lit : Int) : Internal :=
  { s with vals := setVal (setVal s.vals lit (-1)) (-lit) 1 }

/-- Internal::asymmetric_literal_addition. -/
def asymmetric_literal_addition (lit : Int) (sc : Internal × Coveror) : Internal × Coveror :=
  (sc.1.assumeFalse lit, { sc.2 with added := sc.2.added ++ [lit] })

/-- One iteration of the loop of covered_literal_addition. -/
def coveredAdd (sc : Internal × Coveror) (other : Int) : Internal × Coveror :=
  (sc.1.assumeFalse other,
   { sc.2 with covered := sc.2.covered ++ [other], added := sc.2.added ++ [other] })

/-- Internal::covered_literal_addition. -/
def covered_literal_addition (lit : Int) (sc : Internal × Coveror) : Internal × Coveror :=
  sc.2.intersection.foldl coveredAdd (sc.1, cover_push_extension lit sc.2)

/-- The loop-carried state of cover_propagate_asymmetric: the solver, the Coveror, the
watches already copied to the front of the watch list (the range from begin to j) and
the flag subsumed. -/
structure AsymState where
  s : Internal
  cv : Coveror
  kept : List Watch
  subsumed : Bool

/-- The loop `while (k != stop && (v = val (r = *k)) < 0) k++` over the literals of a
clause: the first argument is the distance from k to stop, the result is (k, v, r). -/
def scanFalse (vals : Int → Int) (lits : List Int) : Nat → Nat → Int → Int → Nat × Int × Int
  | 0, k, v, r => (k, v, r)
  | n + 1, k, _, _ =>
    if vals (lits.getD k 0) < 0 then
      scanFalse vals lits n (k + 1) (vals (lits.getD k 0)) (lits.getD k 0)
    else (k, vals (lits.getD k 0), lits.getD k 0)

/-- The search for a replacement watch: from pos to the end of the clause and then, if
no literal with a non-negative value was found, from position 2 to pos. The result is
(k, v, r). For 2 ≤ pos ≤ size, which the source asserts, the distances are the numbers
of iterations of its loops. -/
def findReplacement (vals : Int → Int) (lits : List Int) (pos : Nat) : Nat × Int × Int :=
  if (scanFalse vals lits (lits.length - pos) pos (-1) 0).2.1 < 0 then
    scanFalse vals lits (pos - 2) 2
      (scanFalse vals lits (lits.length - pos) pos (-1) 0).2.1
      (scanFalse vals lits (lits.length - pos) pos (-1) 0).2.2
  else scanFalse vals lits (lits.length - pos) pos (-1) 0

/-- Modelled from the spec: Internal::watch_literal (internal.hpp) is not in src. It
appends to the watch list of lit a watch of the clause with blocking literal blit and
the size of the clause. -/
def watch_literal (s : Internal) (lit blit : Int) (c : Nat) : Internal :=
  { s with wtab := fun x =>
      if x = lit then s.wtab lit ++ [⟨c, blit, (s.clauseAt c).size⟩] else s.wtab x }

/-- The literals of a long clause after `lits[0] = other, lits[1] = lit`. -/
def swapWatched (lits : List Int) (other lit : Int) : List Int :=
  (lits.set 0 other).set 1 lit

/-- The other watched literal, lits[0]^lits[1]^lit. -/
def otherWatched (lits : List Int) (lit : Int) : Int :=
  Int.xor (Int.xor (lits.getD 0 0) (lits.getD 1 0)) lit

/-- The branch of cover_propagate_asymmetric for a watch w of a long clause, in the
case that the other watched literal is not true. Here lits are the literals after the
first two have been put in the order other, lit, and (k, v, r) is the result of the
search for a replacement. -/
def asymReplace (lit : Int) (w : Watch) (st : AsymState) (other : Int) (lits : List Int)
    (kvr : Nat × Int × Int) : AsymState :=
  if 0 < kvr.2.1 then
    { st with
      s := st.s.setClause w.clause
        { st.s.clauseAt w.clause with literals := lits, pos := kvr.1 },
      kept := st.kept ++ [{ w with blit := kvr.2.2 }] }
  else if kvr.2.1 = 0 then
    { st with
      s := (st.s.setClause w.clause
        { st.s.clauseAt w.clause with
          literals := (lits.set 1 kvr.2.2).set kvr.1 lit, pos := kvr.1 }).watch_literal
            kvr.2.2 lit w.clause }
  else if st.s.val other = 0 then
    { st with
      s := (asymmetric_literal_addition (-other)
        (st.s.setClause w.clause
          { st.s.clauseAt w.clause with literals := lits, pos := kvr.1 }, st.cv)).1,
      cv := (asymmetric_literal_addition (-other)
        (st.s.setClause w.clause
          { st.s.clauseAt w.clause with literals := lits, pos := kvr.1 }, st.cv)).2,
      kept := st.kept ++ [w] }
  else
    { st with
      s := st.s.setClause w.clause
        { st.s.clauseAt w.clause with literals := lits, pos := kvr.1 },
      kept := st.kept ++ [w],
      subsumed := true }

/-- The branch of cover_propagate_asymmetric for a watch w of a long clause. -/
def asymLong (lit : Int) (w : Watch) (st : AsymState) : AsymState :=
  if 0 < st.s.val (otherWatched (st.s.clauseAt w.clause).literals lit) then
    { st with
      s := st.s.setClause w.clause
        { st.s.clauseAt w.clause with
          literals := swapWatched (st.s.clauseAt w.clause).literals
            (otherWatched (st.s.clauseAt w.clause).literals lit) lit },
      kept := st.kept ++
        [{ w with blit := otherWatched (st.s.clauseAt w.clause).literals lit }] }
  else
    asymReplace lit w st (otherWatched (st.s.clauseAt w.clause).literals lit)
      (swapWatched (st.s.clauseAt w.clause).literals
        (otherWatched (st.s.clauseAt w.clause).literals lit) lit)
      (findReplacement st.s.vals
        (swapWatched (st.s.clauseAt w.clause).literals
          (otherWatched (st.s.clauseAt w.clause).literals lit) lit)
        (st.s.clauseAt w.clause).pos)

/-- The branch of cover_propagate_asymmetric for a watch w of a binary clause. -/
def asymBinary (w : Watch) (st : AsymState) : AsymState :=
  if st.s.val w.blit < 0 then { st with kept := st.kept ++ [w], subsumed := true }
  else
    { st with
      s := (asymmetric_literal_addition (-w.blit) (st.s, st.cv)).1,
      cv := (asymmetric_literal_addition (-w.blit) (st.s, st.cv)).2,
      kept := st.kept ++ [w] }

/-- One iteration of the loop of cover_propagate_asymmetric for the watch w, which
`*j++ = *i++` has copied: the copy is kept, kept with another blocking literal
(`j[-1].blit = ...`) or dropped again (`j--`). -/
def asymWatch (lit : Int) (ignore : Nat) (w : Watch) (st : AsymState) : AsymState :=
  if w.clause = ignore then { st with kept := st.kept ++ [w] }
  else if 0 < st.s.val w.blit then { st with kept := st.kept ++ [w] }
  else if (st.s.clauseAt w.clause).garbage then st
  else if w.binary then asymBinary w st
  else asymLong lit w st

/-- The loop of cover_propagate_asymmetric over the watches from i to the end; the
result is the final state and the watches not visited. -/
def asymLoop (lit : Int) (ignore : Nat) : List Watch → AsymState → AsymState × List Watch
  | [], st => (st, [])
  | w :: ws, st =>
    if st.subsumed then (st, w :: ws) else asymLoop lit ignore ws (asymWatch lit ignore w st)

/-- The increment stats.propagations.cover++. -/
def countCoverPropagation (s : Internal) : Internal :=
  { s with stats := { s.stats with
      propagations_cover := s.stats.propagations_cover + 1 } }

/-- The end of cover_propagate_asymmetric: the watches not visited are moved down
behind the watches kept and the list is cut there. -/
def asymFinish (lit : Int) (r : AsymState × List Watch) : Bool × Internal × Coveror :=
  (r.1.subsumed,
   { r.1.s with wtab := fun x => if x = lit then r.1.kept ++ r.2 else r.1.s.wtab x },
   r.1.cv)

/-- Internal::cover_propagate_asymmetric. The watch list of lit is rebuilt from the
watches kept and the watches not visited; watch_literal never appends to the list of
lit itself as long as val (lit) < 0, since it only watches unassigned literals. -/
def cover_propagate_asymmetric (lit : Int) (ignore : Nat) (sc : Internal × Coveror) :
    Bool × Internal × Coveror :=
  asymFinish lit
    (asymLoop lit ignore (sc.1.watches lit) ⟨countCoverPropagation sc.1, sc.2, [], false⟩)

/-- The inner loop of cover_propagate_covered over the literals of one clause of
occs (-lit): the result is the flag blocked and the new state. -/
def coveredScan (lit : Int) (first : Bool) :
    List Int → Internal × Coveror → Bool × Internal × Coveror
  | [], sc => (false, sc)
  | other :: rest, sc =>
    if other = -lit then coveredScan lit first rest sc
    else if sc.1.val other < 0 then coveredScan lit first rest sc
    else if 0 < sc.1.val other then (true, sc)
    else if first then
      coveredScan lit first rest
        (sc.1.mark other, { sc.2 with intersection := sc.2.intersection ++ [other] })
    else if 0 < sc.1.marked other then coveredScan lit first rest (sc.1.unmark other, sc.2)
    else coveredScan lit first rest sc

/-- The loop of cover_propagate_covered that shrinks the intersection: a literal that
is still marked was not seen in the clause and is dropped and unmarked, an unmarked one
is kept and marked again. -/
def coveredFilter : List Int → Internal → Internal × List Int
  | [], s => (s, [])
  | other :: rest, s =>
    if s.marked other ≠ 0 then coveredFilter rest (s.unmark other)
    else ((coveredFilter rest (s.mark other)).1, other :: (coveredFilter rest (s.mark other)).2)

/-- The state after the filter loop. -/
def coveredShrink (sc : Internal × Coveror) : Internal × Coveror :=
  ((coveredFilter sc.2.intersection sc.1).1,
   { sc.2 with intersection := (coveredFilter sc.2.intersection sc.1).2 })

/-- The state after a blocked clause: the intersection is unmarked and cleared. -/
def coveredReset (sc : Internal × Coveror) : Internal × Coveror :=
  (sc.1.unmarkAll sc.2.intersection, { sc.2 with intersection := [] })

/-- The loop of cover_propagate_covered over occs (-lit): before are the clauses
already visited, the second list the clauses still to visit. The result is the flag
first, the state and the occurrence list, which changes only when the intersection
becomes empty and the current clause is moved to the front. -/
def coveredLoop (lit : Int) : List Nat → List Nat → Bool → Internal × Coveror →
    Bool × (Internal × Coveror) × List Nat
  | before, [], first, sc => (first, sc, before)
  | before, c :: rest, first, sc =>
    if (sc.1.clauseAt c).garbage then coveredLoop lit (before ++ [c]) rest first sc
    else if (coveredScan lit first (sc.1.clauseAt c).literals sc).1 then
      coveredLoop lit (before ++ [c]) rest first
        (coveredReset (coveredScan lit first (sc.1.clauseAt c).literals sc).2)
    else if first then
      if (coveredScan lit first (sc.1.clauseAt c).literals sc).2.2.intersection.isEmpty then
        (false, (coveredScan lit first (sc.1.clauseAt c).literals sc).2, c :: before ++ rest)
      else coveredLoop lit (before ++ [c]) rest false
        (coveredScan lit first (sc.1.clauseAt c).literals sc).2
    else
      if (coveredShrink (coveredScan lit first (sc.1.clauseAt c).literals sc).2
          ).2.intersection.isEmpty then
        (false, coveredShrink (coveredScan lit first (sc.1.clauseAt c).literals sc).2,
          c :: before ++ rest)
      else coveredLoop lit (before ++ [c]) rest false
        (coveredShrink (coveredScan lit first (sc.1.clauseAt c).literals sc).2)

/-- The end of cover_propagate_covered, after the loop. -/
def coveredFinish (lit : Int) (first : Bool) (sc : Internal × Coveror) :
    Bool × Internal × Coveror :=
  if first then
    (true, coveredReset (sc.1, cover_push_extension lit sc.2))
  else if sc.2.intersection.isEmpty then (false, coveredReset sc)
  else (false, coveredReset (coveredReset (covered_literal_addition lit sc)))

/-- The end of cover_propagate_covered for the result of the loop: the occurrence
list of -lit is the one left by the loop. -/
def coveredAfterLoop (lit : Int) (r : Bool × (Internal × Coveror) × List Nat) :
    Bool × Internal × Coveror :=
  coveredFinish lit r.1
    ({ r.2.1.1 with otab := fun x => if x = -lit then r.2.2 else r.2.1.1.otab x }, r.2.1.2)

/-- Internal::cover_propagate_covered. -/
def cover_propagate_covered (lit : Int) (sc : Internal × Coveror) : Bool × Internal × Coveror :=
  if sc.1.frozen lit then (false, sc)
  else
    coveredAfterLoop lit
      (coveredLoop lit [] (sc.1.occs (-lit)) true (countCoverPropagation sc.1, sc.2))

end Internal

end CaDiCaL

namespace CaDiCaL

namespace Internal

/-- The loop of cover_clause that assumes the unassigned literals of the candidate. -/
def coverAssume : List Int → Internal × Coveror → Internal × Coveror
  | [], sc => sc
  | lit :: rest, sc =>
    if sc.1.val lit = 0 then
      coverAssume rest
        ((asymmetric_literal_addition lit sc).1,
         { (asymmetric_literal_addition lit sc).2 with
            clause := (asymmetric_literal_addition lit sc).2.clause ++ [lit] })
    else coverAssume rest sc

/-- The fixed-point loop of cover_clause for the candidate c. The inner loop over the
asymmetric cursor is merged into the outer one: each iteration propagates the next
literal asymmetrically if there is one, else the next one by covered propagation,
else the loop ends. The first argument bounds the number of propagations; the result
is none when it is used up. -/
def coverLoop (c : Nat) : Nat → Internal × Coveror → Option (Bool × Internal × Coveror)
  | fuel, sc =>
    if sc.2.next_asymmetric < sc.2.added.length then
      match fuel with
      | 0 => none
      | fuel + 1 =>
        if (cover_propagate_asymmetric (sc.2.added.getD sc.2.next_asymmetric 0) c
            (sc.1, { sc.2 with next_asymmetric := sc.2.next_asymmetric + 1 })).1 then
          some (true, (cover_propagate_asymmetric (sc.2.added.getD sc.2.next_asymmetric 0) c
            (sc.1, { sc.2 with next_asymmetric := sc.2.next_asymmetric + 1 })).2)
        else coverLoop c fuel
          (cover_propagate_asymmetric (sc.2.added.getD sc.2.next_asymmetric 0) c
            (sc.1, { sc.2 with next_asymmetric := sc.2.next_asymmetric + 1 })).2
    else if sc.2.next_covered < sc.2.added.length then
      match fuel with
      | 0 => none
      | fuel + 1 =>
        if (cover_propagate_covered (sc.2.added.getD sc.2.next_covered 0)
            (sc.1, { sc.2 with next_covered := sc.2.next_covered + 1 })).1 then
          some (true, (cover_propagate_covered (sc.2.added.getD sc.2.next_covered 0)
            (sc.1, { sc.2 with next_covered := sc.2.next_covered + 1 })).2)
        else coverLoop c fuel
          (cover_propagate_covered (sc.2.added.getD sc.2.next_covered 0)
            (sc.1, { sc.2 with next_covered := sc.2.next_covered + 1 })).2
    else some (false, sc)

/-- The replay of coveror.extend on the extension stack in cover_clause; prev is the
entry read before. -/
def coverReplay : List Int → Int → Internal → Internal
  | [], _, s => s
  | other :: rest, prev, s =>
    coverReplay rest other
      (if other ≠ 0 then
        (if prev = 0 then
          ((s.push_zero_on_extension_stack).push_witness_literal_on_extension_stack other
            ).push_zero_on_extension_stack
         else s).push_clause_literal_on_extension_stack other
       else
        (if prev = 0 then
          ((s.push_zero_on_extension_stack).push_witness_literal_on_extension_stack other
            ).push_zero_on_extension_stack
         else s))

/-- The statistics of an eliminated candidate: asymmetric when no covered literal
was added, blocked otherwise. -/
def coverCount (s : Internal) (cv : Coveror) : Internal :=
  if cv.covered.isEmpty then
    { s with stats := { s.stats with
        cover_asymmetric := s.stats.cover_asymmetric + 1,
        cover_total := s.stats.cover_total + 1 } }
  else
    { s with stats := { s.stats with
        cover_blocked := s.stats.cover_blocked + 1,
        cover_total := s.stats.cover_total + 1 } }

/-- The restore loop of cover_clause: vals[lit] = vals[-lit] = 0 for the literals
added. -/
def coverUnassign (s : Internal) (added : List Int) : Internal :=
  added.foldl (fun s lit => { s with vals := setVal (setVal s.vals (-lit) 0) lit 0 }) s

/-- The end of cover_clause after the fixed-point loop: an eliminated candidate is
counted, marked garbage and its extension replayed; then the assignment is restored,
the level reset and the vectors of the Coveror are cleared. -/
def coverFinish (c : Nat) (r : Bool × Internal × Coveror) : Bool × Internal × Coveror :=
  (r.1,
   { (coverUnassign
        (if r.1 then coverReplay r.2.2.extend (-2147483648)
            ((coverCount r.2.1 r.2.2).mark_garbage c)
         else r.2.1) r.2.2.added) with level := 0 },
   { r.2.2 with covered := [], extend := [], clause := [], added := [] })

/-- The bound on the number of propagations given to the loop of cover_clause: twice
the number of literal occurrences in the clause list. -/
def coverFuel (s : Internal) : Nat :=
  2 * (s.clauses.map (fun cl => cl.literals.length)).sum

/-- Internal::cover_clause. -/
def cover_clause (c : Nat) (sc : Internal × Coveror) : Option (Bool × Internal × Coveror) :=
  if (sc.1.clauseAt c).literals.any (fun lit => decide (0 < sc.1.val lit)) then
    some (false, sc.1.mark_garbage c, sc.2)
  else
    match coverLoop c (coverFuel sc.1)
        ((coverAssume (sc.1.clauseAt c).literals ({ sc.1 with level := 1 }, sc.2)).1,
         { (coverAssume (sc.1.clauseAt c).literals ({ sc.1 with level := 1 }, sc.2)).2 with
            next_asymmetric := 0, next_covered := 0 }) with
    | none => none
    | some r => some (coverFinish c r)

end Internal

end CaDiCaL

namespace CaDiCaL

namespace Internal

/-- Modelled from the spec: Internal::init_watches and Internal::reset_watches are not
in src. Both leave every watch list empty. -/
def reset_watches (s : Internal) : Internal := { s with wtab := fun _ => [] }

/-- Modelled from the spec: Internal::init_occs and Internal::reset_occs are not in
src. Both leave every occurrence list empty. -/
def reset_occs (s : Internal) : Internal := { s with otab := fun _ => [] }

/-- Modelled from the spec: Internal::watch_clause (internal.hpp) is not in src. The
clause is watched by its first two literals, each with the other one as blocking
literal. -/
def watch_clause (s : Internal) (c : Nat) : Internal :=
  (s.watch_literal ((s.clauseAt c).literals.getD 0 0) ((s.clauseAt c).literals.getD 1 0) c
    ).watch_literal ((s.clauseAt c).literals.getD 1 0) ((s.clauseAt c).literals.getD 0 0) c

/-- Modelled from the spec: Internal::connect_watches (watch.cpp) is not in src. Every
non-garbage clause, only the irredundant ones on request, is watched by its first two
literals, the binary clauses first. -/
def connect_watches (s : Internal) (irredundant_only : Bool) : Internal :=
  ((List.range s.clauses.length).filter (fun c =>
      !(irredundant_only && (s.clauseAt c).redundant) && !(s.clauseAt c).garbage &&
      decide ((s.clauseAt c).size ≠ 2))).foldl watch_clause
    (((List.range s.clauses.length).filter (fun c =>
      !(irredundant_only && (s.clauseAt c).redundant) && !(s.clauseAt c).garbage &&
      decide ((s.clauseAt c).size = 2))).foldl watch_clause s)

/-- The comparison clause_covered_or_smaller on clause pointers. -/
def clause_covered_or_smaller (s : Internal) (a b : Nat) : Bool :=
  if (s.clauseAt a).covered && !(s.clauseAt b).covered then true
  else if !(s.clauseAt a).covered && (s.clauseAt b).covered then false
  else decide ((s.clauseAt a).size < (s.clauseAt b).size)

/-- Modelled from the spec: clause_smaller_size (clause.hpp) is not in src; it compares
the sizes of two clauses. -/
def clause_smaller_size (s : Internal) (a b : Nat) : Bool :=
  decide ((s.clauseAt a).size < (s.clauseAt b).size)

/-- Insertion of x into a sorted list before the first element that is not less
than x. -/
def stableInsert {α : Type} (lt : α → α → Bool) (x : α) : List α → List α
  | [] => [x]
  | y :: ys => if lt y x then y :: stableInsert lt x ys else x :: y :: ys

/-- The result of std::stable_sort: the list sorted by lt, equivalent elements in
their original order. -/
def stableSort {α : Type} (lt : α → α → Bool) (xs : List α) : List α :=
  xs.foldr (stableInsert lt) []

/-- The first loop of cover over the clauses (first find all not yet tried
clauses): satisfied clauses become garbage, clauses of frozen literals only get the flag
frozen, the others are entered in the occurrence lists and, if not tried yet,
scheduled. The state carries the schedule. -/
def coverCollect (c : Nat) (ss : Internal × List Nat) : Internal × List Nat :=
  if (ss.1.clauseAt c).garbage then ss
  else if (ss.1.clauseAt c).redundant then ss
  else if (ss.1.clauseAt c).literals.any (fun lit => decide (0 < ss.1.val lit)) then
    (ss.1.mark_garbage c, ss.2)
  else if (ss.1.clauseAt c).literals.all (fun lit => ss.1.frozen lit) then
    (ss.1.setClause c { ss.1.clauseAt c with frozen := true }, ss.2)
  else if (ss.1.clauseAt c).covered then
    ({ ss.1 with otab := fun x =>
        ss.1.otab x ++ ((ss.1.clauseAt c).literals.filter (fun lit => lit = x)).map (fun _ => c) },
     ss.2)
  else
    ({ ss.1 with otab := fun x =>
        ss.1.otab x ++ ((ss.1.clauseAt c).literals.filter (fun lit => lit = x)).map (fun _ => c) },
     ss.2 ++ [c])

/-- The second loop of cover over the clauses when no untried clause was found: all
flags covered are reset and all clauses that are not frozen are scheduled. -/
def coverReschedule (c : Nat) (ss : Internal × List Nat) : Internal × List Nat :=
  if (ss.1.clauseAt c).garbage then ss
  else if (ss.1.clauseAt c).redundant then ss
  else if (ss.1.clauseAt c).frozen then
    (ss.1.setClause c { ss.1.clauseAt c with frozen := false }, ss.2)
  else (ss.1.setClause c { ss.1.clauseAt c with covered := false }, ss.2 ++ [c])

/-- The second loop of cover over the clauses when untried clauses were found: the
clauses tried before are scheduled as well. -/
def coverAddTried (c : Nat) (ss : Internal × List Nat) : Internal × List Nat :=
  if (ss.1.clauseAt c).garbage then ss
  else if (ss.1.clauseAt c).redundant then ss
  else if (ss.1.clauseAt c).frozen then
    (ss.1.setClause c { ss.1.clauseAt c with frozen := false }, ss.2)
  else if !(ss.1.clauseAt c).covered then ss
  else (ss.1, ss.2 ++ [c])

/-- The second loop of cover over the clauses, chosen by whether the first loop
scheduled anything. -/
def coverSecond (ss : Internal × List Nat) : Internal × List Nat :=
  if ss.2.isEmpty then
    (List.range ss.1.clauses.length).foldl (fun ss c => coverReschedule c ss) ss
  else (List.range ss.1.clauses.length).foldl (fun ss c => coverAddTried c ss) ss

/-- The stable sort of the schedule by clause_covered_or_smaller. -/
def coverSorted (ss : Internal × List Nat) : Internal × List Nat :=
  (ss.1, stableSort (clause_covered_or_smaller ss.1) ss.2)

/-- The scheduling part of cover: the two loops over the clauses and the stable sort
of the schedule. -/
def coverSchedule (s : Internal) : Internal × List Nat :=
  coverSorted (coverSecond
    ((List.range s.clauses.length).foldl (fun ss c => coverCollect c ss) (s, [])))

/-- The loop of cover that sorts the occurrence lists of the active variables by
clause size. -/
def coverSortOccs (s : Internal) : Internal :=
  { s with otab := fun x =>
      if 1 ≤ x.natAbs ∧ (x.natAbs : Int) ≤ s.max_var ∧ s.activetab x.natAbs = true then
        stableSort (clause_smaller_size s) (s.otab x)
      else s.otab x }

/-- The clamp of an effort between a minimum and a maximum, as the two if statements
of the source do it. -/
def clampEffort (x lo hi : Int) : Int :=
  if (if x < lo then lo else x) > hi then hi else (if x < lo then lo else x)

/-- The effort limit of cover: the search propagations scaled by 1e-3 * coverreleff in
double arithmetic, clamped between covermineff and covermaxeff, at least twice the number
of active variables, added to the cover propagations made so far. -/
def coverLimit (s : Internal) : Int :=
  s.stats.propagations_cover +
    max (clampEffort (scaleEffort s.stats.propagations_search s.opts.coverreleff)
          s.opts.covermineff s.opts.covermaxeff)
      (2 * s.stats.active)

/-- The main loop of cover: the schedule is given last clause first; covered counts
the eliminated clauses, tcalls the calls of the terminator made so far. -/
def coverMain (env : Env) (limit : Int) : List Nat → Internal × Coveror → Int → Nat →
    Option (Int × Internal × Coveror)
  | [], sc, covered, _ => some (covered, sc)
  | c :: rest, sc, covered, tcalls =>
    if env.terminating tcalls then some (covered, sc)
    else if ¬ sc.1.stats.propagations_cover < limit then some (covered, sc)
    else
      match cover_clause c (sc.1.setClause c { sc.1.clauseAt c with covered := true }, sc.2) with
      | none => none
      | some r =>
        coverMain env limit rest r.2 (if r.1 then covered + 1 else covered) (tcalls + 1)

/-- The part of cover that propagates pending units over all clauses first; the
result is the flag of Internal::propagate and the state with the watches reset. -/
def coverUnits (env : Env) (s : Internal) : Internal :=
  if s.propagated < s.trail.length then
    if !(env.propagate ((s.reset_watches).connect_watches false)).1 then
      ((env.propagate ((s.reset_watches).connect_watches false)).2.learn_empty_clause
        ).reset_watches
    else (env.propagate ((s.reset_watches).connect_watches false)).2.reset_watches
  else s

/-- The state of cover when the main loop starts: watches over the irredundant
clauses, fresh occurrence lists filled by the scheduling loop and sorted. -/
def coverPrepare (s : Internal) : Internal × List Nat :=
  (coverSortOccs (coverSchedule ((s.reset_watches).connect_watches true).reset_occs).1,
   (coverSchedule ((s.reset_watches).connect_watches true).reset_occs).2)

/-- The part of cover between the units and the end: watches, limit, scheduling,
sorting, main loop, reset of occurrence lists and watches. The result is the counter
covered and the state. -/
def coverRun (env : Env) (s : Internal) : Option (Int × Internal) :=
  match coverMain env (coverLimit ((s.reset_watches).connect_watches true))
      (coverPrepare s).2.reverse ((coverPrepare s).1, Coveror.init) 0 1 with
  | none => none
  | some r => some (r.1, (r.2.1.reset_occs).reset_watches)

/-- The increment stats.cover.count++. -/
def countCover (s : Internal) : Internal :=
  { s with stats := { s.stats with cover_count := s.stats.cover_count + 1 } }

/-- Internal::cover. The result of type bool is the counter covered converted to
bool. -/
def cover (env : Env) (s : Internal) : Option (Bool × Internal) :=
  if !s.opts.cover then some (false, s)
  else if s.unsat || env.terminating 0 || s.stats.current_irredundant = 0 then some (false, s)
  else if s.opts.restoreflush then some (false, s)
  else if (coverUnits env (countCover s)).unsat then some (false, coverUnits env (countCover s))
  else
    match coverRun env (coverUnits env (countCover s)) with
    | none => none
    | some r => some (decide (r.1 ≠ 0), r.2)

end Internal

end CaDiCaL

namespace CaDiCaL

namespace Internal

/-- The state b differs from a at most in the marks and in the vector
intersection of the Coveror. -/
def MarksOnly (a b : Internal × Coveror) : Prop :=
  b.1 = { a.1 with marks := b.1.marks } ∧ b.2 = { a.2 with intersection := b.2.intersection }

/-- The clause has a literal other than -lit that is true: the resolvent on lit
is tautological. -/
def Blocked (s : Internal) (lit : Int) (c : Nat) : Prop :=
  ∃ other ∈ (s.clauseAt c).literals, other ≠ -lit ∧ 0 < s.val other

end Internal

end CaDiCaL

namespace CaDiCaL

namespace Internal

/-- The literals are nonzero and no two of them have the same variable: the form of
every clause of the solver. -/
def DistinctVars (lits : List Int) : Prop :=
  (lits.map Int.natAbs).Nodup ∧ (0 : Int) ∉ lits

/-- The marks are exactly the signs of the literals of the list. -/
def MarkInv (m : Nat → Int) (I : List Int) : Prop :=
  DistinctVars I ∧ (∀ l ∈ I, m l.natAbs = Int.sign l) ∧
    (∀ v, m v ≠ 0 → ∃ l ∈ I, l.natAbs = v)

/-- A resolution candidate on lit: a clause that is not garbage and not blocked. -/
def Candidate (s : Internal) (lit : Int) (c : Nat) : Prop :=
  (s.clauseAt c).garbage = false ∧ ¬ Blocked s lit c

/-- The invariant of the loop of cover_propagate_covered over occs (-lit): as long as
first holds nothing is marked and no clause visited was a candidate; afterwards the
marks are those of the intersection, whose literals are unassigned, differ from -lit
and occur in every candidate visited. -/
def LoopInv (s0 : Internal) (lit : Int) (before : List Nat) (first : Bool)
    (sc : Internal × Coveror) : Prop :=
  (first = true → (∀ v, sc.1.marks v = 0) ∧ sc.2.intersection = [] ∧
    ∀ c ∈ before, ¬ Candidate s0 lit c) ∧
  (first = false → MarkInv sc.1.marks sc.2.intersection ∧
    ∀ l ∈ sc.2.intersection, s0.val l = 0 ∧ l ≠ -lit ∧
      ∀ c ∈ before, Candidate s0 lit c → l ∈ (s0.clauseAt c).literals)

instance (lits : List Int) : Decidable (DistinctVars lits) := by
  unfold DistinctVars; exact inferInstance

end Internal

end CaDiCaL

namespace CaDiCaL

namespace Internal

/-- The frame of the propagators of cover.cpp: the state b differs from a at most in
the values, the marks, the clauses, the watch and occurrence lists and the counter
stats.propagations.cover. -/
def PropFrame (a b : Internal) : Prop :=
  b = { a with vals := b.vals, marks := b.marks, clauses := b.clauses, wtab := b.wtab,
               otab := b.otab, stats := b.stats } ∧
  b.stats = { a.stats with propagations_cover := b.stats.propagations_cover }

end Internal

end CaDiCaL

namespace CaDiCaL

/-! ### The block structure of the extension stack -/

namespace External

/-- The stack that consists of the blocks 0 W 0 C for the pairs (W, C) given, first
pushed first. -/
def blocksOf : List (List Int × List Int) → List Int
  | [] => []
  | b :: bs => 0 :: b.1 ++ 0 :: b.2 ++ blocksOf bs

/-- All entries of the witness and of the clause of every block are nonzero. -/
def WellFormed (bs : List (List Int × List Int)) : Prop :=
  ∀ b ∈ bs, (∀ w ∈ b.1, w ≠ 0) ∧ (∀ c ∈ b.2, c ≠ 0)

instance (bs : List (List Int × List Int)) : Decidable (WellFormed bs) := by
  unfold WellFormed; exact inferInstance

/-- The calls of the iterator that the description of traverse_witnesses prescribes
for the blocks given last pushed first: a block whose clause has a literal fixed to
true is skipped, for any other block the iterator gets the clause literals not fixed
to false and the witness literals not fixed; the traversal ends with false at the first
call that returns false. -/
def traverseSpec (fixed : Int → Int) (it : List Int → List Int → Bool) :
    List (List Int × List Int) → List (List Int × List Int) →
      Bool × List (List Int × List Int)
  | [], calls => (true, calls)
  | b :: bs, calls =>
    if b.2.any (fun l => decide (0 < fixed l)) then traverseSpec fixed it bs calls
    else if it (b.2.filter (fun l => decide (¬ fixed l < 0)))
        (b.1.filter (fun l => decide (fixed l = 0))) then
      traverseSpec fixed it bs
        (calls ++ [(b.2.filter (fun l => decide (¬ fixed l < 0)),
                    b.1.filter (fun l => decide (fixed l = 0)))])
    else (false, calls ++ [(b.2.filter (fun l => decide (¬ fixed l < 0)),
                            b.1.filter (fun l => decide (fixed l = 0)))])

end External

namespace Internal

/-- The operations that push on the extension stack: the three push functions of
extend.cpp and the replay at the end of cover_clause, which replays the vector
coveror.extend filled by calls of cover_push_extension, each given by its literal and
the vectors clause and covered at the time of the call. -/
inductive StackOp where
  | clause (lits : List Int) (pivot : Int)
  | binary (pivot other : Int)
  | external (c w : List Int)
  | replay (pushes : List (Int × List Int × List Int))

/-- The vector coveror.extend after the calls of cover_push_extension given. -/
def extendOf (pushes : List (Int × List Int × List Int)) : List Int :=
  (pushes.foldl (fun cv p => cover_push_extension p.1 { cv with clause := p.2.1, covered := p.2.2 })
    Coveror.init).extend

/-- The concatenation of the block prefixes 0, lit, followed by the literals of clause
and of covered other than lit. -/
def prefixesOf : List (Int × List Int × List Int) → List Int
  | [] => []
  | p :: ps =>
    0 :: p.1 :: (p.2.1.filter (fun other => other ≠ p.1) ++
      p.2.2.filter (fun other => other ≠ p.1)) ++ prefixesOf ps

/-- The effect of one stack operation. -/
def applyOp (s : Internal) : StackOp → Internal
  | StackOp.clause lits pivot => s.push_clause_on_extension_stack lits pivot
  | StackOp.binary pivot other => s.push_binary_clause_on_extension_stack pivot other
  | StackOp.external c w => s.push_external_clause_and_witness_on_extension_stack c w
  | StackOp.replay pushes => coverReplay (extendOf pushes) (-2147483648) s

/-- The literals given to a stack operation are nonzero. -/
def StackOp.OK : StackOp → Prop
  | StackOp.clause lits pivot => pivot ≠ 0 ∧ ∀ l ∈ lits, l ≠ 0
  | StackOp.binary pivot other => pivot ≠ 0 ∧ other ≠ 0
  | StackOp.external c w => (∀ l ∈ c, l ≠ 0) ∧ (∀ l ∈ w, l ≠ 0)
  | StackOp.replay pushes =>
    ∀ p ∈ pushes, p.1 ≠ 0 ∧ (∀ l ∈ p.2.1, l ≠ 0) ∧ (∀ l ∈ p.2.2, l ≠ 0)

instance (op : StackOp) : Decidable op.OK := by
  cases op <;> unfold StackOp.OK <;> exact inferInstance

/-- The blocks (W, C) that a stack operation is to push. -/
def StackOp.blocks (s : Internal) : StackOp → List (List Int × List Int)
  | StackOp.clause lits pivot => [([s.externalize pivot], lits.map s.externalize)]
  | StackOp.binary pivot other =>
    [([s.externalize pivot], [s.externalize pivot, s.externalize other])]
  | StackOp.external c w => [(w, c)]
  | StackOp.replay pushes =>
    pushes.map (fun p =>
      ([s.externalize p.1],
       s.externalize p.1 ::
        (p.2.1.filter (fun other => other ≠ p.1) ++ p.2.2.filter (fun other => other ≠ p.1)).map
          s.externalize))

/-- The effect of a sequence of stack operations. -/
def applyOps (s : Internal) (ops : List StackOp) : Internal := ops.foldl applyOp s

/-- All the blocks that a sequence of stack operations is to push. -/
def blocksOfOps (s : Internal) : List StackOp → List (List Int × List Int)
  | [] => []
  | op :: ops => op.blocks s ++ blocksOfOps s ops

end Internal

end CaDiCaL

namespace CaDiCaL

namespace Internal

/-- The invariant I3 of the values: the two literals of a variable have opposite
values. -/
def Sym (vals : Int → Int) : Prop := ∀ l, l ≠ 0 → vals (-l) = - vals l

/-- The values during cover_clause in terms of the values init on entry: they are
symmetric, differ from init only on the variables of the literals added, and these
were unassigned on entry. -/
def VInv (init vals : Int → Int) (added : List Int) : Prop :=
  Sym vals ∧ (∀ x, vals x ≠ init x → x ∈ added ∨ -x ∈ added) ∧
    (∀ l ∈ added, init l = 0 ∧ init (-l) = 0)

end Internal

end CaDiCaL

namespace CaDiCaL

namespace Internal

/-- The watch w in the list of the literal x is in order: if its clause is not
garbage, the watch has the size of the clause, the clause has at least two literals, x
is one of the first two, and for a binary clause the blocking literal is the other
one. -/
def WOK (s : Internal) (x : Int) (w : Watch) : Prop :=
  (s.clauseAt w.clause).garbage = false →
    w.size = (s.clauseAt w.clause).size ∧ 2 ≤ (s.clauseAt w.clause).size ∧
    (((s.clauseAt w.clause).literals.getD 0 0 = x ∧
        (w.size = 2 → (s.clauseAt w.clause).literals.getD 1 0 = w.blit)) ∨
     ((s.clauseAt w.clause).literals.getD 1 0 = x ∧
        (w.size = 2 → (s.clauseAt w.clause).literals.getD 0 0 = w.blit)))

/-- The watch invariant for the watch table wt: no list watches a clause twice and
every watch is in order. -/
def WInv (s : Internal) (wt : Int → List Watch) : Prop :=
  ∀ x, ((wt x).map Watch.clause).Nodup ∧ ∀ w ∈ wt x, WOK s x w

/-- The clause invariant: the literals of every clause are nonzero with distinct
variables, and the cursor pos of a clause with more than two literals lies between 2
and its size. -/
def ClInv (s : Internal) : Prop :=
  ∀ D, DistinctVars (s.clauseAt D).literals ∧
    (3 ≤ (s.clauseAt D).size →
      2 ≤ (s.clauseAt D).pos ∧ (s.clauseAt D).pos ≤ (s.clauseAt D).size)

/-- The clause b is the clause a up to the order of the literals and the cursor
pos. -/
def ClauseSim (a b : Clause) : Prop :=
  b = { a with literals := b.literals, pos := b.pos } ∧ b.literals.Perm a.literals

/-- The clauses of t are those of s up to the order of their literals and the
cursors. -/
def SameClauses (s t : Internal) : Prop := ∀ D, ClauseSim (s.clauseAt D) (t.clauseAt D)

/-- The watch table during the loop of cover_propagate_asymmetric on lit: the list of
lit consists of the watches kept and the watches still to visit. -/
def asymWatches (lit : Int) (st : AsymState) (rest : List Watch) : Int → List Watch :=
  fun x => if x = lit then st.kept ++ rest else st.s.wtab x

/-- The frame of cover_propagate_asymmetric: only the values, the clauses, the watch
lists and the statistics change. -/
def AsymFrame (a b : Internal) : Prop :=
  b = { a with vals := b.vals, clauses := b.clauses, wtab := b.wtab, stats := b.stats }

end Internal

end CaDiCaL

namespace CaDiCaL

namespace Internal

/-- The watched clauses are irredundant, as after connect_watches (true). -/
def WIrr (s : Internal) (wt : Int → List Watch) : Prop :=
  ∀ x, ∀ w ∈ wt x, (s.clauseAt w.clause).redundant = false

/-- Every clause with the property P that is not garbage and has at least two
literals is watched in the lists of its first two literals. -/
def WCompleteOn (P : Nat → Prop) (s : Internal) (wt : Int → List Watch) : Prop :=
  ∀ D, P D → (s.clauseAt D).garbage = false → 2 ≤ (s.clauseAt D).size →
    (∃ w ∈ wt ((s.clauseAt D).literals.getD 0 0), w.clause = D) ∧
    (∃ w ∈ wt ((s.clauseAt D).literals.getD 1 0), w.clause = D)

/-- Every clause that is not garbage and has at least two literals is watched in the
lists of its first two literals. -/
@[reducible] def WComplete (s : Internal) (wt : Int → List Watch) : Prop :=
  WCompleteOn (fun _ => True) s wt

end Internal

end CaDiCaL

namespace CaDiCaL

namespace Internal

/-- The state in which the fixed-point loop of cover_clause for the candidate c
starts: level 1, the unassigned literals of c assumed false, both cursors zero. -/
def loopStart (c : Nat) (sc : Internal × Coveror) : Internal × Coveror :=
  ((coverAssume (sc.1.clauseAt c).literals ({ sc.1 with level := 1 }, sc.2)).1,
   { (coverAssume (sc.1.clauseAt c).literals ({ sc.1 with level := 1 }, sc.2)).2 with
      next_asymmetric := 0, next_covered := 0 })

/-- The states between the calls of the two propagators in the fixed-point loop of
cover_clause for the candidate c that starts in the first state: the start, and the
state after each asymmetric or covered propagation made by the loop. -/
inductive LoopPoint (c : Nat) (sc0 : Internal × Coveror) : Internal × Coveror → Prop where
  | start : LoopPoint c sc0 sc0
  | asym (sc : Internal × Coveror) : LoopPoint c sc0 sc →
      sc.2.next_asymmetric < sc.2.added.length →
      LoopPoint c sc0
        (cover_propagate_asymmetric (sc.2.added.getD sc.2.next_asymmetric 0) c
          (sc.1, { sc.2 with next_asymmetric := sc.2.next_asymmetric + 1 })).2
  | covered (sc : Internal × Coveror) : LoopPoint c sc0 sc →
      ¬ sc.2.next_asymmetric < sc.2.added.length →
      sc.2.next_covered < sc.2.added.length →
      LoopPoint c sc0
        (cover_propagate_covered (sc.2.added.getD sc.2.next_covered 0)
          (sc.1, { sc.2 with next_covered := sc.2.next_covered + 1 })).2

end Internal

end CaDiCaL

namespace CaDiCaL

namespace Internal

/-- The invariant I1 of the watches together with the invariants of the clause data
it relies on: every watch list watches a clause at most once, every watch of a clause
that is not garbage sits in the list of one of the first two literals of the clause and
has its size, every such clause with at least two literals is watched in the lists of
its first two literals, and the literals of a clause have distinct variables, the
cursor pos of a long clause lying between 2 and the size. -/
def WatchInv (s : Internal) : Prop := WInv s s.wtab ∧ WComplete s s.wtab ∧ ClInv s

/-- The invariant of the loop of cover_propagate_asymmetric on lit, with the watches
rest still to visit: the watch invariant for the table made of the watches kept and the
watches to visit, complete for the clauses with the property P, the clauses being those
of s0 up to the order of their literals, and lit false. -/
def AsymInv (P : Nat → Prop) (lit : Int) (s0 : Internal) (st : AsymState)
    (rest : List Watch) : Prop :=
  WInv st.s (asymWatches lit st rest) ∧ WCompleteOn P st.s (asymWatches lit st rest) ∧
    ClInv st.s ∧ SameClauses s0 st.s ∧ st.s.vals lit < 0

end Internal

end CaDiCaL

namespace CaDiCaL

namespace Internal

instance (s : Internal) (x : Int) (w : Watch) : Decidable (WOK s x w) := by
  unfold WOK; exact inferInstance

/-- The invariant WatchInv for a watch table given by finitely many entries, as a
check of the entries and of the clauses of the clause list. -/
def WatchCheck (s : Internal) (tbl : List (Int × List Watch)) : Prop :=
  (∀ e ∈ tbl, (e.2.map Watch.clause).Nodup ∧ ∀ w ∈ e.2, WOK s e.1 w) ∧
  (∀ D < s.clauses.length, (s.clauseAt D).garbage = false → 2 ≤ (s.clauseAt D).size →
    (∃ w ∈ ((tbl.lookup ((s.clauseAt D).literals.getD 0 0)).getD []), w.clause = D) ∧
    (∃ w ∈ ((tbl.lookup ((s.clauseAt D).literals.getD 1 0)).getD []), w.clause = D)) ∧
  (∀ D < s.clauses.length, DistinctVars (s.clauseAt D).literals ∧
    (3 ≤ (s.clauseAt D).size →
      2 ≤ (s.clauseAt D).pos ∧ (s.clauseAt D).pos ≤ (s.clauseAt D).size))

instance (s : Internal) (tbl : List (Int × List Watch)) : Decidable (WatchCheck s tbl) := by
  unfold WatchCheck; exact inferInstance

end Internal

end CaDiCaL

namespace CaDiCaL

namespace Internal

/-- The clause has a literal that is true in the current assignment. -/
def Satisfied (s : Internal) (D : Nat) : Bool :=
  (s.clauseAt D).literals.any (fun lit => decide (0 < s.val lit))

/-- All literals of the clause are frozen. -/
def AllFrozen (s : Internal) (D : Nat) : Bool :=
  (s.clauseAt D).literals.all (fun lit => s.frozen lit)

/-- The clauses that cover enters in the occurrence lists and schedules: the clauses
of the clause list that are not garbage, irredundant, not satisfied and not made of
frozen literals only. -/
def Eligible (s : Internal) (D : Nat) : Bool :=
  decide (D < s.clauses.length) && !(s.clauseAt D).garbage && !(s.clauseAt D).redundant &&
    !Satisfied s D && !AllFrozen s D

/-- The record of a clause after the first loop of cover over the clauses. -/
def afterCollect (s : Internal) (D : Nat) : Clause :=
  if (s.clauseAt D).garbage then s.clauseAt D
  else if (s.clauseAt D).redundant then s.clauseAt D
  else if Satisfied s D then { s.clauseAt D with garbage := true }
  else if AllFrozen s D then { s.clauseAt D with frozen := true }
  else s.clauseAt D

/-- The record of a clause after the second loop of cover over the clauses; the flag
covered is reset only when no untried clause was found. -/
def afterSecond (reset : Bool) (s : Internal) (D : Nat) : Clause :=
  if (s.clauseAt D).garbage then s.clauseAt D
  else if (s.clauseAt D).redundant then s.clauseAt D
  else if (s.clauseAt D).frozen then { s.clauseAt D with frozen := false }
  else if reset then { s.clauseAt D with covered := false }
  else s.clauseAt D

/-- Two states with the same values, freeze counters and number of clauses. -/
def SameBase (s t : Internal) : Prop :=
  t.vals = s.vals ∧ t.frozentab = s.frozentab ∧ t.clauses.length = s.clauses.length

end Internal

end CaDiCaL

namespace CaDiCaL

namespace Internal

/-- The frame of the scheduling loops of cover: only clause records and occurrence
lists change. -/
def SchedFrame (a b : Internal) : Prop :=
  b = { a with clauses := b.clauses, otab := b.otab }

/-- Some clause to schedule has not been tried yet. -/
def HasUntried (s : Internal) : Prop :=
  ∃ D, Eligible s D = true ∧ (s.clauseAt D).covered = false

/-- The record of a clause when the schedule of cover is complete: a satisfied clause
is garbage, and the flag covered of a scheduled clause is reset if no clause is
untried. -/
def scheduledClause (reset : Bool) (s : Internal) (D : Nat) : Clause :=
  if Eligible s D then
    (if reset then { s.clauseAt D with covered := false } else s.clauseAt D)
  else if decide (D < s.clauses.length) && !(s.clauseAt D).garbage &&
      !(s.clauseAt D).redundant && Satisfied s D then
    { s.clauseAt D with garbage := true }
  else s.clauseAt D

end Internal

end CaDiCaL

namespace CaDiCaL

namespace Internal

/-- Values only grow: an assigned literal keeps its value. -/
def Grow (v v2 : Int → Int) : Prop := ∀ y, v y ≠ 0 → v2 y = v y

/-- The justification of a literal l added by asymmetric literal addition while the
candidate c is tried: a clause other than c, neither garbage nor redundant, that
contains -l and whose other literals are all false. -/
def ALAJ (s : Internal) (c : Nat) (l : Int) : Prop :=
  ∃ D, D ≠ c ∧ (s.clauseAt D).garbage = false ∧ (s.clauseAt D).redundant = false ∧
    -l ∈ (s.clauseAt D).literals ∧ ∀ y ∈ (s.clauseAt D).literals, y ≠ -l → s.vals y < 0

/-- The invariant of the occurrence lists during cover: a clause in the list of a
literal is irredundant and contains the literal, and an irredundant clause that is not
garbage and has a literal that is not frozen is in the list of each of its literals. -/
def OccInv (s : Internal) : Prop :=
  (∀ l D, D ∈ s.otab l → l ∈ (s.clauseAt D).literals ∧ (s.clauseAt D).redundant = false) ∧
  (∀ l D, (s.clauseAt D).garbage = false → (s.clauseAt D).redundant = false →
    AllFrozen s D = false → l ∈ (s.clauseAt D).literals → D ∈ s.otab l)

/-- The invariant of the states between the calls of the propagators while
cover_clause tries the candidate c. -/
structure PointInv (c : Nat) (x : Internal × Coveror) : Prop where
  winv : WInv x.1 x.1.wtab
  clinv : ClInv x.1
  wirr : WIrr x.1 x.1.wtab
  sym : Sym x.1.vals
  marks : ∀ v, x.1.marks v = 0
  inter : x.2.intersection = []
  added : ∀ l ∈ x.2.added, x.1.vals l < 0
  occ : OccInv x.1
  nodup : (x.2.clause ++ x.2.covered).Nodup
  sub : ∀ l ∈ x.2.clause ++ x.2.covered, l ∈ x.2.added
  just : ∀ l ∈ x.2.added, l ∈ x.2.clause ++ x.2.covered ∨ ALAJ x.1 c l

/-- The invariant of the states of the main loop of cover between two calls of
cover_clause. -/
structure MainInv (x : Internal × Coveror) : Prop where
  winv : WInv x.1 x.1.wtab
  clinv : ClInv x.1
  wirr : WIrr x.1 x.1.wtab
  sym : Sym x.1.vals
  marks : ∀ v, x.1.marks v = 0
  occ : OccInv x.1
  empty : x.2.added = [] ∧ x.2.clause = [] ∧ x.2.covered = [] ∧ x.2.extend = [] ∧
    x.2.intersection = []

/-- The clauses of t are those of s up to the flags covered, frozen, hyper and
transred, and up to clauses of s that are garbage in t. -/
def SameLits (s t : Internal) : Prop :=
  ∀ D, (t.clauseAt D).literals = (s.clauseAt D).literals ∧
    (t.clauseAt D).pos = (s.clauseAt D).pos ∧
    (t.clauseAt D).redundant = (s.clauseAt D).redundant ∧
    ((t.clauseAt D).garbage = false → (s.clauseAt D).garbage = false)

/-- The state b differs from a at most in the values, the level, the statistics and
the external solver. -/
def EndFrame (a b : Internal) : Prop :=
  b = { a with vals := b.vals, level := b.level, stats := b.stats, external := b.external }

/-- The state b differs from a at most in the values, the marks and the statistics. -/
def ValFrame (a b : Internal) : Prop :=
  b = { a with vals := b.vals, marks := b.marks, stats := b.stats }

/-- The state during the loop of cover_propagate_asymmetric on lit as the source sees
it: the watch list of lit consists of the watches kept and the watches to visit. -/
def asymView (lit : Int) (st : AsymState) (rest : List Watch) : Internal × Coveror :=
  ({ st.s with wtab := asymWatches lit st rest }, st.cv)

/-- The state on which cover builds its watches and occurrence lists, as the source
expects it: no clause has the flag frozen, every clause has at least two literals with
distinct variables and its cursor pos in range, the values are symmetric and nothing is
marked. -/
structure CoverStart (s : Internal) : Prop where
  frozen : ∀ D, (s.clauseAt D).frozen = false
  clinv : ClInv s
  size : ∀ D, D < s.clauses.length → 2 ≤ (s.clauseAt D).size
  sym : Sym s.vals
  marks : ∀ v, s.marks v = 0

/-- The states of the main loop of cover, started on the state prepared from s, between
two calls of cover_clause: the state in which the loop starts, and the state after each
call of cover_clause on a clause whose flag covered has been set. -/
inductive MainPoint (s : Internal) : Internal × Coveror → Prop where
  | start : MainPoint s ((coverPrepare s).1, Coveror.init)
  | step (sc : Internal × Coveror) (c : Nat) (r : Bool × Internal × Coveror) :
      MainPoint s sc →
      cover_clause c (sc.1.setClause c { sc.1.clauseAt c with covered := true }, sc.2) =
        some r →
      MainPoint s r.2

/-- The states of a run of cover between the construction of the occurrence lists and
their reset: the states of the main loop between two calls of cover_clause and, inside a
call of cover_clause on a candidate that is not satisfied, the states between the calls
of the propagators. -/
def CoverPoint (s : Internal) (x : Internal × Coveror) : Prop :=
  MainPoint s x ∨
  ∃ sc c, MainPoint s sc ∧
    (sc.1.clauseAt c).literals.any (fun lit => decide (0 < sc.1.val lit)) = false ∧
    LoopPoint c (loopStart c (sc.1.setClause c { sc.1.clauseAt c with covered := true }, sc.2)) x

/-- The call cover_propagate_covered (lit, coveror) calls cover_push_extension: lit is
not frozen and, after the loop over the occurrence list of -lit, either all clauses were
blocked or the intersection is not empty. -/
def coveredPushes (lit : Int) (sc : Internal × Coveror) : Bool :=
  !sc.1.frozen lit &&
    ((coveredLoop lit [] (sc.1.occs (-lit)) true (countCoverPropagation sc.1, sc.2)).1 ||
      !(coveredLoop lit [] (sc.1.occs (-lit)) true
        (countCoverPropagation sc.1, sc.2)).2.1.2.intersection.isEmpty)

end Internal

end CaDiCaL

namespace CaDiCaL

namespace Internal

/-- The assignment satisfies every irredundant clause with the property P that is not
garbage, the candidate c apart. -/
def Rem (P : Nat → Prop) (s : Internal) (c : Nat) (τ : Int → Bool) : Prop :=
  ∀ D, D ≠ c → P D → (s.clauseAt D).garbage = false → (s.clauseAt D).redundant = false →
    (s.clauseAt D).literals ≠ [] → ∃ l ∈ (s.clauseAt D).literals, τ l = true

/-- The assignment satisfies every irredundant clause that is not garbage. -/
def AllRem (s : Internal) (τ : Int → Bool) : Prop :=
  ∀ D, (s.clauseAt D).garbage = false → (s.clauseAt D).redundant = false →
    (s.clauseAt D).literals ≠ [] → ∃ l ∈ (s.clauseAt D).literals, τ l = true

/-- The clause of the block that a call of cover_push_extension with the literal p.1
and the vectors clause p.2.1 and covered p.2.2 gives: the literal first. -/
def pushClause (p : Int × List Int × List Int) : List Int :=
  p.1 :: (p.2.1.filter (fun other => other ≠ p.1) ++ p.2.2.filter (fun other => other ≠ p.1))

/-- The reconstruction step of the block of a call of cover_push_extension on an
assignment of the internal literals: if the clause of the block is falsified, the
witness literal is made true. -/
def pushStep (p : Int × List Int × List Int) (τ : Int → Bool) : Int → Bool :=
  if (pushClause p).any τ then τ
  else fun x => if x = p.1 then true else if x = -p.1 then false else τ x

/-- The literals given to the calls of cover_push_extension are nonzero. -/
def PushesOK (ps : List (Int × List Int × List Int)) : Prop :=
  ∀ p ∈ ps, p.1 ≠ 0 ∧ (∀ l ∈ p.2.1, l ≠ 0) ∧ (∀ l ∈ p.2.2, l ≠ 0)

/-- The assignment agrees with the values R: a literal that is false in R is false. -/
def Agree (R : Int → Int) (τ : Int → Bool) : Prop := ∀ y, R y < 0 → τ y = false

/-- The semantic invariant of the points of cover_clause for the candidate c, entered
with the values R, where the other clauses are those with the property P, which all
watched clauses have: an assignment that agrees with R, satisfies the other clauses and
falsifies clause and covered falsifies every literal that is false, and the blocks
pushed so far turn an assignment that agrees with R and satisfies the other clauses and
the covered clause (clause followed by covered) into one that agrees with R and
satisfies the other clauses and clause. -/
structure SemInv (P : Nat → Prop) (R : Int → Int) (c : Nat) (x : Internal × Coveror) :
    Prop where
  watched : ∀ y w, w ∈ x.1.wtab y → P w.clause
  nz : ∀ l ∈ x.2.clause ++ x.2.covered, l ≠ 0
  clsub : ∀ l ∈ x.2.clause, l ∈ (x.1.clauseAt c).literals
  closure : ∀ τ, Consistent τ → Agree R τ → Rem P x.1 c τ →
    (∀ l ∈ x.2.clause ++ x.2.covered, τ l = false) → ∀ y, x.1.vals y < 0 → τ y = false
  pushes : ∃ ps, x.2.extend = prefixesOf ps ∧ PushesOK ps ∧
    ∀ τ, Consistent τ → Agree R τ → Rem P x.1 c τ →
      (∃ l ∈ x.2.clause ++ x.2.covered, τ l = true) →
      Consistent (ps.foldr pushStep τ) ∧ Agree R (ps.foldr pushStep τ) ∧
      Rem P x.1 c (ps.foldr pushStep τ) ∧
      ∃ l ∈ x.2.clause, (ps.foldr pushStep τ) l = true

/-- The semantic invariant of the loop of cover_clause that assumes the literals of the
candidate c: nothing is covered or pushed yet, the literals of clause are nonzero
literals of c, and an assignment that agrees with R and falsifies clause falsifies every
literal that is false. -/
def AssumeInv (P : Nat → Prop) (R : Int → Int) (c : Nat) (x : Internal × Coveror) : Prop :=
  (∀ y w, w ∈ x.1.wtab y → P w.clause) ∧ x.2.covered = [] ∧ x.2.extend = [] ∧
  (∀ l ∈ x.2.clause, l ≠ 0 ∧ l ∈ (x.1.clauseAt c).literals) ∧
  ∀ τ, Agree R τ → (∀ l ∈ x.2.clause, τ l = false) → ∀ y, x.1.vals y < 0 → τ y = false

/-- The state in which the loop of cover_clause ends with the candidate c eliminated:
the blocks pushed turn every assignment that agrees with R and satisfies the other
clauses into one that agrees with R and satisfies them and the candidate. -/
def EndInv (P : Nat → Prop) (R : Int → Int) (c : Nat) (x : Internal × Coveror) : Prop :=
  ∃ ps, x.2.extend = prefixesOf ps ∧ PushesOK ps ∧
    ∀ τ, Consistent τ → Agree R τ → Rem P x.1 c τ →
      Consistent (ps.foldr pushStep τ) ∧ Agree R (ps.foldr pushStep τ) ∧
      Rem P x.1 c (ps.foldr pushStep τ) ∧
      ∃ l ∈ (x.1.clauseAt c).literals, (ps.foldr pushStep τ) l = true

/-- All literals of the clause D, which is not the candidate c, not garbage and not
empty, are false. -/
def Falsified (s : Internal) (c : Nat) (D : Nat) : Prop :=
  D ≠ c ∧ (s.clauseAt D).garbage = false ∧ (s.clauseAt D).literals ≠ [] ∧
    ∀ y ∈ (s.clauseAt D).literals, s.vals y < 0

/-- The semantic invariant of the main loop of cover started in the state s0: the
values are those of s0, and the extension stack consists of the stack of s0 and the
blocks of calls of cover_push_extension that turn every assignment that agrees with the
values and satisfies the clauses left into one that agrees with the values and satisfies
the clauses of s0. -/
def Recover (s0 : Internal) (x : Internal × Coveror) : Prop :=
  x.1.vals = s0.vals ∧ x.1.i2e = s0.i2e ∧
  ∃ ps, x.1.external.extension =
      s0.external.extension ++ External.blocksOf ((StackOp.replay ps).blocks s0) ∧
    PushesOK ps ∧
    ∀ τ, Consistent τ → Agree s0.vals τ → AllRem x.1 τ →
      Consistent (ps.foldr pushStep τ) ∧ Agree s0.vals (ps.foldr pushStep τ) ∧
      AllRem s0 (ps.foldr pushStep τ)

/-- The assignment of the internal literals given by an external assignment. -/
def assignOf (s : Internal) (A : List Bool) : Int → Bool :=
  fun l => decide (l ≠ 0) && decide (0 < External.val A (s.externalize l))

end Internal

end CaDiCaL

namespace CaDiCaL

/-! ### options.cpp -/

namespace Options

/-- The constant INT_MIN of a 32-bit int. -/
def INT_MIN : Int := -2147483648

/-- The constant INT_MAX of a 32-bit int. -/
def INT_MAX : Int := 2147483647

/-- The value of an int64_t computation: the result modulo 2^64 in the range of
int64_t. -/
def wrap64 (x : Int) : Int := (x + 2 ^ 63) % 2 ^ 64 - 2 ^ 63

/-- The conversion of an int64_t to int: the value modulo 2^32 in the range of int. -/
def wrap32 (x : Int) : Int := (x + 2 ^ 31) % 2 ^ 32 - 2 ^ 31

/-- The function isdigit of the C library on a character. -/
def isdigit (ch : Char) : Bool := decide (48 ≤ ch.toNat) && decide (ch.toNat ≤ 57)

/-- The value ch - '0' of a digit. -/
def digit (ch : Char) : Int := (ch.toNat : Int) - 48

/-- The terminating character of a C string. -/
def NUL : Char := Char.ofNat 0

/-- The constant bound = -(int64_t) INT_MIN of parse_option_value. -/
def bound : Int := 2147483648

/-- The body of the loop over the digits of the mantissa. -/
def mantissaStep (mantissa : Int) (ch : Char) : Int :=
  if bound - digit ch <
      (if bound / 10 < mantissa then bound else wrap64 (mantissa * 10)) then bound
  else wrap64 ((if bound / 10 < mantissa then bound else wrap64 (mantissa * 10)) + digit ch)

/-- The loop `while (isdigit (ch = *p++))` over the mantissa: the result is the
mantissa, the character that ended the loop and the characters after it; at the end of
the string the character read is NUL. -/
def mantissaLoop : List Char → Int → Int × Char × List Char
  | [], m => (m, NUL, [])
  | ch :: rest, m =>
    if isdigit ch then mantissaLoop rest (mantissaStep m ch) else (m, ch, rest)

/-- The loop `while (isdigit ((ch = *p++))) exponent = exponent ? 10 : ch - '0'`: the
result is the exponent and the character that ended the loop. -/
def exponentLoop : List Char → Int → Int × Char
  | [], e => (e, NUL)
  | ch :: rest, e =>
    if isdigit ch then exponentLoop rest (if e ≠ 0 then 10 else digit ch) else (e, ch)

/-- The loop `for (int i = 0; i < exponent; i++) val64 *= 10` in int64_t. -/
def scaleLoop : Nat → Int → Int
  | 0, v => v
  | n + 1, v => scaleLoop n (wrap64 (v * 10))

/-- The sign handling of parse_option_value: a negative value is negated and clamped
from below, a positive one clamped from above. -/
def clampSigned (sign : Int) (val64 : Int) : Int :=
  if sign < 0 then
    (if wrap64 (-val64) < INT_MIN then INT_MIN else wrap64 (-val64))
  else
    (if val64 > INT_MAX then INT_MAX else val64)

/-- The number branch of parse_option_value after the sign: the result is none when
the function returns false and otherwise the value of val64 at the two assertions. -/
def parseDigits (sign : Int) : List Char → Option Int
  | [] => none
  | ch :: rest =>
    if !isdigit ch then none
    else if (mantissaLoop rest (digit ch)).2.1 = 'e' then
      (if (exponentLoop (mantissaLoop rest (digit ch)).2.2 0).2 ≠ NUL then none
       else some (clampSigned sign
        (scaleLoop (exponentLoop (mantissaLoop rest (digit ch)).2.2 0).1.toNat
          (mantissaLoop rest (digit ch)).1)))
    else if (mantissaLoop rest (digit ch)).2.1 ≠ NUL then none
    else some (clampSigned sign (scaleLoop 0 (mantissaLoop rest (digit ch)).1))

/-- The number branch of parse_option_value on the characters before the terminating
NUL: the sign is read first. -/
def parseNumber : List Char → Option Int
  | [] => parseDigits 1 []
  | ch :: rest => if ch = '-' then parseDigits (-1) rest else parseDigits 1 (ch :: rest)

/-- The assertions `INT_MIN <= val64` and `val64 <= INT_MAX` of parse_option_value. -/
def assertsHold (val64 : Int) : Bool := decide (INT_MIN ≤ val64) && decide (val64 ≤ INT_MAX)

/-- Options::parse_option_value on a C string, given by its characters: the characters
from the first NUL on are not part of the string. The result is none when the function
returns false (val is not written) and otherwise the value stored in val. -/
def parse_option_value (val_str : List Char) : Option Int :=
  if val_str.takeWhile (fun ch => ch ≠ NUL) = "true".toList then some 1
  else if val_str.takeWhile (fun ch => ch ≠ NUL) = "false".toList then some 0
  else (parseNumber (val_str.takeWhile (fun ch => ch ≠ NUL))).map wrap32

end Options

end CaDiCaL

namespace CaDiCaL

namespace Internal

/-- The cyclic order in which the search for a replacement watch visits the positions
of a clause of the given size: pos, pos + 1, ..., size - 1, then 2, 3, ..., pos - 1. -/
def searchOrder (pos size : Nat) : List Nat :=
  List.range' pos (size - pos) ++ List.range' 2 (pos - 2)

/-- The first position in the cyclic order whose literal is not false, if there is
one. -/
def firstNonFalse (vals : Int → Int) (lits : List Int) (pos : Nat) : Option Nat :=
  (searchOrder pos lits.length).find? (fun i => decide (0 ≤ vals (lits.getD i 0)))

/-- The bounds of the cursor pos: every clause with at least two literals has
2 ≤ pos ≤ size. -/
def PosInv (s : Internal) : Prop :=
  ∀ D, 2 ≤ (s.clauseAt D).size → 2 ≤ (s.clauseAt D).pos ∧ (s.clauseAt D).pos ≤ (s.clauseAt D).size

/-- The loop `while (k != stop && (v = val (r = *k)) < 0) k++` with every read of *k
checked: the result is none when k is not a position of the clause at a read. The
first argument bounds the number of iterations. -/
def scanFalseChecked (vals : Int → Int) (lits : List Int) (stop : Nat) :
    Nat → Nat → Int → Int → Option (Nat × Int × Int)
  | 0, _, _, _ => none
  | fuel + 1, k, v, r =>
    if k = stop then some (k, v, r)
    else
      match lits[k]? with
      | none => none
      | some x =>
        if vals x < 0 then scanFalseChecked vals lits stop fuel (k + 1) (vals x) x
        else some (k, vals x, x)

/-- The search for a replacement watch with checked reads: from pos until the end of
the clause and then, if no literal with a non-negative value was found, from position 2
until pos. -/
def findReplacementChecked (vals : Int → Int) (lits : List Int) (pos : Nat) :
    Option (Nat × Int × Int) :=
  match scanFalseChecked vals lits lits.length (lits.length + 2) pos (-1) 0 with
  | none => none
  | some kvr =>
    if kvr.2.1 < 0 then scanFalseChecked vals lits pos (lits.length + 2) 2 kvr.2.1 kvr.2.2
    else some kvr

/-- The branch of cover_propagate_asymmetric for a watch of a long clause with every
access to the literals checked: the reads and writes of lits[0] and lits[1], the reads
of the search, the two assertions `lits + 2 <= k` and `k <= end` and the write `*k =
lit`. The result is none when an access is outside the clause or an assertion fails. -/
def asymLongChecked (lit : Int) (w : Watch) (st : AsymState) : Option AsymState :=
  if (st.s.clauseAt w.clause).size < 2 then none
  else if 0 < st.s.val (otherWatched (st.s.clauseAt w.clause).literals lit) then
    some (asymLong lit w st)
  else
    match findReplacementChecked st.s.vals
        (swapWatched (st.s.clauseAt w.clause).literals
          (otherWatched (st.s.clauseAt w.clause).literals lit) lit)
        (st.s.clauseAt w.clause).pos with
    | none => none
    | some kvr =>
      if ¬ (2 ≤ kvr.1 ∧ kvr.1 ≤ (st.s.clauseAt w.clause).size) then none
      else if kvr.2.1 = 0 ∧ ¬ kvr.1 < (st.s.clauseAt w.clause).size then none
      else
        some (asymReplace lit w st (otherWatched (st.s.clauseAt w.clause).literals lit)
          (swapWatched (st.s.clauseAt w.clause).literals
            (otherWatched (st.s.clauseAt w.clause).literals lit) lit) kvr)

/-- One iteration of the loop of cover_propagate_asymmetric with checked accesses:
only the branch for a long clause accesses the literals of a clause. -/
def asymWatchChecked (lit : Int) (ignore : Nat) (w : Watch) (st : AsymState) :
    Option AsymState :=
  if w.clause = ignore then some (asymWatch lit ignore w st)
  else if 0 < st.s.val w.blit then some (asymWatch lit ignore w st)
  else if (st.s.clauseAt w.clause).garbage then some (asymWatch lit ignore w st)
  else if w.binary then some (asymWatch lit ignore w st)
  else asymLongChecked lit w st

/-- The loop of cover_propagate_asymmetric with checked accesses. -/
def asymLoopChecked (lit : Int) (ignore : Nat) :
    List Watch → AsymState → Option (AsymState × List Watch)
  | [], st => some (st, [])
  | w :: ws, st =>
    if st.subsumed then some (st, w :: ws)
    else
      match asymWatchChecked lit ignore w st with
      | none => none
      | some st2 => asymLoopChecked lit ignore ws st2

/-- Internal::cover_propagate_asymmetric with checked accesses to the literals of the
clauses: the result is none when an access is outside a clause or an assertion on the
search cursor fails. -/
def cover_propagate_asymmetric_checked (lit : Int) (ignore : Nat) (sc : Internal × Coveror) :
    Option (Bool × Internal × Coveror) :=
  (asymLoopChecked lit ignore (sc.1.watches lit)
    ⟨countCoverPropagation sc.1, sc.2, [], false⟩).map (asymFinish lit)

/-- The unassigned literals other than -lit of the clause c, in the order of the
clause. -/
def unassignedLits (s : Internal) (lit : Int) (c : Nat) : List Int :=
  (s.clauseAt c).literals.filter (fun l => decide (l ≠ -lit) && decide (s.val l = 0))

/-- The unassigned literals other than -lit of the clause c that occur in every clause
of the list that is not garbage, in the order of c. -/
def commonLits (s : Internal) (lit : Int) (c : Nat) (others : List Nat) : List Int :=
  (unassignedLits s lit c).filter (fun l =>
    others.all (fun d => (s.clauseAt d).garbage || decide (l ∈ (s.clauseAt d).literals)))

instance (s : Internal) (lit : Int) (c : Nat) : Decidable (Blocked s lit c) := by
  unfold Blocked; exact inferInstance

instance (s : Internal) (lit : Int) (c : Nat) : Decidable (Candidate s lit c) := by
  unfold Candidate; exact inferInstance

end Internal

end CaDiCaL

namespace CaDiCaL

namespace Reluctant

/-- The counters of a state with period P are below the 64-bit overflow: u + 1 and the
product v * P are representable in an unsigned long. -/
def NoOverflow (P : Nat) (r : Reluctant) : Prop := r.u + 1 < ULONG ∧ r.v * P < ULONG

instance (P : Nat) (r : Reluctant) : Decidable (NoOverflow P r) := by
  unfold NoOverflow; infer_instance

/-- The inductive form of the Knuth invariant for period P: u is 2^a times an odd
number, v is 2^k with k ≤ a, the countdown of a state whose trigger is not raised lies
between 1 and v * P, and a raised trigger has left the countdown at v * P (modulo
2^64). -/
def KnuthAux (P : Nat) (r : Reluctant) : Prop :=
  r.period = P ∧ (∃ a h k, r.u = 2 ^ a * (2 * h + 1) ∧ r.v = 2 ^ k ∧ k ≤ a) ∧
  (r.trigger = false → 1 ≤ r.countdown ∧ r.countdown ≤ r.v * P) ∧
  (r.trigger = true → r.countdown = (r.v * P) % ULONG)

/-- The sequence of calls of n rounds, each a tick followed by a read of the trigger. -/
def rounds (n : Nat) : List Op := (List.replicate n [Op.tick, Op.read]).flatten

end Reluctant

end CaDiCaL

namespace CaDiCaL

namespace Internal

/-- Completeness of the watches of binary clauses: a non-garbage clause with two
literals has a binary watch in the list of each of its literals, with the other literal
as the blocking literal. -/
def BinWatchComplete (s : Internal) : Prop :=
  ∀ d, d < s.clauses.length → (s.clauseAt d).garbage = false →
    (s.clauseAt d).literals.length = 2 →
    (∃ w ∈ s.wtab ((s.clauseAt d).literals.getD 0 0), w.clause = d ∧
      w.blit = (s.clauseAt d).literals.getD 1 0 ∧ w.binary = true) ∧
    (∃ w ∈ s.wtab ((s.clauseAt d).literals.getD 1 0), w.clause = d ∧
      w.blit = (s.clauseAt d).literals.getD 0 0 ∧ w.binary = true)

instance (s : Internal) : Decidable (BinWatchComplete s) := by
  unfold BinWatchComplete; infer_instance

/-- The order in which sort_watches leaves a watch list: no watch of a binary clause
follows a watch of a longer clause. -/
def BinFirstList (ws : List Watch) : Prop :=
  ws.Pairwise (fun a b => a.binary = false → b.binary = false)

instance (ws : List Watch) : Decidable (BinFirstList ws) := by
  unfold BinFirstList; infer_instance

/-- Every watch list has its binary watches first. -/
def BinFirst (s : Internal) : Prop := ∀ lit, BinFirstList (s.wtab lit)

/-- No clause contains 0, which is not a literal. -/
def NoZero (s : Internal) : Prop :=
  ∀ d, d < s.clauses.length → (0 : Int) ∉ (s.clauseAt d).literals

instance (s : Internal) : Decidable (NoZero s) := by
  unfold NoZero; infer_instance

/-- The first two literals of every clause, in the order of the clause list. -/
def binLits (s : Internal) : List Int :=
  (s.clauses.map (fun cl => cl.literals.take 2)).flatten

/-- What the search keeps true besides SearchInv, for its termination and its
completeness: the clauses and watches are those of the base state, the marked variables
are those of the working stack, every literal of the working stack is nonzero and marked
with its sign, the working stack has no repetition, starts from src and otherwise holds
literals of clauses. -/
structure BfsInv (s : Internal) (src : Int) (b : Bfs) : Prop where
  frame : b.s = { s with marks := b.s.marks }
  marks_work : ∀ v, b.s.marks v ≠ 0 → ∃ l ∈ b.work, l.natAbs = v ∧ b.s.marks v = Int.sign l
  work_marked : ∀ l ∈ b.work, l ≠ 0 ∧ b.s.marks l.natAbs = Int.sign l
  nodup : b.work.Nodup
  sub : ∀ l ∈ b.work, l = src ∨ l ∈ binLits s
  has_src : src ∈ b.work

end Internal

end CaDiCaL

namespace CaDiCaL

/-! ### Concrete solver states used as test inputs -/

namespace Examples

/-- A table indexed by literal, given by its finitely many non-empty entries. -/
def tableOf {α : Type} (tbl : List (Int × List α)) : Int → List α :=
  fun lit => (tbl.lookup lit).getD []

/-- All counters zero. -/
def stats0 : Stats := ⟨0, 0, 0, 0, 0, 0, 0, 0, 0, 0, 0, 0, 0, 0, 0, 0, 0, 0⟩

/-- The options with cover and transred enabled. -/
def opts0 : Options := ⟨true, false, 4, 0, 100000, true, 100, 0, 100000, true, false⟩

/-- An external solver with the identity mapping on n variables and an empty
extension stack. -/
def external0 (n : Nat) : External :=
  ⟨n, [], (List.range (n + 1)).map (fun i => (i : Int)), [], fun _ => false, false⟩

/-- An irredundant clause with the given literals, all flags cleared. -/
def clauseOf (lits : List Int) : Clause := ⟨lits, false, false, false, false, false, false, 2⟩

/-- A solver state at level 0 over n variables with nothing assigned, marked or
frozen, with the given clauses, watch table and occurrence table. -/
def solverOf (n : Nat) (clauses : List Clause) (wtbl : List (Int × List Watch))
    (otbl : List (Int × List Nat)) : Internal :=
  { unsat := false, level := 0, max_var := n,
    vals := fun _ => 0, marks := fun _ => 0, frozentab := fun _ => 0,
    activetab := fun _ => true,
    i2e := fun v => v,
    clauses := clauses, wtab := tableOf wtbl, otab := tableOf otbl,
    trail := [], propagated := 0, last_transred_propagations := 0,
    stats := { stats0 with current_irredundant := clauses.length, active := n },
    opts := opts0, external := external0 n }

/-- Collaborators that never terminate the run, with a propagator that finds no
conflict and changes nothing. -/
def env0 : Env := ⟨fun _ => false, fun s => (true, s)⟩

/-- The check of BinWatchOK on a watch table given by its entries. -/
def binWatchCheck (clauses : List Clause) (tbl : List (Int × List Watch)) : Bool :=
  tbl.all fun e => e.2.all fun w =>
    !w.binary || (clauses.getD w.clause default).garbage ||
      (decide (w.clause < clauses.length) &&
        ((clauses.getD w.clause default).literals == [e.1, w.blit] ||
         (clauses.getD w.clause default).literals == [w.blit, e.1]))

/-- The watch table of the binary clauses (-1 2), (-2 3), (-1 3). -/
def chainWatches : List (Int × List Watch) :=
  [(-1, [⟨0, 2, 2⟩, ⟨2, 3, 2⟩]), (2, [⟨0, -1, 2⟩]), (-2, [⟨1, 3, 2⟩]),
   (3, [⟨1, -2, 2⟩, ⟨2, -1, 2⟩])]

/-- Scenario 5 of the spec: the binary clauses (-1 2), (-2 3), (-1 3) with their
watches. -/
def chainFormula : Internal :=
  solverOf 3 [clauseOf [-1, 2], clauseOf [-2, 3], clauseOf [-1, 3]] chainWatches []

/-- The watch table of (-1 2), (-2 3), (-2 -3), (-1 4). -/
def failedWatches : List (Int × List Watch) :=
  [(-1, [⟨0, 2, 2⟩, ⟨3, 4, 2⟩]), (2, [⟨0, -1, 2⟩]), (-2, [⟨1, 3, 2⟩, ⟨2, -3, 2⟩]),
   (3, [⟨1, -2, 2⟩]), (-3, [⟨2, -2, 2⟩]), (4, [⟨3, -1, 2⟩])]

/-- The binary clauses (-1 2), (-2 3), (-2 -3), (-1 4): the literal 1 reaches both 3
and -3 without the clause (-1 4). -/
def failedFormula : Internal :=
  solverOf 4 [clauseOf [-1, 2], clauseOf [-2, 3], clauseOf [-2, -3], clauseOf [-1, 4]]
    failedWatches []

/-- The state after the check of the third clause of chainFormula. -/
def chainAfter : Internal :=
  ((Internal.transredCandidate env0 2 chainFormula 0).getD (chainFormula, 0)).1

/-- The state after the check of the fourth clause of failedFormula. -/
def failedAfter : Internal :=
  ((Internal.transredCandidate env0 3 failedFormula 0).getD (failedFormula, 0)).1

/-- Scenario 1 of the spec: the clauses (1 2) and (1 -2), nothing assigned. -/
def twoBlocked : Internal := solverOf 2 [clauseOf [1, 2], clauseOf [1, -2]] [] []

/-- The state twoBlocked with the option cover switched off. -/
def coverOff : Internal :=
  { twoBlocked with opts := { opts0 with cover := false } }

/-- The clauses (1 2) and (-1 3) with their occurrence lists, in the middle of
cover_clause on the second clause: -1 and 3 are assumed false. -/
def coveredState : Internal × Coveror :=
  ({ solverOf 3 [clauseOf [1, 2], clauseOf [-1, 3]] []
        [(1, [0]), (2, [0]), (-1, [1]), (3, [1])] with
      level := 1,
      vals := fun x => if x = 1 ∨ x = -3 then 1 else if x = -1 ∨ x = 3 then -1 else 0 },
   { Coveror.init with added := [-1, 3], clause := [-1, 3] })

/-- The state in which the loop of cover_clause starts for the second clause of
(1 2), (1 -2), the first candidate that cover tries. -/
def loopTwo0 : Internal × Coveror :=
  Internal.loopStart 1
    ((Internal.coverPrepare twoBlocked).1.setClause 1
      { (Internal.coverPrepare twoBlocked).1.clauseAt 1 with covered := true }, Coveror.init)

/-- The state after the asymmetric propagation of the first literal added. -/
def loopTwo1 : Internal × Coveror :=
  (Internal.cover_propagate_asymmetric (loopTwo0.2.added.getD loopTwo0.2.next_asymmetric 0) 1
    (loopTwo0.1, { loopTwo0.2 with next_asymmetric := loopTwo0.2.next_asymmetric + 1 })).2

/-- The state after the asymmetric propagation of the second literal added. -/
def loopTwo2 : Internal × Coveror :=
  (Internal.cover_propagate_asymmetric (loopTwo1.2.added.getD loopTwo1.2.next_asymmetric 0) 1
    (loopTwo1.1, { loopTwo1.2 with next_asymmetric := loopTwo1.2.next_asymmetric + 1 })).2

/-- One use of each operation that pushes on the extension stack. -/
def stackOps : List Internal.StackOp :=
  [Internal.StackOp.clause [1, 2] 1, Internal.StackOp.binary 1 (-2),
   Internal.StackOp.external [3, 4] [3],
   Internal.StackOp.replay [(2, [1, 2], []), (1, [1, 2], [3])]]

/-- Two clauses with their witnesses, as given to
push_external_clause_and_witness_on_extension_stack. -/
def witnessPairs : List (List Int × List Int) := [([1, 2], [1]), ([-1, 3], [3])]

/-- The watch table of the clauses (1 2 3), (-1 2). -/
def watchedTable : List (Int × List Watch) :=
  [(1, [⟨0, 2, 3⟩]), (2, [⟨0, 1, 3⟩, ⟨1, -1, 2⟩]), (-1, [⟨1, 2, 2⟩])]

/-- The clauses (1 2 3), (-1 2) with their watches, the literal 1 assumed false at
level 1. -/
def watchedState : Internal :=
  { solverOf 3 [clauseOf [1, 2, 3], clauseOf [-1, 2]] watchedTable [] with
    level := 1,
    vals := fun x => if x = 1 then -1 else if x = -1 then 1 else 0 }

/-- The clause (1 2) with the unit 1 assigned and propagated at level 0. -/
def satisfiedOnly : Internal :=
  { solverOf 2 [clauseOf [1, 2]] [] [] with
    vals := fun x => if x = 1 then 1 else if x = -1 then -1 else 0,
    trail := [1], propagated := 1 }

/-- The state of cover on the clauses (1 2), (1 -2) when the main loop starts, with a
fresh Coveror. -/
def preparedTwo : Internal × Coveror := ((Internal.coverPrepare twoBlocked).1, Coveror.init)

/-- Scenario 2 of the spec: the clauses (1 2 3), (-1 2), (-1 3), nothing assigned or
frozen. -/
def scenarioTwo : Internal :=
  solverOf 3 [clauseOf [1, 2, 3], clauseOf [-1, 2], clauseOf [-1, 3]] [] []

/-- The state of cover on scenario 2 when the main loop starts, with a fresh
Coveror. -/
def preparedScenarioTwo : Internal × Coveror :=
  ((Internal.coverPrepare scenarioTwo).1, Coveror.init)

/-- The state of cover_clause on the first clause of scenario 2 after the three
asymmetric propagations of the literals assumed, none of which adds a literal. -/
def scenarioTwoLoop : Internal × Coveror :=
  (Internal.cover_propagate_asymmetric 3 0
    ((Internal.cover_propagate_asymmetric 2 0
      ((Internal.cover_propagate_asymmetric 1 0
        ((Internal.loopStart 0 preparedScenarioTwo).1,
          { (Internal.loopStart 0 preparedScenarioTwo).2 with next_asymmetric := 1 })).2.1,
        { (Internal.loopStart 0 preparedScenarioTwo).2 with next_asymmetric := 2 })).2.1,
      { (Internal.loopStart 0 preparedScenarioTwo).2 with next_asymmetric := 3 })).2

/-- The clauses (-1 2), (-1 3) with their occurrence lists and the literal 1 assumed
false: the two occurrences of -1 have no unassigned literal in common. -/
def moveState : Internal × Coveror :=
  ({ solverOf 3 [clauseOf [-1, 2], clauseOf [-1, 3]] []
        [(-1, [0, 1]), (2, [0]), (3, [1])] with
      level := 1,
      vals := fun x => if x = 1 then -1 else if x = -1 then 1 else 0 },
   { Coveror.init with added := [1], clause := [1] })

/-- The watch table of (-1 2), (-1 -2). -/
def binWatches : List (Int × List Watch) :=
  [(-1, [⟨0, 2, 2⟩, ⟨1, -2, 2⟩]), (2, [⟨0, -1, 2⟩]), (-2, [⟨1, -1, 2⟩])]

/-- Scenario 6 of the spec: the binary clauses (-1 2), (-1 -2) with their watches,
nothing assigned, with a minimum effort of 1000 propagations for transred. -/
def binFormula : Internal :=
  { solverOf 2 [clauseOf [-1, 2], clauseOf [-1, -2]] binWatches [] with
    opts := { opts0 with transredmineff := 1000 } }

/-- The clauses (1 2), (1 -2) after 200 search propagations, with the option coverreleff
set to 145. -/
def budgetState : Internal :=
  { twoBlocked with
    stats := { twoBlocked.stats with propagations_search := 200 },
    opts := { opts0 with coverreleff := 145 } }

/-- The clauses (1 2), (1 -3), (2 3): the first is an asymmetric tautology. -/
def ateFormula : Internal :=
  solverOf 3 [clauseOf [1, 2], clauseOf [1, -3], clauseOf [2, 3]] [] []

/-- The state in which the main loop of cover starts on ateFormula. -/
def preparedAte : Internal × Coveror := ((Internal.coverPrepare ateFormula).1, Coveror.init)

/-- The result of the fixed-point loop of cover_clause for the first clause of
ateFormula. -/
def ateLoop : Bool × Internal × Coveror :=
  (Internal.coverLoop 0 (Internal.coverFuel preparedAte.1)
    (Internal.loopStart 0 preparedAte)).getD (false, preparedAte)

/-- The assignment in which the variable 2 is true and every other variable false. -/
def ateAssignment : Int → Bool :=
  fun l => if l = 0 then false else if l.natAbs = 2 then decide (0 < l) else decide (l < 0)

end Examples

end CaDiCaL

namespace CaDiCaL

theorem lowbit_aux (w a h : Nat) (hlt : 2 ^ a * (2 * h + 1) < 2 ^ w) :
    (2 ^ a * (2 * h + 1)) &&& (2 ^ w - 2 ^ a * (2 * h + 1)) = 2 ^ a := by
  have haw : a < w := by
    by_contra hc
    push_neg at hc
    have h1 : 2 ^ w ≤ 2 ^ a := Nat.pow_le_pow_right (by norm_num) hc
    have h2 : 2 ^ a ≤ 2 ^ a * (2 * h + 1) := Nat.le_mul_of_pos_right _ (by omega)
    omega
  obtain ⟨d, rfl⟩ : ∃ d, w = a + d := ⟨w - a, by omega⟩
  have hq : 2 * h + 1 < 2 ^ d := by
    rw [pow_add] at hlt
    exact Nat.lt_of_mul_lt_mul_left hlt
  have hsub : 2 ^ (a + d) - 2 ^ a * (2 * h + 1) = 2 ^ a * (2 ^ d - (2 * h + 1)) := by
    rw [Nat.mul_sub, pow_add]
  rw [hsub]
  apply Nat.eq_of_testBit_eq
  intro j
  rw [Nat.testBit_land, Nat.testBit_mul_pow_two, Nat.testBit_mul_pow_two,
    Nat.testBit_two_pow_sub_succ (by omega), Nat.testBit_two_pow]
  by_cases hj : j ≥ a
  · obtain ⟨i, rfl⟩ : ∃ i, j = a + i := ⟨j - a, by omega⟩
    simp only [ge_iff_le, Nat.le_add_right, decide_True, Nat.add_sub_cancel_left, Bool.true_and]
    cases i with
    | zero =>
      have hd : 0 < d := by
        rcases d with _ | d
        · simp at hq
        · omega
      simp [Nat.testBit_zero, hd, Nat.add_mod]
    | succ i =>
      have e1 : (2 * h + 1) / 2 = h := by omega
      have e2 : (2 * h) / 2 = h := by omega
      simp only [Nat.testBit_succ, e1, e2, Nat.succ_eq_add_one]
      cases h.testBit i <;> simp
  · have : ¬ a = j := by omega
    simp [hj, this]

/-- At u = m + 2^j with 2^(j+1) dividing m and v = 2^j the sequence moves on to u + 1. -/
theorem dkStep_advance (j m : Nat) (hm : 2 ^ (j + 1) ∣ m) (hlt : m + 2 ^ (j + 1) < ULONG) :
    Reluctant.dkStep (m + 2 ^ j, 2 ^ j) = (m + 2 ^ j + 1, 1) := by
  obtain ⟨c, rfl⟩ := hm
  have hpos : 0 < 2 ^ j := Nat.pow_pos (by norm_num)
  have e : 2 ^ (j + 1) * c + 2 ^ j = 2 ^ j * (2 * c + 1) := by rw [pow_succ]; ring
  have h2 : 2 ^ (j + 1) = 2 * 2 ^ j := by rw [pow_succ]; ring
  have hu : 2 ^ j * (2 * c + 1) < 2 ^ 64 := by
    unfold ULONG at hlt; rw [← e]; omega
  unfold Reluctant.dkStep
  simp only [e]
  have hmod : (ULONG - 2 ^ j * (2 * c + 1)) % ULONG = 2 ^ 64 - 2 ^ j * (2 * c + 1) := by
    unfold ULONG
    apply Nat.mod_eq_of_lt
    have : 0 < 2 ^ j * (2 * c + 1) := Nat.mul_pos hpos (by omega)
    omega
  rw [hmod, lowbit_aux 64 j c hu]
  simp only [if_true]
  have : (2 ^ j * (2 * c + 1) + 1) % ULONG = 2 ^ j * (2 * c + 1) + 1 := by
    apply Nat.mod_eq_of_lt
    unfold ULONG at hlt ⊢
    rw [← e]; omega
  rw [this]

/-- At u = m + 2^(j+1) with 2^(j+1) dividing m and v = 2^j the value v is doubled. -/
theorem dkStep_double (j m : Nat) (hm : 2 ^ (j + 1) ∣ m) (hlt : m + 2 ^ (j + 1) < ULONG) :
    Reluctant.dkStep (m + 2 ^ (j + 1), 2 ^ j) = (m + 2 ^ (j + 1), 2 ^ (j + 1)) := by
  obtain ⟨c, rfl⟩ := hm
  have e : 2 ^ (j + 1) * c + 2 ^ (j + 1) = 2 ^ (j + 1) * (c + 1) := by ring
  unfold Reluctant.dkStep
  simp only [e]
  have hne : ¬ (2 ^ (j + 1) * (c + 1) &&& (ULONG - 2 ^ (j + 1) * (c + 1)) % ULONG = 2 ^ j) := by
    intro hc
    have h1 := congrArg (fun x => Nat.testBit x j) hc
    simp only [Nat.testBit_land, Nat.testBit_mul_pow_two, Nat.testBit_two_pow_self] at h1
    simp at h1
  rw [if_neg hne]
  have hpos : 0 < 2 ^ j := Nat.pow_pos (by norm_num)
  have h2 : 2 ^ (j + 1) = 2 * 2 ^ j := by rw [pow_succ]; ring
  have : (2 * 2 ^ j) % ULONG = 2 ^ (j + 1) := by
    rw [← h2]
    apply Nat.mod_eq_of_lt
    omega
  rw [this]

end CaDiCaL
namespace CaDiCaL

theorem pow2Floor_spec (fuel : Nat) : ∀ (a i : Nat), 2 ^ a ≤ i → i < fuel + 2 ^ a →
    ∃ k, pow2Floor fuel (2 ^ a) i = 2 ^ k ∧ 2 ^ k ≤ i ∧ i < 2 * 2 ^ k := by
  induction fuel with
  | zero => intro a i h1 h2; omega
  | succ f ih =>
    intro a i h1 h2
    unfold pow2Floor
    by_cases h : i < 2 * 2 ^ a
    · rw [if_pos h]; exact ⟨a, rfl, h1, h⟩
    · rw [if_neg h]
      have e : 2 * 2 ^ a = 2 ^ (a + 1) := by rw [pow_succ]; ring
      rw [e]
      apply ih (a + 1) i
      · omega
      · have : 0 < 2 ^ a := Nat.pow_pos (by norm_num)
        omega

theorem pow2Floor_eq (k i : Nat) (h1 : 2 ^ k ≤ i) (h2 : i < 2 ^ (k + 1)) :
    pow2Floor i 1 i = 2 ^ k := by
  have hpos : 0 < 2 ^ k := Nat.pow_pos (by norm_num)
  obtain ⟨k', e, l1, l2⟩ := pow2Floor_spec i 0 i (by simpa using (by omega : 1 ≤ i)) (by simp)
  simp only [pow_zero] at e
  rw [e]
  have e2 : ∀ n, 2 * 2 ^ n = 2 ^ (n + 1) := fun n => by rw [pow_succ]; ring
  rw [e2] at l2
  rcases Nat.lt_trichotomy k k' with h | h | h
  · have : 2 ^ (k + 1) ≤ 2 ^ k' := Nat.pow_le_pow_right (by norm_num) h
    omega
  · rw [h]
  · have : 2 ^ (k' + 1) ≤ 2 ^ k := Nat.pow_le_pow_right (by norm_num) h
    omega

theorem exists_pow2_bracket (i : Nat) (hi : 1 ≤ i) : ∃ k, 2 ^ k ≤ i ∧ i < 2 ^ (k + 1) := by
  obtain ⟨k, _, l1, l2⟩ := pow2Floor_spec i 0 i (by simpa using hi) (by simp)
  refine ⟨k, l1, ?_⟩
  rw [pow_succ]; omega

theorem lubyAux_fuel (n : Nat) : ∀ i, 1 ≤ i → i ≤ n → ∀ f, i ≤ f →
    lubyAux f i = lubyAux i i := by
  induction n with
  | zero => intro i h1 h2; omega
  | succ n ih =>
    intro i h1 h2 f hf
    obtain ⟨k, l1, l2⟩ := exists_pow2_bracket i h1
    have hp := pow2Floor_eq k i l1 l2
    obtain ⟨f', rfl⟩ : ∃ f', f = f' + 1 := ⟨f - 1, by omega⟩
    obtain ⟨i0, rfl⟩ : ∃ i0, i = i0 + 1 := ⟨i - 1, by omega⟩
    unfold lubyAux
    rw [hp]
    by_cases hc : i0 + 1 + 1 = 2 * 2 ^ k
    · rw [if_pos hc, if_pos hc]
    · rw [if_neg hc, if_neg hc]
      have hk : 2 ≤ 2 ^ k := by
        rcases k with _ | k
        · simp at l1 l2; omega
        · rw [pow_succ]
          have : 0 < 2 ^ k := Nat.pow_pos (by norm_num)
          omega
      have a1 := ih (i0 + 1 + 1 - 2 ^ k) (by omega) (by omega) f' (by omega)
      have a2 := ih (i0 + 1 + 1 - 2 ^ k) (by omega) (by omega) i0 (by omega)
      rw [a1, a2]

/-- First defining equation of the Luby sequence: the value at 2^(k+1) - 1 is 2^k. -/
theorem luby_top (k : Nat) : luby (2 ^ (k + 1) - 1) = 2 ^ k := by
  have hpos : 0 < 2 ^ k := Nat.pow_pos (by norm_num)
  have e : 2 ^ (k + 1) = 2 * 2 ^ k := by rw [pow_succ]; ring
  have hp := pow2Floor_eq k (2 ^ (k + 1) - 1) (by omega) (by omega)
  obtain ⟨i0, hi0⟩ : ∃ i0, 2 ^ (k + 1) - 1 = i0 + 1 := ⟨2 ^ (k + 1) - 2, by omega⟩
  unfold luby
  rw [hi0] at hp ⊢
  unfold lubyAux
  rw [hp, if_pos (by omega)]

/-- Second defining equation of the Luby sequence: between 2^k and 2^(k+1) - 2 the
sequence repeats its beginning. -/
theorem luby_rec (k i : Nat) (h1 : 2 ^ k ≤ i) (h2 : i + 1 < 2 ^ (k + 1)) :
    luby i = luby (i + 1 - 2 ^ k) := by
  have hpos : 0 < 2 ^ k := Nat.pow_pos (by norm_num)
  have e : 2 ^ (k + 1) = 2 * 2 ^ k := by rw [pow_succ]; ring
  have hp := pow2Floor_eq k i h1 (by omega)
  obtain ⟨i0, rfl⟩ : ∃ i0, i = i0 + 1 := ⟨i - 1, by omega⟩
  have hk : 2 ≤ 2 ^ k := by
    rcases k with _ | k
    · simp at h1 h2; omega
    · rw [pow_succ]
      have : 0 < 2 ^ k := Nat.pow_pos (by norm_num)
      omega
  show lubyAux (i0 + 1) (i0 + 1) = lubyAux (i0 + 1 + 1 - 2 ^ k) (i0 + 1 + 1 - 2 ^ k)
  conv_lhs => unfold lubyAux
  rw [hp, if_neg (by omega)]
  exact lubyAux_fuel i0 (i0 + 1 + 1 - 2 ^ k) (by omega) (by omega) i0 (by omega)

theorem dk_block (j : Nat) : ∀ m, 2 ^ j ∣ m → m + 2 ^ j < ULONG →
    (∀ i, 1 ≤ i → i < 2 ^ (j + 1) → (Reluctant.dkStep^[i - 1] (m + 1, 1)).2 = luby i) ∧
    Reluctant.dkStep^[2 ^ (j + 1) - 2] (m + 1, 1) = (m + 2 ^ j, 2 ^ j) := by
  induction j with
  | zero =>
    intro m _ _
    constructor
    · intro i h1 h2
      have : i = 1 := by simp at h2; omega
      subst this
      simp [luby, lubyAux, pow2Floor]
    · simp
  | succ j ih =>
    intro m hm hlt
    have hpos : 0 < 2 ^ j := Nat.pow_pos (by norm_num)
    have e1 : 2 ^ (j + 1) = 2 * 2 ^ j := by rw [pow_succ]; ring
    have e2 : 2 ^ (j + 1 + 1) = 2 * 2 ^ (j + 1) := by rw [pow_succ]; ring
    have hm' : 2 ^ j ∣ m := Dvd.dvd.trans ⟨2, by rw [pow_succ]⟩ hm
    obtain ⟨A1, A2⟩ := ih m hm' (by omega)
    obtain ⟨B1, B2⟩ := ih (m + 2 ^ j) (Dvd.dvd.add hm' (dvd_refl _)) (by omega)
    have hmid : Reluctant.dkStep^[2 ^ (j + 1) - 1] (m + 1, 1) = (m + 2 ^ j + 1, 1) := by
      have : 2 ^ (j + 1) - 1 = (2 ^ (j + 1) - 2) + 1 := by omega
      rw [this, Function.iterate_succ_apply', A2]
      exact dkStep_advance j m hm hlt
    have hend : Reluctant.dkStep^[2 ^ (j + 1 + 1) - 2] (m + 1, 1)
        = (m + 2 ^ (j + 1), 2 ^ (j + 1)) := by
      have : 2 ^ (j + 1 + 1) - 2 = ((2 ^ (j + 1) - 2) + (2 ^ (j + 1) - 1)) + 1 := by omega
      rw [this, Function.iterate_succ_apply', Function.iterate_add_apply, hmid, B2]
      have : m + 2 ^ j + 2 ^ j = m + 2 ^ (j + 1) := by omega
      rw [this]
      exact dkStep_double j m hm hlt
    refine ⟨?_, hend⟩
    intro i h1 h2
    by_cases c1 : i < 2 ^ (j + 1)
    · exact A1 i h1 c1
    · by_cases c2 : i + 1 = 2 ^ (j + 1 + 1)
      · have hi : i = 2 ^ (j + 1 + 1) - 1 := by omega
        have : i - 1 = 2 ^ (j + 1 + 1) - 2 := by omega
        rw [this, hend, hi, luby_top]
      · have hr := luby_rec (j + 1) i (by omega) (by omega)
        rw [hr]
        have : i - 1 = (i + 1 - 2 ^ (j + 1) - 1) + (2 ^ (j + 1) - 1) := by omega
        rw [this, Function.iterate_add_apply, hmid]
        exact B1 (i + 1 - 2 ^ (j + 1)) (by omega) (by omega)

/-- Knuth's reluctant doubling yields the Luby sequence: v after i - 1 steps is luby i. -/
theorem dk_luby (i : Nat) (h1 : 1 ≤ i) (h2 : i < ULONG) :
    (Reluctant.dkStep^[i - 1] (1, 1)).2 = luby i := by
  have h := (dk_block 63 0 (by simp) (by unfold ULONG; norm_num)).1 i h1
    (by unfold ULONG at h2; simpa using h2)
  simpa using h

end CaDiCaL
namespace CaDiCaL

theorem pow2Floor_ge (fuel : Nat) : ∀ p i, p ≤ pow2Floor fuel p i := by
  induction fuel with
  | zero => intro p i; simp [pow2Floor]
  | succ f ih =>
    intro p i
    unfold pow2Floor
    split
    · exact le_refl _
    · have := ih (2 * p) i
      omega

theorem lubyAux_pos (fuel : Nat) : ∀ i, 1 ≤ lubyAux fuel i := by
  induction fuel with
  | zero => intro i; simp [lubyAux]
  | succ f ih =>
    intro i
    unfold lubyAux
    split
    · exact pow2Floor_ge _ _ _
    · exact ih _

theorem luby_pos (i : Nat) : 1 ≤ luby i := lubyAux_pos i i

namespace Reluctant

theorem afterRounds_add (r : Reluctant) (a b : Nat) :
    afterRounds r (a + b) = afterRounds (afterRounds r a) b := by
  induction b with
  | zero => rfl
  | succ b ih =>
    show (tickRead (afterRounds r (a + b))).2 = (tickRead (afterRounds (afterRounds r a) b)).2
    rw [ih]

theorem raisedAt_add (r : Reluctant) (a b : Nat) :
    raisedAt r (a + (b + 1)) = raisedAt (afterRounds r a) (b + 1) := by
  show (tickRead (afterRounds r (a + b))).1 = (tickRead (afterRounds (afterRounds r a) b)).1
  rw [afterRounds_add]

/-- An enabled, unlimited state whose trigger is not raised. -/
theorem tickRead_wait (U V lim P c : Nat) (hP : P ≠ 0) (hc : 2 ≤ c) (hc2 : c < ULONG) :
    tickRead ⟨U, V, lim, P, c, false, false⟩ = (false, ⟨U, V, lim, P, c - 1, false, false⟩) := by
  have e : (c + (ULONG - 1)) % ULONG = c - 1 := by
    have : c + (ULONG - 1) = (c - 1) + ULONG := by unfold ULONG at *; omega
    rw [this, Nat.add_mod_right]
    exact Nat.mod_eq_of_lt (by omega)
  simp only [tickRead, tick, hP, if_false, e, toBool]
  have : c - 1 ≠ 0 := by omega
  simp [this]

theorem tickRead_fire (U V lim P : Nat) (hP : P ≠ 0) :
    tickRead ⟨U, V, lim, P, 1, false, false⟩
      = (true, ⟨(dkStep (U, V)).1, (dkStep (U, V)).2, lim, P,
          ((dkStep (U, V)).2 * P) % ULONG, false, false⟩) := by
  have e : (1 + (ULONG - 1)) % ULONG = 0 := by unfold ULONG; norm_num
  simp [tickRead, tick, hP, e, toBool]

theorem countdown_phase (U V lim P : Nat) (hP : P ≠ 0) (t : Nat) :
    ∀ c, t < c → c < ULONG →
      afterRounds ⟨U, V, lim, P, c, false, false⟩ t = ⟨U, V, lim, P, c - t, false, false⟩ ∧
      raisedAt ⟨U, V, lim, P, c, false, false⟩ t = false := by
  induction t with
  | zero => intro c _ _; exact ⟨rfl, rfl⟩
  | succ t ih =>
    intro c h1 h2
    obtain ⟨a1, _⟩ := ih c (by omega) h2
    have hw := tickRead_wait U V lim P (c - t) hP (by omega) (by omega)
    constructor
    · simp only [afterRounds, a1, hw]
      congr 1
    · simp only [raisedAt, a1, hw]

theorem countdown_fire (U V lim P : Nat) (hP : P ≠ 0) (c : Nat) (h1 : 1 ≤ c) (h2 : c < ULONG) :
    afterRounds ⟨U, V, lim, P, c, false, false⟩ c
      = ⟨(dkStep (U, V)).1, (dkStep (U, V)).2, lim, P,
          ((dkStep (U, V)).2 * P) % ULONG, false, false⟩ ∧
    raisedAt ⟨U, V, lim, P, c, false, false⟩ c = true := by
  obtain ⟨t, rfl⟩ : ∃ t, c = t + 1 := ⟨c - 1, by omega⟩
  obtain ⟨a1, _⟩ := countdown_phase U V lim P hP t (t + 1) (by omega) h2
  have e : t + 1 - t = 1 := by omega
  rw [e] at a1
  constructor
  · simp only [afterRounds, a1, tickRead_fire U V lim P hP]
  · simp only [raisedAt, a1, tickRead_fire U V lim P hP]

theorem enable_state (r0 : Reluctant) (p l : Int) (hp : 0 < p) (hp2 : p.toNat < ULONG)
    (hl : l ≤ 0) :
    enable r0 p l = ⟨1, 1, r0.limit, p.toNat, p.toNat, false, false⟩ := by
  have e : (p % (ULONG : Int)).toNat = p.toNat := by
    have h1 : p % (ULONG : Int) = p := by
      apply Int.emod_eq_of_lt (le_of_lt hp)
      have : (p.toNat : Int) < (ULONG : Int) := by exact_mod_cast hp2
      rw [Int.toNat_of_nonneg (le_of_lt hp)] at this
      exact this
    rw [h1]
  have hl' : ¬ (0 < l) := by omega
  simp [enable, e, hl, hl']

/-- State reached after the k-th raise of the trigger has been read. -/
theorem state_after_raises (r0 : Reluctant) (p l : Int) (hp : 0 < p) (hp2 : p.toNat < ULONG)
    (hl : l ≤ 0) (k : Nat) :
    k < ULONG → (∀ j, 1 ≤ j → j ≤ k → luby j * p.toNat < ULONG) →
    afterRounds (enable r0 p l) (lubySum k * p.toNat)
      = ⟨(dkStep^[k] (1, 1)).1, (dkStep^[k] (1, 1)).2, r0.limit, p.toNat,
          ((dkStep^[k] (1, 1)).2 * p.toNat) % ULONG, false, false⟩ := by
  have hP : p.toNat ≠ 0 := by
    have : 0 < p.toNat := by omega
    omega
  induction k with
  | zero =>
    intro _ _
    simp only [lubySum, Nat.zero_mul, afterRounds, Function.iterate_zero, id_eq, Nat.one_mul]
    rw [Nat.mod_eq_of_lt hp2]
    exact enable_state r0 p l hp hp2 hl
  | succ k ih =>
    intro hk hov
    have hprev := ih (by omega) (fun j h1 h2 => hov j h1 (by omega))
    have hv : (dkStep^[k] (1, 1)).2 = luby (k + 1) := by
      have := dk_luby (k + 1) (by omega) hk
      simpa using this
    have hc := hov (k + 1) (by omega) (le_refl _)
    have hpos : 1 ≤ luby (k + 1) * p.toNat :=
      Nat.mul_pos (luby_pos _) (by omega)
    have e : lubySum (k + 1) * p.toNat = lubySum k * p.toNat + luby (k + 1) * p.toNat := by
      simp only [lubySum, Nat.add_mul]
    rw [e, afterRounds_add, hprev, hv, Nat.mod_eq_of_lt hc]
    have hf := (countdown_fire (dkStep^[k] (1, 1)).1 (luby (k + 1)) r0.limit p.toNat hP
      (luby (k + 1) * p.toNat) hpos hc).1
    rw [hf, Function.iterate_succ_apply']
    have hpair : ((dkStep^[k] (1, 1)).1, luby (k + 1)) = dkStep^[k] (1, 1) := by
      rw [← hv]
    rw [hpair]

end Reluctant

/-- C10: after enable(P, l) with P > 0 and no ceiling (l ≤ 0), with the trigger read after
every tick, the k-th raise of the trigger comes exactly luby(k)·P ticks after the
(k-1)-th one (after enable for k = 1), as long as the counters stay below 2^64: no tick
strictly between lubySum(k-1)·P and lubySum(k)·P raises the trigger and the tick number
lubySum(k)·P does. -/
theorem reluctant_luby_intervals (r0 : Reluctant) (p l : Int) (k : Nat)
    (hp : 0 < p) (hl : l ≤ 0) (hk : 1 ≤ k) (hk2 : k < ULONG)
    (hov : ∀ j, j ≤ k → luby j * p.toNat < ULONG) :
    lubySum k = lubySum (k - 1) + luby k ∧
    ∀ n, lubySum (k - 1) * p.toNat < n → n ≤ lubySum k * p.toNat →
      (Reluctant.raisedAt (Reluctant.enable r0 p l) n = true ↔ n = lubySum k * p.toNat) := by
  obtain ⟨k, rfl⟩ : ∃ k', k = k' + 1 := ⟨k - 1, by omega⟩
  have hP : p.toNat ≠ 0 := by
    have : 0 < p.toNat := by omega
    omega
  have hp2 : p.toNat < ULONG := by
    have := hov 0 (by omega)
    have h1 := luby_pos 0
    calc p.toNat = 1 * p.toNat := by rw [Nat.one_mul]
      _ ≤ luby 0 * p.toNat := Nat.mul_le_mul_right _ h1
      _ < ULONG := this
  refine ⟨rfl, ?_⟩
  intro n h1 h2
  simp only [Nat.add_sub_cancel] at h1
  have hst := Reluctant.state_after_raises r0 p l hp hp2 hl k (by omega)
    (fun j _ h2 => hov j (by omega))
  have hv : (Reluctant.dkStep^[k] (1, 1)).2 = luby (k + 1) := by
    have := dk_luby (k + 1) (by omega) hk2
    simpa using this
  have hc := hov (k + 1) (le_refl _)
  have e : lubySum (k + 1) * p.toNat = lubySum k * p.toNat + luby (k + 1) * p.toNat := by
    simp only [lubySum, Nat.add_mul]
  rw [e] at h2 ⊢
  obtain ⟨t, rfl⟩ : ∃ t, n = lubySum k * p.toNat + (t + 1) :=
    ⟨n - lubySum k * p.toNat - 1, by omega⟩
  rw [Reluctant.raisedAt_add, hst, hv, Nat.mod_eq_of_lt hc]
  by_cases ht : t + 1 = luby (k + 1) * p.toNat
  · rw [ht]
    have := (Reluctant.countdown_fire (Reluctant.dkStep^[k] (1, 1)).1 (luby (k + 1)) r0.limit
      p.toNat hP (luby (k + 1) * p.toNat) (by omega) hc).2
    exact ⟨fun _ => rfl, fun _ => this⟩
  · have := (Reluctant.countdown_phase (Reluctant.dkStep^[k] (1, 1)).1 (luby (k + 1)) r0.limit
      p.toNat hP (t + 1) (luby (k + 1) * p.toNat) (by omega) hc).2
    rw [this]
    constructor
    · intro hf; exact absurd hf (by decide)
    · intro hf; omega

/-- Witness for C10 at P = 3, k = 7: the seventh interval has 12 = luby(7)·3 ticks. -/
theorem reluctant_luby_intervals_witness :
    lubySum 7 = lubySum 6 + luby 7 ∧
    ∀ n, lubySum 6 * 3 < n → n ≤ lubySum 7 * 3 →
      (Reluctant.raisedAt (Reluctant.enable ⟨0, 0, 0, 0, 0, false, false⟩ 3 0) n = true
        ↔ n = lubySum 7 * 3) :=
  reluctant_luby_intervals ⟨0, 0, 0, 0, 0, false, false⟩ 3 0 7 (by decide) (by decide)
    (by decide) (by decide) (by decide)

end CaDiCaL

namespace CaDiCaL

namespace Reluctant

/-- The cases of one call of tick() in a state whose trigger is not raised. -/
theorem tick_cases (r : Reluctant) (hP : 0 < r.period) (ht : r.trigger = false) :
    (1 ≤ r.countdown → r.countdown < ULONG →
      (r.countdown + (ULONG - 1)) % ULONG = r.countdown - 1) ∧
    ((r.countdown + (ULONG - 1)) % ULONG ≠ 0 →
      tick r = { r with countdown := (r.countdown + (ULONG - 1)) % ULONG }) ∧
    ((r.countdown + (ULONG - 1)) % ULONG = 0 →
      ∃ u1 v1 u2 v2,
        (u1, v1) = (if r.u &&& ((ULONG - r.u) % ULONG) = r.v then ((r.u + 1) % ULONG, 1)
                    else (r.u, (2 * r.v) % ULONG)) ∧
        (u2, v2) = (if r.limited = true ∧ r.limit ≤ v1 then (1, 1) else (u1, v1)) ∧
        tick r = { r with u := u2, v := v2, countdown := (v2 * r.period) % ULONG,
                          trigger := true }) := by
  have hp : r.period ≠ 0 := by omega
  refine ⟨?_, ?_, ?_⟩
  · intro h1 h2
    have : r.countdown + (ULONG - 1) = (r.countdown - 1) + ULONG := by
      unfold ULONG at *; omega
    rw [this, Nat.add_mod_right]
    exact Nat.mod_eq_of_lt (by omega)
  · intro hc
    simp [tick, hp, ht, hc]
  · intro hc
    refine ⟨(dkStep (r.u, r.v)).1, (dkStep (r.u, r.v)).2,
      (if r.limited = true ∧ r.limit ≤ (dkStep (r.u, r.v)).2 then (1, 1)
        else dkStep (r.u, r.v)).1,
      (if r.limited = true ∧ r.limit ≤ (dkStep (r.u, r.v)).2 then (1, 1)
        else dkStep (r.u, r.v)).2, ?_, ?_, ?_⟩
    · simp only [dkStep]
    · simp only [Prod.mk.eta]
    · simp only [tick, hp, ht, hc, if_false, ne_eq, not_true_eq_false, Bool.false_eq_true,
        Bool.and_eq_true, decide_eq_true_eq]

/-- With period 0 or a raised trigger tick() returns the state unchanged. -/
theorem tick_idle (r : Reluctant) (h : r.period = 0 ∨ r.trigger = true) : tick r = r := by
  rcases h with h | h
  · simp [tick, h]
  · by_cases hp : r.period = 0
    · simp [tick, hp]
    · simp [tick, hp, h]

/-- A read of the trigger clears it and changes nothing else. -/
theorem toBool_snd (r : Reluctant) : (toBool r).2 = { r with trigger := false } := by
  cases h : r.trigger <;> simp [toBool, h]
  cases r
  simp_all

/-- Counterexample to C11 as stated: with period 1 and the trigger raised, tick() does not
decrement the countdown. -/
theorem tick_step_counterexample :
    0 < (⟨1, 1, 0, 1, 5, true, false⟩ : Reluctant).period ∧
    (tick ⟨1, 1, 0, 1, 5, true, false⟩).countdown = 5 ∧
    ¬ (∀ r : Reluctant, 0 < r.period → (tick r).countdown = r.countdown - 1) := by
  refine ⟨by decide, by decide, ?_⟩
  intro h
  have := h ⟨1, 1, 0, 1, 5, true, false⟩ (by decide)
  revert this
  decide

/-- C11 (amended): for every state with period P > 0 whose trigger is not raised, tick()
decrements the countdown by one (unsigned 64-bit arithmetic); if the countdown does not
reach zero only the countdown changes; if it reaches zero, (u, v) becomes (u+1, 1) when
(u AND -u) = v and (u, 2v) otherwise, then (u, v) is reset to (1, 1) if a ceiling is set
and v ≥ L, then countdown := v·P and the trigger is raised. -/
theorem tick_step (r : Reluctant) (hP : 0 < r.period) (ht : r.trigger = false) :
    (1 ≤ r.countdown → r.countdown < ULONG →
      (r.countdown + (ULONG - 1)) % ULONG = r.countdown - 1) ∧
    ((r.countdown + (ULONG - 1)) % ULONG ≠ 0 →
      tick r = { r with countdown := (r.countdown + (ULONG - 1)) % ULONG }) ∧
    ((r.countdown + (ULONG - 1)) % ULONG = 0 →
      ∃ u1 v1 u2 v2,
        (u1, v1) = (if r.u &&& ((ULONG - r.u) % ULONG) = r.v then ((r.u + 1) % ULONG, 1)
                    else (r.u, (2 * r.v) % ULONG)) ∧
        (u2, v2) = (if r.limited = true ∧ r.limit ≤ v1 then (1, 1) else (u1, v1)) ∧
        tick r = { r with u := u2, v := v2, countdown := (v2 * r.period) % ULONG,
                          trigger := true }) :=
  tick_cases r hP ht

/-- Witness for C11 (amended): the state after enable(3, 0) and two ticks fires at the next
tick. -/
theorem tick_step_witness :
    tick ⟨1, 1, 0, 3, 1, false, false⟩ = ⟨2, 1, 0, 3, 3, true, false⟩ ∧
    ((1 ≤ (⟨1, 1, 0, 3, 1, false, false⟩ : Reluctant).countdown →
      (⟨1, 1, 0, 3, 1, false, false⟩ : Reluctant).countdown < ULONG →
      ((⟨1, 1, 0, 3, 1, false, false⟩ : Reluctant).countdown + (ULONG - 1)) % ULONG
        = (⟨1, 1, 0, 3, 1, false, false⟩ : Reluctant).countdown - 1)) :=
  ⟨by decide, (tick_step ⟨1, 1, 0, 3, 1, false, false⟩ (by decide) rfl).1⟩

/-- C12: converting a Reluctant to bool returns the current trigger, clears the trigger
and changes no other field; two consecutive reads never both return true. -/
theorem toBool_one_shot (r : Reluctant) :
    (toBool r).1 = r.trigger ∧ (toBool r).2 = { r with trigger := false } ∧
    ¬ ((toBool r).1 = true ∧ (toBool (toBool r).2).1 = true) := by
  cases h : r.trigger <;> simp [toBool, h]
  cases r
  simp_all

/-- C13: in a state with period 0 or with the trigger raised, tick() changes nothing, also
when it is called any number of times; after disable() every tick is such a no-op. -/
theorem tick_noop (r : Reluctant) (h : r.period = 0 ∨ r.trigger = true) :
    tick r = r ∧ (∀ n, tick^[n] r = r) ∧ tick (disable r) = disable r := by
  have h1 : tick r = r := by
    rcases h with h | h
    · simp [tick, h]
    · by_cases hp : r.period = 0
      · simp [tick, hp]
      · simp [tick, hp, h]
  refine ⟨h1, ?_, ?_⟩
  · intro n
    induction n with
    | zero => rfl
    | succ n ih => rw [Function.iterate_succ_apply', ih, h1]
  · simp [tick, disable]

/-- Witness for C13: a pending trigger freezes the countdown. -/
theorem tick_noop_witness :
    tick ⟨2, 1, 0, 3, 3, true, false⟩ = ⟨2, 1, 0, 3, 3, true, false⟩ ∧
    (∀ n, tick^[n] ⟨2, 1, 0, 3, 3, true, false⟩ = ⟨2, 1, 0, 3, 3, true, false⟩) ∧
    tick (disable ⟨2, 1, 0, 3, 3, true, false⟩) = disable ⟨2, 1, 0, 3, 3, true, false⟩ :=
  tick_noop ⟨2, 1, 0, 3, 3, true, false⟩ (Or.inr rfl)

/-- The invariant of a sequence enabled with period P and ceiling L. -/
theorem ceiling_inv_step (P L : Nat) (hP : 0 < P) (hL1 : 1 ≤ L) (hL2 : L < 2 ^ 63)
    (r : Reluctant)
    (h : r.period = P ∧ r.limited = true ∧ r.limit = L ∧ 1 ≤ r.v ∧ (r.v < L ∨ r.v = 1) ∧
      r.countdown < ULONG ∧ r.countdown ≤ max 1 (L - 1) * P ∧
      (r.countdown = 0 → ULONG ≤ max 1 (L - 1) * P)) :
    (tick r).period = P ∧ (tick r).limited = true ∧ (tick r).limit = L ∧ 1 ≤ (tick r).v ∧
      ((tick r).v < L ∨ (tick r).v = 1) ∧
      (tick r).countdown < ULONG ∧ (tick r).countdown ≤ max 1 (L - 1) * P ∧
      ((tick r).countdown = 0 → ULONG ≤ max 1 (L - 1) * P) := by
  obtain ⟨h1, h2, h3, h4, h5, h6, h7, h8⟩ := h
  have hU : ULONG = 2 ^ 64 := rfl
  have hpos : 0 < ULONG := by rw [hU]; norm_num
  by_cases c2 : r.trigger = true
  · rw [tick_idle r (Or.inr c2)]; exact ⟨h1, h2, h3, h4, h5, h6, h7, h8⟩
  have ht : r.trigger = false := by simpa using c2
  obtain ⟨_, s2, s3⟩ := tick_cases r (by omega) ht
  by_cases c3 : (r.countdown + (ULONG - 1)) % ULONG ≠ 0
  · rw [s2 c3]
    refine ⟨h1, h2, h3, h4, h5, Nat.mod_lt _ hpos, ?_, fun e => absurd e c3⟩
    show (r.countdown + (ULONG - 1)) % ULONG ≤ _
    by_cases c4 : r.countdown = 0
    · have := h8 c4
      have := Nat.mod_lt (r.countdown + (ULONG - 1)) hpos
      omega
    · have e : r.countdown + (ULONG - 1) = (r.countdown - 1) + ULONG := by omega
      rw [e, Nat.add_mod_right, Nat.mod_eq_of_lt (by omega)]
      omega
  · obtain ⟨u1, v1, u2, v2, e1, e2, e3⟩ := s3 (by simpa using c3)
    rw [e3]
    have hv1 : 1 ≤ v1 := by
      split at e1
      · simp only [Prod.mk.injEq] at e1; omega
      · simp only [Prod.mk.injEq] at e1
        rw [e1.2, Nat.mod_eq_of_lt (by rw [hU]; omega)]
        omega
    have hv2 : 1 ≤ v2 ∧ (v2 < L ∨ v2 = 1) := by
      split at e2
      · simp only [Prod.mk.injEq] at e2; omega
      · rename_i hc
        simp only [Prod.mk.injEq] at e2
        rw [e2.2]
        refine ⟨hv1, Or.inl ?_⟩
        by_contra hge
        exact hc ⟨h2, by omega⟩
    have hb : v2 * r.period ≤ max 1 (L - 1) * P := by
      rw [h1]
      apply Nat.mul_le_mul_right
      rcases hv2.2 with h | h
      · exact le_trans (by omega) (le_max_right 1 (L - 1))
      · rw [h]; exact le_max_left 1 (L - 1)
    refine ⟨h1, h2, h3, hv2.1, hv2.2, Nat.mod_lt _ hpos,
      le_trans (Nat.mod_le _ _) hb, ?_⟩
    intro e
    show ULONG ≤ _
    have e4 : (v2 * r.period) % ULONG = 0 := e
    have hge : 1 ≤ v2 * r.period := by
      rw [h1]; exact Nat.mul_pos hv2.1 hP
    by_contra hlt
    rw [Nat.mod_eq_of_lt (by omega)] at e4
    omega

/-- C14: after enable(P, L) with P > 0 and a ceiling L ≥ 1, after every sequence of ticks
and reads v < L holds when L ≥ 2 and v = 1 when L = 1, the countdown (hence every value
that tick() stores into it) is at most max(1, L-1)·P, and a tick whose doubling step
produces v ≥ L restarts the sequence from (u, v) = (1, 1). -/
theorem ceiling_bound (r0 : Reluctant) (p l : Int) (hp : 0 < p) (hp2 : p < 2 ^ 31)
    (hl : 1 ≤ l) (hl2 : l < 2 ^ 63) (ops : List Op) :
    (2 ≤ l → (applyOps (enable r0 p l) ops).v < l.toNat) ∧
    (l = 1 → (applyOps (enable r0 p l) ops).v = 1) ∧
    (applyOps (enable r0 p l) ops).countdown ≤ max 1 (l.toNat - 1) * p.toNat ∧
    (tick (applyOps (enable r0 p l) ops)).countdown ≤ max 1 (l.toNat - 1) * p.toNat ∧
    ((applyOps (enable r0 p l) ops).trigger = false →
      ((applyOps (enable r0 p l) ops).countdown + (ULONG - 1)) % ULONG = 0 →
      l.toNat ≤ (dkStep ((applyOps (enable r0 p l) ops).u, (applyOps (enable r0 p l) ops).v)).2 →
      (tick (applyOps (enable r0 p l) ops)).u = 1 ∧
      (tick (applyOps (enable r0 p l) ops)).v = 1) := by
  have hU : ULONG = 2 ^ 64 := rfl
  have hP : 0 < p.toNat := by omega
  have hL1 : 1 ≤ l.toNat := by omega
  have hL2 : l.toNat < 2 ^ 63 := by omega
  have key : ∀ ops : List Op, ∀ r : Reluctant,
      (r.period = p.toNat ∧ r.limited = true ∧ r.limit = l.toNat ∧ 1 ≤ r.v ∧
        (r.v < l.toNat ∨ r.v = 1) ∧
        r.countdown < ULONG ∧ r.countdown ≤ max 1 (l.toNat - 1) * p.toNat ∧
        (r.countdown = 0 → ULONG ≤ max 1 (l.toNat - 1) * p.toNat)) →
      ((applyOps r ops).period = p.toNat ∧ (applyOps r ops).limited = true ∧
        (applyOps r ops).limit = l.toNat ∧ 1 ≤ (applyOps r ops).v ∧
        ((applyOps r ops).v < l.toNat ∨ (applyOps r ops).v = 1) ∧
        (applyOps r ops).countdown < ULONG ∧
        (applyOps r ops).countdown ≤ max 1 (l.toNat - 1) * p.toNat ∧
        ((applyOps r ops).countdown = 0 → ULONG ≤ max 1 (l.toNat - 1) * p.toNat)) := by
    intro ops
    induction ops with
    | nil => intro r h; exact h
    | cons op ops ih =>
      intro r h
      cases op with
      | tick =>
        have e : applyOps r (Op.tick :: ops) = applyOps (tick r) ops := rfl
        rw [e]
        exact ih (tick r) (ceiling_inv_step _ _ hP hL1 hL2 r h)
      | read =>
        have e : applyOps r (Op.read :: ops) = applyOps (toBool r).2 ops := rfl
        rw [e]
        apply ih
        rw [toBool_snd r]
        exact h
  have hinit : (enable r0 p l).period = p.toNat ∧ (enable r0 p l).limited = true ∧
      (enable r0 p l).limit = l.toNat ∧ 1 ≤ (enable r0 p l).v ∧
      ((enable r0 p l).v < l.toNat ∨ (enable r0 p l).v = 1) ∧
      (enable r0 p l).countdown < ULONG ∧
      (enable r0 p l).countdown ≤ max 1 (l.toNat - 1) * p.toNat ∧
      ((enable r0 p l).countdown = 0 → ULONG ≤ max 1 (l.toNat - 1) * p.toNat) := by
    have e1 : (p % (ULONG : Int)).toNat = p.toNat := by
      rw [Int.emod_eq_of_lt (by omega) (by rw [hU]; push_cast; omega)]
    have e2 : (l % (ULONG : Int)).toNat = l.toNat := by
      rw [Int.emod_eq_of_lt (by omega) (by rw [hU]; push_cast; omega)]
    have hl0 : ¬ l ≤ 0 := by omega
    have hb : p.toNat ≤ max 1 (l.toNat - 1) * p.toNat :=
      Nat.le_mul_of_pos_left _ (lt_of_lt_of_le Nat.one_pos (le_max_left 1 _))
    refine ⟨e1, by simp [enable]; omega, by simp [enable, hl0, e2], le_refl _, Or.inr rfl,
      ?_, ?_, ?_⟩
    · show (p % (ULONG : Int)).toNat < ULONG
      rw [e1, hU]; omega
    · show (p % (ULONG : Int)).toNat ≤ _
      rw [e1]; exact hb
    · intro e
      have : (p % (ULONG : Int)).toNat = 0 := e
      omega
  obtain ⟨k1, k2, k3, k4, k5, k6, k7, k8⟩ := key ops _ hinit
  obtain ⟨_, _, _, _, _, _, t7, _⟩ := ceiling_inv_step _ _ hP hL1 hL2 _
    ⟨k1, k2, k3, k4, k5, k6, k7, k8⟩
  refine ⟨?_, ?_, k7, t7, ?_⟩
  · intro h2
    rcases k5 with h | h
    · exact h
    · rw [h]; omega
  · intro h1
    rcases k5 with h | h
    · omega
    · exact h
  · intro ht hc hge
    obtain ⟨_, _, s3⟩ := tick_cases (applyOps (enable r0 p l) ops) (by omega) ht
    obtain ⟨u1, v1, u2, v2, e1, e2, e3⟩ := s3 hc
    rw [e3]
    have hv : v1 = (dkStep ((applyOps (enable r0 p l) ops).u,
        (applyOps (enable r0 p l) ops).v)).2 := by
      unfold dkStep
      rw [← e1]
    rw [if_pos ⟨k2, by rw [k3, hv]; exact hge⟩] at e2
    simp only [Prod.mk.injEq] at e2
    exact ⟨e2.1, e2.2⟩

/-- Witness for C14 at P = 2, L = 3 and the operations tick, tick, read, tick. -/
theorem ceiling_bound_witness :
    (applyOps (enable ⟨0, 0, 0, 0, 0, false, false⟩ 2 3)
      [Op.tick, Op.tick, Op.read, Op.tick]).countdown ≤ max 1 ((3 : Int).toNat - 1) * (2 : Int).toNat :=
  (ceiling_bound ⟨0, 0, 0, 0, 0, false, false⟩ 2 3 (by decide) (by decide) (by decide)
    (by decide) [Op.tick, Op.tick, Op.read, Op.tick]).2.2.1

end Reluctant

end CaDiCaL

namespace CaDiCaL

namespace External

theorem getD_pad (A : List Bool) (n x : Nat) :
    (A ++ List.replicate n false).getD x false = A.getD x false := by
  simp only [List.getD_eq_getElem?_getD]
  by_cases h : x < A.length
  · rw [List.getElem?_append_left h]
  · push_neg at h
    rw [List.getElem?_append_right h, List.getElem?_eq_none h]
    by_cases h2 : x - A.length < n
    · rw [List.getElem?_replicate_of_lt h2]; rfl
    · rw [List.getElem?_eq_none (by simpa using h2)]

/-- The flip inverts the entry at the index and leaves every other entry as it is. -/
theorem getD_flip (A : List Bool) (i x : Nat) :
    (flip A i).getD x false = if x = i then !(A.getD i false) else A.getD x false := by
  unfold flip
  simp only [List.getD_eq_getElem?_getD]
  have hlen : i < (A ++ List.replicate (i + 1 - A.length) false).length := by
    simp only [List.length_append, List.length_replicate]; omega
  by_cases h : x = i
  · subst h
    rw [if_pos rfl, List.getElem?_set_self hlen]
    simp only [Option.getD_some]
    have := getD_pad A (x + 1 - A.length) x
    simp only [List.getD_eq_getElem?_getD] at this
    rw [this]
  · rw [if_neg h, List.getElem?_set_ne (Ne.symm h)]
    have := getD_pad A (i + 1 - A.length) x
    simp only [List.getD_eq_getElem?_getD] at this
    exact this

theorem val_cases (A : List Bool) (l : Int) : val A l = 1 ∨ val A l = -1 := by
  unfold val
  generalize A.getD l.natAbs false = b
  cases b <;> by_cases h2 : l < 0 <;> simp [h2]

theorem val_neg (A : List Bool) (l : Int) (h : l ≠ 0) : val A (-l) = - val A l := by
  unfold val
  have e : (-l).natAbs = l.natAbs := Int.natAbs_neg l
  rw [e]
  by_cases h2 : l < 0
  · have : ¬ (-l < 0) := by omega
    simp [h2, this]
  · have : -l < 0 := by omega
    simp [h2, this]

theorem val_flip_self (A : List Bool) (l : Int) : val (flip A l.natAbs) l = - val A l := by
  unfold val
  rw [getD_flip, if_pos rfl]
  generalize A.getD l.natAbs false = b
  cases b <;> by_cases h2 : l < 0 <;> simp [h2]

theorem val_flip_other (A : List Bool) (i : Nat) (l : Int) (h : l.natAbs ≠ i) :
    val (flip A i) l = val A l := by
  unfold val
  rw [getD_flip, if_neg h]

theorem extendClauseWalk_block (A : List Bool) (L rest : List Int) (hL : ∀ l ∈ L, l ≠ 0) :
    ∀ sat, extendClauseWalk A (L ++ 0 :: rest) sat
      = some (sat || L.any (fun c => decide (0 < val A c)), rest) := by
  induction L with
  | nil => intro sat; simp [extendClauseWalk]
  | cons l L ih =>
    intro sat
    have hl : l ≠ 0 := hL l (List.mem_cons_self _ _)
    have ih2 := ih (fun x hx => hL x (List.mem_cons_of_mem _ hx))
    simp only [List.cons_append, extendClauseWalk, if_neg hl]
    cases sat with
    | true => simp [ih2]
    | false => simp [ih2]

theorem extendSkipWalk_block (L rest : List Int) (hL : ∀ l ∈ L, l ≠ 0) :
    extendSkipWalk (L ++ 0 :: rest) = some rest := by
  induction L with
  | nil => simp [extendSkipWalk]
  | cons l L ih =>
    have hl : l ≠ 0 := hL l (List.mem_cons_self _ _)
    simp only [List.cons_append, extendSkipWalk, if_neg hl]
    exact ih (fun x hx => hL x (List.mem_cons_of_mem _ hx))

theorem extendFlipWalk_block (L rest : List Int) (hL : ∀ l ∈ L, l ≠ 0) :
    ∀ st, extendFlipWalk (L ++ 0 :: rest) st
      = some (L.foldl (fun acc w =>
          if val acc.1 w < 0 then (flip acc.1 w.natAbs, acc.2 + 1) else acc) st, rest) := by
  induction L with
  | nil => intro st; simp [extendFlipWalk]
  | cons l L ih =>
    intro st
    have hl : l ≠ 0 := hL l (List.mem_cons_self _ _)
    have ih2 := ih (fun x hx => hL x (List.mem_cons_of_mem _ hx))
    simp only [List.cons_append, extendFlipWalk, if_neg hl, List.foldl_cons]
    by_cases h : val st.1 l < 0
    · simp only [if_pos h]; exact ih2 _
    · simp only [if_neg h]; exact ih2 _

/-- One iteration of the outer loop on a stack that ends in the block 0 W 0 C. -/
theorem extendBlock_eq_spec (pre W C : List Int) (st : List Bool × Int)
    (hW : ∀ w ∈ W, w ≠ 0) (hC : ∀ c ∈ C, c ≠ 0) :
    extendBlock ((pre ++ 0 :: W ++ 0 :: C).reverse) st
      = some (blockStepSpec W C st, pre.reverse) := by
  have hrev : (pre ++ 0 :: W ++ 0 :: C).reverse
      = C.reverse ++ 0 :: (W.reverse ++ 0 :: pre.reverse) := by
    simp [List.reverse_append]
  have hC2 : ∀ c ∈ C.reverse, c ≠ 0 := fun c hc => hC c (List.mem_reverse.mp hc)
  have hW2 : ∀ w ∈ W.reverse, w ≠ 0 := fun w hw => hW w (List.mem_reverse.mp hw)
  rw [hrev]
  unfold extendBlock
  rw [extendClauseWalk_block st.1 C.reverse _ hC2 false]
  simp only [Bool.false_or, List.any_reverse]
  unfold blockStepSpec
  by_cases h : C.any (fun c => decide (0 < val st.1 c)) = true
  · rw [h, if_pos rfl]
    simp only [extendSkipWalk_block W.reverse pre.reverse hW2]
  · have h2 : C.any (fun c => decide (0 < val st.1 c)) = false := by
      simpa using h
    rw [h2, if_neg (by simp)]
    simp only [extendFlipWalk_block W.reverse pre.reverse hW2, List.foldl_reverse]

theorem flipFold_frame (W : List Int) (st : List Bool × Int) (x : Nat)
    (hx : ∀ w ∈ W, w.natAbs ≠ x) :
    (W.foldr (fun w acc =>
      if val acc.1 w < 0 then (flip acc.1 w.natAbs, acc.2 + 1) else acc) st).1.getD x false
      = st.1.getD x false := by
  induction W with
  | nil => rfl
  | cons w W ih =>
    have ih2 := ih (fun y hy => hx y (List.mem_cons_of_mem _ hy))
    have hw : w.natAbs ≠ x := hx w (List.mem_cons_self _ _)
    simp only [List.foldr_cons]
    split
    · simp only [getD_flip, if_neg (Ne.symm hw)]
      exact ih2
    · exact ih2

/-- C4: one block 0 W 0 C on top of the extension stack is processed by one iteration of
the outer loop of External::extend as the claim says: (a) when a literal of C is true the
assignment and the flip counter are unchanged; (b) otherwise W is walked from last to
first and the variable of every literal that is false when visited is inverted, each
inversion counted once; every variable that does not occur in W keeps its value; and
an inversion changes exactly the entry of its variable. -/
theorem extend_block_step (pre W C : List Int) (st : List Bool × Int)
    (hW : ∀ w ∈ W, w ≠ 0) (hC : ∀ c ∈ C, c ≠ 0) :
    extendBlock ((pre ++ 0 :: W ++ 0 :: C).reverse) st
        = some (blockStepSpec W C st, pre.reverse) ∧
    ((∃ c ∈ C, 0 < val st.1 c) → blockStepSpec W C st = st) ∧
    ((¬ ∃ c ∈ C, 0 < val st.1 c) → blockStepSpec W C st
        = W.reverse.foldl (fun acc w =>
            if val acc.1 w < 0 then (flip acc.1 w.natAbs, acc.2 + 1) else acc) st) ∧
    (∀ x, (∀ w ∈ W, w.natAbs ≠ x) →
        (blockStepSpec W C st).1.getD x false = st.1.getD x false) ∧
    (∀ (A : List Bool) (i x : Nat),
        (flip A i).getD x false = if x = i then !(A.getD i false) else A.getD x false) := by
  refine ⟨extendBlock_eq_spec pre W C st hW hC, ?_, ?_, ?_, getD_flip⟩
  · intro h
    unfold blockStepSpec
    rw [if_pos]
    simpa using h
  · intro h
    unfold blockStepSpec
    rw [if_neg, List.foldl_reverse]
    simpa using h
  · intro x hx
    unfold blockStepSpec
    split
    · rfl
    · exact flipFold_frame W st x hx

/-- Witness for C4: the block 0 1 0 1 2 under the assignment a = b = false. -/
theorem extend_block_step_witness :
    extendBlock (([] ++ 0 :: [1] ++ 0 :: [1, 2]).reverse) ([false, false, false], 0)
        = some (blockStepSpec [1] [1, 2] ([false, false, false], 0), ([] : List Int).reverse) ∧
    blockStepSpec [1] [1, 2] ([false, false, false], 0) = ([false, true, false], 1) :=
  ⟨(extend_block_step [] [1] [1, 2] ([false, false, false], 0)
      (by decide) (by decide)).1, by decide⟩

theorem flipFold_true (W : List Int) (st : List Bool × Int)
    (hW : ∀ w ∈ W, w ≠ 0) (hf : ∀ w ∈ W, val st.1 w < 0) :
    ∀ w ∈ W, 0 < val (W.foldr (fun w acc =>
      if val acc.1 w < 0 then (flip acc.1 w.natAbs, acc.2 + 1) else acc) st).1 w := by
  induction W with
  | nil => intro w hw; cases hw
  | cons a W ih =>
    have ih2 := ih (fun y hy => hW y (List.mem_cons_of_mem _ hy))
      (fun y hy => hf y (List.mem_cons_of_mem _ hy))
    have ha : a ≠ 0 := hW a (List.mem_cons_self _ _)
    intro w hw
    simp only [List.foldr_cons]
    generalize hacc : (W.foldr (fun w acc =>
      if val acc.1 w < 0 then (flip acc.1 w.natAbs, acc.2 + 1) else acc) st) = acc at ih2 ⊢
    by_cases hc : val acc.1 a < 0
    · simp only [if_pos hc]
      rcases List.mem_cons.mp hw with rfl | hw'
      · rw [val_flip_self]; omega
      · by_cases hv : w.natAbs = a.natAbs
        · exfalso
          rcases Int.natAbs_eq_natAbs_iff.mp hv with e | e
          · subst e
            have := ih2 w hw'
            omega
          · have h1 := hf w (List.mem_cons_of_mem _ hw')
            have h2 := hf a (List.mem_cons_self _ _)
            rw [e, val_neg _ _ ha] at h1
            omega
        · rw [val_flip_other _ _ _ hv]
          exact ih2 w hw'
    · simp only [if_neg hc]
      rcases List.mem_cons.mp hw with rfl | hw'
      · rcases val_cases acc.1 w with h | h <;> omega
      · exact ih2 w hw'

/-- C5: for a block 0 W 0 C with W non-empty and every literal of W in C, the assignment
left by the iteration of External::extend that processes the block satisfies C, and when
the block is not skipped (no literal of C was true) every literal of W is true in it. -/
theorem extend_block_satisfies (pre W C : List Int) (st : List Bool × Int)
    (hW : ∀ w ∈ W, w ≠ 0) (hC : ∀ c ∈ C, c ≠ 0) (hne : W ≠ []) (hsub : ∀ w ∈ W, w ∈ C) :
    ∃ st2, extendBlock ((pre ++ 0 :: W ++ 0 :: C).reverse) st = some (st2, pre.reverse) ∧
      (∃ c ∈ C, 0 < val st2.1 c) ∧
      ((¬ ∃ c ∈ C, 0 < val st.1 c) → ∀ w ∈ W, 0 < val st2.1 w) := by
  refine ⟨blockStepSpec W C st, extendBlock_eq_spec pre W C st hW hC, ?_, ?_⟩
  · by_cases h : ∃ c ∈ C, 0 < val st.1 c
    · have e : blockStepSpec W C st = st := by
        unfold blockStepSpec
        rw [if_pos]
        simpa using h
      rw [e]; exact h
    · have e : blockStepSpec W C st = W.foldr (fun w acc =>
          if val acc.1 w < 0 then (flip acc.1 w.natAbs, acc.2 + 1) else acc) st := by
        unfold blockStepSpec
        rw [if_neg]
        simpa using h
      rw [e]
      obtain ⟨w, hw⟩ := List.exists_mem_of_ne_nil W hne
      have hf : ∀ w ∈ W, val st.1 w < 0 := by
        intro w hw
        have : ¬ 0 < val st.1 w := fun hp => h ⟨w, hsub w hw, hp⟩
        rcases val_cases st.1 w with h1 | h1 <;> omega
      exact ⟨w, hsub w hw, flipFold_true W st hW hf w hw⟩
  · intro h
    have e : blockStepSpec W C st = W.foldr (fun w acc =>
        if val acc.1 w < 0 then (flip acc.1 w.natAbs, acc.2 + 1) else acc) st := by
      unfold blockStepSpec
      rw [if_neg]
      simpa using h
    rw [e]
    have hf : ∀ w ∈ W, val st.1 w < 0 := by
      intro w hw
      have : ¬ 0 < val st.1 w := fun hp => h ⟨w, hsub w hw, hp⟩
      rcases val_cases st.1 w with h1 | h1 <;> omega
    exact flipFold_true W st hW hf

/-- Witness for C5: the block 0 1 0 1 2 under the assignment a = b = false. -/
theorem extend_block_satisfies_witness :
    ∃ st2, extendBlock (([] ++ 0 :: [1] ++ 0 :: [1, 2]).reverse) ([false, false, false], 0)
        = some (st2, ([] : List Int).reverse) ∧
      (∃ c ∈ [1, 2], 0 < val st2.1 c) ∧
      ((¬ ∃ c ∈ [1, 2], 0 < val ([false, false, false], (0 : Int)).1 c) →
        ∀ w ∈ [1], 0 < val st2.1 w) :=
  extend_block_satisfies [] [1] [1, 2] ([false, false, false], 0)
    (by decide) (by decide) (by decide) (by decide)

end External

end CaDiCaL

namespace CaDiCaL

namespace External

theorem blocksOf_append (bs cs : List (List Int × List Int)) :
    blocksOf (bs ++ cs) = blocksOf bs ++ blocksOf cs := by
  induction bs with
  | nil => rfl
  | cons b bs ih =>
    show 0 :: b.1 ++ 0 :: b.2 ++ blocksOf (bs ++ cs) = (0 :: b.1 ++ 0 :: b.2 ++ blocksOf bs) ++ _
    rw [ih]; simp

theorem blocksOf_snoc (bs : List (List Int × List Int)) (b : List Int × List Int) :
    blocksOf (bs ++ [b]) = blocksOf bs ++ 0 :: b.1 ++ 0 :: b.2 := by
  rw [blocksOf_append]
  show blocksOf bs ++ (0 :: b.1 ++ 0 :: b.2 ++ []) = _
  simp

theorem WellFormed.append {bs cs : List (List Int × List Int)} (h1 : WellFormed bs)
    (h2 : WellFormed cs) : WellFormed (bs ++ cs) := by
  intro b hb
  rcases List.mem_append.mp hb with h | h
  · exact h1 b h
  · exact h2 b h

/-- The backward scan of External::extend over a stack of well-formed blocks: every
block is processed once, last pushed first, and the scan ends at the first entry. -/
theorem extendLoop_blocks (bs : List (List Int × List Int)) :
    ∀ (fuel : Nat) (st : List Bool × Int), WellFormed bs → bs.length ≤ fuel →
      extendLoop fuel (blocksOf bs).reverse st =
        some (bs.foldr (fun b acc => blockStepSpec b.1 b.2 acc) st) := by
  induction bs using List.reverseRecOn with
  | nil =>
    intro fuel st _ _
    cases fuel <;> rfl
  | append_singleton bs b ih =>
    intro fuel st hw hf
    have hb := hw b (by simp)
    have hbs : WellFormed bs := fun x hx => hw x (List.mem_append_left _ hx)
    rw [List.length_append, List.length_singleton] at hf
    obtain ⟨fuel, rfl⟩ : ∃ k, fuel = k + 1 := ⟨fuel - 1, by omega⟩
    have hstep := extendBlock_eq_spec (blocksOf bs) b.1 b.2 st hb.1 hb.2
    rw [blocksOf_snoc, List.foldr_append]
    have hne : ∃ x rest, (blocksOf bs ++ 0 :: b.1 ++ 0 :: b.2).reverse = x :: rest := by
      cases hr : (blocksOf bs ++ 0 :: b.1 ++ 0 :: b.2).reverse with
      | nil =>
        have := congrArg List.length hr
        simp at this
      | cons x rest => exact ⟨x, rest, rfl⟩
    obtain ⟨x, rest, hx⟩ := hne
    rw [hx] at hstep ⊢
    unfold extendLoop
    rw [hstep]
    simp only [List.foldr_cons, List.foldr_nil]
    exact ih fuel _ hbs (by omega)

end External

end CaDiCaL

namespace CaDiCaL

namespace Internal

open External

theorem externalize_congr {s t : Internal} (h : t.i2e = s.i2e) (l : Int) :
    t.externalize l = s.externalize l := by
  unfold Internal.externalize; rw [h]

theorem push_zero_ext (s : Internal) :
    (s.push_zero_on_extension_stack).external.extension = s.external.extension ++ [0] := rfl

theorem push_zero_externalize (s : Internal) (l : Int) :
    (s.push_zero_on_extension_stack).externalize l = s.externalize l := rfl

theorem push_witness_ext (s : Internal) (a : Int) :
    (s.push_witness_literal_on_extension_stack a).external.extension =
      s.external.extension ++ [s.externalize a] := rfl

theorem push_witness_externalize (s : Internal) (a l : Int) :
    (s.push_witness_literal_on_extension_stack a).externalize l = s.externalize l := rfl

theorem push_clause_literal_ext (s : Internal) (a : Int) :
    (s.push_clause_literal_on_extension_stack a).external.extension =
      s.external.extension ++ [s.externalize a] := rfl

theorem push_clause_literal_externalize (s : Internal) (a l : Int) :
    (s.push_clause_literal_on_extension_stack a).externalize l = s.externalize l := rfl

theorem foldl_push_clause_literal (lits : List Int) : ∀ s : Internal,
    (lits.foldl push_clause_literal_on_extension_stack s).external.extension =
      s.external.extension ++ lits.map s.externalize ∧
    ∀ l, (lits.foldl push_clause_literal_on_extension_stack s).externalize l =
      s.externalize l := by
  induction lits with
  | nil => intro s; simp
  | cons a lits ih =>
    intro s
    rw [List.foldl_cons]
    obtain ⟨h1, h2⟩ := ih (s.push_clause_literal_on_extension_stack a)
    refine ⟨?_, fun l => (h2 l).trans (push_clause_literal_externalize s a l)⟩
    rw [h1, push_clause_literal_ext]
    have : (s.push_clause_literal_on_extension_stack a).externalize = s.externalize :=
      funext (push_clause_literal_externalize s a)
    rw [this]
    simp

theorem extendOf_foldl (pushes : List (Int × List Int × List Int)) : ∀ cv : Coveror,
    (pushes.foldl (fun cv p =>
      cover_push_extension p.1 { cv with clause := p.2.1, covered := p.2.2 }) cv).extend =
      cv.extend ++ prefixesOf pushes := by
  induction pushes with
  | nil => intro cv; simp [prefixesOf]
  | cons p ps ih =>
    intro cv
    rw [List.foldl_cons, ih]
    simp [cover_push_extension, prefixesOf]

theorem extendOf_eq (pushes : List (Int × List Int × List Int)) :
    extendOf pushes = prefixesOf pushes := by
  unfold extendOf
  rw [extendOf_foldl]
  rfl

theorem coverReplay_nonzero (a : Int) (rest : List Int) (prev : Int) (s : Internal)
    (ha : a ≠ 0) (hp : prev ≠ 0) :
    coverReplay (a :: rest) prev s =
      coverReplay rest a (s.push_clause_literal_on_extension_stack a) := by
  rw [coverReplay, if_pos ha, if_neg hp]

theorem coverReplay_zero (rest : List Int) (prev : Int) (s : Internal) (hp : prev ≠ 0) :
    coverReplay (0 :: rest) prev s = coverReplay rest 0 s := by
  rw [coverReplay, if_neg (by simp), if_neg hp]

theorem coverReplay_pivot (a : Int) (rest : List Int) (s : Internal) (ha : a ≠ 0) :
    coverReplay (a :: rest) 0 s =
      coverReplay rest a
        ((((s.push_zero_on_extension_stack).push_witness_literal_on_extension_stack a
          ).push_zero_on_extension_stack).push_clause_literal_on_extension_stack a) := by
  rw [coverReplay, if_pos ha, if_pos rfl]

/-- The replay of the literals behind the pivot of a prefix: each is pushed as a clause
literal. -/
theorem coverReplay_rest (rest : List Int) (more : List Int) :
    ∀ (prev : Int) (s : Internal), prev ≠ 0 → (∀ l ∈ rest, l ≠ 0) →
      ∃ prev2, prev2 ≠ 0 ∧ coverReplay (rest ++ more) prev s =
        coverReplay more prev2 (rest.foldl push_clause_literal_on_extension_stack s) := by
  induction rest with
  | nil => intro prev s hp _; exact ⟨prev, hp, rfl⟩
  | cons a rest ih =>
    intro prev s hp hr
    have ha : a ≠ 0 := hr a (List.mem_cons_self _ _)
    obtain ⟨prev2, h1, h2⟩ := ih a (s.push_clause_literal_on_extension_stack a) ha
      (fun l hl => hr l (List.mem_cons_of_mem _ hl))
    refine ⟨prev2, h1, ?_⟩
    rw [List.foldl_cons, ← h2, List.cons_append, coverReplay_nonzero a _ prev s ha hp]

/-- The replay of a vector of prefixes pushes one block for each. -/
theorem coverReplay_prefixes (ps : List (Int × List Int × List Int)) :
    ∀ (prev : Int) (s : Internal), prev ≠ 0 →
      (∀ p ∈ ps, p.1 ≠ 0 ∧ (∀ l ∈ p.2.1, l ≠ 0) ∧ (∀ l ∈ p.2.2, l ≠ 0)) →
      (coverReplay (prefixesOf ps) prev s).external.extension =
        s.external.extension ++ blocksOf ((StackOp.replay ps).blocks s) ∧
      ∀ l, (coverReplay (prefixesOf ps) prev s).externalize l = s.externalize l := by
  induction ps with
  | nil => intro prev s _ _; simp [prefixesOf, coverReplay, StackOp.blocks, blocksOf]
  | cons p ps ih =>
    intro prev s hp hok
    obtain ⟨p1, p2, p3⟩ := hok p (List.mem_cons_self _ _)
    have hrest : ∀ l ∈ p.2.1.filter (fun other => other ≠ p.1) ++
        p.2.2.filter (fun other => other ≠ p.1), l ≠ 0 := by
      intro l hl
      rcases List.mem_append.mp hl with h | h
      · exact p2 l (List.mem_of_mem_filter h)
      · exact p3 l (List.mem_of_mem_filter h)
    generalize hR : p.2.1.filter (fun other => other ≠ p.1) ++
        p.2.2.filter (fun other => other ≠ p.1) = R at hrest
    have hpre : prefixesOf (p :: ps) = 0 :: p.1 :: (R ++ prefixesOf ps) := by
      rw [← hR]; simp [prefixesOf]
    have hblk : (StackOp.replay (p :: ps)).blocks s =
        ([s.externalize p.1], s.externalize p.1 :: R.map s.externalize) ::
          (StackOp.replay ps).blocks s := by
      rw [← hR]; rfl
    generalize hs1 : (((s.push_zero_on_extension_stack).push_witness_literal_on_extension_stack
      p.1).push_zero_on_extension_stack).push_clause_literal_on_extension_stack p.1 = s1
    have s1ext : s1.external.extension =
        s.external.extension ++ [0] ++ [s.externalize p.1] ++ [0] ++ [s.externalize p.1] := by
      rw [← hs1]; rfl
    have s1x : ∀ l, s1.externalize l = s.externalize l := by
      intro l; rw [← hs1]; rfl
    obtain ⟨prev2, q1, q2⟩ := coverReplay_rest R (prefixesOf ps) p.1 s1 p1 hrest
    obtain ⟨f1, f2⟩ := foldl_push_clause_literal R s1
    generalize hs2 : R.foldl push_clause_literal_on_extension_stack s1 = s2 at q2 f1 f2
    obtain ⟨g1, g2⟩ := ih prev2 s2 q1 (fun q hq => hok q (List.mem_cons_of_mem _ hq))
    have hx2 : s2.externalize = s.externalize := funext (fun l => (f2 l).trans (s1x l))
    have hb2 : (StackOp.replay ps).blocks s2 = (StackOp.replay ps).blocks s := by
      unfold StackOp.blocks
      rw [hx2]
    have e : coverReplay (prefixesOf (p :: ps)) prev s = coverReplay (prefixesOf ps) prev2 s2 := by
      rw [hpre, coverReplay_zero _ prev s hp, coverReplay_pivot p.1 _ s p1, hs1, q2]
    rw [e]
    refine ⟨?_, fun l => (g2 l).trans (congrFun hx2 l)⟩
    rw [g1, hb2, f1, s1ext, hblk]
    have : s1.externalize = s.externalize := funext s1x
    rw [this]
    simp [blocksOf]

theorem foldl_external_witness (w : List Int) : ∀ e : External,
    (w.foldl (fun e elit => { e with
      max_var := max e.max_var elit.natAbs,
      extension := e.extension ++ [elit],
      witness := fun x => if x = elit then true else e.witness x }) e).extension =
      e.extension ++ w := by
  induction w with
  | nil => intro e; simp
  | cons a w ih => intro e; rw [List.foldl_cons, ih]; simp

theorem foldl_external_clause (c : List Int) : ∀ e : External,
    (c.foldl (fun e elit => { e with
      max_var := max e.max_var elit.natAbs,
      extension := e.extension ++ [elit] }) e).extension = e.extension ++ c := by
  induction c with
  | nil => intro e; simp
  | cons a c ih => intro e; rw [List.foldl_cons, ih]; simp

theorem push_clause_blocks (s : Internal) (lits : List Int) (pivot : Int) :
    (s.push_clause_on_extension_stack lits pivot).external.extension =
      s.external.extension ++ blocksOf ((StackOp.clause lits pivot).blocks s) ∧
    ∀ l, (s.push_clause_on_extension_stack lits pivot).externalize l = s.externalize l := by
  generalize hs0 : ({ s with stats := { s.stats with
      weakened := s.stats.weakened + 1,
      weakenedlen := s.stats.weakenedlen + lits.length } } : Internal) = s0
  have e0 : s0.external.extension = s.external.extension := by rw [← hs0]
  have x0 : ∀ l, s0.externalize l = s.externalize l := by intro l; rw [← hs0]; rfl
  have hdef : s.push_clause_on_extension_stack lits pivot =
      lits.foldl push_clause_literal_on_extension_stack
        (((s0.push_zero_on_extension_stack).push_witness_literal_on_extension_stack pivot
          ).push_zero_on_extension_stack) := by
    rw [← hs0]; rfl
  obtain ⟨f1, f2⟩ := foldl_push_clause_literal lits
    (((s0.push_zero_on_extension_stack).push_witness_literal_on_extension_stack pivot
      ).push_zero_on_extension_stack)
  rw [hdef]
  constructor
  · rw [f1, push_zero_ext, push_witness_ext, push_zero_ext, push_zero_externalize, x0, e0]
    have : (((s0.push_zero_on_extension_stack).push_witness_literal_on_extension_stack pivot
      ).push_zero_on_extension_stack).externalize = s.externalize := by
      funext l
      rw [push_zero_externalize, push_witness_externalize, push_zero_externalize, x0]
    rw [this]
    simp [StackOp.blocks, blocksOf]
  · intro l
    rw [f2, push_zero_externalize, push_witness_externalize, push_zero_externalize, x0]

theorem push_binary_blocks (s : Internal) (pivot other : Int) :
    (s.push_binary_clause_on_extension_stack pivot other).external.extension =
      s.external.extension ++ blocksOf ((StackOp.binary pivot other).blocks s) ∧
    ∀ l, (s.push_binary_clause_on_extension_stack pivot other).externalize l =
      s.externalize l := by
  generalize hs0 : ({ s with stats := { s.stats with
      weakened := s.stats.weakened + 1,
      weakenedlen := s.stats.weakenedlen + 2 } } : Internal) = s0
  have e0 : s0.external.extension = s.external.extension := by rw [← hs0]
  have x0 : ∀ l, s0.externalize l = s.externalize l := by intro l; rw [← hs0]; rfl
  have hdef : s.push_binary_clause_on_extension_stack pivot other =
      (((((s0.push_zero_on_extension_stack).push_witness_literal_on_extension_stack pivot
          ).push_zero_on_extension_stack).push_clause_literal_on_extension_stack pivot
          ).push_clause_literal_on_extension_stack other) := by
    rw [← hs0]; rfl
  rw [hdef]
  constructor
  · simp only [push_clause_literal_ext, push_zero_ext, push_witness_ext,
      push_clause_literal_externalize, push_zero_externalize, push_witness_externalize, x0, e0]
    simp [StackOp.blocks, blocksOf]
  · intro l
    simp only [push_clause_literal_externalize, push_zero_externalize,
      push_witness_externalize, x0]

theorem push_external_blocks (s : Internal) (c w : List Int) :
    (s.push_external_clause_and_witness_on_extension_stack c w).external.extension =
      s.external.extension ++ blocksOf ((StackOp.external c w).blocks s) ∧
    ∀ l, (s.push_external_clause_and_witness_on_extension_stack c w).externalize l =
      s.externalize l := by
  constructor
  · unfold push_external_clause_and_witness_on_extension_stack
    simp only [foldl_external_clause, foldl_external_witness]
    simp [StackOp.blocks, blocksOf]
  · intro l; rfl

/-- Each stack operation appends its blocks and leaves the mapping to external
literals alone. -/
theorem applyOp_blocks (s : Internal) (op : StackOp) (hok : op.OK) :
    (applyOp s op).external.extension = s.external.extension ++ blocksOf (op.blocks s) ∧
    ∀ l, (applyOp s op).externalize l = s.externalize l := by
  cases op with
  | clause lits pivot => exact push_clause_blocks s lits pivot
  | binary pivot other => exact push_binary_blocks s pivot other
  | external c w => exact push_external_blocks s c w
  | replay pushes =>
    show (coverReplay (extendOf pushes) (-2147483648) s).external.extension = _ ∧
      ∀ l, (coverReplay (extendOf pushes) (-2147483648) s).externalize l = _
    rw [extendOf_eq]
    exact coverReplay_prefixes pushes _ s (by decide) hok

end Internal

end CaDiCaL

namespace CaDiCaL

namespace Internal

open External

theorem blocks_congr {s t : Internal} (h : ∀ l, t.externalize l = s.externalize l)
    (op : StackOp) : op.blocks t = op.blocks s := by
  have : t.externalize = s.externalize := funext h
  cases op <;> simp only [StackOp.blocks, this]

theorem blocksOfOps_congr {s t : Internal} (h : ∀ l, t.externalize l = s.externalize l)
    (ops : List StackOp) : blocksOfOps t ops = blocksOfOps s ops := by
  induction ops with
  | nil => rfl
  | cons op ops ih => simp only [blocksOfOps, blocks_congr h, ih]

theorem applyOps_blocks (ops : List StackOp) : ∀ s : Internal, (∀ op ∈ ops, op.OK) →
    (applyOps s ops).external.extension =
      s.external.extension ++ blocksOf (blocksOfOps s ops) ∧
    ∀ l, (applyOps s ops).externalize l = s.externalize l := by
  induction ops with
  | nil => intro s _; simp [applyOps, blocksOfOps, blocksOf]
  | cons op ops ih =>
    intro s hok
    obtain ⟨a1, a2⟩ := applyOp_blocks s op (hok op (List.mem_cons_self _ _))
    obtain ⟨b1, b2⟩ := ih (applyOp s op) (fun o ho => hok o (List.mem_cons_of_mem _ ho))
    have e : applyOps s (op :: ops) = applyOps (applyOp s op) ops := rfl
    rw [e]
    refine ⟨?_, fun l => (b2 l).trans (a2 l)⟩
    rw [b1, a1, blocksOfOps_congr a2]
    simp [blocksOfOps, blocksOf_append]

theorem wellFormed_blocks (s : Internal) (hi : ∀ l, l ≠ 0 → s.externalize l ≠ 0)
    (op : StackOp) (hok : op.OK) : WellFormed (op.blocks s) := by
  have hmap : ∀ L : List Int, (∀ l ∈ L, l ≠ 0) → ∀ c ∈ L.map s.externalize, c ≠ 0 := by
    intro L hL c hc
    obtain ⟨l, hl, rfl⟩ := List.mem_map.mp hc
    exact hi l (hL l hl)
  cases op with
  | clause lits pivot =>
    intro b hb
    rw [List.mem_singleton.mp hb]
    refine ⟨?_, hmap lits hok.2⟩
    intro w hw
    rw [List.mem_singleton.mp hw]
    exact hi pivot hok.1
  | binary pivot other =>
    intro b hb
    rw [List.mem_singleton.mp hb]
    constructor
    · intro w hw
      rw [List.mem_singleton.mp hw]
      exact hi pivot hok.1
    · intro c hc
      rcases List.mem_cons.mp hc with rfl | hc
      · exact hi pivot hok.1
      · rw [List.mem_singleton.mp hc]; exact hi other hok.2
  | external c w =>
    intro b hb
    rw [List.mem_singleton.mp hb]
    exact ⟨hok.2, hok.1⟩
  | replay pushes =>
    intro b hb
    obtain ⟨p, hp, rfl⟩ := List.mem_map.mp hb
    obtain ⟨p1, p2, p3⟩ := hok p hp
    constructor
    · intro w hw
      rw [List.mem_singleton.mp hw]
      exact hi p.1 p1
    · intro c hc
      rcases List.mem_cons.mp hc with rfl | hc
      · exact hi p.1 p1
      · refine hmap _ ?_ c hc
        intro l hl
        rcases List.mem_append.mp hl with h | h
        · exact p2 l (List.mem_of_mem_filter h)
        · exact p3 l (List.mem_of_mem_filter h)

theorem wellFormed_blocksOfOps (s : Internal) (hi : ∀ l, l ≠ 0 → s.externalize l ≠ 0)
    (ops : List StackOp) (hok : ∀ op ∈ ops, op.OK) : WellFormed (blocksOfOps s ops) := by
  induction ops with
  | nil => intro b hb; cases hb
  | cons op ops ih =>
    exact (wellFormed_blocks s hi op (hok op (List.mem_cons_self _ _))).append
      (ih (fun o ho => hok o (List.mem_cons_of_mem _ ho)))

theorem length_le_blocksOf (bs : List (List Int × List Int)) :
    bs.length ≤ (blocksOf bs).length := by
  induction bs with
  | nil => simp [blocksOf]
  | cons b bs ih => simp [blocksOf]; omega

/-- C17. Well-formed stack and safe backward parse: the extension stack built from the
empty stack by any sequence of the push functions of extend.cpp and of replays of
cover_clause, all with nonzero literals, is the concatenation of the blocks 0 W 0 C of
these operations, all entries of every W and C are nonzero, and the backward scan of
External::extend on it never steps below the first entry (the model would return none)
and ends there after it has processed every block once, last pushed first. -/
theorem extension_stack_wellformed (s0 : Internal) (ops : List StackOp)
    (h0 : s0.external.extension = []) (hi : ∀ l, l ≠ 0 → s0.externalize l ≠ 0)
    (hok : ∀ op ∈ ops, op.OK) :
    (applyOps s0 ops).external.extension = blocksOf (blocksOfOps s0 ops) ∧
    WellFormed (blocksOfOps s0 ops) ∧
    ∀ st, extendLoop (applyOps s0 ops).external.extension.length
        (applyOps s0 ops).external.extension.reverse st =
      some ((blocksOfOps s0 ops).foldr (fun b acc => blockStepSpec b.1 b.2 acc) st) := by
  obtain ⟨a1, _⟩ := applyOps_blocks ops s0 hok
  rw [h0, List.nil_append] at a1
  have hw := wellFormed_blocksOfOps s0 hi ops hok
  refine ⟨a1, hw, ?_⟩
  intro st
  rw [a1]
  exact extendLoop_blocks _ _ st hw (length_le_blocksOf _)

/-- Witness for C17: one use of each push operation on the empty stack. -/
theorem extension_stack_wellformed_witness :
    (applyOps Examples.twoBlocked Examples.stackOps).external.extension =
      [0, 1, 0, 1, 2, 0, 1, 0, 1, -2, 0, 3, 0, 3, 4, 0, 2, 0, 2, 1, 0, 1, 0, 1, 2, 3] ∧
    ((applyOps Examples.twoBlocked Examples.stackOps).external.extension =
      blocksOf (blocksOfOps Examples.twoBlocked Examples.stackOps) ∧
    WellFormed (blocksOfOps Examples.twoBlocked Examples.stackOps) ∧
    ∀ st, extendLoop (applyOps Examples.twoBlocked Examples.stackOps).external.extension.length
        (applyOps Examples.twoBlocked Examples.stackOps).external.extension.reverse st =
      some ((blocksOfOps Examples.twoBlocked Examples.stackOps).foldr
        (fun b acc => blockStepSpec b.1 b.2 acc) st)) :=
  ⟨by decide,
   extension_stack_wellformed Examples.twoBlocked Examples.stackOps rfl
    (fun l hl => by
      show (if l < 0 then -((l.natAbs : Nat) : Int) else ((l.natAbs : Nat) : Int)) ≠ 0
      split <;> omega)
    (by decide)⟩

end Internal

end CaDiCaL

namespace CaDiCaL

namespace External

theorem traverseClauseWalk_block (fixed : Int → Int) (L rest : List Int)
    (hL : ∀ l ∈ L, l ≠ 0) : ∀ (sat : Bool) (cl : List Int),
    ∃ cl2, traverseClauseWalk fixed (L ++ 0 :: rest) sat cl =
        some (sat || L.any (fun l => decide (0 < fixed l)), cl2, rest) ∧
      ((sat || L.any (fun l => decide (0 < fixed l))) = false →
        cl2 = cl ++ L.filter (fun l => decide (¬ fixed l < 0))) := by
  induction L with
  | nil =>
    intro sat cl
    refine ⟨cl, ?_, fun _ => by simp⟩
    simp [traverseClauseWalk]
  | cons a L ih =>
    intro sat cl
    have ha : a ≠ 0 := hL a (List.mem_cons_self _ _)
    have hL2 : ∀ l ∈ L, l ≠ 0 := fun l hl => hL l (List.mem_cons_of_mem _ hl)
    rw [List.cons_append, traverseClauseWalk, if_neg ha]
    cases sat with
    | true =>
      obtain ⟨cl2, h1, _⟩ := ih hL2 true cl
      refine ⟨cl2, ?_, fun h => by simp at h⟩
      simpa using h1
    | false =>
      simp only [Bool.false_eq_true, if_false, Bool.false_or, List.any_cons]
      by_cases h1 : fixed a < 0
      · rw [if_pos h1]
        obtain ⟨cl2, e1, e2⟩ := ih hL2 false cl
        have hd : decide (0 < fixed a) = false := by simp; omega
        refine ⟨cl2, by simpa [hd] using e1, ?_⟩
        intro h
        rw [hd, Bool.false_or] at h
        rw [e2 (by simpa using h), List.filter_cons_of_neg (by simpa using h1)]
      · rw [if_neg h1]
        by_cases h2 : 0 < fixed a
        · rw [if_pos h2]
          obtain ⟨cl2, e1, _⟩ := ih hL2 true cl
          have hd : decide (0 < fixed a) = true := by simpa using h2
          refine ⟨cl2, by simpa [hd] using e1, ?_⟩
          intro h
          rw [hd] at h
          simp at h
        · rw [if_neg h2]
          obtain ⟨cl2, e1, e2⟩ := ih hL2 false (cl ++ [a])
          have hd : decide (0 < fixed a) = false := by simpa using h2
          refine ⟨cl2, by simpa [hd] using e1, ?_⟩
          intro h
          rw [hd, Bool.false_or] at h
          rw [e2 (by simpa using h), List.filter_cons_of_pos (by simpa using h1)]
          simp

theorem traverseWitnessWalk_block (fixed : Int → Int) (sat : Bool) (L rest : List Int)
    (hL : ∀ l ∈ L, l ≠ 0) : ∀ w : List Int,
    ∃ w2, traverseWitnessWalk fixed sat (L ++ 0 :: rest) w = some (w2, rest) ∧
      (sat = false → w2 = w ++ L.filter (fun l => decide (fixed l = 0))) := by
  induction L with
  | nil =>
    intro w
    refine ⟨w, ?_, fun _ => by simp⟩
    simp [traverseWitnessWalk]
  | cons a L ih =>
    intro w
    have ha : a ≠ 0 := hL a (List.mem_cons_self _ _)
    have hL2 : ∀ l ∈ L, l ≠ 0 := fun l hl => hL l (List.mem_cons_of_mem _ hl)
    rw [List.cons_append, traverseWitnessWalk, if_neg ha]
    cases sat with
    | true =>
      obtain ⟨w2, h1, _⟩ := ih hL2 w
      exact ⟨w2, by simpa using h1, fun h => by cases h⟩
    | false =>
      simp only [Bool.false_eq_true, if_false]
      by_cases h1 : fixed a ≠ 0
      · rw [if_pos h1]
        obtain ⟨w2, e1, e2⟩ := ih hL2 w
        refine ⟨w2, e1, fun _ => ?_⟩
        rw [e2 rfl, List.filter_cons_of_neg (by simpa using h1)]
      · rw [if_neg h1]
        obtain ⟨w2, e1, e2⟩ := ih hL2 (w ++ [a])
        refine ⟨w2, e1, fun _ => ?_⟩
        rw [e2 rfl, List.filter_cons_of_pos (by simpa using h1)]
        simp

/-- The loop of traverse_witnesses over a stack of well-formed blocks makes the calls
of traverseSpec for the blocks, last pushed first. -/
theorem traverseLoop_blocks (fixed : Int → Int) (it : List Int → List Int → Bool)
    (bs : List (List Int × List Int)) :
    ∀ (fuel : Nat) (calls : List (List Int × List Int)), WellFormed bs → bs.length ≤ fuel →
      traverseLoop fixed it fuel (blocksOf bs).reverse calls =
        some (traverseSpec fixed it bs.reverse calls) := by
  induction bs using List.reverseRecOn with
  | nil =>
    intro fuel calls _ _
    cases fuel <;> rfl
  | append_singleton bs b ih =>
    intro fuel calls hw hf
    have hb := hw b (by simp)
    have hbs : WellFormed bs := fun x hx => hw x (List.mem_append_left _ hx)
    rw [List.length_append, List.length_singleton] at hf
    obtain ⟨fuel, rfl⟩ : ∃ k, fuel = k + 1 := ⟨fuel - 1, by omega⟩
    have hrev : (blocksOf (bs ++ [b])).reverse =
        b.2.reverse ++ 0 :: (b.1.reverse ++ 0 :: (blocksOf bs).reverse) := by
      rw [blocksOf_snoc]; simp [List.reverse_append]
    have hC2 : ∀ c ∈ b.2.reverse, c ≠ 0 := fun c hc => hb.2 c (List.mem_reverse.mp hc)
    have hW2 : ∀ w ∈ b.1.reverse, w ≠ 0 := fun w hw => hb.1 w (List.mem_reverse.mp hw)
    obtain ⟨cl2, c1, c2⟩ := traverseClauseWalk_block fixed b.2.reverse
      (b.1.reverse ++ 0 :: (blocksOf bs).reverse) hC2 false []
    obtain ⟨w2, w1, w3⟩ := traverseWitnessWalk_block fixed
      (false || b.2.reverse.any (fun l => decide (0 < fixed l))) b.1.reverse
      (blocksOf bs).reverse hW2 []
    rw [hrev] at *
    obtain ⟨x, rest, hx⟩ : ∃ x rest,
        b.2.reverse ++ 0 :: (b.1.reverse ++ 0 :: (blocksOf bs).reverse) = x :: rest := by
      cases hr : b.2.reverse ++ 0 :: (b.1.reverse ++ 0 :: (blocksOf bs).reverse) with
      | nil => simp at hr
      | cons x rest => exact ⟨x, rest, rfl⟩
    rw [hx] at c1 ⊢
    rw [traverseLoop, c1]
    simp only
    rw [w1]
    simp only
    rw [List.reverse_append, List.reverse_singleton, List.singleton_append, traverseSpec]
    simp only [Bool.false_or, List.any_reverse] at c2 w3 ⊢
    by_cases hs : b.2.any (fun l => decide (0 < fixed l)) = true
    · rw [if_pos hs, if_pos hs]
      exact ih fuel calls hbs (by omega)
    · have hs2 : b.2.any (fun l => decide (0 < fixed l)) = false := by simpa using hs
      rw [if_neg hs, if_neg hs]
      rw [c2 hs2, w3 hs2]
      simp only [List.nil_append, List.filter_reverse, List.reverse_reverse]
      split
      · exact ih fuel _ hbs (by omega)
      · rfl

theorem traverseSpec_nofixed (bs : List (List Int × List Int)) :
    ∀ calls, traverseSpec (fun _ => 0) (fun _ _ => true) bs calls =
      (true, calls ++ bs.map (fun b => (b.2, b.1))) := by
  induction bs with
  | nil => intro calls; simp [traverseSpec]
  | cons b bs ih =>
    intro calls
    rw [traverseSpec]
    simp only [lt_self_iff_false, decide_False, List.any_eq_true, Bool.false_eq_true, and_false,
      exists_false, if_false, not_false_eq_true, decide_True, List.filter_true, if_true]
    rw [ih]
    simp

end External

namespace Internal

open External

theorem foldl_push_external (pairs : List (List Int × List Int)) : ∀ s : Internal,
    (pairs.foldl (fun s p => s.push_external_clause_and_witness_on_extension_stack p.1 p.2)
      s).external.extension =
      s.external.extension ++ blocksOf (pairs.map (fun p => (p.2, p.1))) ∧
    (pairs.foldl (fun s p => s.push_external_clause_and_witness_on_extension_stack p.1 p.2)
      s).unsat = s.unsat := by
  induction pairs with
  | nil => intro s; simp [blocksOf]
  | cons p ps ih =>
    intro s
    rw [List.foldl_cons]
    obtain ⟨h1, h2⟩ := ih (s.push_external_clause_and_witness_on_extension_stack p.1 p.2)
    refine ⟨?_, h2.trans rfl⟩
    rw [h1, (push_external_blocks s p.1 p.2).1]
    simp [StackOp.blocks, blocksOf]

end Internal

namespace External

open Internal

/-- C18. External::traverse_witnesses on a stack of well-formed blocks with unsat
false: the iterator is called as traverseSpec prescribes, once for each block whose
clause has no literal fixed to true, last pushed first, with the clause literals not
fixed to false and the witness literals not fixed, in push order, and the traversal
returns false at the first call that returns false and true otherwise. With nothing
fixed, after pushing the pairs (c, w) with
push_external_clause_and_witness_on_extension_stack on the empty stack the calls are
exactly these pairs in reverse order. -/
theorem traverse_witnesses_blocks (s : Internal) (fixed : Int → Int)
    (it : List Int → List Int → Bool) (bs : List (List Int × List Int))
    (s0 : Internal) (pairs : List (List Int × List Int))
    (hu : s.unsat = false) (he : s.external.extension = blocksOf bs) (hw : WellFormed bs)
    (hu0 : s0.unsat = false) (he0 : s0.external.extension = [])
    (hp : ∀ p ∈ pairs, (∀ l ∈ p.1, l ≠ 0) ∧ (∀ l ∈ p.2, l ≠ 0)) :
    traverse_witnesses s fixed it = some (traverseSpec fixed it bs.reverse []) ∧
    traverse_witnesses
        (pairs.foldl (fun s p => s.push_external_clause_and_witness_on_extension_stack p.1 p.2)
          s0)
        (fun _ => 0) (fun _ _ => true) = some (true, pairs.reverse) := by
  constructor
  · unfold traverse_witnesses
    rw [hu, he]
    simp only [Bool.false_eq_true, if_false]
    exact traverseLoop_blocks fixed it bs _ [] hw (Internal.length_le_blocksOf bs)
  · obtain ⟨f1, f2⟩ := foldl_push_external pairs s0
    unfold traverse_witnesses
    rw [f2, hu0, f1, he0]
    simp only [Bool.false_eq_true, if_false, List.nil_append]
    have hw2 : WellFormed (pairs.map (fun p => (p.2, p.1))) := by
      intro b hb
      obtain ⟨p, hp1, rfl⟩ := List.mem_map.mp hb
      exact ⟨(hp p hp1).2, (hp p hp1).1⟩
    rw [traverseLoop_blocks _ _ _ _ [] hw2 (Internal.length_le_blocksOf _), traverseSpec_nofixed]
    rw [← List.map_reverse, List.map_map]
    have hid : ((fun b : List Int × List Int => (b.2, b.1)) ∘
        fun p : List Int × List Int => (p.2, p.1)) = id := rfl
    rw [hid, List.map_id, List.nil_append]

/-- Witness for C18: a stack of four blocks with the external literal 2 fixed to true
and 4 fixed to false, and the two pairs ((1 2), (1)) and ((-1 3), (3)). -/
theorem traverse_witnesses_blocks_witness :
    traverse_witnesses (applyOps Examples.twoBlocked (Examples.stackOps.take 3))
        (fun l => if l = 2 ∨ l = -4 then 1 else if l = -2 ∨ l = 4 then -1 else 0)
        (fun _ _ => true) =
      some (true, [([3], [3]), ([1], [1])]) ∧
    (traverse_witnesses (applyOps Examples.twoBlocked (Examples.stackOps.take 3))
        (fun l => if l = 2 ∨ l = -4 then 1 else if l = -2 ∨ l = 4 then -1 else 0)
        (fun _ _ => true) =
      some (traverseSpec
        (fun l => if l = 2 ∨ l = -4 then 1 else if l = -2 ∨ l = 4 then -1 else 0)
        (fun _ _ => true)
        (blocksOfOps Examples.twoBlocked (Examples.stackOps.take 3)).reverse []) ∧
    traverse_witnesses
        (Examples.witnessPairs.foldl
          (fun s p => s.push_external_clause_and_witness_on_extension_stack p.1 p.2)
          Examples.twoBlocked)
        (fun _ => 0) (fun _ _ => true) = some (true, Examples.witnessPairs.reverse)) :=
  ⟨by decide,
   traverse_witnesses_blocks (applyOps Examples.twoBlocked (Examples.stackOps.take 3)) _ _
    (blocksOfOps Examples.twoBlocked (Examples.stackOps.take 3))
    Examples.twoBlocked Examples.witnessPairs (by decide) (by decide) (by decide) (by decide)
    (by decide) (by decide)⟩

end External

end CaDiCaL

namespace CaDiCaL

namespace Internal

theorem clauseAt_mark (s : Internal) (x : Int) (d : Nat) :
    (s.mark x).clauseAt d = s.clauseAt d := rfl

theorem clauseAt_unmark (s : Internal) (x : Int) (d : Nat) :
    (s.unmark x).clauseAt d = s.clauseAt d := rfl

theorem SearchInv.clauses_eq {s : Internal} {c : Nat} {irr : Bool} {src dst : Int} {b : Bfs}
    (hb : SearchInv s c irr src dst b) : b.s.clauses = s.clauses := by
  rw [hb.frame]

theorem SearchInv.wtab_eq {s : Internal} {c : Nat} {irr : Bool} {src dst : Int} {b : Bfs}
    (hb : SearchInv s c irr src dst b) : b.s.wtab = s.wtab := by
  rw [hb.frame]

theorem mark_frame (s t : Internal) (h : t = { s with marks := t.marks }) (x : Int) :
    t.mark x = { s with marks := (t.mark x).marks } := by
  rw [h]; rfl

theorem marked_neg_of_work {marks : Nat → Int} {work : List Int} {o : Int}
    (hm : ∀ v, marks v ≠ 0 → ∃ l ∈ work, l.natAbs = v ∧ marks v = Int.sign l)
    (h : (if o < 0 then - marks o.natAbs else marks o.natAbs) < 0) :
    o ≠ 0 ∧ -o ∈ work := by
  have hne : marks o.natAbs ≠ 0 := by
    intro h0; rw [h0] at h; simp at h
  obtain ⟨l, hl, habs, hsign⟩ := hm _ hne
  rcases Int.natAbs_eq_natAbs_iff.mp habs with e | e
  · exfalso
    subst e
    rw [hsign] at h
    by_cases hl0 : l < 0
    · rw [if_pos hl0, Int.sign_eq_neg_one_of_neg hl0] at h
      omega
    · rw [if_neg hl0] at h
      have : 0 ≤ Int.sign l := Int.sign_nonneg.mpr (by omega)
      omega
  · have hl0 : l ≠ 0 := by
      intro h0
      rw [h0] at hsign
      simp at hsign
      exact hne hsign
    constructor
    · intro h0; rw [h0] at e; simp at e; exact hl0 e
    · have : -o = l := by omega
      rw [this]; exact hl

theorem transredScan_inv (s : Internal) (hW : BinWatchOK s) (c : Nat) (irr : Bool)
    (src dst lit : Int) (hlit : Relation.ReflTransGen (Edge s c irr) src lit) :
    ∀ (ws : List Watch) (b : Bfs), (∀ w ∈ ws, w ∈ s.wtab (-lit)) →
      SearchInv s c irr src dst b →
      SearchInv s c irr src dst (transredScan c irr dst ws b) := by
  intro ws
  induction ws with
  | nil => intro b _ hb; simpa [transredScan] using hb
  | cons w ws ih =>
    intro b hws hb
    have hws2 : ∀ w ∈ ws, w ∈ s.wtab (-lit) := fun x hx => hws x (List.mem_cons_of_mem _ hx)
    have hw : w ∈ s.wtab (-lit) := hws w (List.mem_cons_self _ _)
    have hcl : ∀ d, b.s.clauseAt d = s.clauseAt d := by
      intro d; unfold clauseAt; rw [hb.clauses_eq]
    rw [transredScan]
    by_cases h1 : (b.transitive || b.failed) = true
    · rw [if_pos h1]; exact hb
    rw [if_neg h1]
    by_cases h2 : (!w.binary) = true
    · rw [if_pos h2]; exact hb
    rw [if_neg h2]
    have hbin : w.binary = true := by simpa using h2
    by_cases h3 : w.clause = c
    · rw [if_pos h3]; exact ih b hws2 hb
    rw [if_neg h3]
    by_cases h4 : (irr && (b.s.clauseAt w.clause).redundant) = true
    · rw [if_pos h4]; exact ih b hws2 hb
    rw [if_neg h4]
    by_cases h5 : (b.s.clauseAt w.clause).garbage = true
    · rw [if_pos h5]; exact ih b hws2 hb
    rw [if_neg h5]
    have hg : (s.clauseAt w.clause).garbage = false := by
      rw [← hcl]; simpa using h5
    have hedge : Edge s c irr lit w.blit := by
      obtain ⟨hlt, hl⟩ := hW (-lit) w hw hbin hg
      refine ⟨w.clause, h3, hlt, hg, ?_, ?_⟩
      · intro hi
        rw [hi, hcl] at h4
        simpa using h4
      · rcases hl with e | e
        · left; exact e
        · right; exact e
    by_cases h6 : w.blit = dst
    · rw [if_pos h6]
      apply ih _ hws2
      exact { hb with
        trans_path := fun _ => Relation.TransGen.tail' hlit (h6 ▸ hedge) }
    rw [if_neg h6]
    by_cases h7 : 0 < b.s.marked w.blit
    · rw [if_pos h7]; exact ih b hws2 hb
    rw [if_neg h7]
    by_cases h8 : b.s.marked w.blit < 0
    · rw [if_pos h8]
      apply ih _ hws2
      have hm := marked_neg_of_work hb.marks_work h8
      exact { hb with
        failed_pair := fun _ => ⟨w.blit, hm.1,
          Relation.ReflTransGen.tail hlit hedge, hb.work_reach _ hm.2⟩ }
    rw [if_neg h8]
    apply ih _ hws2
    have h0 : b.s.marks w.blit.natAbs = 0 := by
      unfold marked at h7 h8
      by_cases hn : w.blit < 0
      · rw [if_pos hn] at h7 h8; omega
      · rw [if_neg hn] at h7 h8; omega
    refine ⟨mark_frame s b.s hb.frame w.blit, ?_, ?_, hb.trans_path, hb.failed_pair⟩
    · intro v hv
      show ∃ l ∈ b.work ++ [w.blit], l.natAbs = v ∧ (b.s.mark w.blit).marks v = Int.sign l
      by_cases hvb : v = w.blit.natAbs
      · refine ⟨w.blit, by simp, hvb.symm, ?_⟩
        simp [mark, hvb]
      · have hv2 : b.s.marks v ≠ 0 := by
          simpa [mark, hvb] using hv
        obtain ⟨l, hl, h1, h2⟩ := hb.marks_work v hv2
        refine ⟨l, by simp [hl], h1, ?_⟩
        simpa [mark, hvb] using h2
    · intro l hl
      have hl2 : l ∈ b.work ++ [w.blit] := hl
      rcases List.mem_append.mp hl2 with h | h
      · exact hb.work_reach l h
      · have : l = w.blit := by simpa using h
        rw [this]
        exact Relation.ReflTransGen.tail hlit hedge

theorem transredBfs_inv (s : Internal) (hW : BinWatchOK s) (c : Nat) (irr : Bool)
    (src dst : Int) :
    ∀ (fuel j : Nat) (b : Bfs) (p : Int) (b2 : Bfs) (p2 : Int),
      SearchInv s c irr src dst b →
      transredBfs c irr dst fuel j b p = some (b2, p2) →
      SearchInv s c irr src dst b2 := by
  intro fuel
  induction fuel with
  | zero =>
    intro j b p b2 p2 hb h
    rw [transredBfs] at h
    split at h
    · simp only [Option.some.injEq, Prod.mk.injEq] at h
      rw [← h.1]; exact hb
    · simp at h
  | succ fuel ih =>
    intro j b p b2 p2 hb h
    rw [transredBfs] at h
    split at h
    · simp only [Option.some.injEq, Prod.mk.injEq] at h
      rw [← h.1]; exact hb
    · rename_i hcond
      simp only [Bool.or_eq_true, decide_eq_true_eq, not_or, not_le] at hcond
      have hj : j < b.work.length := hcond.2
      have hmem : b.work.getD j 0 ∈ b.work := by
        rw [List.getD_eq_getElem _ _ hj]
        exact List.getElem_mem _
      have hreach := hb.work_reach _ hmem
      apply ih (j + 1) _ (p + 1) b2 p2 _ h
      apply transredScan_inv s hW c irr src dst _ hreach _ _ _ hb
      intro w hw
      unfold watches at hw
      rw [hb.wtab_eq] at hw
      exact hw

theorem searchInv_init (s : Internal) (hM : ∀ v, s.marks v = 0) (c : Nat) (irr : Bool)
    (src dst : Int) :
    SearchInv s c irr src dst ⟨s.mark src, [src], false, false⟩ := by
  refine ⟨rfl, ?_, ?_, ?_, ?_⟩
  · intro v hv
    refine ⟨src, by simp, ?_, ?_⟩
    · by_contra hne
      apply hv
      have : ¬ v = src.natAbs := fun e => hne e.symm
      simp [mark, this, hM]
    · by_cases e : v = src.natAbs
      · simp [mark, e]
      · exfalso; apply hv; simp [mark, e, hM]
  · intro l hl
    have : l = src := by simpa using hl
    rw [this]
  · intro h; cases h
  · intro h; cases h

end Internal

end CaDiCaL

namespace CaDiCaL

namespace Internal

theorem clauseAt_setClause (s : Internal) (c d : Nat) (x : Clause) :
    (s.setClause c x).clauseAt d = if d = c ∧ c < s.clauses.length then x else s.clauseAt d := by
  unfold clauseAt setClause
  simp only [List.getD_eq_getElem?_getD]
  by_cases h : d = c
  · subst h
    by_cases h2 : d < s.clauses.length
    · rw [if_pos ⟨rfl, h2⟩, List.getElem?_set_self h2]; rfl
    · rw [if_neg (fun h => h2 h.2)]
      rw [List.getElem?_eq_none (by simpa using h2), List.getElem?_eq_none (by simpa using h2)]
  · rw [if_neg (fun h' => h h'.1), List.getElem?_set_ne (Ne.symm h)]

theorem length_setClause (s : Internal) (c : Nat) (x : Clause) :
    (s.setClause c x).clauses.length = s.clauses.length := by
  simp [setClause]

theorem lt_length_of_literals_ne {s : Internal} {c : Nat}
    (h : (s.clauseAt c).literals ≠ []) : c < s.clauses.length := by
  by_contra hc
  apply h
  unfold clauseAt
  rw [List.getD_eq_getElem?_getD, List.getElem?_eq_none (by omega)]
  rfl

/-- The graph without the clause c does not depend on the record of c. -/
theorem edge_setClause (s : Internal) (c : Nat) (x : Clause) (irr : Bool) (a b : Int) :
    Edge (s.setClause c x) c irr a b ↔ Edge s c irr a b := by
  unfold Edge
  constructor
  · rintro ⟨d, h1, h2, h3⟩
    rw [clauseAt_setClause, if_neg (fun h => h1 h.1)] at h3
    rw [length_setClause] at h2
    exact ⟨d, h1, h2, h3⟩
  · rintro ⟨d, h1, h2, h3⟩
    refine ⟨d, h1, by rw [length_setClause]; exact h2, ?_⟩
    rw [clauseAt_setClause, if_neg (fun h => h1 h.1)]
    exact h3

theorem edge_of_clauses_eq {s t : Internal} (h : t.clauses = s.clauses) (c : Nat) (irr : Bool)
    (a b : Int) : Edge t c irr a b ↔ Edge s c irr a b := by
  unfold Edge clauseAt
  rw [h]

theorem edge_irr_weaken (s : Internal) (c : Nat) (irr : Bool) (a b : Int)
    (h : Edge s c irr a b) : Edge s c false a b := by
  obtain ⟨d, h1, h2, h3, _, h5⟩ := h
  exact ⟨d, h1, h2, h3, fun h => absurd h (by decide), h5⟩

/-- Contraposition: an edge from a to b is also an edge from -b to -a. -/
theorem edge_contra (s : Internal) (c : Nat) (irr : Bool) (a b : Int)
    (h : Edge s c irr a b) : Edge s c irr (-b) (-a) := by
  obtain ⟨d, h1, h2, h3, h4, h5⟩ := h
  refine ⟨d, h1, h2, h3, h4, ?_⟩
  rw [neg_neg]
  rcases h5 with e | e
  · right; exact e
  · left; exact e

theorem transGen_contra (s : Internal) (c : Nat) (irr : Bool) (a b : Int)
    (h : Relation.TransGen (Edge s c irr) a b) :
    Relation.TransGen (Edge s c irr) (-b) (-a) := by
  induction h with
  | single e => exact Relation.TransGen.single (edge_contra s c irr _ _ e)
  | tail _ e ih => exact Relation.TransGen.head (edge_contra s c irr _ _ e) ih

theorem literals_pair {cl : Clause} (h : cl.size = 2) :
    cl.literals = [cl.literals.getD 0 0, cl.literals.getD 1 0] := by
  unfold Clause.size at h
  match hl : cl.literals, h with
  | [a, b], _ => rfl

theorem foldl_unmark_frame (work : List Int) (s : Internal) :
    work.foldl unmark s = { s with marks := (work.foldl unmark s).marks } := by
  induction work generalizing s with
  | nil => rfl
  | cons w ws ih =>
    simp only [List.foldl_cons]
    rw [ih (s.unmark w)]
    rfl

theorem foldl_unmark_marks (work : List Int) (s : Internal) (v : Nat) :
    (work.foldl unmark s).marks v = if ∃ l ∈ work, l.natAbs = v then 0 else s.marks v := by
  induction work generalizing s with
  | nil => simp
  | cons w ws ih =>
    simp only [List.foldl_cons]
    rw [ih]
    by_cases h1 : ∃ l ∈ ws, l.natAbs = v
    · have : ∃ l ∈ w :: ws, l.natAbs = v := by
        obtain ⟨l, hl, e⟩ := h1
        exact ⟨l, List.mem_cons_of_mem _ hl, e⟩
      rw [if_pos h1, if_pos this]
    · rw [if_neg h1]
      by_cases h2 : w.natAbs = v
      · have : ∃ l ∈ w :: ws, l.natAbs = v := ⟨w, List.mem_cons_self _ _, h2⟩
        rw [if_pos this]
        simp [unmark, h2]
      · have : ¬ ∃ l ∈ w :: ws, l.natAbs = v := by
          rintro ⟨l, hl, e⟩
          rcases List.mem_cons.mp hl with rfl | hl
          · exact h2 e
          · exact h1 ⟨l, hl, e⟩
        rw [if_neg this]
        have : ¬ v = w.natAbs := fun e => h2 e.symm
        simp [unmark, this]

/-- After the working stack is unmarked no mark is left. -/
theorem searchInv_unmark {s : Internal} {c : Nat} {irr : Bool} {src dst : Int} {b : Bfs}
    (hb : SearchInv s c irr src dst b) (v : Nat) :
    (b.work.reverse.foldl unmark b.s).marks v = 0 := by
  rw [foldl_unmark_marks]
  split
  · rfl
  · rename_i h
    by_contra hne
    obtain ⟨l, hl, e, _⟩ := hb.marks_work v hne
    exact h ⟨l, List.mem_reverse.mpr hl, e⟩

/-- The outcome of the body of the main loop, case by case. The state U is the one
after the working stack has been unmarked; src and dst are the chosen direction. -/
theorem transredCandidate_cases (env : Env) (s s2 : Internal) (c : Nat) (props p2 : Int)
    (hW : BinWatchOK s) (hM : ∀ v, s.marks v = 0)
    (hstep : transredCandidate env c s props = some (s2, p2)) :
    (s2.clauses = s.clauses ∧ s2.stats = s.stats ∧ s2.marks = s.marks ∧ s2.wtab = s.wtab) ∨
    (s2 = s.setClause c { s.clauseAt c with transred := true }) ∨
    (∃ (b : Bfs) (l0 l1 : Int) (U : Internal),
      (s.clauseAt c).literals = [l0, l1] ∧ (s.clauseAt c).garbage = false ∧
      U.clauses = (s.setClause c { s.clauseAt c with transred := true }).clauses ∧
      U.wtab = s.wtab ∧ U.stats = s.stats ∧ U.trail = s.trail ∧ (∀ v, U.marks v = 0) ∧
      (b.transitive = true → Relation.TransGen (Edge s c (!(s.clauseAt c).redundant))
        (transredDirection s l0 l1).1 (transredDirection s l0 l1).2) ∧
      (b.failed = true → ∃ l, l ≠ 0 ∧
        Relation.ReflTransGen (Edge s c (!(s.clauseAt c).redundant))
          (transredDirection s l0 l1).1 l ∧
        Relation.ReflTransGen (Edge s c (!(s.clauseAt c).redundant))
          (transredDirection s l0 l1).1 (-l)) ∧
      ((b.transitive = true ∧
        s2 = ({ U with stats := { U.stats with transitive := U.stats.transitive + 1 } }
              ).mark_garbage c) ∨
       (b.transitive = false ∧ b.failed = true ∧
        ∃ t : Internal, t.clauses = U.clauses ∧ t.wtab = U.wtab ∧ t.marks = U.marks ∧
          t.trail = s.trail ++ [-(transredDirection s l0 l1).1] ∧
          t.stats.failed = s.stats.failed + 1 ∧
          (s2 = (env.propagate t).2 ∨ s2 = (env.propagate t).2.learn_empty_clause)) ∨
       (b.transitive = false ∧ b.failed = false ∧ s2 = U))) := by
  unfold transredCandidate at hstep
  split at hstep
  · left; simp only [Option.some.injEq, Prod.mk.injEq] at hstep; rw [← hstep.1]; simp
  split at hstep
  · left; simp only [Option.some.injEq, Prod.mk.injEq] at hstep; rw [← hstep.1]; simp
  split at hstep
  · left; simp only [Option.some.injEq, Prod.mk.injEq] at hstep; rw [← hstep.1]; simp
  split at hstep
  · left; simp only [Option.some.injEq, Prod.mk.injEq] at hstep; rw [← hstep.1]; simp
  rename_i hg hsz hrh htr
  split at hstep
  · right; left
    simp only [Option.some.injEq, Prod.mk.injEq] at hstep
    exact hstep.1.symm
  right; right
  have hsize : (s.clauseAt c).size = 2 := by simpa using hsz
  have hlits := literals_pair hsize
  have hgf : (s.clauseAt c).garbage = false := by simpa using hg
  have hs1 : s.setClause c { s.clauseAt c with transred := true } = transredFlag s c := rfl
  generalize transredFlag s c = s1 at hstep hs1
  have hW1 : BinWatchOK s1 := by
    intro lit w hw hbin hgar
    rw [← hs1] at hw hgar ⊢
    rw [clauseAt_setClause] at hgar ⊢
    rw [length_setClause]
    have hw' : w ∈ s.wtab lit := hw
    by_cases hc : w.clause = c ∧ c < s.clauses.length
    · rw [if_pos hc] at hgar ⊢
      have := hW lit w hw' hbin (by rw [hc.1]; exact hgar)
      rw [hc.1] at this ⊢
      exact this
    · rw [if_neg hc] at hgar ⊢
      exact hW lit w hw' hbin hgar
  have hM1 : ∀ v, s1.marks v = 0 := by
    intro v; rw [← hs1]; exact hM v
  have hdir : ∀ a b, transredDirection s1 a b = transredDirection s a b := by
    intro a b; rw [← hs1]; rfl
  have hcl1 : s1.clauseAt c = { s.clauseAt c with transred := true } := by
    rw [← hs1, clauseAt_setClause, if_pos ⟨rfl, lt_length_of_literals_ne (by rw [hlits]; simp)⟩]
  unfold transredSearch at hstep
  simp only [hcl1, hdir] at hstep
  split at hstep
  · cases hstep
  rename_i b p hbfs
  have hinv1 := transredBfs_inv s1 hW1 c (!(s.clauseAt c).redundant)
    (transredDirection s ((s.clauseAt c).literals.getD 0 0) ((s.clauseAt c).literals.getD 1 0)).1
    (transredDirection s ((s.clauseAt c).literals.getD 0 0) ((s.clauseAt c).literals.getD 1 0)).2
    _ 0 _ props b p (searchInv_init s1 hM1 c _ _ _) hbfs
  have hedge : ∀ a b', Edge s1 c (!(s.clauseAt c).redundant) a b' ↔
      Edge s c (!(s.clauseAt c).redundant) a b' := by
    intro a b'; rw [← hs1]; exact edge_setClause s c _ _ a b'
  have hmono : ∀ a b', Relation.ReflTransGen (Edge s1 c (!(s.clauseAt c).redundant)) a b' →
      Relation.ReflTransGen (Edge s c (!(s.clauseAt c).redundant)) a b' :=
    fun a b' h => Relation.ReflTransGen.mono (fun x y e => (hedge x y).mp e) h
  have hU : b.work.reverse.foldl unmark b.s
      = { s1 with marks := (b.work.reverse.foldl unmark b.s).marks } := by
    rw [foldl_unmark_frame b.work.reverse b.s, hinv1.frame]
  simp only [Option.some.injEq, Prod.mk.injEq] at hstep
  have hfin := hstep.1
  unfold transredFinish at hfin
  generalize hUdef : b.work.reverse.foldl unmark b.s = U at hU hfin
  have hUm : ∀ v, U.marks v = 0 := by
    intro v; rw [← hUdef]; exact searchInv_unmark hinv1 v
  refine ⟨b, _, _, U, hlits, hgf, ?_, ?_, ?_, ?_, hUm, ?_, ?_, ?_⟩
  · rw [hU, ← hs1]
  · rw [hU, ← hs1]; rfl
  · rw [hU, ← hs1]; rfl
  · rw [hU, ← hs1]; rfl
  · intro h
    exact Relation.TransGen.mono (fun x y e => (hedge x y).mp e) (hinv1.trans_path h)
  · intro h
    obtain ⟨l, h1, h2, h3⟩ := hinv1.failed_pair h
    exact ⟨l, h1, hmono _ _ h2, hmono _ _ h3⟩
  · by_cases ht : b.transitive = true
    · left
      rw [if_pos ht] at hfin
      exact ⟨ht, hfin.symm⟩
    · rw [if_neg ht] at hfin
      right
      have htf : b.transitive = false := by simpa using ht
      by_cases hf : b.failed = true
      · left
        rw [if_pos hf] at hfin
        refine ⟨htf, hf, transredUnit U (transredDirection s ((s.clauseAt c).literals.getD 0 0)
              ((s.clauseAt c).literals.getD 1 0)).1, rfl, rfl, rfl, ?_, ?_, ?_⟩
        · show U.trail ++ _ = _
          rw [hU, ← hs1]; rfl
        · show U.stats.failed + 1 = _
          rw [hU, ← hs1]; rfl
        · split at hfin
          · right; exact hfin.symm
          · left; exact hfin.symm
      · right
        rw [if_neg hf] at hfin
        exact ⟨htf, by simpa using hf, hfin.symm⟩

end Internal

end CaDiCaL

namespace CaDiCaL

namespace Internal

theorem mem_tableOf {α : Type} (tbl : List (Int × List α)) (lit : Int) (w : α)
    (h : w ∈ Examples.tableOf tbl lit) : ∃ e ∈ tbl, e.1 = lit ∧ w ∈ e.2 := by
  unfold Examples.tableOf at h
  induction tbl with
  | nil => simp at h
  | cons e tbl ih =>
    obtain ⟨k, ws⟩ := e
    by_cases hk : lit = k
    · subst hk
      simp only [List.lookup_cons, beq_self_eq_true, Option.getD_some] at h
      exact ⟨(lit, ws), List.mem_cons_self _ _, rfl, h⟩
    · have hb : (lit == k) = false := by simpa using hk
      simp only [List.lookup_cons, hb] at h
      obtain ⟨e, he, h1, h2⟩ := ih h
      exact ⟨e, List.mem_cons_of_mem _ he, h1, h2⟩

/-- A watch table given by entries that pass binWatchCheck is consistent. -/
theorem binWatchOK_of_check (s : Internal) (tbl : List (Int × List Watch))
    (h1 : s.wtab = Examples.tableOf tbl)
    (h2 : Examples.binWatchCheck s.clauses tbl = true) : BinWatchOK s := by
  intro lit w hw hbin hg
  rw [h1] at hw
  obtain ⟨e, he, e1, e2⟩ := mem_tableOf tbl lit w hw
  unfold Examples.binWatchCheck at h2
  rw [List.all_eq_true] at h2
  have h3 := h2 e he
  rw [List.all_eq_true] at h3
  have h4 := h3 w e2
  unfold clauseAt at hg ⊢
  rw [hbin, hg, e1] at h4
  simpa using h4

theorem clauseAt_congr {X Y : Internal} (h : X.clauses = Y.clauses) (d : Nat) :
    X.clauseAt d = Y.clauseAt d := by
  unfold clauseAt; rw [h]

theorem edge_sub_edgeAll (s : Internal) (c : Nat) (irr : Bool) (a b : Int)
    (h : Edge s c irr a b) : EdgeAll s a b := by
  obtain ⟨d, _, h2, h3, _, h5⟩ := h
  exact ⟨d, h2, h3, h5⟩

/-- The graph of a state in which c has become garbage and nothing else changed. -/
theorem edgeAll_removed (s X : Internal) (c : Nat)
    (hlen : X.clauses.length = s.clauses.length)
    (hsame : ∀ d, d ≠ c → X.clauseAt d = s.clauseAt d)
    (hg : (X.clauseAt c).garbage = true) (a b : Int) :
    EdgeAll X a b ↔ Edge s c false a b := by
  constructor
  · rintro ⟨d, h1, h2, h3⟩
    have hd : d ≠ c := by
      intro e; rw [e, hg] at h2; cases h2
    rw [hsame d hd] at h2 h3
    exact ⟨d, hd, hlen ▸ h1, h2, fun h => absurd h (by decide), h3⟩
  · rintro ⟨d, h1, h2, h3, _, h5⟩
    refine ⟨d, hlen ▸ h2, ?_, ?_⟩
    · rw [hsame d h1]; exact h3
    · rw [hsame d h1]; exact h5

/-- Removing a clause whose two implications have other paths keeps reachability. -/
theorem reach_removed (s : Internal) (c : Nat) (l0 l1 : Int)
    (hl : (s.clauseAt c).literals = [l0, l1])
    (p1 : Relation.TransGen (Edge s c false) (-l0) l1)
    (p2 : Relation.TransGen (Edge s c false) (-l1) l0) (x y : Int) :
    Relation.ReflTransGen (EdgeAll s) x y ↔ Relation.ReflTransGen (Edge s c false) x y := by
  constructor
  · intro h
    induction h with
    | refl => exact Relation.ReflTransGen.refl
    | @tail m n _ e ih =>
      obtain ⟨d, h1, h2, h3⟩ := e
      by_cases hd : d = c
      · subst hd
        rw [hl] at h3
        rcases h3 with e | e
        · simp only [List.cons.injEq, and_true] at e
          have ha : m = -l0 := by omega
          rw [ha] at ih
          rw [← e.2]
          exact ih.trans p1.to_reflTransGen
        · simp only [List.cons.injEq, and_true] at e
          have ha : m = -l1 := by omega
          rw [ha] at ih
          rw [← e.1]
          exact ih.trans p2.to_reflTransGen
      · exact ih.tail ⟨d, hd, h1, h2, fun h => absurd h (by decide), h3⟩
  · intro h
    exact Relation.ReflTransGen.mono (fun a b e => edge_sub_edgeAll s c false a b e) h

theorem direction_cases (s : Internal) (l0 l1 : Int) :
    transredDirection s l0 l1 = (-l0, l1) ∨ transredDirection s l0 l1 = (-l1, l0) := by
  unfold transredDirection
  simp only
  split
  · right; rw [neg_neg]
  · left; rfl

/-- When the body of the main loop turns the candidate into garbage, the search has
found a path from src to dst. -/
theorem transredCandidate_transitive (env : Env) (s s2 : Internal) (c : Nat) (props p2 : Int)
    (hW : BinWatchOK s) (hM : ∀ v, s.marks v = 0)
    (hPG : ∀ t d, ((env.propagate t).2.clauseAt d).garbage = (t.clauseAt d).garbage)
    (hstep : transredCandidate env c s props = some (s2, p2))
    (hng : (s.clauseAt c).garbage = false) (hg : (s2.clauseAt c).garbage = true) :
    ∃ l0 l1, (s.clauseAt c).literals = [l0, l1] ∧
      Relation.TransGen (Edge s c (!(s.clauseAt c).redundant))
        (transredDirection s l0 l1).1 (transredDirection s l0 l1).2 ∧
      s2.clauses.length = s.clauses.length ∧
      (∀ d, d ≠ c → s2.clauseAt d = s.clauseAt d) ∧
      s2.stats.transitive = s.stats.transitive + 1 ∧
      s2.stats.failed = s.stats.failed ∧
      s2.wtab = s.wtab ∧ (∀ v, s2.marks v = 0) := by
  have hset : ((s.setClause c { s.clauseAt c with transred := true }).clauseAt c).garbage
      = false := by
    rw [clauseAt_setClause]; split <;> exact hng
  have hU : ∀ U : Internal,
      U.clauses = (s.setClause c { s.clauseAt c with transred := true }).clauses →
      (U.clauseAt c).garbage = false := by
    intro U h
    rw [clauseAt_congr h c]; exact hset
  rcases transredCandidate_cases env s s2 c props p2 hW hM hstep with h | h | h
  · exfalso
    rw [clauseAt_congr h.1 c, hng] at hg; cases hg
  · exfalso
    rw [h, hset] at hg; cases hg
  · obtain ⟨b, l0, l1, U, hl, _, hUc, hUw, hUs, _, hUm, hT, _, hcase⟩ := h
    rcases hcase with ⟨ht, e⟩ | ⟨_, _, t, ht1, _, _, _, _, e⟩ | ⟨_, _, e⟩
    · refine ⟨l0, l1, hl, hT ht, ?_, ?_, ?_, ?_, ?_, ?_⟩
      · rw [e]; simp [mark_garbage, setClause, hUc]
      · intro d hd
        rw [e, mark_garbage, clauseAt_setClause, if_neg (fun h => hd h.1)]
        have : ∀ X : Internal, X.clauses = U.clauses → X.clauseAt d = s.clauseAt d := by
          intro X hX
          rw [clauseAt_congr (hX.trans hUc) d, clauseAt_setClause, if_neg (fun h => hd h.1)]
        exact this _ rfl
      · rw [e]; show U.stats.transitive + 1 = _; rw [hUs]
      · rw [e]; show U.stats.failed = _; rw [hUs]
      · rw [e]; exact hUw
      · intro v; rw [e]; exact hUm v
    · exfalso
      have ht : (t.clauseAt c).garbage = false := hU t (ht1.trans hUc)
      rcases e with e | e
      · rw [e, hPG, ht] at hg; cases hg
      · have : (env.propagate t).2.learn_empty_clause.clauseAt c
            = (env.propagate t).2.clauseAt c := rfl
        rw [e, this, hPG, ht] at hg; cases hg
    · exfalso
      rw [e, hU U hUc] at hg; cases hg

/-- When the body of the main loop counts a failed literal, the search has reached a
literal and its negation from src, and the unit -src has been assigned. -/
theorem transredCandidate_failed (env : Env) (s s2 : Internal) (c : Nat) (props p2 : Int)
    (hW : BinWatchOK s) (hM : ∀ v, s.marks v = 0)
    (hstep : transredCandidate env c s props = some (s2, p2))
    (hf : s2.stats.failed ≠ s.stats.failed) :
    ∃ l0 l1 l t, (s.clauseAt c).literals = [l0, l1] ∧ l ≠ 0 ∧
      Relation.ReflTransGen (Edge s c (!(s.clauseAt c).redundant))
        (transredDirection s l0 l1).1 l ∧
      Relation.ReflTransGen (Edge s c (!(s.clauseAt c).redundant))
        (transredDirection s l0 l1).1 (-l) ∧
      t.trail = s.trail ++ [-(transredDirection s l0 l1).1] ∧
      (s2 = (env.propagate t).2 ∨ s2 = (env.propagate t).2.learn_empty_clause) := by
  rcases transredCandidate_cases env s s2 c props p2 hW hM hstep with h | h | h
  · exfalso; apply hf; rw [h.2.1]
  · exfalso; apply hf; rw [h]; rfl
  · obtain ⟨b, l0, l1, U, hl, _, _, _, hUs, _, _, _, hF, hcase⟩ := h
    rcases hcase with ⟨_, e⟩ | ⟨_, hbf, t, _, _, _, ht4, _, e⟩ | ⟨_, _, e⟩
    · exfalso; apply hf; rw [e]; show U.stats.failed = _; rw [hUs]
    · obtain ⟨l, h1, h2, h3⟩ := hF hbf
      exact ⟨l0, l1, l, t, hl, h1, h2, h3, ht4, e⟩
    · exfalso; apply hf; rw [e, hUs]

/-- An implication of the graph is respected by every assignment that satisfies the
clauses. -/
theorem edge_true (s : Internal) (c : Nat) (irr : Bool) (τ : Int → Bool)
    (hτ : Consistent τ) (hsat : SatisfiesBut s c τ) (a b : Int)
    (h : Edge s c irr a b) (ha : τ a = true) : τ b = true := by
  obtain ⟨d, h1, h2, h3, _, h5⟩ := h
  obtain ⟨l, hl, hv⟩ := hsat d h1 h2 h3
  have ha0 : a ≠ 0 := by
    intro e; rw [e, hτ.1] at ha; cases ha
  have hna : τ (-a) = false := by rw [hτ.2 a ha0, ha]; rfl
  rcases h5 with e | e <;> rw [e] at hl <;> simp only [List.mem_cons, List.mem_singleton,
    List.not_mem_nil, or_false] at hl
  · rcases hl with rfl | rfl
    · rw [hna] at hv; cases hv
    · exact hv
  · rcases hl with rfl | rfl
    · exact hv
    · rw [hna] at hv; cases hv

theorem reach_true (s : Internal) (c : Nat) (irr : Bool) (τ : Int → Bool)
    (hτ : Consistent τ) (hsat : SatisfiesBut s c τ) (a b : Int)
    (h : Relation.ReflTransGen (Edge s c irr) a b) (ha : τ a = true) : τ b = true := by
  induction h with
  | refl => exact ha
  | tail _ e ih => exact edge_true s c irr τ hτ hsat _ _ e ih

/-- C7: when the body of the main loop of transred turns a clause C with literals l0, l1
(that is, C = (¬src ∨ dst) with src = -l0, dst = l1) into garbage, the state before has a
chain of non-garbage binary clauses other than C from src to dst and one from ¬dst to
¬src; hence the reachability relation over the non-garbage binary clauses is the same
before and after the removal; stats.transitive grows by one, and the watch consistency
and the cleared marks the step relies on hold again afterwards. -/
theorem transred_transitive_sound (env : Env) (s s2 : Internal) (c : Nat) (props p2 : Int)
    (hW : BinWatchOK s) (hM : ∀ v, s.marks v = 0)
    (hPG : ∀ t d, ((env.propagate t).2.clauseAt d).garbage = (t.clauseAt d).garbage)
    (hstep : transredCandidate env c s props = some (s2, p2))
    (hng : (s.clauseAt c).garbage = false) (hg : (s2.clauseAt c).garbage = true) :
    ∃ l0 l1, (s.clauseAt c).literals = [l0, l1] ∧
      Relation.TransGen (Edge s c false) (-l0) l1 ∧
      Relation.TransGen (Edge s c false) (-l1) l0 ∧
      (∀ x y, Relation.ReflTransGen (EdgeAll s) x y ↔ Relation.ReflTransGen (EdgeAll s2) x y) ∧
      s2.stats.transitive = s.stats.transitive + 1 ∧
      BinWatchOK s2 ∧ (∀ v, s2.marks v = 0) := by
  obtain ⟨l0, l1, hl, hp, hlen, hsame, hst, _, hw, hm⟩ :=
    transredCandidate_transitive env s s2 c props p2 hW hM hPG hstep hng hg
  have hp0 : Relation.TransGen (Edge s c false) (transredDirection s l0 l1).1
      (transredDirection s l0 l1).2 :=
    Relation.TransGen.mono (fun a b e => edge_irr_weaken s c _ a b e) hp
  have both : Relation.TransGen (Edge s c false) (-l0) l1 ∧
      Relation.TransGen (Edge s c false) (-l1) l0 := by
    rcases direction_cases s l0 l1 with e | e
    · rw [e] at hp0
      refine ⟨hp0, ?_⟩
      have := transGen_contra s c false _ _ hp0
      rwa [neg_neg] at this
    · rw [e] at hp0
      refine ⟨?_, hp0⟩
      have := transGen_contra s c false _ _ hp0
      rwa [neg_neg] at this
  refine ⟨l0, l1, hl, both.1, both.2, ?_, hst, ?_, hm⟩
  · intro x y
    rw [reach_removed s c l0 l1 hl both.1 both.2 x y]
    have : EdgeAll s2 = Edge s c false := by
      funext a b
      exact propext (edgeAll_removed s s2 c hlen hsame hg a b)
    rw [this]
  · intro lit w hw2 hbin hgar
    rw [hw] at hw2
    rw [hlen]
    have hd : w.clause ≠ c := by
      intro e; rw [e, hg] at hgar; cases hgar
    rw [hsame _ hd] at hgar ⊢
    exact hW lit w hw2 hbin hgar

theorem option_eq_some_getD {α β : Type} (r : Option (α × β)) (d : α × β)
    (h : r.isSome = true) : r = some ((r.getD d).1, (r.getD d).2) := by
  cases r with
  | none => cases h
  | some x => rfl

/-- Witness for C7 on scenario 5 of the spec: the check of the third clause of
(-1 2), (-2 3), (-1 3) removes exactly this clause. -/
theorem transred_transitive_sound_witness :
    ((Examples.chainAfter.clauseAt 0).garbage = false ∧
     (Examples.chainAfter.clauseAt 1).garbage = false ∧
     (Examples.chainAfter.clauseAt 2).garbage = true) ∧
    ∃ l0 l1, (Examples.chainFormula.clauseAt 2).literals = [l0, l1] ∧
      Relation.TransGen (Edge Examples.chainFormula 2 false) (-l0) l1 ∧
      Relation.TransGen (Edge Examples.chainFormula 2 false) (-l1) l0 ∧
      (∀ x y, Relation.ReflTransGen (EdgeAll Examples.chainFormula) x y ↔
        Relation.ReflTransGen (EdgeAll Examples.chainAfter) x y) ∧
      Examples.chainAfter.stats.transitive = Examples.chainFormula.stats.transitive + 1 ∧
      BinWatchOK Examples.chainAfter ∧ (∀ v, Examples.chainAfter.marks v = 0) :=
  ⟨⟨by decide, by decide, by decide⟩,
   transred_transitive_sound Examples.env0 Examples.chainFormula Examples.chainAfter 2 0
    ((transredCandidate Examples.env0 2 Examples.chainFormula 0).getD
      (Examples.chainFormula, 0)).2
    (binWatchOK_of_check _ Examples.chainWatches rfl (by decide)) (fun _ => rfl)
    (fun _ _ => rfl) (option_eq_some_getD _ _ (by decide)) (by decide) (by decide)⟩

/-- C8: when the body of the main loop of transred counts a failed literal and assigns the
unit -src (src the start literal of the search of the candidate c), there is a literal l
such that l and -l are both reachable from src through non-garbage binary clauses other
than the candidate (src counting as reached); hence every assignment that satisfies the
non-garbage clauses other than the candidate makes src false. -/
theorem transred_failed_sound (env : Env) (s s2 : Internal) (c : Nat) (props p2 : Int)
    (hW : BinWatchOK s) (hM : ∀ v, s.marks v = 0)
    (hstep : transredCandidate env c s props = some (s2, p2))
    (hf : s2.stats.failed ≠ s.stats.failed) :
    ∃ src l t, l ≠ 0 ∧
      (src = -(s.clauseAt c).literals.getD 0 0 ∨ src = -(s.clauseAt c).literals.getD 1 0) ∧
      Relation.ReflTransGen (Edge s c false) src l ∧
      Relation.ReflTransGen (Edge s c false) src (-l) ∧
      t.trail = s.trail ++ [-src] ∧
      (s2 = (env.propagate t).2 ∨ s2 = (env.propagate t).2.learn_empty_clause) ∧
      (∀ τ, Consistent τ → SatisfiesBut s c τ → τ src = false) := by
  obtain ⟨l0, l1, l, t, hl, hl0, r1, r2, ht, hs2⟩ :=
    transredCandidate_failed env s s2 c props p2 hW hM hstep hf
  have w1 := Relation.ReflTransGen.mono (fun a b e => edge_irr_weaken s c _ a b e) r1
  have w2 := Relation.ReflTransGen.mono (fun a b e => edge_irr_weaken s c _ a b e) r2
  refine ⟨(transredDirection s l0 l1).1, l, t, hl0, ?_, w1, w2, ht, hs2, ?_⟩
  · rw [hl]
    rcases direction_cases s l0 l1 with e | e <;> rw [e]
    · left; rfl
    · right; rfl
  · intro τ hτ hsat
    by_contra hne
    have hsrc : τ (transredDirection s l0 l1).1 = true := by simpa using hne
    have h1 := reach_true s c false τ hτ hsat _ _ w1 hsrc
    have h2 := reach_true s c false τ hτ hsat _ _ w2 hsrc
    rw [hτ.2 l hl0, h1] at h2
    cases h2

/-- Witness for C8: in (-1 2), (-2 3), (-2 -3), (-1 4) the check of the clause (-1 4)
finds the failed literal 1. -/
theorem transred_failed_sound_witness :
    Examples.failedAfter.trail = [-1] ∧
    ∃ src l t, l ≠ 0 ∧
      (src = -(Examples.failedFormula.clauseAt 3).literals.getD 0 0 ∨
       src = -(Examples.failedFormula.clauseAt 3).literals.getD 1 0) ∧
      Relation.ReflTransGen (Edge Examples.failedFormula 3 false) src l ∧
      Relation.ReflTransGen (Edge Examples.failedFormula 3 false) src (-l) ∧
      t.trail = Examples.failedFormula.trail ++ [-src] ∧
      (Examples.failedAfter = (Examples.env0.propagate t).2 ∨
       Examples.failedAfter = (Examples.env0.propagate t).2.learn_empty_clause) ∧
      (∀ τ, Consistent τ → SatisfiesBut Examples.failedFormula 3 τ → τ src = false) :=
  ⟨by decide,
   transred_failed_sound Examples.env0 Examples.failedFormula Examples.failedAfter 3 0
    ((transredCandidate Examples.env0 3 Examples.failedFormula 0).getD
      (Examples.failedFormula, 0)).2
    (binWatchOK_of_check _ Examples.failedWatches rfl (by decide)) (fun _ => rfl)
    (option_eq_some_getD _ _ (by decide)) (by decide)⟩

/-- C9: for an irredundant candidate C, the chain found when C is removed as transitive and
the two paths found when a failed-literal unit is derived consist of irredundant
(non-garbage, binary) clauses other than C only: they are paths of the graph restricted
to irredundant clauses, from the start literal of the search to its target. -/
theorem transred_irredundant_paths (env : Env) (s s2 : Internal) (c : Nat) (props p2 : Int)
    (hW : BinWatchOK s) (hM : ∀ v, s.marks v = 0)
    (hPG : ∀ t d, ((env.propagate t).2.clauseAt d).garbage = (t.clauseAt d).garbage)
    (hstep : transredCandidate env c s props = some (s2, p2))
    (hirr : (s.clauseAt c).redundant = false) :
    ((s.clauseAt c).garbage = false → (s2.clauseAt c).garbage = true →
      ∃ l0 l1, (s.clauseAt c).literals = [l0, l1] ∧
        Relation.TransGen (Edge s c true)
          (transredDirection s l0 l1).1 (transredDirection s l0 l1).2) ∧
    (s2.stats.failed ≠ s.stats.failed →
      ∃ l0 l1 l, (s.clauseAt c).literals = [l0, l1] ∧ l ≠ 0 ∧
        Relation.ReflTransGen (Edge s c true) (transredDirection s l0 l1).1 l ∧
        Relation.ReflTransGen (Edge s c true) (transredDirection s l0 l1).1 (-l)) := by
  constructor
  · intro hng hg
    obtain ⟨l0, l1, hl, hp, _⟩ :=
      transredCandidate_transitive env s s2 c props p2 hW hM hPG hstep hng hg
    rw [hirr] at hp
    exact ⟨l0, l1, hl, hp⟩
  · intro hf
    obtain ⟨l0, l1, l, t, hl, hl0, r1, r2, _⟩ :=
      transredCandidate_failed env s s2 c props p2 hW hM hstep hf
    rw [hirr] at r1 r2
    exact ⟨l0, l1, l, hl, hl0, r1, r2⟩

/-- Witness for C9 on the irredundant clauses (-1 2), (-2 3), (-1 3). -/
theorem transred_irredundant_paths_witness :
    ((Examples.chainFormula.clauseAt 2).garbage = false →
      (Examples.chainAfter.clauseAt 2).garbage = true →
      ∃ l0 l1, (Examples.chainFormula.clauseAt 2).literals = [l0, l1] ∧
        Relation.TransGen (Edge Examples.chainFormula 2 true)
          (transredDirection Examples.chainFormula l0 l1).1
          (transredDirection Examples.chainFormula l0 l1).2) ∧
    (Examples.chainAfter.stats.failed ≠ Examples.chainFormula.stats.failed →
      ∃ l0 l1 l, (Examples.chainFormula.clauseAt 2).literals = [l0, l1] ∧ l ≠ 0 ∧
        Relation.ReflTransGen (Edge Examples.chainFormula 2 true)
          (transredDirection Examples.chainFormula l0 l1).1 l ∧
        Relation.ReflTransGen (Edge Examples.chainFormula 2 true)
          (transredDirection Examples.chainFormula l0 l1).1 (-l)) :=
  transred_irredundant_paths Examples.env0 Examples.chainFormula Examples.chainAfter 2 0
    ((transredCandidate Examples.env0 2 Examples.chainFormula 0).getD
      (Examples.chainFormula, 0)).2
    (binWatchOK_of_check _ Examples.chainWatches rfl (by decide)) (fun _ => rfl)
    (fun _ _ => rfl) (option_eq_some_getD _ _ (by decide)) (by decide)

end Internal

end CaDiCaL

namespace CaDiCaL

namespace Internal

theorem binLits_length_aux (cs : List Clause) :
    ((cs.map (fun cl => cl.literals.take 2)).flatten).length ≤ 2 * cs.length := by
  induction cs with
  | nil => simp
  | cons c cs ih =>
    simp only [List.map_cons, List.flatten_cons, List.length_append, List.length_take,
      List.length_cons]
    omega

theorem binLits_length (s : Internal) : (binLits s).length ≤ 2 * s.clauses.length :=
  binLits_length_aux s.clauses

theorem mem_binLits (s : Internal) (d : Nat) (hd : d < s.clauses.length) (x : Int)
    (hx : x ∈ (s.clauseAt d).literals.take 2) : x ∈ binLits s := by
  unfold binLits
  rw [List.mem_flatten]
  refine ⟨_, List.mem_map.mpr ⟨s.clauseAt d, ?_, rfl⟩, hx⟩
  unfold clauseAt
  rw [List.getD_eq_getElem _ _ hd]
  exact List.getElem_mem _

/-- The blocking literal of a binary watch of a non-garbage clause is a nonzero literal
of a clause. -/
theorem blit_binLits (s : Internal) (hW : BinWatchOK s) (hZ : NoZero s) (lit : Int) (w : Watch)
    (hw : w ∈ s.wtab lit) (hbin : w.binary = true)
    (hg : (s.clauseAt w.clause).garbage = false) : w.blit ≠ 0 ∧ w.blit ∈ binLits s := by
  obtain ⟨hlt, hl⟩ := hW lit w hw hbin hg
  have hz := hZ w.clause hlt
  constructor
  · intro h0
    apply hz
    rcases hl with e | e <;> rw [e, h0] <;> simp
  · apply mem_binLits s w.clause hlt
    rcases hl with e | e <;> rw [e] <;> simp

theorem marked_pos_of_work {marks : Nat → Int} {work : List Int} {o : Int}
    (hm : ∀ v, marks v ≠ 0 → ∃ l ∈ work, l.natAbs = v ∧ marks v = Int.sign l)
    (h : 0 < (if o < 0 then - marks o.natAbs else marks o.natAbs)) : o ∈ work := by
  have hne : marks o.natAbs ≠ 0 := by
    intro h0; rw [h0] at h; simp at h
  obtain ⟨l, hl, habs, hsign⟩ := hm _ hne
  rcases Int.natAbs_eq_natAbs_iff.mp habs with e | e
  · rw [← e]; exact hl
  · exfalso
    rw [hsign, e, Int.sign_neg] at h
    by_cases ho : o < 0
    · rw [if_pos ho, Int.sign_eq_neg_one_of_neg ho] at h
      omega
    · rw [if_neg ho] at h
      have : 0 ≤ Int.sign o := Int.sign_nonneg.mpr (by omega)
      omega

theorem bfsInv_length (s : Internal) (src : Int) (b : Bfs) (hb : BfsInv s src b) :
    b.work.length ≤ 2 * s.clauses.length + 1 := by
  have hsub : b.work ⊆ src :: binLits s := by
    intro l hl
    rcases hb.sub l hl with e | e
    · rw [e]; exact List.mem_cons_self _ _
    · exact List.mem_cons_of_mem _ e
  have := (List.subperm_of_subset hb.nodup hsub).length_le
  have h2 := binLits_length s
  simp only [List.length_cons] at this
  omega

theorem bfsInv_init (s : Internal) (hM : ∀ v, s.marks v = 0) (src : Int) (hsrc : src ≠ 0) :
    BfsInv s src ⟨s.mark src, [src], false, false⟩ := by
  refine ⟨rfl, ?_, ?_, List.nodup_singleton _, ?_, List.mem_singleton_self _⟩
  · intro v hv
    refine ⟨src, by simp, ?_, ?_⟩
    · by_contra hne
      apply hv
      have : ¬ v = src.natAbs := fun e => hne e.symm
      simp [mark, this, hM]
    · by_cases e : v = src.natAbs
      · simp [mark, e]
      · exfalso; apply hv; simp [mark, e, hM]
  · intro l hl
    have : l = src := by simpa using hl
    rw [this]
    exact ⟨hsrc, by simp [mark]⟩
  · intro l hl
    left
    simpa using hl

/-- The state in which the blocking literal of a watch has been marked and pushed. -/
theorem bfsInv_push (s : Internal) (src : Int) (b : Bfs) (hb : BfsInv s src b) (o : Int)
    (ho : o ≠ 0) (hin : o ∈ binLits s) (h0 : b.s.marks o.natAbs = 0) :
    BfsInv s src { b with s := b.s.mark o, work := b.work ++ [o] } := by
  have hsign : Int.sign o ≠ 0 := fun h => ho (Int.sign_eq_zero_iff_zero.mp h)
  have hnew : ∀ l ∈ b.work, l.natAbs ≠ o.natAbs := by
    intro l hl e
    have := (hb.work_marked l hl).2
    rw [e, h0] at this
    exact (hb.work_marked l hl).1 (Int.sign_eq_zero_iff_zero.mp this.symm)
  refine ⟨mark_frame s b.s hb.frame o, ?_, ?_, ?_, ?_, ?_⟩
  · intro v hv
    show ∃ l ∈ b.work ++ [o], l.natAbs = v ∧ (b.s.mark o).marks v = Int.sign l
    by_cases hvb : v = o.natAbs
    · refine ⟨o, by simp, hvb.symm, ?_⟩
      simp [mark, hvb]
    · have hv2 : b.s.marks v ≠ 0 := by
        simpa [mark, hvb] using hv
      obtain ⟨l, hl, h1, h2⟩ := hb.marks_work v hv2
      refine ⟨l, by simp [hl], h1, ?_⟩
      simpa [mark, hvb] using h2
  · intro l hl
    have hl2 : l ∈ b.work ++ [o] := hl
    show l ≠ 0 ∧ (b.s.mark o).marks l.natAbs = Int.sign l
    rcases List.mem_append.mp hl2 with h | h
    · refine ⟨(hb.work_marked l h).1, ?_⟩
      have := hnew l h
      simp only [mark, this, if_false]
      exact (hb.work_marked l h).2
    · have : l = o := by simpa using h
      rw [this]
      exact ⟨ho, by simp [mark]⟩
  · show (b.work ++ [o]).Nodup
    rw [List.nodup_append]
    refine ⟨hb.nodup, List.nodup_singleton _, ?_⟩
    intro x hx hx2
    have : x = o := by simpa using hx2
    exact hnew x hx (by rw [this])
  · intro l hl
    have hl2 : l ∈ b.work ++ [o] := hl
    rcases List.mem_append.mp hl2 with h | h
    · exact hb.sub l h
    · have : l = o := by simpa using h
      rw [this]; exact Or.inr hin
  · show src ∈ b.work ++ [o]
    exact List.mem_append_left _ hb.has_src

/-- One scan of a watch list with its binary watches first: the working stack only grows
at its end, the flags are only raised, and if none is raised at the end the blocking
literal of every binary watch of the list that belongs to a clause of the graph is on the
working stack. -/
theorem transredScan_complete (s : Internal) (hW : BinWatchOK s) (hZ : NoZero s) (c : Nat)
    (irr : Bool) (src dst lit : Int) :
    ∀ (ws : List Watch) (b : Bfs), (∀ w ∈ ws, w ∈ s.wtab lit) → BinFirstList ws →
      BfsInv s src b →
      BfsInv s src (transredScan c irr dst ws b) ∧
      (∃ ext, (transredScan c irr dst ws b).work = b.work ++ ext) ∧
      ((transredScan c irr dst ws b).transitive = false → b.transitive = false) ∧
      ((transredScan c irr dst ws b).failed = false → b.failed = false) ∧
      ((transredScan c irr dst ws b).transitive = false →
        (transredScan c irr dst ws b).failed = false →
        ∀ w ∈ ws, w.binary = true → w.clause ≠ c → (s.clauseAt w.clause).garbage = false →
          (irr = true → (s.clauseAt w.clause).redundant = false) →
          w.blit ∈ (transredScan c irr dst ws b).work) := by
  intro ws
  induction ws with
  | nil =>
    intro b _ _ hb
    rw [transredScan]
    exact ⟨hb, ⟨[], by simp⟩, fun h => h, fun h => h, fun _ _ w hw => absurd hw (by simp)⟩
  | cons w ws ih =>
    intro b hws hpw hb
    have hws2 : ∀ x ∈ ws, x ∈ s.wtab lit := fun x hx => hws x (List.mem_cons_of_mem _ hx)
    have hw : w ∈ s.wtab lit := hws w (List.mem_cons_self _ _)
    have hpw2 : BinFirstList ws := (List.pairwise_cons.mp hpw).2
    have hpw1 : ∀ x ∈ ws, w.binary = false → x.binary = false := (List.pairwise_cons.mp hpw).1
    have hcl : ∀ d, b.s.clauseAt d = s.clauseAt d := by
      intro d; unfold clauseAt; rw [hb.frame]
    have combine : ∀ b1 : Bfs, BfsInv s src b1 → (∃ e1, b1.work = b.work ++ e1) →
        (b1.transitive = false → b.transitive = false) →
        (b1.failed = false → b.failed = false) →
        (w.binary = true → w.clause ≠ c → (s.clauseAt w.clause).garbage = false →
          (irr = true → (s.clauseAt w.clause).redundant = false) →
          w.blit ∈ b1.work ∨ b1.transitive = true ∨ b1.failed = true) →
        BfsInv s src (transredScan c irr dst ws b1) ∧
        (∃ ext, (transredScan c irr dst ws b1).work = b.work ++ ext) ∧
        ((transredScan c irr dst ws b1).transitive = false → b.transitive = false) ∧
        ((transredScan c irr dst ws b1).failed = false → b.failed = false) ∧
        ((transredScan c irr dst ws b1).transitive = false →
          (transredScan c irr dst ws b1).failed = false →
          ∀ x ∈ w :: ws, x.binary = true → x.clause ≠ c →
            (s.clauseAt x.clause).garbage = false →
            (irr = true → (s.clauseAt x.clause).redundant = false) →
            x.blit ∈ (transredScan c irr dst ws b1).work) := by
      intro b1 hb1 he1 ht1 hf1 hw5
      obtain ⟨i1, ⟨ext, he⟩, i3, i4, i5⟩ := ih b1 hws2 hpw2 hb1
      obtain ⟨e1, he1⟩ := he1
      refine ⟨i1, ⟨e1 ++ ext, by rw [he, he1, List.append_assoc]⟩,
        fun h => ht1 (i3 h), fun h => hf1 (i4 h), ?_⟩
      intro ht hf x hx hbin hne hg hr
      rcases List.mem_cons.mp hx with e | hx2
      · rw [e] at hbin hne hg hr ⊢
        rcases hw5 hbin hne hg hr with h | h | h
        · rw [he]; exact List.mem_append_left _ h
        · rw [i3 ht] at h; cases h
        · rw [i4 hf] at h; cases h
      · exact i5 ht hf x hx2 hbin hne hg hr
    rw [transredScan]
    by_cases h1 : (b.transitive || b.failed) = true
    · rw [if_pos h1]
      refine ⟨hb, ⟨[], by simp⟩, fun h => h, fun h => h, ?_⟩
      intro ht hf
      rw [ht, hf] at h1
      cases h1
    rw [if_neg h1]
    by_cases h2 : (!w.binary) = true
    · rw [if_pos h2]
      have hnb : w.binary = false := by simpa using h2
      refine ⟨hb, ⟨[], by simp⟩, fun h => h, fun h => h, ?_⟩
      intro _ _ x hx hbin
      rcases List.mem_cons.mp hx with e | hx2
      · rw [e, hnb] at hbin; cases hbin
      · rw [hpw1 x hx2 hnb] at hbin; cases hbin
    rw [if_neg h2]
    have hbin : w.binary = true := by simpa using h2
    by_cases h3 : w.clause = c
    · rw [if_pos h3]
      exact combine b hb ⟨[], by simp⟩ (fun h => h) (fun h => h)
        (fun _ hne _ _ => absurd h3 hne)
    rw [if_neg h3]
    by_cases h4 : (irr && (b.s.clauseAt w.clause).redundant) = true
    · rw [if_pos h4]
      apply combine b hb ⟨[], by simp⟩ (fun h => h) (fun h => h)
      intro _ _ _ hr
      exfalso
      rw [hcl] at h4
      simp only [Bool.and_eq_true] at h4
      rw [hr h4.1] at h4
      exact absurd h4.2 (by simp)
    rw [if_neg h4]
    by_cases h5 : (b.s.clauseAt w.clause).garbage = true
    · rw [if_pos h5]
      apply combine b hb ⟨[], by simp⟩ (fun h => h) (fun h => h)
      intro _ _ hg _
      exfalso
      rw [hcl, hg] at h5
      cases h5
    rw [if_neg h5]
    have hg : (s.clauseAt w.clause).garbage = false := by
      rw [← hcl]; simpa using h5
    by_cases h6 : w.blit = dst
    · rw [if_pos h6]
      exact combine { b with transitive := true }
        ⟨hb.frame, hb.marks_work, hb.work_marked, hb.nodup, hb.sub, hb.has_src⟩
        ⟨[], by simp⟩ (fun h => by cases h) (fun h => h)
        (fun _ _ _ _ => Or.inr (Or.inl rfl))
    rw [if_neg h6]
    by_cases h7 : 0 < b.s.marked w.blit
    · rw [if_pos h7]
      exact combine b hb ⟨[], by simp⟩ (fun h => h) (fun h => h)
        (fun _ _ _ _ => Or.inl (marked_pos_of_work hb.marks_work h7))
    rw [if_neg h7]
    by_cases h8 : b.s.marked w.blit < 0
    · rw [if_pos h8]
      exact combine { b with failed := true }
        ⟨hb.frame, hb.marks_work, hb.work_marked, hb.nodup, hb.sub, hb.has_src⟩
        ⟨[], by simp⟩ (fun h => h) (fun h => by cases h)
        (fun _ _ _ _ => Or.inr (Or.inr rfl))
    rw [if_neg h8]
    have h0 : b.s.marks w.blit.natAbs = 0 := by
      unfold marked at h7 h8
      by_cases hn : w.blit < 0
      · rw [if_pos hn] at h7 h8; omega
      · rw [if_neg hn] at h7 h8; omega
    obtain ⟨hnz, hin⟩ := blit_binLits s hW hZ lit w hw hbin hg
    exact combine { b with s := b.s.mark w.blit, work := b.work ++ [w.blit] }
      (bfsInv_push s src b hb w.blit hnz hin h0) ⟨[w.blit], rfl⟩ (fun h => h) (fun h => h)
      (fun _ _ _ _ => Or.inl (List.mem_append_right _ (List.mem_singleton_self _)))

/-- An edge of the graph out of lit is a binary watch in the list of -lit. -/
theorem edge_watch (s : Internal) (hC : BinWatchComplete s) (c : Nat) (irr : Bool)
    (lit o : Int) (h : Edge s c irr lit o) :
    ∃ w ∈ s.wtab (-lit), w.binary = true ∧ w.clause ≠ c ∧
      (s.clauseAt w.clause).garbage = false ∧
      (irr = true → (s.clauseAt w.clause).redundant = false) ∧ w.blit = o := by
  obtain ⟨d, h1, h2, h3, h4, h5⟩ := h
  rcases h5 with e | e
  · obtain ⟨⟨w, hw, e1, e2, e3⟩, _⟩ := hC d h2 h3 (by rw [e]; rfl)
    rw [e] at hw e2
    exact ⟨w, hw, e3, by rw [e1]; exact h1, by rw [e1]; exact h3, by rw [e1]; exact h4, e2⟩
  · obtain ⟨_, ⟨w, hw, e1, e2, e3⟩⟩ := hC d h2 h3 (by rw [e]; rfl)
    rw [e] at hw e2
    exact ⟨w, hw, e3, by rw [e1]; exact h1, by rw [e1]; exact h3, by rw [e1]; exact h4, e2⟩

/-- The while loop of the search returns within the fuel of transredSearch, and when it
ends with no flag raised the working stack is closed under the edges of the graph. -/
theorem transredBfs_complete (s : Internal) (hW : BinWatchOK s) (hC : BinWatchComplete s)
    (hS : BinFirst s) (hZ : NoZero s) (c : Nat) (irr : Bool) (src dst : Int) :
    ∀ (fuel j : Nat) (b : Bfs) (p : Int), BfsInv s src b → j ≤ b.work.length →
      2 * s.clauses.length + 2 ≤ fuel + j →
      (b.transitive = false → b.failed = false →
        ∀ i, i < j → ∀ o, Edge s c irr (b.work.getD i 0) o → o ∈ b.work) →
      ∃ b2 p2, transredBfs c irr dst fuel j b p = some (b2, p2) ∧ BfsInv s src b2 ∧
        (b2.transitive = false → b2.failed = false →
          ∀ l ∈ b2.work, ∀ o, Edge s c irr l o → o ∈ b2.work) := by
  intro fuel
  induction fuel with
  | zero =>
    intro j b p hb hj hfuel hcl
    have hlen := bfsInv_length s src b hb
    have hdone : b.work.length ≤ j := by omega
    rw [transredBfs, if_pos (by simp [hdone])]
    refine ⟨b, p, rfl, hb, ?_⟩
    intro ht hf l hl o he
    obtain ⟨i, hi, e⟩ := List.mem_iff_getElem.mp hl
    have := hcl ht hf i (by omega) o
    rw [List.getD_eq_getElem _ _ hi, e] at this
    exact this he
  | succ fuel ih =>
    intro j b p hb hj hfuel hcl
    by_cases hdone : (b.transitive || b.failed || decide (b.work.length ≤ j)) = true
    · rw [transredBfs, if_pos hdone]
      refine ⟨b, p, rfl, hb, ?_⟩
      intro ht hf l hl o he
      rw [ht, hf] at hdone
      have hle : b.work.length ≤ j := by simpa using hdone
      obtain ⟨i, hi, e⟩ := List.mem_iff_getElem.mp hl
      have := hcl ht hf i (by omega) o
      rw [List.getD_eq_getElem _ _ hi, e] at this
      exact this he
    · have hlt : j < b.work.length := by
        by_contra hc
        apply hdone
        have : b.work.length ≤ j := by omega
        simp [this]
      have e : transredBfs c irr dst (fuel + 1) j b p =
          transredBfs c irr dst fuel (j + 1)
            (transredScan c irr dst (b.s.watches (-(b.work.getD j 0))) b) (p + 1) := by
        rw [transredBfs, if_neg hdone]
      rw [e]
      have hwt : b.s.watches (-(b.work.getD j 0)) = s.wtab (-(b.work.getD j 0)) := by
        unfold watches; rw [hb.frame]
      rw [hwt]
      obtain ⟨i1, ⟨ext, he⟩, i3, i4, i5⟩ := transredScan_complete s hW hZ c irr src dst
        (-(b.work.getD j 0)) (s.wtab (-(b.work.getD j 0))) b (fun _ h => h)
        (hS (-(b.work.getD j 0))) hb
      apply ih (j + 1) _ (p + 1) i1
      · rw [he, List.length_append]; omega
      · omega
      · intro ht hf i hi o hedge
        by_cases hij : i < j
        · have hi2 : i < b.work.length := by omega
          rw [he, List.getD_append _ _ _ _ hi2] at hedge
          rw [he]
          exact List.mem_append_left _ (hcl (i3 ht) (i4 hf) i hij o hedge)
        · have hij2 : i = j := by omega
          rw [hij2, he, List.getD_append _ _ _ _ hlt] at hedge
          obtain ⟨w, hw, w1, w2, w3, w4, w5⟩ := edge_watch s hC c irr _ o hedge
          rw [← w5]
          exact i5 ht hf w hw w1 w2 w3 w4

/-- A working stack closed under the edges holds every literal reachable from src. -/
theorem reach_in_work (s : Internal) (c : Nat) (irr : Bool) (src : Int) (b : Bfs)
    (hb : BfsInv s src b)
    (hcl : ∀ l ∈ b.work, ∀ o, Edge s c irr l o → o ∈ b.work) (x : Int)
    (h : Relation.ReflTransGen (Edge s c irr) src x) : x ∈ b.work := by
  induction h with
  | refl => exact hb.has_src
  | tail _ e ih => exact hcl _ ih _ e

/-- The working stack never holds a literal and its negation. -/
theorem work_no_pair (s : Internal) (src : Int) (b : Bfs) (hb : BfsInv s src b) (x : Int)
    (h1 : x ∈ b.work) (h2 : -x ∈ b.work) : False := by
  obtain ⟨hx, e1⟩ := hb.work_marked x h1
  obtain ⟨_, e2⟩ := hb.work_marked (-x) h2
  rw [Int.natAbs_neg, e1, Int.sign_neg] at e2
  have : Int.sign x = 0 := by omega
  exact hx (Int.sign_eq_zero_iff_zero.mp this)

/-- A search from a literal that reaches a literal and its negation returns and ends with
one of its flags raised. -/
theorem transredBfs_flags (s : Internal) (hW : BinWatchOK s) (hC : BinWatchComplete s)
    (hS : BinFirst s) (hZ : NoZero s) (hM : ∀ v, s.marks v = 0) (c : Nat) (irr : Bool)
    (src dst : Int) (hsrc : src ≠ 0) (p : Int) (x : Int)
    (h1 : Relation.ReflTransGen (Edge s c irr) src x)
    (h2 : Relation.ReflTransGen (Edge s c irr) src (-x)) :
    ∃ b2 p2, transredBfs c irr dst (2 * s.clauses.length + 2) 0
        ⟨s.mark src, [src], false, false⟩ p = some (b2, p2) ∧
      SearchInv s c irr src dst b2 ∧ (b2.transitive = true ∨ b2.failed = true) := by
  obtain ⟨b2, p2, e, hb2, hcl⟩ := transredBfs_complete s hW hC hS hZ c irr src dst
    (2 * s.clauses.length + 2) 0 ⟨s.mark src, [src], false, false⟩ p
    (bfsInv_init s hM src hsrc) (Nat.zero_le _) (le_refl _)
    (fun _ _ i hi => absurd hi (Nat.not_lt_zero i))
  refine ⟨b2, p2, e, transredBfs_inv s hW c irr src dst _ 0 _ p b2 p2
    (searchInv_init s hM c irr src dst) e, ?_⟩
  by_contra hno
  have ht : b2.transitive = false := by
    cases h : b2.transitive
    · rfl
    · exact absurd (Or.inl h) hno
  have hf : b2.failed = false := by
    cases h : b2.failed
    · rfl
    · exact absurd (Or.inr h) hno
  exact work_no_pair s src b2 hb2 x
    (reach_in_work s c irr src b2 hb2 (hcl ht hf) x h1)
    (reach_in_work s c irr src b2 hb2 (hcl ht hf) (-x) h2)

end Internal

end CaDiCaL

namespace CaDiCaL

namespace Internal

/-- Setting the flag transred of the candidate changes no literal and no other flag. -/
theorem flag_clauseAt (s : Internal) (c d : Nat) :
    ((transredFlag s c).clauseAt d).literals = (s.clauseAt d).literals ∧
    ((transredFlag s c).clauseAt d).garbage = (s.clauseAt d).garbage ∧
    ((transredFlag s c).clauseAt d).redundant = (s.clauseAt d).redundant := by
  unfold transredFlag
  rw [clauseAt_setClause]
  split
  · rename_i h
    rw [h.1]
    exact ⟨rfl, rfl, rfl⟩
  · exact ⟨rfl, rfl, rfl⟩

theorem flag_length (s : Internal) (c : Nat) :
    (transredFlag s c).clauses.length = s.clauses.length := by
  unfold transredFlag
  exact length_setClause s c _

theorem binWatchOK_flag (s : Internal) (c : Nat) (hW : BinWatchOK s) :
    BinWatchOK (transredFlag s c) := by
  intro lit w hw hbin hg
  rw [(flag_clauseAt s c w.clause).2.1] at hg
  rw [(flag_clauseAt s c w.clause).1, flag_length]
  exact hW lit w hw hbin hg

theorem binWatchComplete_flag (s : Internal) (c : Nat) (hC : BinWatchComplete s) :
    BinWatchComplete (transredFlag s c) := by
  intro d hd hg hl
  rw [flag_length] at hd
  rw [(flag_clauseAt s c d).2.1] at hg
  rw [(flag_clauseAt s c d).1] at hl ⊢
  exact hC d hd hg hl

theorem noZero_flag (s : Internal) (c : Nat) (hZ : NoZero s) : NoZero (transredFlag s c) := by
  intro d hd
  rw [flag_length] at hd
  rw [(flag_clauseAt s c d).1]
  exact hZ d hd

/-- A watch table given by entries whose lists have their binary watches first. -/
theorem binFirst_of_table (s : Internal) (tbl : List (Int × List Watch))
    (h1 : s.wtab = Examples.tableOf tbl) (h2 : ∀ e ∈ tbl, BinFirstList e.2) : BinFirst s := by
  intro lit
  rw [h1]
  unfold Examples.tableOf
  cases h : tbl.lookup lit with
  | none => exact List.Pairwise.nil
  | some ws =>
    have hm : (lit, ws) ∈ tbl := by
      clear h2 h1
      induction tbl with
      | nil => simp at h
      | cons e tbl ih =>
        obtain ⟨k, v⟩ := e
        by_cases hk : lit = k
        · subst hk
          simp only [List.lookup_cons, beq_self_eq_true, Option.some.injEq] at h
          rw [h]; exact List.mem_cons_self _ _
        · have hb : (lit == k) = false := by simpa using hk
          simp only [List.lookup_cons, hb] at h
          exact List.mem_cons_of_mem _ (ih h)
    exact h2 (lit, ws) hm

/-- Counterexample to C32 as stated, on scenario 6 of the spec: in (-1 2), (-1 -2) with
nothing assigned the literal 1 reaches both 2 and -2 in the binary implication graph, and
the run of transred() checks both clauses and ends with -1 unassigned, an empty trail and
the counters failed and transredunits unchanged, because the search of a candidate does
not use the candidate itself. -/
theorem transred_failed_complete_counterexample :
    EdgeAll Examples.binFormula 1 2 ∧ EdgeAll Examples.binFormula 1 (-2) ∧
    (transred Examples.env0 Examples.binFormula).isSome = true ∧
    ((transred Examples.env0 Examples.binFormula).getD Examples.binFormula).val (-1) = 0 ∧
    ((transred Examples.env0 Examples.binFormula).getD Examples.binFormula).trail = [] ∧
    ((transred Examples.env0 Examples.binFormula).getD Examples.binFormula).stats.failed
      = Examples.binFormula.stats.failed ∧
    ((transred Examples.env0 Examples.binFormula).getD Examples.binFormula).stats.transredunits
      = Examples.binFormula.stats.transredunits ∧
    (((transred Examples.env0 Examples.binFormula).getD Examples.binFormula).clauses.map
      (fun c => (c.garbage, c.transred))) = [(false, true), (false, true)] :=
  ⟨⟨0, by decide, by decide, Or.inl (by decide)⟩,
   ⟨1, by decide, by decide, Or.inl (by decide)⟩,
   by decide!⟩

/-- C32 (amended): let the watches of the binary clauses be consistent, complete and first
in their lists, no mark be set and no clause contain 0. If the body of the main loop of
transred() reaches the search for a candidate clause c, and the start literal src of that
search reaches some literal x and its negation in the binary implication graph without c
(restricted to irredundant clauses when c is irredundant), then the body returns, and
either it has found a path from src to the target not using c, marked c garbage and counted
it as transitive, or it has counted src as a failed literal: stats.failed and
stats.transredunits grow by 1, -src is assigned true and pushed on the trail, and the
result is the state after propagation (with the empty clause learned on a conflict). -/
theorem transred_failed_complete (env : Env) (s : Internal) (c : Nat) (props : Int) (x : Int)
    (hW : BinWatchOK s) (hC : BinWatchComplete s) (hS : BinFirst s) (hZ : NoZero s)
    (hM : ∀ v, s.marks v = 0)
    (hg : (s.clauseAt c).garbage = false) (hsz : (s.clauseAt c).size = 2)
    (hh : ((s.clauseAt c).redundant && (s.clauseAt c).hyper) = false)
    (ht : (s.clauseAt c).transred = false)
    (hv0 : s.val (-((s.clauseAt c).literals.getD 0 0)) = 0)
    (hv1 : s.val ((s.clauseAt c).literals.getD 1 0) = 0)
    (h1 : Relation.ReflTransGen (Edge s c (!(s.clauseAt c).redundant))
      (transredDirection s ((s.clauseAt c).literals.getD 0 0)
        ((s.clauseAt c).literals.getD 1 0)).1 x)
    (h2 : Relation.ReflTransGen (Edge s c (!(s.clauseAt c).redundant))
      (transredDirection s ((s.clauseAt c).literals.getD 0 0)
        ((s.clauseAt c).literals.getD 1 0)).1 (-x)) :
    ∃ s2 p2, transredCandidate env c s props = some (s2, p2) ∧
      ((Relation.TransGen (Edge s c (!(s.clauseAt c).redundant))
          (transredDirection s ((s.clauseAt c).literals.getD 0 0)
            ((s.clauseAt c).literals.getD 1 0)).1
          (transredDirection s ((s.clauseAt c).literals.getD 0 0)
            ((s.clauseAt c).literals.getD 1 0)).2 ∧
        (s2.clauseAt c).garbage = true ∧
        s2.stats.transitive = s.stats.transitive + 1 ∧
        s2.stats.failed = s.stats.failed) ∨
       (∃ t : Internal,
        t.val (-(transredDirection s ((s.clauseAt c).literals.getD 0 0)
          ((s.clauseAt c).literals.getD 1 0)).1) = 1 ∧
        t.val (transredDirection s ((s.clauseAt c).literals.getD 0 0)
          ((s.clauseAt c).literals.getD 1 0)).1 = -1 ∧
        t.trail = s.trail ++ [-(transredDirection s ((s.clauseAt c).literals.getD 0 0)
          ((s.clauseAt c).literals.getD 1 0)).1] ∧
        t.stats.failed = s.stats.failed + 1 ∧
        t.stats.transredunits = s.stats.transredunits + 1 ∧
        (s2 = (env.propagate t).2 ∨ s2 = (env.propagate t).2.learn_empty_clause))) := by
  have hlits := literals_pair hsz
  have hc : c < s.clauses.length := lt_length_of_literals_ne (by rw [hlits]; simp)
  generalize hl0 : (s.clauseAt c).literals.getD 0 0 = l0 at *
  generalize hl1 : (s.clauseAt c).literals.getD 1 0 = l1 at *
  have hz0 : l0 ≠ 0 := by
    intro h
    apply hZ c hc
    rw [hlits, h]; simp
  have hz1 : l1 ≠ 0 := by
    intro h
    apply hZ c hc
    rw [hlits, h]; simp
  have hsrc : (transredDirection s l0 l1).1 ≠ 0 := by
    rcases direction_cases s l0 l1 with e | e <;> rw [e] <;> simp [hz0, hz1]
  generalize hsd : transredDirection s l0 l1 = sd at *
  have hdir : ∀ a b, transredDirection (transredFlag s c) a b = transredDirection s a b :=
    fun _ _ => rfl
  have hcl1 : (transredFlag s c).clauseAt c = { s.clauseAt c with transred := true } := by
    unfold transredFlag
    rw [clauseAt_setClause, if_pos ⟨rfl, hc⟩]
  have hedge : ∀ a b, Edge s c (!(s.clauseAt c).redundant) a b →
      Edge (transredFlag s c) c (!(s.clauseAt c).redundant) a b :=
    fun a b e => (edge_setClause s c _ _ a b).mpr e
  have hedge2 : ∀ a b, Edge (transredFlag s c) c (!(s.clauseAt c).redundant) a b →
      Edge s c (!(s.clauseAt c).redundant) a b :=
    fun a b e => (edge_setClause s c _ _ a b).mp e
  obtain ⟨b, p, hbfs, hinv, hflags⟩ := transredBfs_flags (transredFlag s c)
    (binWatchOK_flag s c hW) (binWatchComplete_flag s c hC) (fun lit => hS lit)
    (noZero_flag s c hZ) (fun v => hM v) c (!(s.clauseAt c).redundant) sd.1 sd.2 hsrc props x
    (Relation.ReflTransGen.mono hedge h1) (Relation.ReflTransGen.mono hedge h2)
  have hsearch : transredSearch c (transredFlag s c) props = some (b, p) := by
    unfold transredSearch
    simp only [hcl1, hdir, hl0, hl1, hsd]
    exact hbfs
  have hcand : transredCandidate env c s props = some (transredFinish env c sd.1 b, p) := by
    unfold transredCandidate
    have e0 : (transredFlag s c).val (-l0) = 0 := hv0
    have e1 : (transredFlag s c).val l1 = 0 := hv1
    rw [if_neg (by rw [hg]; simp), if_neg (by rw [hsz]; simp), if_neg (by rw [hh]; simp),
      if_neg (by rw [ht]; simp)]
    simp only [hl0, hl1, e0, e1, hdir, hsd, hsearch]
    simp
  refine ⟨_, _, hcand, ?_⟩
  have hU : b.work.reverse.foldl unmark b.s
      = { transredFlag s c with marks := (b.work.reverse.foldl unmark b.s).marks } := by
    rw [foldl_unmark_frame b.work.reverse b.s, hinv.frame]
  generalize hUdef : b.work.reverse.foldl unmark b.s = U at hU
  unfold transredFinish
  rw [hUdef]
  by_cases htr : b.transitive = true
  · left
    rw [if_pos htr]
    refine ⟨Relation.TransGen.mono hedge2 (hinv.trans_path htr), ?_, ?_, ?_⟩
    · have hUlen : c < U.clauses.length := by
        rw [hU]
        show c < (transredFlag s c).clauses.length
        rw [flag_length]; exact hc
      unfold mark_garbage
      rw [clauseAt_setClause, if_pos ⟨rfl, hUlen⟩]
    · show U.stats.transitive + 1 = _
      rw [hU]; rfl
    · show U.stats.failed = _
      rw [hU]; rfl
  · right
    rw [if_neg htr]
    have hf : b.failed = true := by
      rcases hflags with h | h
      · exact absurd h htr
      · exact h
    rw [if_pos hf]
    refine ⟨transredUnit U sd.1, ?_, ?_, ?_, ?_, ?_, ?_⟩
    · show setVal (setVal U.vals (-sd.1) 1) (- -sd.1) (-1) (-sd.1) = 1
      have : ¬ (-sd.1 = sd.1) := by
        intro h; apply hsrc; omega
      simp [setVal, this]
    · show setVal (setVal U.vals (-sd.1) 1) (- -sd.1) (-1) sd.1 = -1
      simp [setVal]
    · show U.trail ++ _ = _
      rw [hU]; rfl
    · show U.stats.failed + 1 = _
      rw [hU]; rfl
    · show U.stats.transredunits + 1 = _
      rw [hU]; rfl
    · split
      · right; rfl
      · left; rfl

/-- Witness for C32 (amended): in (-1 2), (-2 3), (-2 -3), (-1 4) the search for the
candidate (-1 4) starts from 1, which reaches 3 and -3 without the candidate. -/
theorem transred_failed_complete_witness :
    ∃ s2 p2, transredCandidate Examples.env0 3 Examples.failedFormula 0 = some (s2, p2) ∧
      ((Relation.TransGen (Edge Examples.failedFormula 3
          (!(Examples.failedFormula.clauseAt 3).redundant))
          (transredDirection Examples.failedFormula
            ((Examples.failedFormula.clauseAt 3).literals.getD 0 0)
            ((Examples.failedFormula.clauseAt 3).literals.getD 1 0)).1
          (transredDirection Examples.failedFormula
            ((Examples.failedFormula.clauseAt 3).literals.getD 0 0)
            ((Examples.failedFormula.clauseAt 3).literals.getD 1 0)).2 ∧
        (s2.clauseAt 3).garbage = true ∧
        s2.stats.transitive = Examples.failedFormula.stats.transitive + 1 ∧
        s2.stats.failed = Examples.failedFormula.stats.failed) ∨
       (∃ t : Internal,
        t.val (-(transredDirection Examples.failedFormula
          ((Examples.failedFormula.clauseAt 3).literals.getD 0 0)
          ((Examples.failedFormula.clauseAt 3).literals.getD 1 0)).1) = 1 ∧
        t.val (transredDirection Examples.failedFormula
          ((Examples.failedFormula.clauseAt 3).literals.getD 0 0)
          ((Examples.failedFormula.clauseAt 3).literals.getD 1 0)).1 = -1 ∧
        t.trail = Examples.failedFormula.trail ++ [-(transredDirection Examples.failedFormula
          ((Examples.failedFormula.clauseAt 3).literals.getD 0 0)
          ((Examples.failedFormula.clauseAt 3).literals.getD 1 0)).1] ∧
        t.stats.failed = Examples.failedFormula.stats.failed + 1 ∧
        t.stats.transredunits = Examples.failedFormula.stats.transredunits + 1 ∧
        (s2 = (Examples.env0.propagate t).2 ∨
          s2 = (Examples.env0.propagate t).2.learn_empty_clause))) :=
  transred_failed_complete Examples.env0 Examples.failedFormula 3 0 3
    (binWatchOK_of_check _ Examples.failedWatches rfl (by decide)) (by decide)
    (binFirst_of_table _ Examples.failedWatches rfl (by decide)) (by decide)
    (fun _ => rfl) (by decide) (by decide) (by decide) (by decide) (by decide) (by decide)
    (Relation.ReflTransGen.tail
      (show Relation.ReflTransGen (Edge Examples.failedFormula 3
          (!(Examples.failedFormula.clauseAt 3).redundant)) _ 2 from
        Relation.ReflTransGen.tail Relation.ReflTransGen.refl
          ⟨0, by decide, by decide, by decide, by decide, Or.inl (by decide)⟩)
      ⟨1, by decide, by decide, by decide, by decide, Or.inl (by decide)⟩)
    (Relation.ReflTransGen.tail
      (show Relation.ReflTransGen (Edge Examples.failedFormula 3
          (!(Examples.failedFormula.clauseAt 3).redundant)) _ 2 from
        Relation.ReflTransGen.tail Relation.ReflTransGen.refl
          ⟨0, by decide, by decide, by decide, by decide, Or.inl (by decide)⟩)
      ⟨2, by decide, by decide, by decide, by decide, Or.inl (by decide)⟩)

end Internal

end CaDiCaL

namespace CaDiCaL

namespace Internal

theorem MarksOnly.refl (a : Internal × Coveror) : MarksOnly a a := ⟨rfl, rfl⟩

theorem MarksOnly.trans {a b c : Internal × Coveror} (h1 : MarksOnly a b) (h2 : MarksOnly b c) :
    MarksOnly a c := by
  obtain ⟨a1, a2⟩ := h1
  obtain ⟨b1, b2⟩ := h2
  constructor
  · rw [b1, a1]
  · rw [b2, a2]

theorem MarksOnly.val {a b : Internal × Coveror} (h : MarksOnly a b) (x : Int) :
    b.1.val x = a.1.val x := by
  unfold Internal.val; rw [h.1]

theorem MarksOnly.clauseAt {a b : Internal × Coveror} (h : MarksOnly a b) (c : Nat) :
    b.1.clauseAt c = a.1.clauseAt c := by
  unfold Internal.clauseAt; rw [h.1]

theorem marksOnly_mark (a : Internal × Coveror) (x : Int) (I : List Int) :
    MarksOnly a (a.1.mark x, { a.2 with intersection := I }) := ⟨rfl, rfl⟩

theorem marksOnly_unmark (a : Internal × Coveror) (x : Int) :
    MarksOnly a (a.1.unmark x, a.2) := ⟨rfl, rfl⟩

theorem unmarkAll_frame (lits : List Int) (s : Internal) :
    s.unmarkAll lits = { s with marks := (s.unmarkAll lits).marks } :=
  foldl_unmark_frame lits s

theorem coveredReset_marksOnly (a : Internal × Coveror) : MarksOnly a (coveredReset a) :=
  ⟨unmarkAll_frame _ _, rfl⟩

theorem coveredFilter_frame (I : List Int) : ∀ s : Internal,
    (coveredFilter I s).1 = { s with marks := (coveredFilter I s).1.marks } := by
  induction I with
  | nil => intro s; rfl
  | cons x I ih =>
    intro s
    unfold coveredFilter
    split
    · rw [ih (s.unmark x)]; rfl
    · show (coveredFilter I (s.mark x)).1 = _
      rw [ih (s.mark x)]; rfl

theorem coveredShrink_marksOnly (a : Internal × Coveror) : MarksOnly a (coveredShrink a) :=
  ⟨coveredFilter_frame _ _, rfl⟩

theorem coveredScan_marksOnly (lit : Int) (first : Bool) (lits : List Int) :
    ∀ sc : Internal × Coveror, MarksOnly sc (coveredScan lit first lits sc).2 := by
  induction lits with
  | nil => intro sc; exact MarksOnly.refl sc
  | cons x lits ih =>
    intro sc
    unfold coveredScan
    split
    · exact ih sc
    split
    · exact ih sc
    split
    · exact MarksOnly.refl sc
    split
    · exact (marksOnly_mark sc x _).trans (ih _)
    split
    · exact (marksOnly_unmark sc x).trans (ih _)
    · exact ih sc

/-- The scan of a clause reports it blocked exactly when it has a true literal other
than -lit. -/
theorem coveredScan_blocked (lit : Int) (first : Bool) (lits : List Int) :
    ∀ sc : Internal × Coveror, (coveredScan lit first lits sc).1 = true ↔
      ∃ other ∈ lits, other ≠ -lit ∧ 0 < sc.1.val other := by
  induction lits with
  | nil => intro sc; simp [coveredScan]
  | cons x lits ih =>
    intro sc
    have step : ∀ sc2 : Internal × Coveror, MarksOnly sc sc2 →
        ((coveredScan lit first lits sc2).1 = true ↔
          ∃ other ∈ lits, other ≠ -lit ∧ 0 < sc.1.val other) := by
      intro sc2 h
      rw [ih sc2]
      constructor
      · rintro ⟨o, h1, h2, h3⟩; exact ⟨o, h1, h2, by rw [← h.val]; exact h3⟩
      · rintro ⟨o, h1, h2, h3⟩; exact ⟨o, h1, h2, by rw [h.val]; exact h3⟩
    have skip : ¬ (x ≠ -lit ∧ 0 < sc.1.val x) →
        ((∃ other ∈ x :: lits, other ≠ -lit ∧ 0 < sc.1.val other) ↔
          ∃ other ∈ lits, other ≠ -lit ∧ 0 < sc.1.val other) := by
      intro hx
      constructor
      · rintro ⟨o, h1, h2, h3⟩
        rcases List.mem_cons.mp h1 with rfl | h1
        · exact absurd ⟨h2, h3⟩ hx
        · exact ⟨o, h1, h2, h3⟩
      · rintro ⟨o, h1, h2, h3⟩
        exact ⟨o, List.mem_cons_of_mem _ h1, h2, h3⟩
    unfold coveredScan
    split
    · rename_i h
      rw [skip (fun hx => hx.1 h)]; exact step sc (MarksOnly.refl sc)
    split
    · rename_i h1 h2
      rw [skip (fun hx => by omega)]; exact step sc (MarksOnly.refl sc)
    split
    · rename_i h1 h2 h3
      simp only [true_iff]
      exact ⟨x, List.mem_cons_self _ _, h1, h3⟩
    rename_i h1 h2 h3
    split
    · rw [skip (fun hx => h3 hx.2)]; exact step _ (marksOnly_mark sc x _)
    split
    · rw [skip (fun hx => h3 hx.2)]; exact step _ (marksOnly_unmark sc x)
    · rw [skip (fun hx => h3 hx.2)]; exact step sc (MarksOnly.refl sc)

theorem coveredLoop_marksOnly (lit : Int) (rest : List Nat) :
    ∀ (before : List Nat) (first : Bool) (sc : Internal × Coveror),
      MarksOnly sc (coveredLoop lit before rest first sc).2.1 := by
  induction rest with
  | nil => intro before first sc; exact MarksOnly.refl sc
  | cons c rest ih =>
    intro before first sc
    have hs := coveredScan_marksOnly lit first (sc.1.clauseAt c).literals sc
    unfold coveredLoop
    split
    · exact ih _ _ _
    split
    · exact (hs.trans (coveredReset_marksOnly _)).trans (ih _ _ _)
    split
    · split
      · exact hs
      · exact hs.trans (ih _ _ _)
    · split
      · exact hs.trans (coveredShrink_marksOnly _)
      · exact (hs.trans (coveredShrink_marksOnly _)).trans (ih _ _ _)

/-- The flag first survives the loop exactly when every non-garbage clause visited is
blocked. -/
theorem coveredLoop_first (lit : Int) (rest : List Nat) :
    ∀ (before : List Nat) (first : Bool) (sc : Internal × Coveror),
      (coveredLoop lit before rest first sc).1 = true ↔
        (first = true ∧ ∀ c ∈ rest, (sc.1.clauseAt c).garbage = false → Blocked sc.1 lit c) := by
  induction rest with
  | nil => intro before first sc; simp [coveredLoop]
  | cons c rest ih =>
    intro before first sc
    have hs := coveredScan_marksOnly lit first (sc.1.clauseAt c).literals sc
    have hb := coveredScan_blocked lit first (sc.1.clauseAt c).literals sc
    have tail : ∀ sc2 : Internal × Coveror, MarksOnly sc sc2 →
        ((∀ d ∈ rest, (sc2.1.clauseAt d).garbage = false → Blocked sc2.1 lit d) ↔
          (∀ d ∈ rest, (sc.1.clauseAt d).garbage = false → Blocked sc.1 lit d)) := by
      intro sc2 h
      unfold Blocked
      simp only [h.clauseAt, h.val]
    unfold coveredLoop
    split
    · rename_i hg
      rw [ih, tail sc (MarksOnly.refl sc)]
      constructor
      · rintro ⟨h1, h2⟩
        refine ⟨h1, ?_⟩
        intro d hd hdg
        rcases List.mem_cons.mp hd with rfl | hd
        · rw [hg] at hdg; cases hdg
        · exact h2 d hd hdg
      · rintro ⟨h1, h2⟩
        exact ⟨h1, fun d hd hdg => h2 d (List.mem_cons_of_mem _ hd) hdg⟩
    rename_i hg
    split
    · rename_i hbl
      rw [ih, tail _ (hs.trans (coveredReset_marksOnly _))]
      constructor
      · rintro ⟨h1, h2⟩
        refine ⟨h1, ?_⟩
        intro d hd hdg
        rcases List.mem_cons.mp hd with rfl | hd
        · exact hb.mp hbl
        · exact h2 d hd hdg
      · rintro ⟨h1, h2⟩
        exact ⟨h1, fun d hd hdg => h2 d (List.mem_cons_of_mem _ hd) hdg⟩
    rename_i hbl
    have hnb : ¬ Blocked sc.1 lit c := fun h => hbl (hb.mpr h)
    have hfalse : ¬ (first = true ∧
        ∀ d ∈ c :: rest, (sc.1.clauseAt d).garbage = false → Blocked sc.1 lit d) := by
      rintro ⟨_, h2⟩
      exact hnb (h2 c (List.mem_cons_self _ _) (by simpa using hg))
    split
    · split
      · simp only [Bool.false_eq_true, false_iff]; exact hfalse
      · rw [ih]
        simp only [Bool.false_eq_true, false_and, false_iff]; exact hfalse
    · split
      · simp only [Bool.false_eq_true, false_iff]; exact hfalse
      · rw [ih]
        simp only [Bool.false_eq_true, false_and, false_iff]; exact hfalse

end Internal

end CaDiCaL

namespace CaDiCaL

namespace Internal

theorem coveredFinish_fst (lit : Int) (first : Bool) (sc : Internal × Coveror) :
    (coveredFinish lit first sc).1 = first := by
  unfold coveredFinish
  cases first
  · simp only [Bool.false_eq_true, if_false]
    split <;> rfl
  · rfl

theorem MarksOnly.cv {a b : Internal × Coveror} (h : MarksOnly a b) :
    b.2.extend = a.2.extend ∧ b.2.clause = a.2.clause ∧ b.2.covered = a.2.covered ∧
      b.2.added = a.2.added ∧ b.2.next_asymmetric = a.2.next_asymmetric ∧
      b.2.next_covered = a.2.next_covered := by
  rw [h.2]; exact ⟨rfl, rfl, rfl, rfl, rfl, rfl⟩

theorem MarksOnly.vals {a b : Internal × Coveror} (h : MarksOnly a b) :
    b.1.vals = a.1.vals := by
  rw [h.1]

/-- C19. Blocked outcome of the covered propagator: cover_propagate_covered (lit)
returns true if and only if lit is not frozen and every non-garbage clause in
occs (-lit) has a true literal other than -lit; when it returns true no value changes,
added and covered are unchanged and coveror.extend grows by exactly the block prefix
0, lit, followed by the literals of clause and of covered other than lit; when lit is
frozen the call returns false and leaves the state as it is. The statement holds in
every state, in particular in those with val (lit) < 0 and all marks zero. -/
theorem cover_propagate_covered_blocked (lit : Int) (sc : Internal × Coveror) :
    ((cover_propagate_covered lit sc).1 = true ↔
      (sc.1.frozen lit = false ∧
        ∀ c ∈ sc.1.occs (-lit), (sc.1.clauseAt c).garbage = false → Blocked sc.1 lit c)) ∧
    ((cover_propagate_covered lit sc).1 = true →
      (cover_propagate_covered lit sc).2.1.vals = sc.1.vals ∧
      (cover_propagate_covered lit sc).2.2.added = sc.2.added ∧
      (cover_propagate_covered lit sc).2.2.covered = sc.2.covered ∧
      (cover_propagate_covered lit sc).2.2.extend =
        sc.2.extend ++ [0, lit] ++ sc.2.clause.filter (fun other => other ≠ lit)
          ++ sc.2.covered.filter (fun other => other ≠ lit)) ∧
    (sc.1.frozen lit = true → cover_propagate_covered lit sc = (false, sc)) := by
  have hloop := coveredLoop_first lit (sc.1.occs (-lit)) [] true (countCoverPropagation sc.1, sc.2)
  have hmo := coveredLoop_marksOnly lit (sc.1.occs (-lit)) [] true
    (countCoverPropagation sc.1, sc.2)
  refine ⟨?_, ?_, ?_⟩
  · unfold cover_propagate_covered
    by_cases hf : sc.1.frozen lit = true
    · rw [if_pos hf]; simp [hf]
    · rw [if_neg hf]
      unfold coveredAfterLoop
      rw [coveredFinish_fst, hloop]
      simp only [true_and]
      constructor
      · intro h; exact ⟨by simpa using hf, h⟩
      · intro h; exact h.2
  · unfold cover_propagate_covered
    by_cases hf : sc.1.frozen lit = true
    · rw [if_pos hf]; intro h; cases h
    · rw [if_neg hf]
      unfold coveredAfterLoop
      rw [coveredFinish_fst]
      intro h
      rw [h]
      obtain ⟨e1, e2, e3, e4, _, _⟩ := hmo.cv
      have ev := hmo.vals
      generalize (coveredLoop lit [] (sc.1.occs (-lit)) true
        (countCoverPropagation sc.1, sc.2)).2 = r at e1 e2 e3 e4 ev
      unfold coveredFinish
      rw [if_pos rfl]
      refine ⟨?_, ?_, ?_, ?_⟩
      · show (Internal.unmarkAll _ _).vals = _
        rw [unmarkAll_frame]
        exact ev
      · exact e4
      · exact e3
      · show r.1.2.extend ++ [0, lit] ++ r.1.2.clause.filter (fun other => other ≠ lit)
            ++ r.1.2.covered.filter (fun other => other ≠ lit) = _
        rw [e1, e2, e3]
  · intro hf
    unfold cover_propagate_covered
    rw [if_pos hf]

end Internal

end CaDiCaL

namespace CaDiCaL

namespace Internal

theorem unmarkAll_zero (I : List Int) : ∀ s : Internal,
    (∀ v, s.marks v ≠ 0 → ∃ l ∈ I, l.natAbs = v) → ∀ v, (s.unmarkAll I).marks v = 0 := by
  induction I with
  | nil =>
    intro s h v
    by_contra hv
    obtain ⟨l, hl, _⟩ := h v hv
    cases hl
  | cons x I ih =>
    intro s h v
    show ((s.unmark x).unmarkAll I).marks v = 0
    apply ih
    intro w hw
    have hw2 : w ≠ x.natAbs ∧ s.marks w ≠ 0 := by
      unfold Internal.unmark at hw
      simp only at hw
      by_cases e : w = x.natAbs
      · rw [if_pos e] at hw; exact absurd rfl hw
      · rw [if_neg e] at hw; exact ⟨e, hw⟩
    obtain ⟨l, hl, e⟩ := h w hw2.2
    rcases List.mem_cons.mp hl with rfl | hl
    · exact absurd e.symm hw2.1
    · exact ⟨l, hl, e⟩

theorem coveredScan_supp (lit : Int) (first : Bool) (lits : List Int) :
    ∀ sc : Internal × Coveror,
      (∀ v, sc.1.marks v ≠ 0 → ∃ l ∈ sc.2.intersection, l.natAbs = v) →
      ∀ v, (coveredScan lit first lits sc).2.1.marks v ≠ 0 →
        ∃ l ∈ (coveredScan lit first lits sc).2.2.intersection, l.natAbs = v := by
  induction lits with
  | nil => intro sc h; exact h
  | cons x lits ih =>
    intro sc h
    unfold coveredScan
    split
    · exact ih sc h
    split
    · exact ih sc h
    split
    · exact h
    split
    · apply ih
      intro v hv
      show ∃ l ∈ sc.2.intersection ++ [x], l.natAbs = v
      by_cases e : v = x.natAbs
      · exact ⟨x, by simp, e.symm⟩
      · have hv2 : sc.1.marks v ≠ 0 := by
          unfold Internal.mark at hv
          simp only at hv
          rw [if_neg e] at hv; exact hv
        obtain ⟨l, hl, e2⟩ := h v hv2
        exact ⟨l, List.mem_append_left _ hl, e2⟩
    split
    · apply ih
      intro v hv
      show ∃ l ∈ sc.2.intersection, l.natAbs = v
      apply h
      unfold Internal.unmark at hv
      simp only at hv
      by_cases e : v = x.natAbs
      · rw [if_pos e] at hv; exact absurd rfl hv
      · rw [if_neg e] at hv; exact hv
    · exact ih sc h

theorem sign_ne_zero_of_ne {x : Int} (h : x ≠ 0) : Int.sign x ≠ 0 := by
  intro e; exact h (Int.sign_eq_zero_iff_zero.mp e)

theorem distinctVars_append_singleton {I : List Int} {x : Int} (h : DistinctVars I)
    (hx : x ≠ 0) (hd : ∀ l ∈ I, l.natAbs ≠ x.natAbs) : DistinctVars (I ++ [x]) := by
  obtain ⟨h1, h2⟩ := h
  constructor
  · rw [List.map_append, List.nodup_append]
    refine ⟨h1, by simp, ?_⟩
    intro a ha hb
    simp only [List.map_cons, List.map_nil, List.mem_singleton] at hb
    obtain ⟨l, hl, e⟩ := List.mem_map.mp ha
    exact hd l hl (e.trans hb)
  · intro h0
    rcases List.mem_append.mp h0 with h0 | h0
    · exact h2 h0
    · exact hx (List.mem_singleton.mp h0).symm

theorem distinctVars_tail {x : Int} {lits : List Int} (h : DistinctVars (x :: lits)) :
    DistinctVars lits ∧ x ≠ 0 ∧ ∀ l ∈ lits, l.natAbs ≠ x.natAbs := by
  obtain ⟨h1, h2⟩ := h
  rw [List.map_cons, List.nodup_cons] at h1
  refine ⟨⟨h1.2, fun h0 => h2 (List.mem_cons_of_mem _ h0)⟩, ?_, ?_⟩
  · intro e; exact h2 (by rw [e]; exact List.mem_cons_self _ _)
  · intro l hl e
    exact h1.1 (by rw [← e]; exact List.mem_map_of_mem _ hl)

/-- The scan of the first candidate: the unassigned literals of the clause other than
-lit are collected and marked. -/
theorem coveredScan_true (lit : Int) (lits : List Int) :
    ∀ sc : Internal × Coveror, DistinctVars lits →
      (∀ o ∈ lits, ∀ l ∈ sc.2.intersection, l.natAbs ≠ o.natAbs) →
      MarkInv sc.1.marks sc.2.intersection →
      MarkInv (coveredScan lit true lits sc).2.1.marks
        (coveredScan lit true lits sc).2.2.intersection ∧
      ∀ l ∈ (coveredScan lit true lits sc).2.2.intersection,
        l ∈ sc.2.intersection ∨ (l ∈ lits ∧ l ≠ -lit ∧ sc.1.val l = 0) := by
  induction lits with
  | nil => intro sc _ _ h; exact ⟨h, fun l hl => Or.inl hl⟩
  | cons x lits ih =>
    intro sc hd hdis hm
    obtain ⟨hd1, hx0, hdx⟩ := distinctVars_tail hd
    have hdis1 : ∀ o ∈ lits, ∀ l ∈ sc.2.intersection, l.natAbs ≠ o.natAbs :=
      fun o ho => hdis o (List.mem_cons_of_mem _ ho)
    have keep : MarkInv (coveredScan lit true lits sc).2.1.marks
        (coveredScan lit true lits sc).2.2.intersection ∧
        ∀ l ∈ (coveredScan lit true lits sc).2.2.intersection,
          l ∈ sc.2.intersection ∨ (l ∈ x :: lits ∧ l ≠ -lit ∧ sc.1.val l = 0) := by
      obtain ⟨a, b⟩ := ih sc hd1 hdis1 hm
      refine ⟨a, fun l hl => ?_⟩
      rcases b l hl with h | ⟨h1, h2⟩
      · exact Or.inl h
      · exact Or.inr ⟨List.mem_cons_of_mem _ h1, h2⟩
    unfold coveredScan
    split
    · exact keep
    split
    · exact keep
    split
    · exact ⟨hm, fun l hl => Or.inl hl⟩
    rename_i h1 h2 h3
    rw [if_pos rfl]
    have hv : sc.1.val x = 0 := by omega
    have hm2 : MarkInv (sc.1.mark x).marks (sc.2.intersection ++ [x]) := by
      obtain ⟨m1, m2, m3⟩ := hm
      refine ⟨distinctVars_append_singleton m1 hx0
        (fun l hl => hdis x (List.mem_cons_self _ _) l hl), ?_, ?_⟩
      · intro l hl
        show (if l.natAbs = x.natAbs then Int.sign x else sc.1.marks l.natAbs) = Int.sign l
        rcases List.mem_append.mp hl with hl | hl
        · rw [if_neg (hdis x (List.mem_cons_self _ _) l hl)]; exact m2 l hl
        · rw [List.mem_singleton.mp hl, if_pos rfl]
      · intro v hv2
        by_cases e : v = x.natAbs
        · exact ⟨x, by simp, e.symm⟩
        · have : sc.1.marks v ≠ 0 := by
            have hv3 : (if v = x.natAbs then Int.sign x else sc.1.marks v) ≠ 0 := hv2
            rw [if_neg e] at hv3; exact hv3
          obtain ⟨l, hl, e2⟩ := m3 v this
          exact ⟨l, List.mem_append_left _ hl, e2⟩
    have hdis2 : ∀ o ∈ lits, ∀ l ∈ sc.2.intersection ++ [x], l.natAbs ≠ o.natAbs := by
      intro o ho l hl
      rcases List.mem_append.mp hl with hl | hl
      · exact hdis1 o ho l hl
      · rw [List.mem_singleton.mp hl]; exact (hdx o ho).symm
    obtain ⟨a, b⟩ := ih (sc.1.mark x, { sc.2 with intersection := sc.2.intersection ++ [x] })
      hd1 hdis2 hm2
    refine ⟨a, fun l hl => ?_⟩
    rcases b l hl with h | ⟨h4, h5, h6⟩
    · rcases List.mem_append.mp h with h | h
      · exact Or.inl h
      · rw [List.mem_singleton.mp h]
        exact Or.inr ⟨List.mem_cons_self _ _, h1, hv⟩
    · exact Or.inr ⟨List.mem_cons_of_mem _ h4, h5, h6⟩

end Internal

end CaDiCaL

namespace CaDiCaL

namespace Internal

theorem eq_of_marked_pos {m : Int} {l x : Int} (hl : m = Int.sign l)
    (hx : 0 < (if x < 0 then -m else m)) (e : l.natAbs = x.natAbs) : l = x := by
  rcases lt_trichotomy l 0 with h0 | h0 | h0
  · rw [Int.sign_eq_neg_one_of_neg h0] at hl
    subst hl
    by_cases h : x < 0
    · omega
    · rw [if_neg h] at hx; omega
  · subst h0
    rw [Int.sign_zero] at hl
    subst hl
    split at hx <;> omega
  · rw [Int.sign_eq_one_of_pos h0] at hl
    subst hl
    by_cases h : x < 0
    · rw [if_pos h] at hx; omega
    · omega

/-- The scan of a later candidate: the intersection is unchanged and a mark is only
cleared for a literal of the intersection that occurs in the clause. -/
theorem coveredScan_false (lit : Int) (C : List Int) (lits : List Int) :
    ∀ sc : Internal × Coveror, (∀ o ∈ lits, o ∈ C) →
      DistinctVars sc.2.intersection →
      (∀ l ∈ sc.2.intersection, sc.1.marks l.natAbs = Int.sign l ∨
        (sc.1.marks l.natAbs = 0 ∧ l ∈ C)) →
      (coveredScan lit false lits sc).2.2.intersection = sc.2.intersection ∧
      ∀ l ∈ sc.2.intersection,
        (coveredScan lit false lits sc).2.1.marks l.natAbs = Int.sign l ∨
          ((coveredScan lit false lits sc).2.1.marks l.natAbs = 0 ∧ l ∈ C) := by
  induction lits with
  | nil => intro sc _ _ h; exact ⟨rfl, h⟩
  | cons x lits ih =>
    intro sc hC hd hm
    have hC1 : ∀ o ∈ lits, o ∈ C := fun o ho => hC o (List.mem_cons_of_mem _ ho)
    unfold coveredScan
    split
    · exact ih sc hC1 hd hm
    split
    · exact ih sc hC1 hd hm
    split
    · exact ⟨rfl, hm⟩
    rw [if_neg (by simp)]
    split
    · rename_i h1 h2 h3 h4
      have hm2 : ∀ l ∈ sc.2.intersection, (sc.1.unmark x).marks l.natAbs = Int.sign l ∨
          ((sc.1.unmark x).marks l.natAbs = 0 ∧ l ∈ C) := by
        intro l hl
        show (if l.natAbs = x.natAbs then 0 else sc.1.marks l.natAbs) = Int.sign l ∨
          ((if l.natAbs = x.natAbs then 0 else sc.1.marks l.natAbs) = 0 ∧ l ∈ C)
        by_cases e : l.natAbs = x.natAbs
        · rw [if_pos e]
          right
          refine ⟨rfl, ?_⟩
          have hpos : 0 < (if x < 0 then -sc.1.marks l.natAbs else sc.1.marks l.natAbs) := by
            rw [e]; exact h4
          rcases hm l hl with h | h
          · rw [eq_of_marked_pos h hpos e]; exact hC x (List.mem_cons_self _ _)
          · exact h.2
        · rw [if_neg e]; exact hm l hl
      exact ih (sc.1.unmark x, sc.2) hC1 hd hm2
    · exact ih sc hC1 hd hm

theorem coveredFilter_marks_frame (I : List Int) : ∀ (s : Internal) (v : Nat),
    (∀ l ∈ I, l.natAbs ≠ v) → (coveredFilter I s).1.marks v = s.marks v := by
  induction I with
  | nil => intro s v _; rfl
  | cons x I ih =>
    intro s v h
    have hx : v ≠ x.natAbs := fun e => h x (List.mem_cons_self _ _) e.symm
    have hI : ∀ l ∈ I, l.natAbs ≠ v := fun l hl => h l (List.mem_cons_of_mem _ hl)
    unfold coveredFilter
    split
    · rw [ih _ v hI]
      show (if v = x.natAbs then 0 else s.marks v) = s.marks v
      rw [if_neg hx]
    · show (coveredFilter I (s.mark x)).1.marks v = s.marks v
      rw [ih _ v hI]
      show (if v = x.natAbs then Int.sign x else s.marks v) = s.marks v
      rw [if_neg hx]

theorem marked_eq_zero_iff (s : Internal) (x : Int) : s.marked x = 0 ↔ s.marks x.natAbs = 0 := by
  unfold Internal.marked
  split <;> omega

/-- The filter keeps a sublist of the intersection whose literals occur in the clause
just scanned and marks exactly the literals kept. -/
theorem coveredFilter_spec (C : List Int) (I : List Int) : ∀ s : Internal,
    DistinctVars I →
    (∀ l ∈ I, s.marks l.natAbs = Int.sign l ∨ (s.marks l.natAbs = 0 ∧ l ∈ C)) →
    (∀ l ∈ (coveredFilter I s).2, l ∈ I ∧ l ∈ C) ∧
    DistinctVars (coveredFilter I s).2 ∧
    (∀ l ∈ (coveredFilter I s).2, (coveredFilter I s).1.marks l.natAbs = Int.sign l) ∧
    (∀ v, (coveredFilter I s).1.marks v ≠ 0 →
      (∃ l ∈ (coveredFilter I s).2, l.natAbs = v) ∨ (s.marks v ≠ 0 ∧ ∀ l ∈ I, l.natAbs ≠ v)) := by
  induction I with
  | nil =>
    intro s _ _
    refine ⟨fun l hl => (by cases hl), ⟨List.nodup_nil, fun h0 => (by cases h0)⟩,
      fun l hl => (by cases hl), ?_⟩
    intro v hv
    exact Or.inr ⟨hv, fun l hl => (by cases hl)⟩
  | cons x I ih =>
    intro s hd hm
    obtain ⟨hd1, hx0, hdx⟩ := distinctVars_tail hd
    unfold coveredFilter
    split
    · rename_i hmk
      have hm2 : ∀ l ∈ I, (s.unmark x).marks l.natAbs = Int.sign l ∨
          ((s.unmark x).marks l.natAbs = 0 ∧ l ∈ C) := by
        intro l hl
        show (if l.natAbs = x.natAbs then 0 else s.marks l.natAbs) = Int.sign l ∨
          ((if l.natAbs = x.natAbs then 0 else s.marks l.natAbs) = 0 ∧ l ∈ C)
        rw [if_neg (hdx l hl)]
        exact hm l (List.mem_cons_of_mem _ hl)
      obtain ⟨a, b, c, d⟩ := ih (s.unmark x) hd1 hm2
      refine ⟨fun l hl => ⟨List.mem_cons_of_mem _ (a l hl).1, (a l hl).2⟩, b, c, ?_⟩
      intro v hv
      rcases d v hv with h | ⟨h1, h2⟩
      · exact Or.inl h
      · right
        have h3 : (if v = x.natAbs then 0 else s.marks v) ≠ 0 := h1
        by_cases e : v = x.natAbs
        · rw [if_pos e] at h3; exact absurd rfl h3
        · rw [if_neg e] at h3
          refine ⟨h3, ?_⟩
          intro l hl
          rcases List.mem_cons.mp hl with rfl | hl
          · exact fun e2 => e e2.symm
          · exact h2 l hl
    · rename_i hmk
      have hz : s.marks x.natAbs = 0 := (marked_eq_zero_iff s x).mp (by simpa using hmk)
      have hxC : x ∈ C := by
        rcases hm x (List.mem_cons_self _ _) with h | h
        · rw [hz] at h; exact absurd h.symm (sign_ne_zero_of_ne hx0)
        · exact h.2
      have hm2 : ∀ l ∈ I, (s.mark x).marks l.natAbs = Int.sign l ∨
          ((s.mark x).marks l.natAbs = 0 ∧ l ∈ C) := by
        intro l hl
        show (if l.natAbs = x.natAbs then Int.sign x else s.marks l.natAbs) = Int.sign l ∨
          ((if l.natAbs = x.natAbs then Int.sign x else s.marks l.natAbs) = 0 ∧ l ∈ C)
        rw [if_neg (hdx l hl)]
        exact hm l (List.mem_cons_of_mem _ hl)
      obtain ⟨a, b, c, d⟩ := ih (s.mark x) hd1 hm2
      have hfr : (coveredFilter I (s.mark x)).1.marks x.natAbs = Int.sign x := by
        rw [coveredFilter_marks_frame I _ _ hdx]
        show (if x.natAbs = x.natAbs then Int.sign x else s.marks x.natAbs) = Int.sign x
        rw [if_pos rfl]
      refine ⟨?_, ?_, ?_, ?_⟩
      · intro l hl
        rcases List.mem_cons.mp hl with rfl | hl
        · exact ⟨List.mem_cons_self _ _, hxC⟩
        · exact ⟨List.mem_cons_of_mem _ (a l hl).1, (a l hl).2⟩
      · constructor
        · rw [List.map_cons, List.nodup_cons]
          refine ⟨?_, b.1⟩
          intro hin
          obtain ⟨l, hl, e⟩ := List.mem_map.mp hin
          exact hdx l (a l hl).1 e
        · intro h0
          rcases List.mem_cons.mp h0 with h0 | h0
          · exact hx0 h0.symm
          · exact b.2 h0
      · intro l hl
        rcases List.mem_cons.mp hl with rfl | hl
        · exact hfr
        · exact c l hl
      · intro v hv
        rcases d v hv with ⟨l, hl, e⟩ | ⟨h1, h2⟩
        · exact Or.inl ⟨l, List.mem_cons_of_mem _ hl, e⟩
        · have h3 : (if v = x.natAbs then Int.sign x else s.marks v) ≠ 0 := h1
          by_cases e : v = x.natAbs
          · exact Or.inl ⟨x, List.mem_cons_self _ _, e.symm⟩
          · rw [if_neg e] at h3
            right
            refine ⟨h3, ?_⟩
            intro l hl
            rcases List.mem_cons.mp hl with rfl | hl
            · exact fun e2 => e e2.symm
            · exact h2 l hl

end Internal

end CaDiCaL

namespace CaDiCaL

namespace Internal

theorem loopInv_supp {s0 : Internal} {lit : Int} {before : List Nat} {first : Bool}
    {sc : Internal × Coveror} (h : LoopInv s0 lit before first sc) :
    ∀ v, sc.1.marks v ≠ 0 → ∃ l ∈ sc.2.intersection, l.natAbs = v := by
  intro v hv
  cases first
  · exact (h.2 rfl).1.2.2 v hv
  · exact absurd ((h.1 rfl).1 v) hv

theorem markInv_nil {m : Nat → Int} (h : ∀ v, m v = 0) : MarkInv m [] :=
  ⟨⟨List.nodup_nil, fun h0 => (by cases h0)⟩, fun l hl => (by cases hl),
    fun v hv => absurd (h v) hv⟩

theorem loopInv_of_zero {s0 : Internal} {lit : Int} {before : List Nat} {first : Bool}
    {sc : Internal × Coveror} (hz : ∀ v, sc.1.marks v = 0) (hI : sc.2.intersection = [])
    (hb : first = true → ∀ c ∈ before, ¬ Candidate s0 lit c) :
    LoopInv s0 lit before first sc := by
  constructor
  · intro hf; exact ⟨hz, hI, hb hf⟩
  · intro _
    rw [hI]
    exact ⟨markInv_nil hz, fun l hl => (by cases hl)⟩

theorem loopInv_snoc {s0 : Internal} {lit : Int} {before : List Nat} {first : Bool}
    {sc : Internal × Coveror} {c : Nat} (h : LoopInv s0 lit before first sc)
    (hc : ¬ Candidate s0 lit c) : LoopInv s0 lit (before ++ [c]) first sc := by
  constructor
  · intro hf
    obtain ⟨a, b, d⟩ := h.1 hf
    refine ⟨a, b, ?_⟩
    intro c2 hc2
    rcases List.mem_append.mp hc2 with h2 | h2
    · exact d c2 h2
    · rw [List.mem_singleton.mp h2]; exact hc
  · intro hf
    obtain ⟨a, b⟩ := h.2 hf
    refine ⟨a, ?_⟩
    intro l hl
    obtain ⟨b1, b2, b3⟩ := b l hl
    refine ⟨b1, b2, ?_⟩
    intro c2 hc2 hcand
    rcases List.mem_append.mp hc2 with h2 | h2
    · exact b3 c2 h2 hcand
    · rw [List.mem_singleton.mp h2] at hcand; exact absurd hcand hc

theorem MarksOnly.blocked {a b : Internal × Coveror} (h : MarksOnly a b) (lit : Int) (c : Nat) :
    Blocked b.1 lit c ↔ Blocked a.1 lit c := by
  unfold Blocked
  simp only [h.clauseAt, h.val]

/-- The loop of cover_propagate_covered keeps its invariant. -/
theorem coveredLoop_inv (lit : Int) (sc0 : Internal × Coveror) (rest : List Nat) :
    ∀ (before : List Nat) (first : Bool) (sc : Internal × Coveror),
      MarksOnly sc0 sc →
      (∀ c ∈ rest, DistinctVars (sc0.1.clauseAt c).literals) →
      LoopInv sc0.1 lit before first sc →
      LoopInv sc0.1 lit (before ++ rest) (coveredLoop lit before rest first sc).1
        (coveredLoop lit before rest first sc).2.1 := by
  induction rest with
  | nil =>
    intro before first sc _ _ h
    rw [List.append_nil]
    exact h
  | cons c rest ih =>
    intro before first sc hmo hdv hinv
    have hdv1 : ∀ d ∈ rest, DistinctVars (sc0.1.clauseAt d).literals :=
      fun d hd => hdv d (List.mem_cons_of_mem _ hd)
    have hdc : DistinctVars (sc.1.clauseAt c).literals := by
      rw [hmo.clauseAt]; exact hdv c (List.mem_cons_self _ _)
    have happ : before ++ c :: rest = (before ++ [c]) ++ rest := by simp
    have hs := coveredScan_marksOnly lit first (sc.1.clauseAt c).literals sc
    have hb := coveredScan_blocked lit first (sc.1.clauseAt c).literals sc
    have hsupp := coveredScan_supp lit first (sc.1.clauseAt c).literals sc (loopInv_supp hinv)
    rw [happ]
    unfold coveredLoop
    split
    · rename_i hg
      have hnc : ¬ Candidate sc0.1 lit c := by
        intro hc
        have := hc.1
        rw [← hmo.clauseAt, hg] at this
        cases this
      exact ih _ _ _ hmo hdv1 (loopInv_snoc hinv hnc)
    rename_i hg
    have hg0 : (sc0.1.clauseAt c).garbage = false := by
      rw [← hmo.clauseAt]; simpa using hg
    split
    · rename_i hbl
      have hnc : ¬ Candidate sc0.1 lit c := by
        intro hc
        exact hc.2 ((hmo.blocked lit c).mp (hb.mp hbl))
      apply ih _ _ _ ((hmo.trans hs).trans (coveredReset_marksOnly _)) hdv1
      apply loopInv_of_zero
      · exact unmarkAll_zero _ _ hsupp
      · rfl
      · intro hf c2 hc2
        rcases List.mem_append.mp hc2 with h2 | h2
        · exact (hinv.1 hf).2.2 c2 h2
        · rw [List.mem_singleton.mp h2]; exact hnc
    rename_i hbl
    have hcand : Candidate sc0.1 lit c :=
      ⟨hg0, fun h => hbl (hb.mpr ((hmo.blocked lit c).mpr h))⟩
    split
    · rename_i hf
      subst hf
      obtain ⟨z1, z2, z3⟩ := hinv.1 rfl
      have hm0 : MarkInv sc.1.marks sc.2.intersection := by
        rw [z2]; exact markInv_nil z1
      have hdis : ∀ o ∈ (sc.1.clauseAt c).literals, ∀ l ∈ sc.2.intersection,
          l.natAbs ≠ o.natAbs := by
        intro o _ l hl
        rw [z2] at hl; cases hl
      obtain ⟨t1, t2⟩ := coveredScan_true lit (sc.1.clauseAt c).literals sc hdc hdis hm0
      have t3 : ∀ l ∈ (coveredScan lit true (sc.1.clauseAt c).literals sc).2.2.intersection,
          sc0.1.val l = 0 ∧ l ≠ -lit ∧ l ∈ (sc0.1.clauseAt c).literals := by
        intro l hl
        rcases t2 l hl with h | ⟨h1, h2, h3⟩
        · rw [z2] at h; cases h
        · refine ⟨?_, h2, ?_⟩
          · rw [← hmo.val]; exact h3
          · rw [← hmo.clauseAt]; exact h1
      split
      · rename_i hemp
        constructor
        · intro h; cases h
        · intro _
          refine ⟨t1, ?_⟩
          intro l hl
          rw [List.isEmpty_iff.mp hemp] at hl
          cases hl
      · apply ih _ _ _ (hmo.trans hs) hdv1
        constructor
        · intro h; cases h
        · intro _
          refine ⟨t1, ?_⟩
          intro l hl
          obtain ⟨u1, u2, u3⟩ := t3 l hl
          refine ⟨u1, u2, ?_⟩
          intro c2 hc2 hcand2
          rcases List.mem_append.mp hc2 with h2 | h2
          · exact absurd hcand2 (z3 c2 h2)
          · rw [List.mem_singleton.mp h2]; exact u3
    · rename_i hf
      have hf0 : first = false := by simpa using hf
      subst hf0
      obtain ⟨⟨m1, m2, m3⟩, y⟩ := hinv.2 rfl
      obtain ⟨q1, q2⟩ := coveredScan_false lit (sc.1.clauseAt c).literals
        (sc.1.clauseAt c).literals sc (fun o ho => ho) m1 (fun l hl => Or.inl (m2 l hl))
      have hsh : MarkInv
          (coveredShrink (coveredScan lit false (sc.1.clauseAt c).literals sc).2).1.marks
          (coveredShrink (coveredScan lit false (sc.1.clauseAt c).literals sc).2).2.intersection ∧
          ∀ l ∈ (coveredShrink
              (coveredScan lit false (sc.1.clauseAt c).literals sc).2).2.intersection,
            l ∈ sc.2.intersection ∧ l ∈ (sc.1.clauseAt c).literals := by
        unfold coveredShrink
        rw [q1]
        obtain ⟨f1, f2, f3, f4⟩ := coveredFilter_spec (sc.1.clauseAt c).literals
          sc.2.intersection (coveredScan lit false (sc.1.clauseAt c).literals sc).2.1 m1 q2
        refine ⟨⟨f2, f3, ?_⟩, f1⟩
        intro v hv
        rcases f4 v hv with h | ⟨h1, h2⟩
        · exact h
        · obtain ⟨l, hl, e⟩ := hsupp v h1
          rw [q1] at hl
          exact absurd e (h2 l hl)
      have hnew : ∀ l ∈ (coveredShrink
          (coveredScan lit false (sc.1.clauseAt c).literals sc).2).2.intersection,
          sc0.1.val l = 0 ∧ l ≠ -lit ∧
            ∀ c2 ∈ before ++ [c], Candidate sc0.1 lit c2 → l ∈ (sc0.1.clauseAt c2).literals := by
        intro l hl
        obtain ⟨g1, g2⟩ := hsh.2 l hl
        obtain ⟨u1, u2, u3⟩ := y l g1
        refine ⟨u1, u2, ?_⟩
        intro c2 hc2 hcand2
        rcases List.mem_append.mp hc2 with h2 | h2
        · exact u3 c2 h2 hcand2
        · rw [List.mem_singleton.mp h2, ← hmo.clauseAt]; exact g2
      split
      · rename_i hemp
        constructor
        · intro h; cases h
        · intro _
          refine ⟨hsh.1, ?_⟩
          intro l hl
          rw [List.isEmpty_iff.mp hemp] at hl
          cases hl
      · apply ih _ _ _ ((hmo.trans hs).trans (coveredShrink_marksOnly _)) hdv1
        constructor
        · intro h; cases h
        · intro _
          exact ⟨hsh.1, hnew⟩

end Internal

end CaDiCaL

namespace CaDiCaL

namespace Internal

theorem assumeFalse_vals (s : Internal) (l x : Int) :
    (s.assumeFalse l).vals x = if x = -l then 1 else if x = l then -1 else s.vals x := rfl

theorem foldl_coveredAdd (I : List Int) : ∀ sc : Internal × Coveror,
    (I.foldl coveredAdd sc).2 =
      { sc.2 with covered := sc.2.covered ++ I, added := sc.2.added ++ I } ∧
    (I.foldl coveredAdd sc).1 = { sc.1 with vals := (I.foldl coveredAdd sc).1.vals } ∧
    (∀ x, (∀ l ∈ I, x ≠ l ∧ x ≠ -l) → (I.foldl coveredAdd sc).1.vals x = sc.1.vals x) ∧
    (DistinctVars I → ∀ l ∈ I,
      (I.foldl coveredAdd sc).1.vals l = -1 ∧ (I.foldl coveredAdd sc).1.vals (-l) = 1) := by
  induction I with
  | nil =>
    intro sc
    refine ⟨by simp, rfl, fun x _ => rfl, fun _ l hl => (by cases hl)⟩
  | cons a I ih =>
    intro sc
    obtain ⟨h1, h2, h3, h4⟩ := ih (coveredAdd sc a)
    rw [List.foldl_cons]
    refine ⟨?_, ?_, ?_, ?_⟩
    · rw [h1]
      show ({ sc.2 with covered := (sc.2.covered ++ [a]) ++ I,
                        added := (sc.2.added ++ [a]) ++ I } : Coveror) = _
      simp
    · rw [h2]; rfl
    · intro x hx
      rw [h3 x (fun l hl => hx l (List.mem_cons_of_mem _ hl))]
      obtain ⟨e1, e2⟩ := hx a (List.mem_cons_self _ _)
      show (sc.1.assumeFalse a).vals x = _
      rw [assumeFalse_vals, if_neg e2, if_neg e1]
    · intro hd l hl
      obtain ⟨hd1, ha0, hda⟩ := distinctVars_tail hd
      rcases List.mem_cons.mp hl with rfl | hl
      · have f1 : ∀ m ∈ I, l ≠ m ∧ l ≠ -m := by
          intro m hm
          have := hda m hm
          constructor <;> intro e <;> apply this <;> rw [e]
          simp
        have f2 : ∀ m ∈ I, -l ≠ m ∧ -l ≠ -m := by
          intro m hm
          have := hda m hm
          constructor <;> intro e <;> apply this
          · rw [← e]; simp
          · have : l = m := by omega
            rw [this]
        rw [h3 l f1, h3 (-l) f2]
        constructor
        · show (sc.1.assumeFalse l).vals l = -1
          rw [assumeFalse_vals, if_neg (by omega), if_pos rfl]
        · show (sc.1.assumeFalse l).vals (-l) = 1
          rw [assumeFalse_vals, if_pos rfl]
      · exact h4 hd1 l hl

/-- The effect of cover_propagate_covered in a state without marks and with an empty
intersection, on clauses without repeated variables: the literals K appended to covered
and added are assigned false, were unassigned, differ from -lit and occur in every
resolution candidate; nothing else is assigned, all marks are cleared again, and the
prefix of a block is pushed exactly when the call returns true or K is not empty. -/
theorem cover_propagate_covered_spec (lit : Int) (sc : Internal × Coveror)
    (hm : ∀ v, sc.1.marks v = 0) (hI : sc.2.intersection = [])
    (hc : ∀ c ∈ sc.1.occs (-lit), DistinctVars (sc.1.clauseAt c).literals) :
    ∃ K : List Int,
      (cover_propagate_covered lit sc).2.2 =
        { sc.2 with
          covered := sc.2.covered ++ K,
          added := sc.2.added ++ K,
          extend := if (cover_propagate_covered lit sc).1 = true ∨ K ≠ [] then
              (cover_push_extension lit sc.2).extend
            else sc.2.extend } ∧
      ((cover_propagate_covered lit sc).1 = true → K = []) ∧
      (∀ v, (cover_propagate_covered lit sc).2.1.marks v = 0) ∧
      (∀ x, (∀ l ∈ K, x ≠ l ∧ x ≠ -l) →
        (cover_propagate_covered lit sc).2.1.val x = sc.1.val x) ∧
      DistinctVars K ∧
      (∀ l ∈ K, (cover_propagate_covered lit sc).2.1.val l = -1 ∧
        (cover_propagate_covered lit sc).2.1.val (-l) = 1 ∧
        sc.1.val l = 0 ∧ l ≠ -lit ∧
        ∀ c ∈ sc.1.occs (-lit), Candidate sc.1 lit c → l ∈ (sc.1.clauseAt c).literals) := by
  have hnil : DistinctVars ([] : List Int) := ⟨List.nodup_nil, fun h0 => (by cases h0)⟩
  unfold cover_propagate_covered
  by_cases hf : sc.1.frozen lit = true
  · rw [if_pos hf]
    refine ⟨[], ?_, fun _ => rfl, hm, fun x _ => rfl, hnil, fun l hl => (by cases hl)⟩
    simp
  rw [if_neg hf]
  have hmo := coveredLoop_marksOnly lit (sc.1.occs (-lit)) [] true
    (countCoverPropagation sc.1, sc.2)
  have hinv := coveredLoop_inv lit (countCoverPropagation sc.1, sc.2) (sc.1.occs (-lit)) [] true
    (countCoverPropagation sc.1, sc.2) (MarksOnly.refl _) hc
    (loopInv_of_zero hm hI (fun _ c hc2 => (by cases hc2)))
  rw [List.nil_append] at hinv
  have hsupp := loopInv_supp hinv
  have hvals := hmo.vals
  have hcv := hmo.2
  unfold coveredAfterLoop
  generalize coveredLoop lit [] (sc.1.occs (-lit)) true (countCoverPropagation sc.1, sc.2) = r
    at hmo hinv hsupp hvals hcv
  obtain ⟨first, ⟨s1, cv1⟩, os⟩ := r
  simp only at hmo hinv hsupp hvals hcv
  unfold coveredFinish
  simp only
  by_cases h1 : first = true
  · rw [if_pos h1]
    refine ⟨[], ?_, fun _ => rfl, ?_, ?_, hnil, fun l hl => (by cases hl)⟩
    · show ({ cover_push_extension lit cv1 with intersection := [] } : Coveror) = _
      rw [hcv, hI]
      simp [cover_push_extension]
    · apply unmarkAll_zero
      exact hsupp
    · intro x _
      show (Internal.unmarkAll _ _).vals x = _
      rw [unmarkAll_frame]
      show s1.vals x = _
      rw [hvals]; rfl
  rw [if_neg h1]
  have h1f : first = false := by simpa using h1
  obtain ⟨⟨k1, k2, k3⟩, kk⟩ := hinv.2 h1f
  by_cases h2 : cv1.intersection.isEmpty = true
  · rw [if_pos h2]
    refine ⟨[], ?_, fun _ => rfl, ?_, ?_, hnil, fun l hl => (by cases hl)⟩
    · show ({ cv1 with intersection := [] } : Coveror) = _
      rw [hcv, hI]
      simp
    · apply unmarkAll_zero
      exact hsupp
    · intro x _
      show (Internal.unmarkAll _ _).vals x = _
      rw [unmarkAll_frame]
      show s1.vals x = _
      rw [hvals]; rfl
  rw [if_neg h2]
  have hne : cv1.intersection ≠ [] := fun e => h2 (by rw [e]; rfl)
  unfold covered_literal_addition
  simp only
  obtain ⟨a1, a2, a3, a4⟩ := foldl_coveredAdd cv1.intersection
    ({ s1 with otab := fun x => if x = -lit then os else s1.otab x }, cover_push_extension lit cv1)
  generalize List.foldl coveredAdd
    ({ s1 with otab := fun x => if x = -lit then os else s1.otab x },
      cover_push_extension lit cv1) cv1.intersection = q at a1 a2 a3 a4
  obtain ⟨s2, cv2⟩ := q
  simp only at a1 a2 a3 a4
  have hi2 : cv2.intersection = cv1.intersection := by rw [a1]; rfl
  have hm2 : ∀ v, s2.marks v ≠ 0 → ∃ l ∈ cv2.intersection, l.natAbs = v := by
    intro v hv
    rw [hi2]
    apply hsupp v
    rw [a2] at hv
    exact hv
  have hvals2 : ∀ x, (coveredReset (coveredReset (s2, cv2))).1.vals x = s2.vals x := by
    intro x
    show (Internal.unmarkAll (Internal.unmarkAll s2 _) _).vals x = _
    rw [unmarkAll_frame, unmarkAll_frame]
  refine ⟨cv1.intersection, ?_, fun h => (by cases h), ?_, ?_, k1, ?_⟩
  · show ({ cv2 with intersection := [] } : Coveror) = _
    rw [a1, hcv, hI]
    simp [cover_push_extension, hne]
  · intro v
    show (Internal.unmarkAll (Internal.unmarkAll s2 cv2.intersection) []).marks v = 0
    exact unmarkAll_zero _ _ hm2 v
  · intro x hx
    show (coveredReset (coveredReset (s2, cv2))).1.vals x = _
    rw [hvals2, a3 x hx]
    show s1.vals x = _
    rw [hvals]; rfl
  · intro l hl
    obtain ⟨b1, b2⟩ := a4 k1 l hl
    obtain ⟨c1, c2, c3⟩ := kk l hl
    refine ⟨?_, ?_, c1, c2, ?_⟩
    · show (coveredReset (coveredReset (s2, cv2))).1.vals l = _
      rw [hvals2]; exact b1
    · show (coveredReset (coveredReset (s2, cv2))).1.vals (-l) = _
      rw [hvals2]; exact b2
    · intro c hc2 hcand
      exact c3 c hc2 hcand

/-- C20. Covered literals are common to all non-blocked resolution candidates: in a
state without marks and with an empty intersection, whose clauses in occs (-lit) have
nonzero literals of distinct variables, the literals K that cover_propagate_covered (lit)
appends to coveror.covered and coveror.added are assigned false, were unassigned on
entry, differ from -lit and occur in every non-garbage clause of occs (-lit) that has
no true literal other than -lit. -/
theorem covered_literals_common (lit : Int) (sc : Internal × Coveror)
    (hm : ∀ v, sc.1.marks v = 0) (hI : sc.2.intersection = [])
    (hc : ∀ c ∈ sc.1.occs (-lit), DistinctVars (sc.1.clauseAt c).literals) :
    ∃ K : List Int,
      (cover_propagate_covered lit sc).2.2.covered = sc.2.covered ++ K ∧
      (cover_propagate_covered lit sc).2.2.added = sc.2.added ++ K ∧
      (∀ x, (cover_propagate_covered lit sc).2.1.val x ≠ sc.1.val x → x ∈ K ∨ -x ∈ K) ∧
      ∀ m ∈ K, (cover_propagate_covered lit sc).2.1.val m = -1 ∧
        (cover_propagate_covered lit sc).2.1.val (-m) = 1 ∧
        sc.1.val m = 0 ∧ m ≠ -lit ∧
        ∀ c ∈ sc.1.occs (-lit), (sc.1.clauseAt c).garbage = false →
          ¬ Blocked sc.1 lit c → m ∈ (sc.1.clauseAt c).literals := by
  obtain ⟨K, h1, _, _, h4, _, h6⟩ := cover_propagate_covered_spec lit sc hm hI hc
  refine ⟨K, by rw [h1], by rw [h1], ?_, ?_⟩
  · intro x hx
    by_contra hn
    apply hx
    apply h4
    intro l hl
    constructor
    · intro e; exact hn (Or.inl (e ▸ hl))
    · intro e; exact hn (Or.inr (by rw [e]; simpa using hl))
  · intro m hmK
    obtain ⟨a, b, c, d, e⟩ := h6 m hmK
    exact ⟨a, b, c, d, fun cl hcl hg hb => e cl hcl ⟨hg, hb⟩⟩

/-- Witness for C20: with the clauses (1 2) and (-1 3), the literals -1 and 3 assumed
false, covered propagation of -1 adds the literal 2 of the only resolution candidate
(1 2). -/
theorem covered_literals_common_witness :
    (cover_propagate_covered (-1) Examples.coveredState).2.2.covered = [2] ∧
    ∃ K : List Int,
      (cover_propagate_covered (-1) Examples.coveredState).2.2.covered =
        Examples.coveredState.2.covered ++ K ∧
      (cover_propagate_covered (-1) Examples.coveredState).2.2.added =
        Examples.coveredState.2.added ++ K ∧
      (∀ x, (cover_propagate_covered (-1) Examples.coveredState).2.1.val x ≠
        Examples.coveredState.1.val x → x ∈ K ∨ -x ∈ K) ∧
      ∀ m ∈ K, (cover_propagate_covered (-1) Examples.coveredState).2.1.val m = -1 ∧
        (cover_propagate_covered (-1) Examples.coveredState).2.1.val (-m) = 1 ∧
        Examples.coveredState.1.val m = 0 ∧ m ≠ - -1 ∧
        ∀ c ∈ Examples.coveredState.1.occs (- -1),
          (Examples.coveredState.1.clauseAt c).garbage = false →
          ¬ Blocked Examples.coveredState.1 (-1) c →
          m ∈ (Examples.coveredState.1.clauseAt c).literals :=
  ⟨by decide,
   covered_literals_common (-1) Examples.coveredState (fun _ => rfl) rfl (by decide)⟩

end Internal

end CaDiCaL

namespace CaDiCaL

namespace Internal

theorem PropFrame.self (a : Internal) : PropFrame a a := ⟨rfl, rfl⟩

theorem PropFrame.chain {a b c : Internal} (h1 : PropFrame a b) (h2 : PropFrame b c) :
    PropFrame a c := by
  obtain ⟨a1, a2⟩ := h1
  obtain ⟨b1, b2⟩ := h2
  constructor
  · rw [b1, a1]
  · rw [b2, a2]

theorem MarksOnly.propFrame {a b : Internal × Coveror} (h : MarksOnly a b) :
    PropFrame a.1 b.1 := by
  constructor
  · rw [h.1]
  · rw [h.1]

theorem propFrame_asymReplace (lit : Int) (w : Watch) (st : AsymState) (other : Int)
    (lits : List Int) (kvr : Nat × Int × Int) :
    PropFrame st.s (asymReplace lit w st other lits kvr).s := by
  unfold asymReplace
  split
  · exact ⟨rfl, rfl⟩
  split
  · exact ⟨rfl, rfl⟩
  split
  · exact ⟨rfl, rfl⟩
  · exact ⟨rfl, rfl⟩

theorem propFrame_asymLong (lit : Int) (w : Watch) (st : AsymState) :
    PropFrame st.s (asymLong lit w st).s := by
  unfold asymLong
  split
  · exact ⟨rfl, rfl⟩
  · exact propFrame_asymReplace _ _ _ _ _ _

theorem propFrame_asymBinary (w : Watch) (st : AsymState) :
    PropFrame st.s (asymBinary w st).s := by
  unfold asymBinary
  split
  · exact ⟨rfl, rfl⟩
  · exact ⟨rfl, rfl⟩

theorem propFrame_asymWatch (lit : Int) (ignore : Nat) (w : Watch) (st : AsymState) :
    PropFrame st.s (asymWatch lit ignore w st).s := by
  unfold asymWatch
  split
  · exact ⟨rfl, rfl⟩
  split
  · exact ⟨rfl, rfl⟩
  split
  · exact ⟨rfl, rfl⟩
  split
  · exact propFrame_asymBinary _ _
  · exact propFrame_asymLong _ _ _

theorem propFrame_asymLoop (lit : Int) (ignore : Nat) (ws : List Watch) :
    ∀ st : AsymState, PropFrame st.s (asymLoop lit ignore ws st).1.s := by
  induction ws with
  | nil => intro st; exact PropFrame.self _
  | cons w ws ih =>
    intro st
    unfold asymLoop
    split
    · exact PropFrame.self _
    · exact (propFrame_asymWatch lit ignore w st).chain (ih _)

theorem propFrame_asymmetric (lit : Int) (ignore : Nat) (sc : Internal × Coveror) :
    PropFrame sc.1 (cover_propagate_asymmetric lit ignore sc).2.1 := by
  unfold cover_propagate_asymmetric asymFinish
  have h := propFrame_asymLoop lit ignore (sc.1.watches lit)
    ⟨countCoverPropagation sc.1, sc.2, [], false⟩
  have h0 : PropFrame sc.1 (countCoverPropagation sc.1) := ⟨rfl, rfl⟩
  refine (h0.chain h).chain ?_
  exact ⟨rfl, rfl⟩

theorem propFrame_foldl_coveredAdd (I : List Int) : ∀ sc : Internal × Coveror,
    PropFrame sc.1 (I.foldl coveredAdd sc).1 := by
  induction I with
  | nil => intro sc; exact PropFrame.self _
  | cons a I ih =>
    intro sc
    rw [List.foldl_cons]
    exact (show PropFrame sc.1 (coveredAdd sc a).1 from ⟨rfl, rfl⟩).chain (ih _)

theorem propFrame_coveredFinish (lit : Int) (first : Bool) (sc : Internal × Coveror) :
    PropFrame sc.1 (coveredFinish lit first sc).2.1 := by
  unfold coveredFinish
  split
  · exact (coveredReset_marksOnly (sc.1, cover_push_extension lit sc.2)).propFrame
  split
  · exact (coveredReset_marksOnly sc).propFrame
  · have h1 : PropFrame sc.1 (covered_literal_addition lit sc).1 :=
      propFrame_foldl_coveredAdd sc.2.intersection (sc.1, cover_push_extension lit sc.2)
    exact (h1.chain (coveredReset_marksOnly _).propFrame).chain
      (coveredReset_marksOnly (coveredReset (covered_literal_addition lit sc))).propFrame

theorem propFrame_covered (lit : Int) (sc : Internal × Coveror) :
    PropFrame sc.1 (cover_propagate_covered lit sc).2.1 := by
  unfold cover_propagate_covered
  split
  · exact PropFrame.self _
  · unfold coveredAfterLoop
    have h0 : PropFrame sc.1 (countCoverPropagation sc.1) := ⟨rfl, rfl⟩
    have h1 := (coveredLoop_marksOnly lit (sc.1.occs (-lit)) [] true
      (countCoverPropagation sc.1, sc.2)).propFrame
    refine ((h0.chain h1).chain ?_).chain (propFrame_coveredFinish _ _ _)
    exact ⟨rfl, rfl⟩

theorem propFrame_coverAssume (lits : List Int) : ∀ sc : Internal × Coveror,
    PropFrame sc.1 (coverAssume lits sc).1 := by
  induction lits with
  | nil => intro sc; exact PropFrame.self _
  | cons a lits ih =>
    intro sc
    unfold coverAssume
    split
    · exact (show PropFrame sc.1 (asymmetric_literal_addition a sc).1 from ⟨rfl, rfl⟩).chain
        (ih _)
    · exact ih sc

theorem propFrame_coverLoop (c : Nat) (fuel : Nat) : ∀ (sc : Internal × Coveror)
    (r : Bool × Internal × Coveror), coverLoop c fuel sc = some r → PropFrame sc.1 r.2.1 := by
  induction fuel with
  | zero =>
    intro sc r h
    unfold coverLoop at h
    split at h
    · cases h
    split at h
    · cases h
    · cases h; exact PropFrame.self _
  | succ fuel ih =>
    intro sc r h
    unfold coverLoop at h
    split at h
    · simp only at h
      split at h
      · cases h
        exact propFrame_asymmetric _ _
          (sc.1, { sc.2 with next_asymmetric := sc.2.next_asymmetric + 1 })
      · exact (propFrame_asymmetric _ _
          (sc.1, { sc.2 with next_asymmetric := sc.2.next_asymmetric + 1 })).chain (ih _ _ h)
    split at h
    · simp only at h
      split at h
      · cases h
        exact propFrame_covered _ (sc.1, { sc.2 with next_covered := sc.2.next_covered + 1 })
      · exact (propFrame_covered _
          (sc.1, { sc.2 with next_covered := sc.2.next_covered + 1 })).chain (ih _ _ h)
    · cases h; exact PropFrame.self _

end Internal

end CaDiCaL

namespace CaDiCaL

namespace Internal

theorem coverReplay_stats (ext : List Int) : ∀ (prev : Int) (s : Internal),
    (coverReplay ext prev s).stats = s.stats := by
  induction ext with
  | nil => intro prev s; rfl
  | cons a ext ih =>
    intro prev s
    unfold coverReplay
    rw [ih]
    split <;> split <;> rfl

theorem coverUnassign_stats (added : List Int) : ∀ s : Internal,
    (coverUnassign s added).stats = s.stats := by
  induction added with
  | nil => intro s; rfl
  | cons a added ih =>
    intro s
    unfold coverUnassign
    rw [List.foldl_cons]
    exact ih _

theorem coverCount_total (s : Internal) (cv : Coveror) :
    (coverCount s cv).stats.cover_total = s.stats.cover_total + 1 := by
  unfold coverCount
  split <;> rfl

/-- The counter stats.cover.total grows by one in a call of cover_clause that returns
true and is unchanged in a call that returns false. -/
theorem cover_clause_total (c : Nat) (sc : Internal × Coveror) (r : Bool × Internal × Coveror)
    (h : cover_clause c sc = some r) :
    r.2.1.stats.cover_total = sc.1.stats.cover_total + (if r.1 then 1 else 0) := by
  unfold cover_clause at h
  split at h
  · cases h; simp [Internal.mark_garbage, Internal.setClause]
  · split at h
    · cases h
    · rename_i r0 hr0
      cases h
      have hf := propFrame_coverLoop c _ _ _ hr0
      have ha := propFrame_coverAssume (sc.1.clauseAt c).literals ({ sc.1 with level := 1 }, sc.2)
      have e1 : r0.2.1.stats.cover_total = sc.1.stats.cover_total := by
        rw [hf.2]
        show (coverAssume (sc.1.clauseAt c).literals
          ({ sc.1 with level := 1 }, sc.2)).1.stats.cover_total = _
        rw [ha.2]
      unfold coverFinish
      show (coverUnassign _ _).stats.cover_total = _
      rw [coverUnassign_stats]
      cases hb : r0.1
      · simp only [Bool.false_eq_true, if_false, add_zero]
        exact e1
      · simp only [if_true]
        rw [coverReplay_stats]
        show (coverCount r0.2.1 r0.2.2).stats.cover_total = _
        rw [coverCount_total, e1]

/-- The counter of the main loop of cover grows like stats.cover.total. -/
theorem coverMain_total (env : Env) (limit : Int) (schedule : List Nat) :
    ∀ (sc : Internal × Coveror) (covered : Int) (tcalls : Nat) (r : Int × Internal × Coveror),
      coverMain env limit schedule sc covered tcalls = some r →
      covered ≤ r.1 ∧ r.2.1.stats.cover_total = sc.1.stats.cover_total + (r.1 - covered) := by
  induction schedule with
  | nil =>
    intro sc covered tcalls r h
    unfold coverMain at h
    cases h
    simp
  | cons c rest ih =>
    intro sc covered tcalls r h
    unfold coverMain at h
    split at h
    · cases h; simp
    split at h
    · cases h; simp
    split at h
    · cases h
    · rename_i r1 hr1
      have h1 := cover_clause_total c _ _ hr1
      obtain ⟨h2, h3⟩ := ih _ _ _ _ h
      have h4 : (sc.1.setClause c { sc.1.clauseAt c with covered := true }).stats.cover_total =
        sc.1.stats.cover_total := rfl
      simp only at h1
      rw [h4] at h1
      cases hb : r1.1
      · rw [hb] at h1 h2 h3
        simp only [Bool.false_eq_true, if_false] at h1 h2 h3
        exact ⟨h2, by rw [h3, h1]; omega⟩
      · rw [hb] at h1 h2 h3
        simp only [if_true] at h1 h2 h3
        exact ⟨by omega, by rw [h3, h1]; omega⟩

theorem foldl_fst_stats {α : Type} (f : Internal × List Nat → α → Internal × List Nat)
    (hf : ∀ ss a, (f ss a).1.stats = ss.1.stats) (l : List α) :
    ∀ ss, (l.foldl f ss).1.stats = ss.1.stats := by
  induction l with
  | nil => intro ss; rfl
  | cons a l ih => intro ss; rw [List.foldl_cons, ih, hf]

theorem coverCollect_stats (c : Nat) (ss : Internal × List Nat) :
    (coverCollect c ss).1.stats = ss.1.stats := by
  unfold coverCollect
  split
  · rfl
  split
  · rfl
  split
  · rfl
  split
  · rfl
  split <;> rfl

theorem coverReschedule_stats (c : Nat) (ss : Internal × List Nat) :
    (coverReschedule c ss).1.stats = ss.1.stats := by
  unfold coverReschedule
  split
  · rfl
  split
  · rfl
  split <;> rfl

theorem coverAddTried_stats (c : Nat) (ss : Internal × List Nat) :
    (coverAddTried c ss).1.stats = ss.1.stats := by
  unfold coverAddTried
  split
  · rfl
  split
  · rfl
  split
  · rfl
  split <;> rfl

theorem coverSchedule_stats (s : Internal) : (coverSchedule s).1.stats = s.stats := by
  unfold coverSchedule coverSorted coverSecond
  simp only
  split
  · rw [foldl_fst_stats _ (fun ss c => coverReschedule_stats c ss),
      foldl_fst_stats _ (fun ss c => coverCollect_stats c ss)]
  · rw [foldl_fst_stats _ (fun ss c => coverAddTried_stats c ss),
      foldl_fst_stats _ (fun ss c => coverCollect_stats c ss)]

theorem foldl_watch_clause_stats (l : List Nat) : ∀ s : Internal,
    (l.foldl watch_clause s).stats = s.stats := by
  induction l with
  | nil => intro s; rfl
  | cons a l ih => intro s; rw [List.foldl_cons, ih]; rfl

theorem connect_watches_stats (s : Internal) (b : Bool) :
    (s.connect_watches b).stats = s.stats := by
  unfold connect_watches
  rw [foldl_watch_clause_stats, foldl_watch_clause_stats]

theorem coverPrepare_stats (s : Internal) : (coverPrepare s).1.stats = s.stats := by
  unfold coverPrepare
  show (coverSchedule _).1.stats = _
  rw [coverSchedule_stats]
  show (connect_watches _ true).stats = _
  rw [connect_watches_stats]
  rfl

theorem coverUnits_total (env : Env) (s : Internal)
    (hP : ∀ t, (env.propagate t).2.stats.cover_total = t.stats.cover_total) :
    (coverUnits env s).stats.cover_total = s.stats.cover_total := by
  unfold coverUnits
  split
  · split
    · show (env.propagate _).2.stats.cover_total = _
      rw [hP, connect_watches_stats]; rfl
    · show (env.propagate _).2.stats.cover_total = _
      rw [hP, connect_watches_stats]; rfl
  · rfl

/-- C16. Guards of cover (): if the option cover is off, or the option restoreflush is
on, or unsat is set, or there is no irredundant clause, then cover () returns false
and the state afterwards is the state before, in every component. -/
theorem cover_guards (env : Env) (s : Internal)
    (h : s.opts.cover = false ∨ s.opts.restoreflush = true ∨ s.unsat = true ∨
      s.stats.current_irredundant = 0) :
    cover env s = some (false, s) := by
  unfold cover
  split
  · rfl
  split
  · rfl
  split
  · rfl
  rename_i h1 h2 h3
  exfalso
  rcases h with h | h | h | h
  · rw [h] at h1; exact h1 rfl
  · exact h3 h
  · rw [h] at h2; simp at h2
  · rw [h] at h2; simp at h2

/-- Witness for C16: with the option cover off the run on the clauses (1 2), (1 -2)
changes nothing. -/
theorem cover_guards_witness :
    cover Examples.env0 Examples.coverOff = some (false, Examples.coverOff) :=
  cover_guards Examples.env0 Examples.coverOff (Or.inl (by decide))

/-- Counterexample to C15 as stated: on the clauses (1 2), (1 -2) two calls of
cover_clause return true and stats.cover.total grows by two, but cover () returns the
value true of type bool, which is 1 as a number. -/
theorem cover_returns_count_counterexample :
    (cover Examples.env0 Examples.twoBlocked).map
        (fun r => (r.1, r.2.stats.cover_total - Examples.twoBlocked.stats.cover_total)) =
      some (true, 2) ∧
    (coverRun Examples.env0
        (coverUnits Examples.env0 (countCover Examples.twoBlocked))).map (fun r => r.1) =
      some 2 := by
  constructor <;> decide!

/-- C15, amended. The result of cover () is of type bool: for every run that returns,
with a propagator that leaves stats.cover.total alone, the counter stats.cover.total
does not decrease, cover () returns true exactly when it has grown, and in a run that
passes the guards and reaches the main loop the local counter covered, the number of
calls of cover_clause that returned true, is the increase of stats.cover.total. -/
theorem cover_returns_flag (env : Env) (s : Internal) (b : Bool) (s2 : Internal)
    (hP : ∀ t, (env.propagate t).2.stats.cover_total = t.stats.cover_total)
    (h : cover env s = some (b, s2)) :
    s.stats.cover_total ≤ s2.stats.cover_total ∧
    (b = true ↔ s2.stats.cover_total ≠ s.stats.cover_total) ∧
    (s.opts.cover = true →
      (s.unsat || env.terminating 0 || decide (s.stats.current_irredundant = 0)) = false →
      s.opts.restoreflush = false →
      (coverUnits env (countCover s)).unsat = false →
      ∃ covered, coverRun env (coverUnits env (countCover s)) = some (covered, s2) ∧
        covered = s2.stats.cover_total - s.stats.cover_total) := by
  have hu : (coverUnits env (countCover s)).stats.cover_total = s.stats.cover_total := by
    rw [coverUnits_total env _ hP]; rfl
  have hrun : ∀ r, coverRun env (coverUnits env (countCover s)) = some r →
      0 ≤ r.1 ∧ r.2.stats.cover_total = s.stats.cover_total + r.1 := by
    intro r hr
    unfold coverRun at hr
    split at hr
    · cases hr
    · rename_i r1 hr1
      cases hr
      obtain ⟨m1, m2⟩ := coverMain_total _ _ _ _ _ _ _ hr1
      refine ⟨m1, ?_⟩
      show r1.2.1.stats.cover_total = _
      rw [m2]
      show (coverPrepare _).1.stats.cover_total + _ = _
      rw [coverPrepare_stats, hu]
      simp
  unfold cover at h
  split at h
  · rename_i hg
    cases h
    refine ⟨le_refl _, by simp, ?_⟩
    intro h1
    rw [h1] at hg; cases hg
  split at h
  · rename_i hg
    cases h
    refine ⟨le_refl _, by simp, ?_⟩
    intro _ h2
    rw [h2] at hg; cases hg
  split at h
  · rename_i hg
    cases h
    refine ⟨le_refl _, by simp, ?_⟩
    intro _ _ h3
    rw [h3] at hg; cases hg
  split at h
  · cases h
    rename_i hus
    rw [hu]
    refine ⟨le_refl _, by simp, ?_⟩
    intro _ _ _ hn
    rw [hus] at hn; cases hn
  split at h
  · cases h
  · rename_i r hr
    cases h
    obtain ⟨n1, n2⟩ := hrun r hr
    refine ⟨by omega, ?_, ?_⟩
    · rw [n2]
      simp only [decide_eq_true_eq]
      constructor <;> intro hh <;> omega
    · intro _ _ _ _
      exact ⟨r.1, hr, by omega⟩

/-- Witness for C15 on the clauses (1 2), (1 -2): the run eliminates both clauses and
returns true. -/
theorem cover_returns_flag_witness :
    ((cover Examples.env0 Examples.twoBlocked).map
        (fun r => (r.1, r.2.stats.cover_total)) = some (true, 2)) ∧
    (Examples.twoBlocked.stats.cover_total ≤
      ((cover Examples.env0 Examples.twoBlocked).getD
        (false, Examples.twoBlocked)).2.stats.cover_total ∧
    (((cover Examples.env0 Examples.twoBlocked).getD (false, Examples.twoBlocked)).1 = true ↔
      ((cover Examples.env0 Examples.twoBlocked).getD
        (false, Examples.twoBlocked)).2.stats.cover_total ≠
        Examples.twoBlocked.stats.cover_total) ∧
    (Examples.twoBlocked.opts.cover = true →
      (Examples.twoBlocked.unsat || Examples.env0.terminating 0 ||
        decide (Examples.twoBlocked.stats.current_irredundant = 0)) = false →
      Examples.twoBlocked.opts.restoreflush = false →
      (coverUnits Examples.env0 (countCover Examples.twoBlocked)).unsat = false →
      ∃ covered,
        coverRun Examples.env0 (coverUnits Examples.env0 (countCover Examples.twoBlocked)) =
          some (covered, ((cover Examples.env0 Examples.twoBlocked).getD
            (false, Examples.twoBlocked)).2) ∧
        covered = ((cover Examples.env0 Examples.twoBlocked).getD
            (false, Examples.twoBlocked)).2.stats.cover_total -
          Examples.twoBlocked.stats.cover_total)) :=
  ⟨by decide!,
   cover_returns_flag Examples.env0 Examples.twoBlocked _ _ (fun _ => rfl)
    (option_eq_some_getD _ (false, Examples.twoBlocked) (by decide!))⟩

end Internal

end CaDiCaL

namespace CaDiCaL

namespace Internal

/-- Assuming one more literal false keeps the invariant of the values, if the literal
or its negation is unassigned or its variable was added before. -/
theorem vinv_add {init vals : Int → Int} {added : List Int} (l : Int)
    (h : VInv init vals added)
    (hl : vals l = 0 ∨ vals (-l) = 0 ∨ l ∈ added ∨ -l ∈ added) :
    VInv init (setVal (setVal vals l (-1)) (-l) 1) (added ++ [l]) := by
  obtain ⟨h1, h2, h3⟩ := h
  have hv : ∀ x, setVal (setVal vals l (-1)) (-l) 1 x =
      if x = -l then 1 else if x = l then -1 else vals x := fun _ => rfl
  have hinit : init l = 0 ∧ init (-l) = 0 := by
    by_cases hm : l ∈ added ∨ -l ∈ added
    · rcases hm with hm | hm
      · exact h3 l hm
      · have := h3 (-l) hm
        rw [neg_neg] at this
        exact ⟨this.2, this.1⟩
    · have hz : vals l = 0 ∧ vals (-l) = 0 := by
        by_cases h0 : l = 0
        · subst h0
          rcases hl with hl | hl | hl | hl
          · exact ⟨hl, by simpa using hl⟩
          · exact ⟨by simpa using hl, hl⟩
          · exact absurd (Or.inl hl) hm
          · exact absurd (Or.inr hl) hm
        · have := h1 l h0
          rcases hl with hl | hl | hl | hl
          · exact ⟨hl, by omega⟩
          · exact ⟨by omega, hl⟩
          · exact absurd (Or.inl hl) hm
          · exact absurd (Or.inr hl) hm
      constructor
      · by_contra hne
        have : vals l ≠ init l := by rw [hz.1]; exact fun e => hne e.symm
        exact hm (h2 l this)
      · by_contra hne
        have : vals (-l) ≠ init (-l) := by rw [hz.2]; exact fun e => hne e.symm
        rcases h2 (-l) this with h4 | h4
        · exact hm (Or.inr h4)
        · rw [neg_neg] at h4; exact hm (Or.inl h4)
  refine ⟨?_, ?_, ?_⟩
  · intro m hm
    rw [hv, hv]
    by_cases e1 : m = l
    · subst e1
      rw [if_pos rfl, if_neg (by omega), if_pos rfl]; rfl
    · by_cases e2 : m = -l
      · subst e2
        rw [if_neg (by omega), if_pos (by omega), if_pos rfl]
      · rw [if_neg (by omega), if_neg (by omega), if_neg e2, if_neg e1]
        exact h1 m hm
  · intro x hx
    rw [hv] at hx
    by_cases e1 : x = -l
    · right; rw [e1, neg_neg]; simp
    · by_cases e2 : x = l
      · left; rw [e2]; simp
      · rw [if_neg e1, if_neg e2] at hx
        rcases h2 x hx with h4 | h4
        · exact Or.inl (List.mem_append_left _ h4)
        · exact Or.inr (List.mem_append_left _ h4)
  · intro m hm
    rcases List.mem_append.mp hm with h4 | h4
    · exact h3 m h4
    · rw [List.mem_singleton.mp h4]; exact hinit

theorem vinv_asymmetric_literal_addition {init : Int → Int} (l : Int)
    (sc : Internal × Coveror) (h : VInv init sc.1.vals sc.2.added)
    (hl : sc.1.val l = 0 ∨ sc.1.val (-l) = 0) :
    VInv init (asymmetric_literal_addition l sc).1.vals
      (asymmetric_literal_addition l sc).2.added :=
  vinv_add l h (by
    rcases hl with hl | hl
    · exact Or.inl hl
    · exact Or.inr (Or.inl hl))

theorem vinv_asymWatch {init : Int → Int} (lit : Int) (ignore : Nat) (w : Watch)
    (st : AsymState) (h : VInv init st.s.vals st.cv.added) :
    VInv init (asymWatch lit ignore w st).s.vals (asymWatch lit ignore w st).cv.added := by
  unfold asymWatch
  split
  · exact h
  split
  · exact h
  rename_i hb
  split
  · exact h
  split
  · unfold asymBinary
    split
    · exact h
    · rename_i hneg
      have hz : st.s.val w.blit = 0 := by omega
      exact vinv_asymmetric_literal_addition (-w.blit) (st.s, st.cv) h
        (Or.inr (by rw [neg_neg]; exact hz))
  · unfold asymLong
    split
    · exact h
    · unfold asymReplace
      split
      · exact h
      split
      · exact h
      split
      · rename_i hz
        exact vinv_asymmetric_literal_addition _ (_, st.cv) h
          (Or.inr (by rw [neg_neg]; exact hz))
      · exact h

theorem vinv_asymLoop {init : Int → Int} (lit : Int) (ignore : Nat) (ws : List Watch) :
    ∀ st : AsymState, VInv init st.s.vals st.cv.added →
      VInv init (asymLoop lit ignore ws st).1.s.vals (asymLoop lit ignore ws st).1.cv.added := by
  induction ws with
  | nil => intro st h; exact h
  | cons w ws ih =>
    intro st h
    unfold asymLoop
    split
    · exact h
    · exact ih _ (vinv_asymWatch lit ignore w st h)

theorem intersection_asymWatch (lit : Int) (ignore : Nat) (w : Watch) (st : AsymState) :
    (asymWatch lit ignore w st).cv.intersection = st.cv.intersection := by
  unfold asymWatch
  split
  · rfl
  split
  · rfl
  split
  · rfl
  split
  · unfold asymBinary
    split <;> rfl
  · unfold asymLong
    split
    · rfl
    · unfold asymReplace
      split
      · rfl
      split
      · rfl
      split <;> rfl

theorem intersection_asymLoop (lit : Int) (ignore : Nat) (ws : List Watch) :
    ∀ st : AsymState, (asymLoop lit ignore ws st).1.cv.intersection = st.cv.intersection := by
  induction ws with
  | nil => intro st; rfl
  | cons w ws ih =>
    intro st
    unfold asymLoop
    split
    · rfl
    · rw [ih, intersection_asymWatch]

theorem vinv_asymmetric {init : Int → Int} (lit : Int) (ignore : Nat)
    (sc : Internal × Coveror) (h : VInv init sc.1.vals sc.2.added) :
    VInv init (cover_propagate_asymmetric lit ignore sc).2.1.vals
      (cover_propagate_asymmetric lit ignore sc).2.2.added ∧
    (cover_propagate_asymmetric lit ignore sc).2.2.intersection = sc.2.intersection :=
  ⟨vinv_asymLoop lit ignore (sc.1.watches lit) ⟨countCoverPropagation sc.1, sc.2, [], false⟩ h,
   intersection_asymLoop lit ignore (sc.1.watches lit)
    ⟨countCoverPropagation sc.1, sc.2, [], false⟩⟩

theorem coveredScan_unassigned (lit : Int) (first : Bool) (lits : List Int) :
    ∀ sc : Internal × Coveror, (∀ l ∈ sc.2.intersection, sc.1.val l = 0) →
      ∀ l ∈ (coveredScan lit first lits sc).2.2.intersection, sc.1.val l = 0 := by
  induction lits with
  | nil => intro sc h; exact h
  | cons x lits ih =>
    intro sc h
    unfold coveredScan
    split
    · exact ih sc h
    split
    · exact ih sc h
    split
    · exact h
    rename_i h1 h2 h3
    split
    · apply ih (sc.1.mark x, { sc.2 with intersection := sc.2.intersection ++ [x] })
      intro l hl
      rcases List.mem_append.mp hl with hl | hl
      · exact h l hl
      · rw [List.mem_singleton.mp hl]
        show sc.1.val x = 0
        omega
    split
    · exact ih (sc.1.unmark x, sc.2) h
    · exact ih sc h

theorem coveredFilter_sub (I : List Int) : ∀ (s : Internal), ∀ l ∈ (coveredFilter I s).2, l ∈ I := by
  induction I with
  | nil => intro s l hl; cases hl
  | cons x I ih =>
    intro s l hl
    unfold coveredFilter at hl
    split at hl
    · exact List.mem_cons_of_mem _ (ih _ l hl)
    · rcases List.mem_cons.mp hl with rfl | hl
      · exact List.mem_cons_self _ _
      · exact List.mem_cons_of_mem _ (ih _ l hl)

theorem coveredLoop_unassigned (lit : Int) (rest : List Nat) :
    ∀ (before : List Nat) (first : Bool) (sc : Internal × Coveror),
      (∀ l ∈ sc.2.intersection, sc.1.val l = 0) →
      ∀ l ∈ (coveredLoop lit before rest first sc).2.1.2.intersection, sc.1.val l = 0 := by
  induction rest with
  | nil => intro before first sc h; exact h
  | cons c rest ih =>
    intro before first sc h
    have hs := coveredScan_marksOnly lit first (sc.1.clauseAt c).literals sc
    have hu := coveredScan_unassigned lit first (sc.1.clauseAt c).literals sc h
    have hsh : ∀ l ∈ (coveredShrink
        (coveredScan lit first (sc.1.clauseAt c).literals sc).2).2.intersection,
        sc.1.val l = 0 := fun l hl => hu l (coveredFilter_sub _ _ l hl)
    unfold coveredLoop
    split
    · exact ih _ _ _ h
    split
    · intro l hl
      rw [← (hs.trans (coveredReset_marksOnly _)).val]
      exact ih _ _ _ (fun m hm => (by cases hm)) l hl
    split
    · split
      · exact hu
      · intro l hl
        rw [← hs.val]
        exact ih _ _ _ (fun m hm => (by rw [hs.val]; exact hu m hm)) l hl
    · split
      · exact hsh
      · intro l hl
        rw [← (hs.trans (coveredShrink_marksOnly _)).val]
        exact ih _ _ _ (fun m hm => (by
          rw [(hs.trans (coveredShrink_marksOnly _)).val]; exact hsh m hm)) l hl

theorem vinv_foldl_coveredAdd {init : Int → Int} (I : List Int) :
    ∀ sc : Internal × Coveror, VInv init sc.1.vals sc.2.added →
      (∀ l ∈ I, sc.1.val l = 0 ∨ l ∈ sc.2.added ∨ -l ∈ sc.2.added) →
      VInv init (I.foldl coveredAdd sc).1.vals (I.foldl coveredAdd sc).2.added := by
  induction I with
  | nil => intro sc h _; exact h
  | cons a I ih =>
    intro sc h hI
    rw [List.foldl_cons]
    apply ih
    · refine vinv_add a h ?_
      rcases hI a (List.mem_cons_self _ _) with h1 | h1 | h1
      · exact Or.inl h1
      · exact Or.inr (Or.inr (Or.inl h1))
      · exact Or.inr (Or.inr (Or.inr h1))
    · intro l hl
      show (sc.1.assumeFalse a).vals l = 0 ∨ l ∈ sc.2.added ++ [a] ∨ -l ∈ sc.2.added ++ [a]
      rw [assumeFalse_vals]
      by_cases e1 : l = -a
      · right; right; rw [e1, neg_neg]; simp
      · by_cases e2 : l = a
        · right; left; rw [e2]; simp
        · rw [if_neg e1, if_neg e2]
          rcases hI l (List.mem_cons_of_mem _ hl) with h1 | h1 | h1
          · exact Or.inl h1
          · exact Or.inr (Or.inl (List.mem_append_left _ h1))
          · exact Or.inr (Or.inr (List.mem_append_left _ h1))

theorem coveredFinish_intersection (lit : Int) (first : Bool) (sc : Internal × Coveror) :
    (coveredFinish lit first sc).2.2.intersection = [] := by
  unfold coveredFinish
  split
  · rfl
  split <;> rfl

theorem vinv_covered {init : Int → Int} (lit : Int) (sc : Internal × Coveror)
    (h : VInv init sc.1.vals sc.2.added) (hI : sc.2.intersection = []) :
    VInv init (cover_propagate_covered lit sc).2.1.vals
      (cover_propagate_covered lit sc).2.2.added ∧
    (cover_propagate_covered lit sc).2.2.intersection = [] := by
  unfold cover_propagate_covered
  split
  · exact ⟨h, hI⟩
  unfold coveredAfterLoop
  refine ⟨?_, coveredFinish_intersection _ _ _⟩
  have hmo := coveredLoop_marksOnly lit (sc.1.occs (-lit)) [] true
    (countCoverPropagation sc.1, sc.2)
  have hun := coveredLoop_unassigned lit (sc.1.occs (-lit)) [] true
    (countCoverPropagation sc.1, sc.2) (fun l hl => (by rw [hI] at hl; cases hl))
  have hvals := hmo.vals
  have hadd := hmo.cv.2.2.2.1
  generalize coveredLoop lit [] (sc.1.occs (-lit)) true (countCoverPropagation sc.1, sc.2) = r
    at hmo hun hvals hadd
  obtain ⟨first, ⟨s1, cv1⟩, os⟩ := r
  simp only at hmo hun hvals hadd
  have h1 : VInv init s1.vals cv1.added := by
    rw [hvals, hadd]; exact h
  unfold coveredFinish
  simp only
  split
  · show VInv init (Internal.unmarkAll _ _).vals cv1.added
    rw [unmarkAll_frame]
    exact h1
  split
  · show VInv init (Internal.unmarkAll _ _).vals cv1.added
    rw [unmarkAll_frame]
    exact h1
  · have h2 := vinv_foldl_coveredAdd cv1.intersection
      ({ s1 with otab := fun x => if x = -lit then os else s1.otab x },
        cover_push_extension lit cv1) h1
      (fun l hl => Or.inl (by
        have := hun l hl
        show s1.vals l = 0
        rw [hvals]; exact this))
    show VInv init (Internal.unmarkAll (Internal.unmarkAll _ _) _).vals _
    rw [unmarkAll_frame, unmarkAll_frame]
    exact h2

theorem vinv_coverAssume {init : Int → Int} (lits : List Int) :
    ∀ sc : Internal × Coveror, VInv init sc.1.vals sc.2.added →
      VInv init (coverAssume lits sc).1.vals (coverAssume lits sc).2.added ∧
      (coverAssume lits sc).2.intersection = sc.2.intersection := by
  induction lits with
  | nil => intro sc h; exact ⟨h, rfl⟩
  | cons a lits ih =>
    intro sc h
    unfold coverAssume
    split
    · rename_i hz
      exact ih _ (vinv_asymmetric_literal_addition a sc h (Or.inl hz))
    · exact ih sc h

theorem vinv_coverLoop {init : Int → Int} (c : Nat) (fuel : Nat) :
    ∀ (sc : Internal × Coveror) (r : Bool × Internal × Coveror),
      VInv init sc.1.vals sc.2.added → sc.2.intersection = [] →
      coverLoop c fuel sc = some r → VInv init r.2.1.vals r.2.2.added := by
  induction fuel with
  | zero =>
    intro sc r hv hI h
    unfold coverLoop at h
    split at h
    · cases h
    split at h
    · cases h
    · cases h; exact hv
  | succ fuel ih =>
    intro sc r hv hI h
    unfold coverLoop at h
    split at h
    · simp only at h
      obtain ⟨a1, a2⟩ := vinv_asymmetric (sc.2.added.getD sc.2.next_asymmetric 0) c
        (sc.1, { sc.2 with next_asymmetric := sc.2.next_asymmetric + 1 }) hv
      split at h
      · cases h; exact a1
      · exact ih _ _ a1 (a2.trans hI) h
    split at h
    · simp only at h
      obtain ⟨a1, a2⟩ := vinv_covered (sc.2.added.getD sc.2.next_covered 0)
        (sc.1, { sc.2 with next_covered := sc.2.next_covered + 1 }) hv hI
      split at h
      · cases h; exact a1
      · exact ih _ _ a1 a2 h
    · cases h; exact hv

theorem coverUnassign_vals (added : List Int) : ∀ (s : Internal) (x : Int),
    (coverUnassign s added).vals x = if x ∈ added ∨ -x ∈ added then 0 else s.vals x := by
  induction added with
  | nil => intro s x; simp [coverUnassign]
  | cons a added ih =>
    intro s x
    have e : coverUnassign s (a :: added) =
      coverUnassign { s with vals := setVal (setVal s.vals (-a) 0) a 0 } added := rfl
    rw [e, ih]
    by_cases h1 : x ∈ added ∨ -x ∈ added
    · rw [if_pos h1, if_pos]
      rcases h1 with h1 | h1
      · exact Or.inl (List.mem_cons_of_mem _ h1)
      · exact Or.inr (List.mem_cons_of_mem _ h1)
    · rw [if_neg h1]
      show (if x = a then 0 else if x = -a then 0 else s.vals x) = _
      by_cases e1 : x = a
      · rw [if_pos e1, if_pos (Or.inl (by rw [e1]; exact List.mem_cons_self _ _))]
      · by_cases e2 : x = -a
        · rw [if_neg e1, if_pos e2, if_pos (Or.inr (by rw [e2, neg_neg]; exact List.mem_cons_self _ _))]
        · rw [if_neg e1, if_neg e2, if_neg]
          rintro (h | h)
          · rcases List.mem_cons.mp h with h | h
            · exact e1 h
            · exact h1 (Or.inl h)
          · rcases List.mem_cons.mp h with h | h
            · exact e2 (by omega)
            · exact h1 (Or.inr h)

theorem coverReplay_vals (ext : List Int) : ∀ (prev : Int) (s : Internal),
    (coverReplay ext prev s).vals = s.vals := by
  induction ext with
  | nil => intro prev s; rfl
  | cons a ext ih =>
    intro prev s
    unfold coverReplay
    rw [ih]
    split <;> split <;> rfl

theorem coverCount_vals (s : Internal) (cv : Coveror) : (coverCount s cv).vals = s.vals := by
  unfold coverCount
  split <;> rfl

/-- What a call of cover_clause that returns leaves of the level, the values and the
vectors of the Coveror. -/
theorem cover_clause_frame (c : Nat) (sc : Internal × Coveror)
    (r : Bool × Internal × Coveror) (hsym : Sym sc.1.vals)
    (hcv : sc.2.added = [] ∧ sc.2.clause = [] ∧ sc.2.covered = [] ∧ sc.2.extend = [] ∧
      sc.2.intersection = [])
    (h : cover_clause c sc = some r) :
    (sc.1.level = 0 → r.2.1.level = 0) ∧ r.2.1.vals = sc.1.vals ∧ r.2.2.added = [] ∧
      r.2.2.clause = [] ∧ r.2.2.covered = [] ∧ r.2.2.extend = [] := by
  obtain ⟨c1, c2, c3, c4, c5⟩ := hcv
  unfold cover_clause at h
  split at h
  · cases h
    exact ⟨fun hlevel => hlevel, rfl, c1, c2, c3, c4⟩
  split at h
  · cases h
  rename_i r0 hr0
  cases h
  have h0 : VInv sc.1.vals sc.1.vals sc.2.added := by
    rw [c1]
    exact ⟨hsym, fun x hx => absurd rfl hx, fun l hl => (by cases hl)⟩
  obtain ⟨a1, a2⟩ := vinv_coverAssume (sc.1.clauseAt c).literals
    ({ sc.1 with level := 1 }, sc.2) h0
  have h1 := vinv_coverLoop c _
    ((coverAssume (sc.1.clauseAt c).literals ({ sc.1 with level := 1 }, sc.2)).1,
     { (coverAssume (sc.1.clauseAt c).literals ({ sc.1 with level := 1 }, sc.2)).2 with
        next_asymmetric := 0, next_covered := 0 }) r0 a1 (a2.trans c5) hr0
  refine ⟨fun _ => rfl, ?_, rfl, rfl, rfl, rfl⟩
  funext x
  show (coverUnassign _ r0.2.2.added).vals x = _
  rw [coverUnassign_vals]
  have hbase : (if r0.1 = true then coverReplay r0.2.2.extend (-2147483648)
      ((coverCount r0.2.1 r0.2.2).mark_garbage c) else r0.2.1).vals = r0.2.1.vals := by
    split
    · rw [coverReplay_vals]
      show (coverCount r0.2.1 r0.2.2).vals = _
      rw [coverCount_vals]
    · rfl
  rw [hbase]
  obtain ⟨_, v2, v3⟩ := h1
  split
  · rename_i hm
    rcases hm with hm | hm
    · exact (v3 x hm).1.symm
    · have := (v3 (-x) hm).2
      rw [neg_neg] at this
      exact this.symm
  · rename_i hm
    by_contra hne
    exact hm (v2 x hne)

/-- C6. Restore (I4): a call of cover_clause entered at level 0 with symmetric values
(I3) and the vectors of the Coveror empty, as the source asserts, returns at level 0
with every value as on entry and with the vectors added, clause, covered and extend
empty, whether it returns true, false, or early for a satisfied clause. -/
theorem cover_clause_restores (c : Nat) (sc : Internal × Coveror)
    (r : Bool × Internal × Coveror) (hlevel : sc.1.level = 0) (hsym : Sym sc.1.vals)
    (hcv : sc.2.added = [] ∧ sc.2.clause = [] ∧ sc.2.covered = [] ∧ sc.2.extend = [] ∧
      sc.2.intersection = [])
    (h : cover_clause c sc = some r) :
    r.2.1.level = 0 ∧ r.2.1.vals = sc.1.vals ∧ r.2.2.added = [] ∧ r.2.2.clause = [] ∧
      r.2.2.covered = [] ∧ r.2.2.extend = [] :=
  ⟨(cover_clause_frame c sc r hsym hcv h).1 hlevel, (cover_clause_frame c sc r hsym hcv h).2⟩

/-- Witness for C6: cover_clause on the clause (1 -2) of (1 2), (1 -2) eliminates it
and restores the values. -/
theorem cover_clause_restores_witness :
    (cover_clause 1 Examples.preparedTwo).map (fun r => r.1) = some true ∧
    (((cover_clause 1 Examples.preparedTwo).getD
        (false, Examples.preparedTwo)).2.1.level = 0 ∧
     ((cover_clause 1 Examples.preparedTwo).getD
        (false, Examples.preparedTwo)).2.1.vals = Examples.preparedTwo.1.vals ∧
     ((cover_clause 1 Examples.preparedTwo).getD
        (false, Examples.preparedTwo)).2.2.added = [] ∧
     ((cover_clause 1 Examples.preparedTwo).getD
        (false, Examples.preparedTwo)).2.2.clause = [] ∧
     ((cover_clause 1 Examples.preparedTwo).getD
        (false, Examples.preparedTwo)).2.2.covered = [] ∧
     ((cover_clause 1 Examples.preparedTwo).getD
        (false, Examples.preparedTwo)).2.2.extend = []) :=
  ⟨by decide!,
   cover_clause_restores 1 Examples.preparedTwo _ (by decide!) (fun _ _ => rfl)
    ⟨rfl, rfl, rfl, rfl, rfl⟩
    (option_eq_some_getD _ (false, Examples.preparedTwo) (by decide!))⟩

end Internal

end CaDiCaL

namespace CaDiCaL

namespace Internal

theorem getD_set_eq (L : List Int) (i j : Nat) (a : Int) :
    (L.set i a).getD j 0 = if i = j ∧ i < L.length then a else L.getD j 0 := by
  simp only [List.getD_eq_getElem?_getD, List.getElem?_set]
  by_cases h : i = j
  · subst h
    by_cases h2 : i < L.length
    · simp [h2]
    · simp [h2]
      rw [List.getElem?_eq_none (by omega)]
      rfl
  · simp [h]

theorem getD_mem (L : List Int) (i : Nat) (hi : i < L.length) : L.getD i 0 ∈ L := by
  rw [List.getD_eq_getElem?_getD, List.getElem?_eq_getElem hi]
  exact List.getElem_mem _

theorem set_getD_self (L : List Int) (i : Nat) (hi : i < L.length) :
    L.set i (L.getD i 0) = L := by
  have e : L.getD i 0 = L[i] := by
    rw [List.getD_eq_getElem?_getD, List.getElem?_eq_getElem hi]; rfl
  rw [e]
  apply List.ext_getElem (by simp)
  intro n h1 h2
  by_cases hn : i = n
  · subst hn; simp
  · simp [List.getElem_set_ne hn]

theorem perm_swap_set (L : List Int) (i j : Nat) (hi : i < L.length) (hj : j < L.length) :
    ((L.set i (L.getD j 0)).set j (L.getD i 0)).Perm L := by
  rw [List.perm_iff_count]
  intro a
  have hj2 : j < (L.set i (L.getD j 0)).length := by simpa using hj
  rw [List.count_set _ _ _ _ hj2, List.count_set _ _ _ _ hi]
  have e1 : L[i] = L.getD i 0 := by
    rw [List.getD_eq_getElem?_getD, List.getElem?_eq_getElem hi]; rfl
  have e2 : L[j] = L.getD j 0 := by
    rw [List.getD_eq_getElem?_getD, List.getElem?_eq_getElem hj]; rfl
  have hpos1 : L[i] = a → 0 < L.count a := by
    intro h; rw [← h]; exact List.count_pos_iff.mpr (List.getElem_mem _)
  have hpos2 : L[j] = a → 0 < L.count a := by
    intro h; rw [← h]; exact List.count_pos_iff.mpr (List.getElem_mem _)
  by_cases hij : i = j
  · subst hij
    simp only [List.getElem_set_self, beq_iff_eq]
    rw [← e1]
    by_cases h : L[i] = a
    · have := hpos1 h
      simp [h]; omega
    · simp [h]
  · have e3 : (L.set i (L.getD j 0))[j] = L[j] := by
      rw [List.getElem_set_ne hij]
    rw [e3]
    simp only [beq_iff_eq]
    rw [← e1, ← e2]
    by_cases h1 : L[i] = a <;> by_cases h2 : L[j] = a
    · have := hpos1 h1; simp [h1, h2]; omega
    · have := hpos1 h1; simp [h1, h2]; omega
    · have := hpos2 h2; simp [h1, h2]
    · simp [h1, h2]

theorem nat_xor_cancel_left (m n : Nat) : (m ^^^ n) ^^^ m = n := by
  rw [Nat.xor_comm m n, Nat.xor_assoc, Nat.xor_self, Nat.xor_zero]

theorem nat_xor_cancel_right (m n : Nat) : (m ^^^ n) ^^^ n = m := by
  rw [Nat.xor_assoc, Nat.xor_self, Nat.xor_zero]

theorem int_xor_cancel_left (a b : Int) : Int.xor (Int.xor a b) a = b := by
  cases a <;> cases b <;> simp [Int.xor, nat_xor_cancel_left]

theorem int_xor_cancel_right (a b : Int) : Int.xor (Int.xor a b) b = a := by
  cases a <;> cases b <;> simp [Int.xor, nat_xor_cancel_right]

/-- The loop over false literals stops at the first literal that is not false. -/
theorem scanFalse_spec (vals : Int → Int) (lits : List Int) :
    ∀ (n k : Nat) (v r : Int), v < 0 →
      (∀ i, k ≤ i → i < (scanFalse vals lits n k v r).1 → vals (lits.getD i 0) < 0) ∧
      (((scanFalse vals lits n k v r).2.1 < 0 ∧ (scanFalse vals lits n k v r).1 = k + n) ∨
       (¬ (scanFalse vals lits n k v r).2.1 < 0 ∧ k ≤ (scanFalse vals lits n k v r).1 ∧
        (scanFalse vals lits n k v r).1 < k + n ∧
        (scanFalse vals lits n k v r).2.1 = vals (lits.getD (scanFalse vals lits n k v r).1 0) ∧
        (scanFalse vals lits n k v r).2.2 = lits.getD (scanFalse vals lits n k v r).1 0)) := by
  intro n
  induction n with
  | zero =>
    intro k v r hv
    refine ⟨fun i h1 h2 => ?_, Or.inl ⟨hv, rfl⟩⟩
    have : (scanFalse vals lits 0 k v r).1 = k := rfl
    omega
  | succ n ih =>
    intro k v r hv
    unfold scanFalse
    split
    · rename_i hneg
      obtain ⟨a, b⟩ := ih (k + 1) (vals (lits.getD k 0)) (lits.getD k 0) hneg
      constructor
      · intro i h1 h2
        by_cases e : i = k
        · rw [e]; exact hneg
        · exact a i (by omega) h2
      · rcases b with ⟨b1, b2⟩ | ⟨b1, b2, b3, b4⟩
        · exact Or.inl ⟨b1, by omega⟩
        · exact Or.inr ⟨b1, by omega, by omega, b4⟩
    · rename_i hneg
      refine ⟨fun i h1 h2 => ?_, Or.inr ⟨hneg, le_refl _, by omega, rfl, rfl⟩⟩
      simp only at h2
      omega

/-- The search for a replacement watch ends at a position between 2 and the size; it
either finds a literal that is not false or all literals from position 2 on are
false. -/
theorem findReplacement_spec (vals : Int → Int) (lits : List Int) (pos : Nat)
    (h2 : 2 ≤ pos) (hp : pos ≤ lits.length) :
    2 ≤ (findReplacement vals lits pos).1 ∧ (findReplacement vals lits pos).1 ≤ lits.length ∧
    (((findReplacement vals lits pos).2.1 < 0 ∧
        ∀ i, 2 ≤ i → i < lits.length → vals (lits.getD i 0) < 0) ∨
     (¬ (findReplacement vals lits pos).2.1 < 0 ∧
        (findReplacement vals lits pos).1 < lits.length ∧
        (findReplacement vals lits pos).2.1 =
          vals (lits.getD (findReplacement vals lits pos).1 0) ∧
        (findReplacement vals lits pos).2.2 = lits.getD (findReplacement vals lits pos).1 0)) := by
  obtain ⟨a1, a2⟩ := scanFalse_spec vals lits (lits.length - pos) pos (-1) 0 (by decide)
  unfold findReplacement
  split
  · rename_i hneg
    obtain ⟨b1, b2⟩ := scanFalse_spec vals lits (pos - 2) 2
      (scanFalse vals lits (lits.length - pos) pos (-1) 0).2.1
      (scanFalse vals lits (lits.length - pos) pos (-1) 0).2.2 hneg
    have hfirst : (scanFalse vals lits (lits.length - pos) pos (-1) 0).1 = lits.length := by
      rcases a2 with ⟨_, e⟩ | ⟨e, _⟩
      · omega
      · exact absurd hneg e
    rw [hfirst] at a1
    rcases b2 with ⟨c1, c2⟩ | ⟨c1, c2, c3, c4⟩
    · refine ⟨by omega, by omega, Or.inl ⟨c1, ?_⟩⟩
      intro i hi1 hi2
      by_cases hi : i < pos
      · exact b1 i hi1 (by omega)
      · exact a1 i (by omega) hi2
    · exact ⟨c2, by omega, Or.inr ⟨c1, by omega, c4⟩⟩
  · rename_i hneg
    rcases a2 with ⟨e, _⟩ | ⟨c1, c2, c3, c4⟩
    · exact absurd e hneg
    · exact ⟨by omega, by omega, Or.inr ⟨c1, by omega, c4⟩⟩

/-- The first two literals after `lits[0] = other, lits[1] = lit`, for a clause
watched by lit whose first two literals differ. -/
theorem swapWatched_spec (L : List Int) (lit : Int) (hlen : 2 ≤ L.length)
    (hw : L.getD 0 0 = lit ∨ L.getD 1 0 = lit) :
    (swapWatched L (otherWatched L lit) lit).Perm L ∧
    (swapWatched L (otherWatched L lit) lit).getD 0 0 = otherWatched L lit ∧
    (swapWatched L (otherWatched L lit) lit).getD 1 0 = lit ∧
    (∀ i, 2 ≤ i → (swapWatched L (otherWatched L lit) lit).getD i 0 = L.getD i 0) ∧
    (swapWatched L (otherWatched L lit) lit).length = L.length ∧
    ((L.getD 0 0 = lit ∧ otherWatched L lit = L.getD 1 0) ∨
     (L.getD 1 0 = lit ∧ otherWatched L lit = L.getD 0 0)) := by
  have hget0 : (swapWatched L (otherWatched L lit) lit).getD 0 0 = otherWatched L lit := by
    unfold swapWatched
    rw [getD_set_eq, if_neg (by omega), getD_set_eq, if_pos ⟨rfl, by omega⟩]
  have hget1 : (swapWatched L (otherWatched L lit) lit).getD 1 0 = lit := by
    unfold swapWatched
    rw [getD_set_eq, if_pos ⟨rfl, by simp; omega⟩]
  have hgeti : ∀ i, 2 ≤ i → (swapWatched L (otherWatched L lit) lit).getD i 0 = L.getD i 0 := by
    intro i hi
    unfold swapWatched
    rw [getD_set_eq, if_neg (by omega), getD_set_eq, if_neg (by omega)]
  have hlen2 : (swapWatched L (otherWatched L lit) lit).length = L.length := by
    unfold swapWatched; simp
  rcases hw with h | h
  · have ho : otherWatched L lit = L.getD 1 0 := by
      unfold otherWatched
      rw [← h]; exact int_xor_cancel_left _ _
    refine ⟨?_, hget0, hget1, hgeti, hlen2, Or.inl ⟨h, ho⟩⟩
    unfold swapWatched
    rw [ho]
    have e : ((L.set 0 (L.getD 1 0)).set 1 lit) = ((L.set 0 (L.getD 1 0)).set 1 (L.getD 0 0)) := by
      rw [h]
    rw [e]
    exact perm_swap_set L 0 1 (by omega) (by omega)
  · have ho : otherWatched L lit = L.getD 0 0 := by
      unfold otherWatched
      rw [← h]; exact int_xor_cancel_right _ _
    refine ⟨?_, hget0, hget1, hgeti, hlen2, Or.inr ⟨h, ho⟩⟩
    unfold swapWatched
    rw [ho]
    have e0 : ((L.set 0 (L.getD 0 0)).set 1 lit) = ((L.set 0 (L.getD 0 0)).set 1 (L.getD 1 0)) := by
      rw [h]
    rw [e0]
    have e : (L.set 0 (L.getD 0 0)).set 1 (L.getD 1 0) = L := by
      rw [set_getD_self L 0 (by omega), set_getD_self L 1 (by omega)]
    rw [e]

end Internal

end CaDiCaL

namespace CaDiCaL

namespace Internal

theorem distinctVars_perm {L L2 : List Int} (h : L2.Perm L) (hd : DistinctVars L) :
    DistinctVars L2 :=
  ⟨(h.map Int.natAbs).nodup_iff.mpr hd.1, fun h0 => hd.2 (h.mem_iff.mp h0)⟩

theorem distinctVars_getD_ne {L : List Int} (hd : DistinctVars L) {i j : Nat}
    (hi : i < L.length) (hj : j < L.length) (hij : i ≠ j) : L.getD i 0 ≠ L.getD j 0 := by
  have hn : L.Nodup := List.Nodup.of_map _ hd.1
  have ei : L.getD i 0 = L[i] := by
    rw [List.getD_eq_getElem?_getD, List.getElem?_eq_getElem hi]; rfl
  have ej : L.getD j 0 = L[j] := by
    rw [List.getD_eq_getElem?_getD, List.getElem?_eq_getElem hj]; rfl
  rw [ei, ej]
  intro e
  exact hij (hn.getElem_inj_iff.mp e)

theorem wok_congr {s t : Internal} (h : t.clauses = s.clauses) {x : Int} {w : Watch}
    (hw : WOK s x w) : WOK t x w := by
  unfold WOK at *
  rw [clauseAt_congr h]
  exact hw

theorem winv_congr {s t : Internal} (h : t.clauses = s.clauses) {wt : Int → List Watch}
    (hw : WInv s wt) : WInv t wt :=
  fun x => ⟨(hw x).1, fun w hm => wok_congr h ((hw x).2 w hm)⟩

theorem clInv_congr {s t : Internal} (h : t.clauses = s.clauses) (hc : ClInv s) : ClInv t := by
  intro D
  rw [clauseAt_congr h]
  exact hc D

theorem clauseSim_refl (a : Clause) : ClauseSim a a := ⟨rfl, List.Perm.refl _⟩

theorem clauseSim_trans {a b c : Clause} (h1 : ClauseSim a b) (h2 : ClauseSim b c) :
    ClauseSim a c := by
  obtain ⟨a1, a2⟩ := h1
  obtain ⟨b1, b2⟩ := h2
  refine ⟨?_, b2.trans a2⟩
  rw [b1, a1]

theorem sameClauses_refl (s : Internal) : SameClauses s s := fun _ => clauseSim_refl _

theorem sameClauses_trans {s t u : Internal} (h1 : SameClauses s t) (h2 : SameClauses t u) :
    SameClauses s u := fun D => clauseSim_trans (h1 D) (h2 D)

theorem sameClauses_congr {s t : Internal} (h : t.clauses = s.clauses) : SameClauses s t := by
  intro D
  rw [clauseAt_congr h]
  exact clauseSim_refl _

/-- Reordering the literals of a long clause keeps the clause and watch invariants,
if the literals that watch it stay among the first two. -/
theorem winv_reorder (s : Internal) (wt : Int → List Watch) (D : Nat) (L2 : List Int) (p : Nat)
    (hcl : ClInv s) (hw : WInv s wt) (hD : D < s.clauses.length)
    (hperm : L2.Perm (s.clauseAt D).literals) (hlong : 3 ≤ (s.clauseAt D).size)
    (hp : 2 ≤ p ∧ p ≤ (s.clauseAt D).size)
    (hfirst : ∀ x, (∃ w ∈ wt x, w.clause = D) → (s.clauseAt D).garbage = false →
      L2.getD 0 0 = x ∨ L2.getD 1 0 = x) :
    ClInv (s.setClause D { s.clauseAt D with literals := L2, pos := p }) ∧
    WInv (s.setClause D { s.clauseAt D with literals := L2, pos := p }) wt ∧
    SameClauses s (s.setClause D { s.clauseAt D with literals := L2, pos := p }) := by
  have hlen : L2.length = (s.clauseAt D).literals.length := hperm.length_eq
  have hat : ∀ d, (s.setClause D { s.clauseAt D with literals := L2, pos := p }).clauseAt d =
      if d = D then { s.clauseAt D with literals := L2, pos := p } else s.clauseAt d := by
    intro d
    rw [clauseAt_setClause]
    by_cases h : d = D
    · rw [if_pos ⟨h, hD⟩, if_pos h]
    · rw [if_neg (fun h2 => h h2.1), if_neg h]
  refine ⟨?_, ?_, ?_⟩
  · intro d
    rw [hat]
    by_cases h : d = D
    · rw [if_pos h]
      refine ⟨distinctVars_perm hperm (hcl D).1, ?_⟩
      intro _
      show 2 ≤ p ∧ p ≤ L2.length
      rw [hlen]
      exact hp
    · rw [if_neg h]; exact hcl d
  · intro x
    refine ⟨(hw x).1, ?_⟩
    intro w hm
    have hold := (hw x).2 w hm
    unfold WOK at hold ⊢
    rw [hat]
    by_cases h : w.clause = D
    · rw [if_pos h]
      intro hg
      rw [h] at hold
      obtain ⟨o1, o2, _⟩ := hold hg
      have hsz : w.size ≠ 2 := by
        rw [o1]; omega
      refine ⟨?_, ?_, ?_⟩
      · show w.size = L2.length
        rw [hlen]; exact o1
      · show 2 ≤ L2.length
        rw [hlen]; exact o2
      · rcases hfirst x ⟨w, hm, h⟩ hg with h1 | h1
        · exact Or.inl ⟨h1, fun e => absurd e hsz⟩
        · exact Or.inr ⟨h1, fun e => absurd e hsz⟩
    · rw [if_neg h]; exact hold
  · intro d
    rw [hat]
    by_cases h : d = D
    · rw [if_pos h, h]
      exact ⟨rfl, hperm⟩
    · rw [if_neg h]; exact clauseSim_refl _

/-- Moving the watch at the head of the watches to visit to the watches kept, possibly
with a new blocking literal. -/
theorem winv_keep {s : Internal} {lit : Int} {st st2 : AsymState} {w w2 : Watch}
    {rest : List Watch} (hw : WInv s (asymWatches lit st (w :: rest)))
    (hc : w2.clause = w.clause) (hok : WOK s lit w2) (hs : st2.s.wtab = st.s.wtab)
    (hk : st2.kept = st.kept ++ [w2]) : WInv s (asymWatches lit st2 rest) := by
  intro x
  unfold asymWatches
  have hold := hw x
  unfold asymWatches at hold
  by_cases hx : x = lit
  · rw [if_pos hx] at hold ⊢
    rw [hk]
    constructor
    · have : List.map Watch.clause (st.kept ++ [w2] ++ rest) =
          List.map Watch.clause (st.kept ++ w :: rest) := by
        simp [hc]
      rw [this]; exact hold.1
    · intro w3 hm
      rcases List.mem_append.mp hm with hm | hm
      · rcases List.mem_append.mp hm with hm | hm
        · exact hold.2 w3 (List.mem_append_left _ hm)
        · rw [List.mem_singleton.mp hm, hx]; exact hok
      · exact hold.2 w3 (List.mem_append_right _ (List.mem_cons_of_mem _ hm))
  · rw [if_neg hx] at hold ⊢
    rw [hs]; exact hold

/-- Dropping the watch at the head of the watches to visit. -/
theorem winv_drop {s : Internal} {lit : Int} {st : AsymState} {w : Watch}
    {rest : List Watch} (hw : WInv s (asymWatches lit st (w :: rest))) :
    WInv s (asymWatches lit st rest) := by
  intro x
  unfold asymWatches
  have hold := hw x
  unfold asymWatches at hold
  by_cases hx : x = lit
  · rw [if_pos hx] at hold ⊢
    have hsub : List.Sublist (st.kept ++ rest) (st.kept ++ w :: rest) :=
      List.Sublist.append_left (List.sublist_cons_self _ _) _
    refine ⟨(hsub.map Watch.clause).nodup hold.1, ?_⟩
    intro w3 hm
    exact hold.2 w3 (hsub.subset hm)
  · rw [if_neg hx] at hold ⊢
    exact hold

end Internal

end CaDiCaL

namespace CaDiCaL

namespace Internal

theorem wirr_congr {s t : Internal} (h : ∀ D, (t.clauseAt D).redundant = (s.clauseAt D).redundant)
    {wt : Int → List Watch} (hw : WIrr s wt) : WIrr t wt := by
  intro x w hm
  rw [h]; exact hw x w hm

theorem sameClauses_redundant {s t : Internal} (h : SameClauses s t) (D : Nat) :
    (t.clauseAt D).redundant = (s.clauseAt D).redundant := by
  rw [(h D).1]

theorem sameClauses_garbage {s t : Internal} (h : SameClauses s t) (D : Nat) :
    (t.clauseAt D).garbage = (s.clauseAt D).garbage := by
  rw [(h D).1]

theorem sameClauses_mem {s t : Internal} (h : SameClauses s t) (D : Nat) (x : Int) :
    x ∈ (t.clauseAt D).literals ↔ x ∈ (s.clauseAt D).literals :=
  (h D).2.mem_iff

theorem sameClauses_size {s t : Internal} (h : SameClauses s t) (D : Nat) :
    (t.clauseAt D).size = (s.clauseAt D).size :=
  (h D).2.length_eq

/-- The facts about a watch of a long clause that is not garbage at the head of the
watches to visit. -/
theorem long_watch_facts {s : Internal} {lit : Int} {w : Watch}
    (hcl : ClInv s) (hok : WOK s lit w) (hg : (s.clauseAt w.clause).garbage = false)
    (hb : w.binary = false) :
    3 ≤ (s.clauseAt w.clause).size ∧ w.clause < s.clauses.length ∧
    ((s.clauseAt w.clause).literals.getD 0 0 = lit ∨
      (s.clauseAt w.clause).literals.getD 1 0 = lit) ∧
    2 ≤ (s.clauseAt w.clause).pos ∧ (s.clauseAt w.clause).pos ≤ (s.clauseAt w.clause).size := by
  obtain ⟨o1, o2, o3⟩ := hok hg
  have hne : w.size ≠ 2 := by
    unfold Watch.binary at hb
    simpa using hb
  have h3 : 3 ≤ (s.clauseAt w.clause).size := by omega
  have hlt : w.clause < s.clauses.length := by
    apply lt_length_of_literals_ne
    intro e
    have : (s.clauseAt w.clause).size = 0 := by
      unfold Clause.size; rw [e]; rfl
    omega
  refine ⟨h3, hlt, ?_, ((hcl w.clause).2 h3).1, ((hcl w.clause).2 h3).2⟩
  rcases o3 with h | h
  · exact Or.inl h.1
  · exact Or.inr h.1

end Internal

end CaDiCaL

namespace CaDiCaL

namespace Internal

theorem filter_ne_eq_erase (a : Int) : ∀ L : List Int, L.count a = 1 →
    L.filter (fun other => other ≠ a) = L.erase a := by
  intro L
  induction L with
  | nil => intro h; simp at h
  | cons x L ih =>
    intro h
    by_cases hx : x = a
    · subst hx
      rw [List.count_cons_self] at h
      have h0 : L.count x = 0 := by omega
      rw [List.erase_cons_head, List.filter_cons_of_neg (by simp)]
      rw [List.filter_eq_self]
      intro b hb
      have : b ≠ x := by
        intro e
        rw [e] at hb
        exact (List.count_eq_zero.mp h0) hb
      simpa using this
    · rw [List.count_cons_of_ne (fun e => hx e.symm)] at h
      rw [List.filter_cons_of_pos (by simpa using hx), List.erase_cons_tail (by simpa using hx),
        ih h]

/-- Counterexample to C22 as stated: with clause = (1 2), covered empty and lit = 1,
which occurs exactly once, cover_push_extension appends 0, 1, 2 and not 0, 1, 0, 2: the
zero between the witness and the clause is only written by the replay in
cover_clause. -/
theorem cover_push_extension_counterexample :
    ([1, 2] ++ ([] : List Int)).count 1 = 1 ∧
    (cover_push_extension 1 { Coveror.init with clause := [1, 2] }).extend = [0, 1, 2] ∧
    (cover_push_extension 1 { Coveror.init with clause := [1, 2] }).extend ≠
      [0, 1, 0] ++ [2] ++ [] := by
  decide

/-- C22, amended. A call of cover_push_extension with lit occurring exactly once in
clause followed by covered appends to coveror.extend exactly 0, lit and then the
literals of clause and of covered without that occurrence of lit, in order, and changes
nothing else. -/
theorem cover_push_extension_appends (lit : Int) (cv : Coveror)
    (h : (cv.clause ++ cv.covered).count lit = 1) :
    cover_push_extension lit cv =
      { cv with extend := cv.extend ++ 0 :: lit :: (cv.clause ++ cv.covered).erase lit } := by
  unfold cover_push_extension
  rw [← filter_ne_eq_erase lit _ h, List.filter_append]
  simp

/-- Witness for C22: clause = (1 2), covered = (3), lit = 3. -/
theorem cover_push_extension_appends_witness :
    cover_push_extension 3 { Coveror.init with clause := [1, 2], covered := [3] } =
      { ({ Coveror.init with clause := [1, 2], covered := [3] } : Coveror) with
        extend := [] ++ 0 :: 3 :: ([1, 2] ++ [3]).erase 3 } :=
  cover_push_extension_appends 3 { Coveror.init with clause := [1, 2], covered := [3] }
    (by decide)

end Internal

end CaDiCaL

namespace CaDiCaL

namespace Internal

theorem cover_clause_eq (c : Nat) (sc : Internal × Coveror) :
    cover_clause c sc =
      if (sc.1.clauseAt c).literals.any (fun lit => decide (0 < sc.1.val lit)) then
        some (false, sc.1.mark_garbage c, sc.2)
      else
        match coverLoop c (coverFuel sc.1) (loopStart c sc) with
        | none => none
        | some r => some (coverFinish c r) := rfl

/-- The result of the fixed-point loop is one of its points. -/
theorem coverLoop_point (c : Nat) (sc0 : Internal × Coveror) (fuel : Nat) :
    ∀ (sc : Internal × Coveror) (r : Bool × Internal × Coveror),
      LoopPoint c sc0 sc → coverLoop c fuel sc = some r → LoopPoint c sc0 r.2 := by
  induction fuel with
  | zero =>
    intro sc r hp h
    unfold coverLoop at h
    split at h
    · cases h
    split at h
    · cases h
    · cases h; exact hp
  | succ fuel ih =>
    intro sc r hp h
    unfold coverLoop at h
    split at h
    · rename_i h1
      simp only at h
      split at h
      · cases h; exact LoopPoint.asym sc hp h1
      · exact ih _ _ (LoopPoint.asym sc hp h1) h
    split at h
    · rename_i h1 h2
      simp only at h
      split at h
      · cases h; exact LoopPoint.covered sc hp h1 h2
      · exact ih _ _ (LoopPoint.covered sc hp h1 h2) h
    · cases h; exact hp

theorem sym_assumeFalse {vals : Int → Int} (l : Int) (h : Sym vals) :
    Sym (setVal (setVal vals l (-1)) (-l) 1) := by
  intro m hm
  show (if -m = -l then 1 else if -m = l then -1 else vals (-m)) =
    -(if m = -l then 1 else if m = l then -1 else vals m)
  by_cases e1 : m = l
  · subst e1
    rw [if_pos rfl, if_neg (by omega), if_pos rfl]; rfl
  · by_cases e2 : m = -l
    · subst e2
      rw [if_neg (by omega), if_pos (by omega), if_pos rfl]
    · rw [if_neg (by omega), if_neg (by omega), if_neg e2, if_neg e1]
      exact h m hm

theorem sym_unassign {vals : Int → Int} (l : Int) (h : Sym vals) :
    Sym (setVal (setVal vals (-l) 0) l 0) := by
  intro m hm
  show (if -m = l then 0 else if -m = -l then 0 else vals (-m)) =
    -(if m = l then 0 else if m = -l then 0 else vals m)
  by_cases e1 : m = l
  · subst e1
    have e : (if m = m then (0 : Int) else if m = -m then 0 else vals m) = 0 := if_pos rfl
    rw [e]
    by_cases e3 : -m = m
    · rw [if_pos e3]; rfl
    · rw [if_neg e3, if_pos rfl]; rfl
  · by_cases e2 : m = -l
    · subst e2
      have e : (if - -l = l then (0 : Int) else if - -l = -l then 0 else vals (- -l)) = 0 :=
        if_pos (by omega)
      rw [e, if_neg e1, if_pos rfl]; rfl
    · rw [if_neg (by omega), if_neg (by omega), if_neg e1, if_neg e2]
      exact h m hm

theorem sym_asymWatch (lit : Int) (ignore : Nat) (w : Watch) (st : AsymState)
    (h : Sym st.s.vals) : Sym (asymWatch lit ignore w st).s.vals := by
  unfold asymWatch
  split
  · exact h
  split
  · exact h
  split
  · exact h
  split
  · unfold asymBinary
    split
    · exact h
    · exact sym_assumeFalse _ h
  · unfold asymLong
    split
    · exact h
    · unfold asymReplace
      split
      · exact h
      split
      · exact h
      split
      · exact sym_assumeFalse _ h
      · exact h

theorem sym_asymLoop (lit : Int) (ignore : Nat) (ws : List Watch) :
    ∀ st : AsymState, Sym st.s.vals → Sym (asymLoop lit ignore ws st).1.s.vals := by
  induction ws with
  | nil => intro st h; exact h
  | cons w ws ih =>
    intro st h
    unfold asymLoop
    split
    · exact h
    · exact ih _ (sym_asymWatch lit ignore w st h)

theorem sym_asymmetric (lit : Int) (ignore : Nat) (sc : Internal × Coveror)
    (h : Sym sc.1.vals) : Sym (cover_propagate_asymmetric lit ignore sc).2.1.vals :=
  sym_asymLoop lit ignore (sc.1.watches lit) ⟨countCoverPropagation sc.1, sc.2, [], false⟩ h

theorem sym_foldl_coveredAdd (I : List Int) : ∀ sc : Internal × Coveror,
    Sym sc.1.vals → Sym (I.foldl coveredAdd sc).1.vals := by
  induction I with
  | nil => intro sc h; exact h
  | cons a I ih =>
    intro sc h
    rw [List.foldl_cons]
    exact ih _ (sym_assumeFalse a h)

theorem sym_covered_literal_addition (lit : Int) (sc : Internal × Coveror)
    (h : Sym sc.1.vals) : Sym (covered_literal_addition lit sc).1.vals :=
  sym_foldl_coveredAdd sc.2.intersection (sc.1, cover_push_extension lit sc.2) h

theorem propFrame_vals_of_marksOnly {a b : Internal × Coveror} (h : MarksOnly a b) :
    b.1.vals = a.1.vals := h.vals

theorem sym_covered (lit : Int) (sc : Internal × Coveror) (h : Sym sc.1.vals) :
    Sym (cover_propagate_covered lit sc).2.1.vals := by
  unfold cover_propagate_covered
  split
  · exact h
  unfold coveredAfterLoop
  have hmo := coveredLoop_marksOnly lit (sc.1.occs (-lit)) [] true
    (countCoverPropagation sc.1, sc.2)
  have hvals := hmo.vals
  generalize coveredLoop lit [] (sc.1.occs (-lit)) true (countCoverPropagation sc.1, sc.2) = r
    at hmo hvals
  obtain ⟨first, ⟨s1, cv1⟩, os⟩ := r
  simp only at hmo hvals
  have h1 : Sym s1.vals := by rw [hvals]; exact h
  unfold coveredFinish
  simp only
  split
  · show Sym (Internal.unmarkAll _ _).vals
    rw [unmarkAll_frame]
    exact h1
  split
  · show Sym (Internal.unmarkAll _ _).vals
    rw [unmarkAll_frame]
    exact h1
  · show Sym (Internal.unmarkAll (Internal.unmarkAll _ _) _).vals
    rw [unmarkAll_frame, unmarkAll_frame]
    exact sym_foldl_coveredAdd cv1.intersection
      ({ s1 with otab := fun x => if x = -lit then os else s1.otab x },
        cover_push_extension lit cv1) h1

theorem sym_coverAssume (lits : List Int) : ∀ sc : Internal × Coveror,
    Sym sc.1.vals → Sym (coverAssume lits sc).1.vals := by
  induction lits with
  | nil => intro sc h; exact h
  | cons a lits ih =>
    intro sc h
    unfold coverAssume
    split
    · exact ih _ (sym_assumeFalse a h)
    · exact ih sc h

theorem sym_loopPoint (c : Nat) (sc0 sc : Internal × Coveror) (h : Sym sc0.1.vals)
    (hp : LoopPoint c sc0 sc) : Sym sc.1.vals := by
  induction hp with
  | start => exact h
  | asym sc _ _ ih => exact sym_asymmetric _ _ _ ih
  | covered sc _ _ _ ih => exact sym_covered _ _ ih

theorem sym_coverUnassign (added : List Int) : ∀ s : Internal,
    Sym s.vals → Sym (coverUnassign s added).vals := by
  induction added with
  | nil => intro s h; exact h
  | cons a added ih =>
    intro s h
    have e : coverUnassign s (a :: added) =
      coverUnassign { s with vals := setVal (setVal s.vals (-a) 0) a 0 } added := rfl
    rw [e]
    exact ih _ (sym_unassign a h)

/-- C25. I3: if val (-l) = -val (l) holds for every literal l before, it holds after
asymmetric_literal_addition, covered_literal_addition, cover_propagate_asymmetric and
cover_propagate_covered with any arguments, in the state in which the loop of
cover_clause starts and in every state between the calls of the propagators in that
loop, and after cover_clause. -/
theorem values_stay_symmetric (sc : Internal × Coveror) (h : Sym sc.1.vals) :
    (∀ lit, Sym (asymmetric_literal_addition lit sc).1.vals) ∧
    (∀ lit, Sym (covered_literal_addition lit sc).1.vals) ∧
    (∀ lit ignore, Sym (cover_propagate_asymmetric lit ignore sc).2.1.vals) ∧
    (∀ lit, Sym (cover_propagate_covered lit sc).2.1.vals) ∧
    (∀ c sc2, LoopPoint c (loopStart c sc) sc2 → Sym sc2.1.vals) ∧
    (∀ c r, cover_clause c sc = some r → Sym r.2.1.vals) := by
  have hstart : ∀ c, Sym (loopStart c sc).1.vals := fun c =>
    sym_coverAssume (sc.1.clauseAt c).literals ({ sc.1 with level := 1 }, sc.2) h
  refine ⟨fun lit => sym_assumeFalse lit h, fun lit => sym_covered_literal_addition lit sc h,
    fun lit ignore => sym_asymmetric lit ignore sc h, fun lit => sym_covered lit sc h,
    fun c sc2 hp => sym_loopPoint c _ sc2 (hstart c) hp, ?_⟩
  intro c r hr
  rw [cover_clause_eq] at hr
  split at hr
  · cases hr; exact h
  split at hr
  · cases hr
  rename_i r0 hr0
  cases hr
  have h1 : Sym r0.2.1.vals :=
    sym_loopPoint c _ _ (hstart c) (coverLoop_point c _ _ _ _ LoopPoint.start hr0)
  show Sym (coverUnassign _ _).vals
  apply sym_coverUnassign
  split
  · rw [coverReplay_vals]
    show Sym (coverCount r0.2.1 r0.2.2).vals
    rw [coverCount_vals]
    exact h1
  · exact h1

/-- Witness for C25: the first covered propagation in cover_clause on the clause (-1 3)
of (1 2), (-1 3). -/
theorem values_stay_symmetric_witness :
    (cover_propagate_covered (-1) Examples.coveredState).2.1.vals 2 = -1 ∧
    (cover_propagate_covered (-1) Examples.coveredState).2.1.vals (-2) = 1 ∧
    Sym (cover_propagate_covered (-1) Examples.coveredState).2.1.vals :=
  ⟨by decide, by decide,
   (values_stay_symmetric Examples.coveredState (fun l _ => by
      show (if -l = 1 ∨ -l = -3 then (1 : Int) else if -l = -1 ∨ -l = 3 then -1 else 0) =
        -(if l = 1 ∨ l = -3 then (1 : Int) else if l = -1 ∨ l = 3 then -1 else 0)
      split <;> split <;> omega)).2.2.2.1
     (-1)⟩

end Internal

end CaDiCaL

namespace CaDiCaL

namespace Internal

theorem coveredFilter_supp (I : List Int) : ∀ (s : Internal) (v : Nat),
    (coveredFilter I s).1.marks v ≠ 0 →
      (∃ l ∈ (coveredFilter I s).2, l.natAbs = v) ∨ (s.marks v ≠ 0 ∧ ∀ l ∈ I, l.natAbs ≠ v) := by
  induction I with
  | nil =>
    intro s v hv
    exact Or.inr ⟨hv, fun l hl => (by cases hl)⟩
  | cons x I ih =>
    intro s v hv
    unfold coveredFilter at hv ⊢
    split
    · rename_i hmk
      rw [if_pos hmk] at hv
      rcases ih (s.unmark x) v hv with h | ⟨h1, h2⟩
      · exact Or.inl h
      · right
        have h3 : (if v = x.natAbs then 0 else s.marks v) ≠ 0 := h1
        by_cases e : v = x.natAbs
        · rw [if_pos e] at h3; exact absurd rfl h3
        · rw [if_neg e] at h3
          refine ⟨h3, ?_⟩
          intro l hl
          rcases List.mem_cons.mp hl with rfl | hl
          · exact fun e2 => e e2.symm
          · exact h2 l hl
    · rename_i hmk
      rw [if_neg hmk] at hv
      rcases ih (s.mark x) v hv with ⟨l, hl, e⟩ | ⟨h1, h2⟩
      · exact Or.inl ⟨l, List.mem_cons_of_mem _ hl, e⟩
      · have h3 : (if v = x.natAbs then Int.sign x else s.marks v) ≠ 0 := h1
        by_cases e : v = x.natAbs
        · exact Or.inl ⟨x, List.mem_cons_self _ _, e.symm⟩
        · rw [if_neg e] at h3
          right
          refine ⟨h3, ?_⟩
          intro l hl
          rcases List.mem_cons.mp hl with rfl | hl
          · exact fun e2 => e e2.symm
          · exact h2 l hl

theorem coveredShrink_supp (sc : Internal × Coveror)
    (h : ∀ v, sc.1.marks v ≠ 0 → ∃ l ∈ sc.2.intersection, l.natAbs = v) :
    ∀ v, (coveredShrink sc).1.marks v ≠ 0 →
      ∃ l ∈ (coveredShrink sc).2.intersection, l.natAbs = v := by
  intro v hv
  rcases coveredFilter_supp sc.2.intersection sc.1 v hv with h1 | ⟨h1, h2⟩
  · exact h1
  · obtain ⟨l, hl, e⟩ := h v h1
    exact absurd e (h2 l hl)

theorem coveredReset_zero (sc : Internal × Coveror)
    (h : ∀ v, sc.1.marks v ≠ 0 → ∃ l ∈ sc.2.intersection, l.natAbs = v) :
    ∀ v, (coveredReset sc).1.marks v = 0 :=
  unmarkAll_zero _ _ h

theorem supp_of_zero {sc : Internal × Coveror} (h : ∀ v, sc.1.marks v = 0) :
    ∀ v, sc.1.marks v ≠ 0 → ∃ l ∈ sc.2.intersection, l.natAbs = v :=
  fun v hv => absurd (h v) hv

theorem coveredLoop_supp (lit : Int) (rest : List Nat) :
    ∀ (before : List Nat) (first : Bool) (sc : Internal × Coveror),
      (∀ v, sc.1.marks v ≠ 0 → ∃ l ∈ sc.2.intersection, l.natAbs = v) →
      ∀ v, (coveredLoop lit before rest first sc).2.1.1.marks v ≠ 0 →
        ∃ l ∈ (coveredLoop lit before rest first sc).2.1.2.intersection, l.natAbs = v := by
  induction rest with
  | nil => intro before first sc h; exact h
  | cons c rest ih =>
    intro before first sc h
    have hs := coveredScan_supp lit first (sc.1.clauseAt c).literals sc h
    unfold coveredLoop
    split
    · exact ih _ _ _ h
    split
    · exact ih _ _ _ (supp_of_zero (coveredReset_zero _ hs))
    split
    · split
      · exact hs
      · exact ih _ _ _ hs
    · split
      · exact coveredShrink_supp _ hs
      · exact ih _ _ _ (coveredShrink_supp _ hs)

/-- All marks are zero after cover_propagate_covered if they were zero before. -/
theorem covered_marks_zero (lit : Int) (sc : Internal × Coveror)
    (hm : ∀ v, sc.1.marks v = 0) : ∀ v, (cover_propagate_covered lit sc).2.1.marks v = 0 := by
  unfold cover_propagate_covered
  split
  · exact hm
  unfold coveredAfterLoop
  have hsupp := coveredLoop_supp lit (sc.1.occs (-lit)) [] true
    (countCoverPropagation sc.1, sc.2) (supp_of_zero hm)
  generalize coveredLoop lit [] (sc.1.occs (-lit)) true (countCoverPropagation sc.1, sc.2) = r
    at hsupp
  obtain ⟨first, ⟨s1, cv1⟩, os⟩ := r
  simp only at hsupp
  unfold coveredFinish
  simp only
  split
  · exact unmarkAll_zero _ _ hsupp
  split
  · exact unmarkAll_zero _ _ hsupp
  · unfold covered_literal_addition
    simp only
    obtain ⟨a1, a2, _, _⟩ := foldl_coveredAdd cv1.intersection
      ({ s1 with otab := fun x => if x = -lit then os else s1.otab x },
        cover_push_extension lit cv1)
    generalize List.foldl coveredAdd
      ({ s1 with otab := fun x => if x = -lit then os else s1.otab x },
        cover_push_extension lit cv1) cv1.intersection = q at a1 a2
    obtain ⟨s2, cv2⟩ := q
    simp only at a1 a2
    intro v
    show (Internal.unmarkAll s2 cv2.intersection).marks v = 0
    apply unmarkAll_zero _ _ _ v
    intro w hw
    have e1 : cv2.intersection = cv1.intersection := by rw [a1]; rfl
    rw [e1]
    apply hsupp w
    rw [a2] at hw
    exact hw

theorem transredScan_supp (c : Nat) (irr : Bool) (dst : Int) (ws : List Watch) :
    ∀ b : Bfs, (∀ v, b.s.marks v ≠ 0 → ∃ l ∈ b.work, l.natAbs = v) →
      ∀ v, (transredScan c irr dst ws b).s.marks v ≠ 0 →
        ∃ l ∈ (transredScan c irr dst ws b).work, l.natAbs = v := by
  induction ws with
  | nil => intro b h; exact h
  | cons w ws ih =>
    intro b h
    unfold transredScan
    split
    · exact h
    split
    · exact h
    split
    · exact ih b h
    split
    · exact ih b h
    split
    · exact ih b h
    split
    · exact ih _ h
    split
    · exact ih b h
    split
    · exact ih _ h
    · apply ih
      intro v hv
      show ∃ l ∈ b.work ++ [w.blit], l.natAbs = v
      by_cases e : v = w.blit.natAbs
      · exact ⟨w.blit, by simp, e.symm⟩
      · have hv2 : (if v = w.blit.natAbs then Int.sign w.blit else b.s.marks v) ≠ 0 := hv
        rw [if_neg e] at hv2
        obtain ⟨l, hl, e2⟩ := h v hv2
        exact ⟨l, List.mem_append_left _ hl, e2⟩

theorem transredBfs_supp (c : Nat) (irr : Bool) (dst : Int) (fuel : Nat) :
    ∀ (j : Nat) (b : Bfs) (p : Int) (r : Bfs × Int),
      (∀ v, b.s.marks v ≠ 0 → ∃ l ∈ b.work, l.natAbs = v) →
      transredBfs c irr dst fuel j b p = some r →
      ∀ v, r.1.s.marks v ≠ 0 → ∃ l ∈ r.1.work, l.natAbs = v := by
  induction fuel with
  | zero =>
    intro j b p r h hr
    rw [transredBfs] at hr
    split at hr
    · cases hr; exact h
    · cases hr
  | succ fuel ih =>
    intro j b p r h hr
    rw [transredBfs] at hr
    split at hr
    · cases hr; exact h
    · exact ih _ _ _ _ (transredScan_supp c irr dst _ b h) hr

theorem unmark_work_zero (b : Bfs) (h : ∀ v, b.s.marks v ≠ 0 → ∃ l ∈ b.work, l.natAbs = v)
    (v : Nat) : (b.work.reverse.foldl unmark b.s).marks v = 0 := by
  rw [foldl_unmark_marks]
  split
  · rfl
  · rename_i hn
    by_contra hne
    obtain ⟨l, hl, e⟩ := h v hne
    exact hn ⟨l, List.mem_reverse.mpr hl, e⟩

/-- All marks are zero after the check of a candidate by transred if they were zero
before, whatever the outcome. -/
theorem transred_marks_zero (env : Env) (s s2 : Internal) (c : Nat) (props p2 : Int)
    (hM : ∀ v, s.marks v = 0) (hP : ∀ t, (env.propagate t).2.marks = t.marks)
    (hstep : transredCandidate env c s props = some (s2, p2)) : ∀ v, s2.marks v = 0 := by
  unfold transredCandidate at hstep
  split at hstep
  · cases hstep; exact hM
  split at hstep
  · cases hstep; exact hM
  split at hstep
  · cases hstep; exact hM
  split at hstep
  · cases hstep; exact hM
  split at hstep
  · cases hstep; exact hM
  split at hstep
  · cases hstep
  rename_i b p3 hsearch
  simp only [Option.some.injEq, Prod.mk.injEq] at hstep
  rw [← hstep.1]
  have hb : ∀ v, b.s.marks v ≠ 0 → ∃ l ∈ b.work, l.natAbs = v := by
    unfold transredSearch at hsearch
    refine transredBfs_supp _ _ _ _ _ _ _ (b, p3) ?_ hsearch
    intro v hv
    refine ⟨_, List.mem_singleton.mpr rfl, ?_⟩
    by_contra hne
    apply hv
    show (if v = Int.natAbs _ then Int.sign _ else (transredFlag s c).marks v) = 0
    rw [if_neg (fun e => hne e.symm)]
    exact hM v
  have hz := unmark_work_zero b hb
  unfold transredFinish
  split
  · exact hz
  split
  · split
    · intro v
      show (env.propagate _).2.marks v = 0
      rw [hP]
      exact hz v
    · intro v
      rw [hP]
      exact hz v
  · exact hz

/-- C24. Marks are borrowed scratch (I2): if all marks are zero on entry, they are zero
on every exit of cover_propagate_covered, and in transred they are zero again after the
check of a candidate clause, whatever its outcome (Internal::propagate, a parameter of
the model, is assumed not to touch the marks). -/
theorem marks_restored (lit : Int) (sc : Internal × Coveror) (env : Env) (s s2 : Internal)
    (c : Nat) (props p2 : Int)
    (hm : ∀ v, sc.1.marks v = 0) (hM : ∀ v, s.marks v = 0)
    (hP : ∀ t, (env.propagate t).2.marks = t.marks)
    (hstep : transredCandidate env c s props = some (s2, p2)) :
    (∀ v, (cover_propagate_covered lit sc).2.1.marks v = 0) ∧ (∀ v, s2.marks v = 0) :=
  ⟨covered_marks_zero lit sc hm, transred_marks_zero env s s2 c props p2 hM hP hstep⟩

/-- Witness for C24: the covered propagation of -1 in (1 2), (-1 3) and the check of
the third clause of (-1 2), (-2 3), (-1 3). -/
theorem marks_restored_witness :
    (cover_propagate_covered (-1) Examples.coveredState).2.2.covered = [2] ∧
    (Examples.chainAfter.clauseAt 2).garbage = true ∧
    ((∀ v, (cover_propagate_covered (-1) Examples.coveredState).2.1.marks v = 0) ∧
      (∀ v, Examples.chainAfter.marks v = 0)) :=
  ⟨by decide, by decide,
   marks_restored (-1) Examples.coveredState Examples.env0 Examples.chainFormula
    Examples.chainAfter 2 0
    ((transredCandidate Examples.env0 2 Examples.chainFormula 0).getD
      (Examples.chainFormula, 0)).2
    (fun _ => rfl) (fun _ => rfl) (fun _ => rfl) (option_eq_some_getD _ _ (by decide))⟩

end Internal

end CaDiCaL

namespace CaDiCaL

theorem excessBits_spec (fuel : Nat) : ∀ m, m < 2 ^ (53 + fuel) →
    excessBits fuel m = 0 ∧ m < 2 ^ 53 ∨ 2 ^ (52 + excessBits fuel m) ≤ m := by
  induction fuel with
  | zero =>
    intro m hm
    left
    exact ⟨rfl, hm⟩
  | succ fuel ih =>
    intro m hm
    unfold excessBits
    by_cases h : m < 2 ^ 53
    · rw [if_pos h]
      exact Or.inl ⟨rfl, h⟩
    · rw [if_neg h]
      right
      have hm2 : m / 2 < 2 ^ (53 + fuel) := by
        have e : 2 ^ (53 + (fuel + 1)) = 2 * 2 ^ (53 + fuel) := by
          rw [← Nat.add_assoc, pow_succ]; ring
        rw [e] at hm
        omega
      rcases ih (m / 2) hm2 with ⟨e0, _⟩ | h2
      · rw [e0]
        show 2 ^ (52 + 1) ≤ m
        omega
      · have e : 2 ^ (52 + (excessBits fuel (m / 2) + 1)) =
            2 * 2 ^ (52 + excessBits fuel (m / 2)) := by
          rw [← Nat.add_assoc, pow_succ]; ring
        rw [e]
        omega

theorem round53_small (m : Nat) (h : m < 2 ^ 53) : round53 m = (m, 0) := by
  have e : excessBits 200 m = 0 := by
    unfold excessBits
    rw [if_pos h]
  unfold round53
  rw [e]
  simp [Nat.mod_one]

/-- The relative error of the rounding to a double is at most 2^-53. -/
theorem round53_error (m : Nat) (hm : m < 2 ^ 253) :
    (round53 m).1 * 2 ^ (round53 m).2 * 2 ^ 53 ≤ m * (2 ^ 53 + 1) ∧
    m * (2 ^ 53 - 1) ≤ (round53 m).1 * 2 ^ (round53 m).2 * 2 ^ 53 := by
  have hk := excessBits_spec 200 m hm
  have hdm := Nat.div_add_mod m (2 ^ excessBits 200 m)
  have hlt := Nat.mod_lt m (Nat.pow_pos (Nat.succ_pos 1) : 0 < 2 ^ excessBits 200 m)
  have h52 : 2 ^ (52 + excessBits 200 m) = 4503599627370496 * 2 ^ excessBits 200 m := by
    rw [pow_add]; norm_num
  have h0 : excessBits 200 m = 0 → 2 ^ excessBits 200 m = 1 := by
    intro e; rw [e]; rfl
  have c1 : (2 : Nat) ^ 53 = 9007199254740992 := by norm_num
  have hcases : round53 m = (m / 2 ^ excessBits 200 m + 1, excessBits 200 m) ∧
        (2 ^ excessBits 200 m < 2 * (m % 2 ^ excessBits 200 m) ∨
          2 * (m % 2 ^ excessBits 200 m) = 2 ^ excessBits 200 m) ∨
      round53 m = (m / 2 ^ excessBits 200 m, excessBits 200 m) ∧
        2 * (m % 2 ^ excessBits 200 m) ≤ 2 ^ excessBits 200 m := by
    unfold round53
    split
    · rename_i hc
      left
      refine ⟨rfl, ?_⟩
      rcases hc with hc | hc
      · exact Or.inl hc
      · exact Or.inr hc.1
    · rename_i hc
      right
      refine ⟨rfl, ?_⟩
      by_contra hn
      exact hc (Or.inl (by omega))
  rcases hcases with ⟨e, hc⟩ | ⟨e, hc⟩
  · rw [e]
    simp only []
    have e1 : (m / 2 ^ excessBits 200 m + 1) * 2 ^ excessBits 200 m =
        2 ^ excessBits 200 m * (m / 2 ^ excessBits 200 m) + 2 ^ excessBits 200 m := by ring
    rw [e1, c1]
    generalize excessBits 200 m = k at *
    generalize 2 ^ k = P at *
    generalize P * (m / P) = QP at *
    generalize m % P = rem at *
    rcases hk with ⟨hk0, hk1⟩ | hk
    · have := h0 hk0
      omega
    · omega
  · rw [e]
    simp only []
    have e2 : m / 2 ^ excessBits 200 m * 2 ^ excessBits 200 m =
        2 ^ excessBits 200 m * (m / 2 ^ excessBits 200 m) := by ring
    rw [e2, c1]
    generalize excessBits 200 m = k at *
    generalize 2 ^ k = P at *
    generalize P * (m / P) = QP at *
    generalize m % P = rem at *
    rcases hk with ⟨hk0, hk1⟩ | hk
    · have := h0 hk0
      omega
    · omega

theorem scale_bound_aux (C XB n : Nat) (h1 : C ≤ XB)
    (h2 : XB * 2 ^ 53 ≤ milliSig * n * (2 ^ 53 + 1)) (h : n < 2 ^ 51) : C < 2 ^ 253 := by
  have c53 : (2 : Nat) ^ 53 = 9007199254740992 := by norm_num
  have c51 : (2 : Nat) ^ 51 = 2251799813685248 := by norm_num
  have c : (2 : Nat) ^ 253 =
      14474011154664524427946373126085988481658748083205070504932198000989141204992 := by
    norm_num
  rw [c53] at h2
  rw [c51] at h
  rw [c]
  unfold milliSig at h2
  omega

theorem scale_near_aux (W XB n : Nat) (g_hi : W * 2 ^ 53 ≤ XB * (2 ^ 53 + 1))
    (g_lo : XB * 9007199254740991 ≤ W * 2 ^ 53)
    (k_hi : XB * 2 ^ 53 ≤ milliSig * n * (2 ^ 53 + 1))
    (k_lo : milliSig * n * 9007199254740991 ≤ XB * 2 ^ 53) (h : n < 2 ^ 51) :
    W / 2 ^ 62 = n / 1000 ∨ (1000 ∣ n ∧ W / 2 ^ 62 + 1 = n / 1000) := by
  have c53 : (2 : Nat) ^ 53 = 9007199254740992 := by norm_num
  have c51 : (2 : Nat) ^ 51 = 2251799813685248 := by norm_num
  have c62 : (2 : Nat) ^ 62 = 4611686018427387904 := by norm_num
  rw [c53] at g_hi g_lo k_hi k_lo
  rw [c51] at h
  rw [c62]
  unfold milliSig at k_hi k_lo
  omega

/-- The scaled effort against the exact quotient: for a product below 2^51 the double
computation gives the quotient of x * r by 1000 rounded down, or one less when the
division is exact. -/
theorem scaleMagnitude_near (x r : Nat) (h : x * r < 2 ^ 51) :
    scaleMagnitude x r = x * r / 1000 ∨
      (1000 ∣ x * r ∧ scaleMagnitude x r + 1 = x * r / 1000) := by
  by_cases hr : r = 0
  · left
    rw [hr]
    have e : round53 0 = (0, 0) := round53_small 0 (by norm_num)
    unfold scaleMagnitude
    simp [e]
  by_cases hx0 : x = 0
  · left
    rw [hx0]
    have e : round53 0 = (0, 0) := round53_small 0 (by norm_num)
    unfold scaleMagnitude
    simp [e]
  have hrpos : 1 ≤ r := Nat.one_le_iff_ne_zero.mpr hr
  have hxpos : 1 ≤ x := Nat.one_le_iff_ne_zero.mpr hx0
  have hx : x < 2 ^ 53 := by
    have : x * 1 ≤ x * r := Nat.mul_le_mul_left x hrpos
    have c : (2 : Nat) ^ 51 < 2 ^ 53 := by norm_num
    omega
  have hr2 : r < 2 ^ 51 := by
    have : 1 * r ≤ x * r := Nat.mul_le_mul_right r hxpos
    omega
  have hA : milliSig * r < 2 ^ 253 := by
    have : milliSig * r < milliSig * 2 ^ 51 := Nat.mul_lt_mul_of_pos_left hr2 (by decide)
    have c : milliSig * 2 ^ 51 < 2 ^ 253 := by unfold milliSig; norm_num
    omega
  have cK : (2 : Nat) ^ 53 - 1 = 9007199254740991 := by norm_num
  obtain ⟨f_hi, f_lo⟩ := round53_error (milliSig * r) hA
  rw [cK] at f_lo
  unfold scaleMagnitude
  rw [round53_small x hx]
  simp only [Nat.add_zero]
  generalize round53 (milliSig * r) = F at f_hi f_lo ⊢
  have k_hi : x * (F.1 * 2 ^ F.2) * 2 ^ 53 ≤ milliSig * (x * r) * (2 ^ 53 + 1) := by
    calc x * (F.1 * 2 ^ F.2) * 2 ^ 53 = x * (F.1 * 2 ^ F.2 * 2 ^ 53) := by ring
      _ ≤ x * (milliSig * r * (2 ^ 53 + 1)) := Nat.mul_le_mul_left x f_hi
      _ = milliSig * (x * r) * (2 ^ 53 + 1) := by ring
  have k_lo : milliSig * (x * r) * 9007199254740991 ≤ x * (F.1 * 2 ^ F.2) * 2 ^ 53 := by
    calc milliSig * (x * r) * 9007199254740991
        = x * (milliSig * r * 9007199254740991) := by ring
      _ ≤ x * (F.1 * 2 ^ F.2 * 2 ^ 53) := Nat.mul_le_mul_left x f_lo
      _ = x * (F.1 * 2 ^ F.2) * 2 ^ 53 := by ring
  have hC : x * F.1 < 2 ^ 253 :=
    scale_bound_aux (x * F.1) (x * (F.1 * 2 ^ F.2)) (x * r)
      (Nat.mul_le_mul_left x (Nat.le_mul_of_pos_right _ Nat.one_le_two_pow)) k_hi h
  obtain ⟨p_hi, p_lo⟩ := round53_error (x * F.1) hC
  rw [cK] at p_lo
  generalize round53 (x * F.1) = Q at p_hi p_lo ⊢
  have hW : Q.1 * 2 ^ (Q.2 + F.2) = Q.1 * 2 ^ Q.2 * 2 ^ F.2 := by
    rw [pow_add]; ring
  rw [hW]
  have g_hi : Q.1 * 2 ^ Q.2 * 2 ^ F.2 * 2 ^ 53 ≤ x * (F.1 * 2 ^ F.2) * (2 ^ 53 + 1) := by
    calc Q.1 * 2 ^ Q.2 * 2 ^ F.2 * 2 ^ 53 = Q.1 * 2 ^ Q.2 * 2 ^ 53 * 2 ^ F.2 := by ring
      _ ≤ x * F.1 * (2 ^ 53 + 1) * 2 ^ F.2 := Nat.mul_le_mul_right _ p_hi
      _ = x * (F.1 * 2 ^ F.2) * (2 ^ 53 + 1) := by ring
  have g_lo : x * (F.1 * 2 ^ F.2) * 9007199254740991 ≤ Q.1 * 2 ^ Q.2 * 2 ^ F.2 * 2 ^ 53 := by
    calc x * (F.1 * 2 ^ F.2) * 9007199254740991
        = x * F.1 * 9007199254740991 * 2 ^ F.2 := by ring
      _ ≤ Q.1 * 2 ^ Q.2 * 2 ^ 53 * 2 ^ F.2 := Nat.mul_le_mul_right _ p_lo
      _ = Q.1 * 2 ^ Q.2 * 2 ^ F.2 * 2 ^ 53 := by ring
  exact scale_near_aux _ _ _ g_hi g_lo k_hi k_lo h

/-- The scaled effort of nonnegative arguments against the exact quotient: for a product
below 2^51 the statement `x *= 1e-3 * releff` gives the quotient of x * releff by 1000
rounded down, or one less when the division is exact. -/
theorem scaleEffort_near (x r : Int) (hx : 0 ≤ x) (hr : 0 ≤ r) (h : x * r < 2 ^ 51) :
    scaleEffort x r = x * r / 1000 ∨
      (1000 ∣ x * r ∧ scaleEffort x r + 1 = x * r / 1000) := by
  obtain ⟨a, rfl⟩ := Int.eq_ofNat_of_zero_le hx
  obtain ⟨b, rfl⟩ := Int.eq_ofNat_of_zero_le hr
  have hn : a * b < 2 ^ 51 := by exact_mod_cast h
  have key := scaleMagnitude_near a b hn
  have e : scaleEffort (a : Int) (b : Int) = ((scaleMagnitude a b : Nat) : Int) := by
    unfold scaleEffort
    simp only [Int.natAbs_ofNat]
    rcases Nat.eq_zero_or_pos a with ha | ha
    · have h0 : scaleMagnitude a b = 0 := by
        rw [ha] at key ⊢
        rcases key with k | ⟨_, k⟩
        · simpa using k
        · simp at k
      rw [h0, ha]
      simp
    rcases Nat.eq_zero_or_pos b with hb | hb
    · have h0 : scaleMagnitude a b = 0 := by
        rw [hb] at key ⊢
        rcases key with k | ⟨_, k⟩
        · simpa using k
        · simp at k
      rw [h0, hb]
      simp
    · rw [Int.sign_eq_one_of_pos (by exact_mod_cast ha),
        Int.sign_eq_one_of_pos (by exact_mod_cast hb)]
      simp
  rw [e]
  rcases key with k | ⟨k1, k2⟩
  · left
    rw [k]
    push_cast
    rfl
  · right
    refine ⟨by exact_mod_cast k1, ?_⟩
    have : ((scaleMagnitude a b + 1 : Nat) : Int) = ((a * b / 1000 : Nat) : Int) := by
      rw [k2]
    push_cast at this
    exact this

end CaDiCaL

namespace CaDiCaL

namespace Internal

theorem foldl_watch_clause_opts (l : List Nat) : ∀ s : Internal,
    (l.foldl watch_clause s).opts = s.opts := by
  induction l with
  | nil => intro s; rfl
  | cons a l ih => intro s; rw [List.foldl_cons, ih]; rfl

theorem connect_watches_opts (s : Internal) (b : Bool) :
    (s.connect_watches b).opts = s.opts := by
  unfold connect_watches
  rw [foldl_watch_clause_opts, foldl_watch_clause_opts]

theorem coverLimit_congr {s t : Internal} (h1 : t.stats = s.stats)
    (h2 : t.opts = s.opts) : coverLimit t = coverLimit s := by
  unfold coverLimit
  rw [h1, h2]

theorem clampEffort_eq (x lo hi : Int) (h : lo ≤ hi) :
    clampEffort x lo hi = min (max x lo) hi := by
  unfold clampEffort
  split <;> split <;> omega

/-- Counterexample to C29 as stated: after 200 search propagations with coverreleff = 145
(covermineff = 0, covermaxeff = 100000, two active variables) the double product
200 * (1e-3 * 145) is 28.999999999999996, so the source computes delta = 28 and the limit
28, also for the state whose limit the run is given, while 200 * 145 / 1000 truncated to
an integer is 29. -/
theorem cover_effort_budget_counterexample :
    Examples.budgetState.opts.covermineff ≤ Examples.budgetState.opts.covermaxeff ∧
    scaleEffort Examples.budgetState.stats.propagations_search
      Examples.budgetState.opts.coverreleff = 28 ∧
    coverLimit Examples.budgetState = 28 ∧
    coverLimit ((Examples.budgetState.reset_watches).connect_watches true) = 28 ∧
    Examples.budgetState.stats.propagations_cover +
      max (min (max (Examples.budgetState.stats.propagations_search *
          Examples.budgetState.opts.coverreleff / 1000)
        Examples.budgetState.opts.covermineff) Examples.budgetState.opts.covermaxeff)
        (2 * Examples.budgetState.stats.active) = 29 := by
  decide

/-- C29 (amended). Effort budget: with covermineff ≤ covermaxeff the limit of cover is the
counter stats.propagations.cover plus delta = max (clamp (x, covermineff, covermaxeff),
2 * active), where x is the result of `delta *= 1e-3 * opts.coverreleff` in double
arithmetic on the search propagations, truncated to an integer; for nonnegative operands
with a product below 2^51 this x is the quotient of search propagations * coverreleff by
1000 rounded down, or one less when the division is exact. This is the limit the main
loop of the run is given, it is computed from the statistics on entry when no unit is
pending, and the main loop starts no call of cover_clause once stats.propagations.cover
has reached the limit. -/
theorem cover_effort_budget (env : Env) (s : Internal)
    (h : s.opts.covermineff ≤ s.opts.covermaxeff) :
    coverLimit s = s.stats.propagations_cover +
      max (min (max (scaleEffort s.stats.propagations_search s.opts.coverreleff)
        s.opts.covermineff) s.opts.covermaxeff) (2 * s.stats.active) ∧
    (0 ≤ s.stats.propagations_search → 0 ≤ s.opts.coverreleff →
      s.stats.propagations_search * s.opts.coverreleff < 2 ^ 51 →
      scaleEffort s.stats.propagations_search s.opts.coverreleff =
          s.stats.propagations_search * s.opts.coverreleff / 1000 ∨
        (1000 ∣ s.stats.propagations_search * s.opts.coverreleff ∧
          scaleEffort s.stats.propagations_search s.opts.coverreleff + 1 =
            s.stats.propagations_search * s.opts.coverreleff / 1000)) ∧
    coverRun env s =
      (coverMain env (coverLimit s) (coverPrepare s).2.reverse
        ((coverPrepare s).1, Coveror.init) 0 1).map
        (fun r => (r.1, (r.2.1.reset_occs).reset_watches)) ∧
    (¬ s.propagated < s.trail.length →
      coverLimit (coverUnits env (countCover s)) = coverLimit s) ∧
    (∀ limit schedule sc covered tcalls, limit ≤ sc.1.stats.propagations_cover →
      coverMain env limit schedule sc covered tcalls = some (covered, sc)) := by
  refine ⟨?_, ?_, ?_, ?_, ?_⟩
  · unfold coverLimit
    rw [clampEffort_eq _ _ _ h]
  · exact scaleEffort_near _ _
  · unfold coverRun
    rw [coverLimit_congr (connect_watches_stats _ true) (connect_watches_opts _ true)]
    have e : coverLimit (s.reset_watches) = coverLimit s := coverLimit_congr rfl rfl
    rw [e]
    cases coverMain env (coverLimit s) (coverPrepare s).2.reverse
      ((coverPrepare s).1, Coveror.init) 0 1 <;> rfl
  · intro hp
    unfold coverUnits
    rw [if_neg (by simpa using hp)]
    rfl
  · intro limit schedule sc covered tcalls hl
    cases schedule with
    | nil => rfl
    | cons c rest =>
      unfold coverMain
      split
      · rfl
      · rw [if_pos (by omega)]

/-- Witness for C29 (amended): the limit of the run on the clauses (1 2), (1 -2) with no
search propagation made is 0 + max (clamp (0, 0, 100000), 2 * 2) = 4. -/
theorem cover_effort_budget_witness :
    Examples.twoBlocked.opts.covermineff ≤ Examples.twoBlocked.opts.covermaxeff ∧
    coverLimit Examples.twoBlocked = 4 ∧
    coverRun Examples.env0 Examples.twoBlocked =
      (coverMain Examples.env0 (coverLimit Examples.twoBlocked)
        (coverPrepare Examples.twoBlocked).2.reverse
        ((coverPrepare Examples.twoBlocked).1, Coveror.init) 0 1).map
        (fun r => (r.1, (r.2.1.reset_occs).reset_watches)) :=
  ⟨by decide, by decide,
    (cover_effort_budget Examples.env0 Examples.twoBlocked (by decide)).2.2.1⟩

end Internal

end CaDiCaL

namespace CaDiCaL

namespace Internal

theorem stableInsert_perm {α : Type} (lt : α → α → Bool) (x : α) :
    ∀ l : List α, (stableInsert lt x l).Perm (x :: l) := by
  intro l
  induction l with
  | nil => exact List.Perm.refl _
  | cons y ys ih =>
    unfold stableInsert
    split
    · exact ((List.Perm.cons y ih).trans (List.Perm.swap x y ys))
    · exact List.Perm.refl _

theorem stableSort_perm {α : Type} (lt : α → α → Bool) (xs : List α) :
    (stableSort lt xs).Perm xs := by
  induction xs with
  | nil => exact List.Perm.refl _
  | cons x xs ih =>
    show (stableInsert lt x (stableSort lt xs)).Perm (x :: xs)
    exact (stableInsert_perm lt x _).trans (List.Perm.cons x ih)

theorem stableInsert_pairwise {α : Type} (lt : α → α → Bool) (Rel : α → α → Prop)
    (h1 : ∀ a b, lt a b = true → Rel a b) (h2 : ∀ a b, lt a b = false → Rel b a)
    (h3 : ∀ a b c, Rel a b → Rel b c → Rel a c) (x : α) :
    ∀ l : List α, l.Pairwise Rel → (stableInsert lt x l).Pairwise Rel := by
  intro l
  induction l with
  | nil => intro _; exact List.pairwise_singleton _ _
  | cons y ys ih =>
    intro hp
    obtain ⟨p1, p2⟩ := List.pairwise_cons.mp hp
    unfold stableInsert
    split
    · rename_i hlt
      apply List.pairwise_cons.mpr
      refine ⟨?_, ih p2⟩
      intro z hz
      rcases List.mem_cons.mp ((stableInsert_perm lt x ys).mem_iff.mp hz) with rfl | hz
      · exact h1 _ _ hlt
      · exact p1 z hz
    · rename_i hlt
      have hxy : Rel x y := h2 _ _ (by simpa using hlt)
      apply List.pairwise_cons.mpr
      refine ⟨?_, hp⟩
      intro z hz
      rcases List.mem_cons.mp hz with rfl | hz
      · exact hxy
      · exact h3 _ _ _ hxy (p1 z hz)

theorem stableSort_pairwise {α : Type} (lt : α → α → Bool) (Rel : α → α → Prop)
    (h1 : ∀ a b, lt a b = true → Rel a b) (h2 : ∀ a b, lt a b = false → Rel b a)
    (h3 : ∀ a b c, Rel a b → Rel b c → Rel a c) (xs : List α) :
    (stableSort lt xs).Pairwise Rel := by
  induction xs with
  | nil => exact List.Pairwise.nil
  | cons x xs ih => exact stableInsert_pairwise lt Rel h1 h2 h3 x _ ih

theorem stableInsert_filter {α : Type} (lt : α → α → Bool) (p : α → Bool) (x : α)
    (h : p x = true → ∀ y, lt y x = true → p y = false) :
    ∀ l : List α, (stableInsert lt x l).filter p = (x :: l).filter p := by
  intro l
  induction l with
  | nil => rfl
  | cons y ys ih =>
    unfold stableInsert
    split
    · rename_i hlt
      by_cases hx : p x = true
      · have hy := h hx y hlt
        rw [List.filter_cons_of_neg (by simpa using hy), ih, List.filter_cons_of_pos hx,
          List.filter_cons_of_pos hx, List.filter_cons_of_neg (by simpa using hy)]
      · by_cases hy : p y = true
        · rw [List.filter_cons_of_pos hy, ih, List.filter_cons_of_neg hx,
            List.filter_cons_of_neg hx, List.filter_cons_of_pos hy]
        · rw [List.filter_cons_of_neg hy, ih, List.filter_cons_of_neg hx,
            List.filter_cons_of_neg hx, List.filter_cons_of_neg hy]
    · rfl

theorem stableSort_filter {α : Type} (lt : α → α → Bool) (p : α → Bool)
    (h : ∀ x, p x = true → ∀ y, lt y x = true → p y = false) (xs : List α) :
    (stableSort lt xs).filter p = xs.filter p := by
  induction xs with
  | nil => rfl
  | cons x xs ih =>
    show (stableInsert lt x (stableSort lt xs)).filter p = _
    rw [stableInsert_filter lt p x (h x)]
    by_cases hx : p x = true
    · rw [List.filter_cons_of_pos hx, List.filter_cons_of_pos hx, ih]
    · rw [List.filter_cons_of_neg hx, List.filter_cons_of_neg hx, ih]

theorem clause_covered_or_smaller_iff (s : Internal) (a b : Nat) :
    clause_covered_or_smaller s a b = true ↔
      ((s.clauseAt a).covered = true ∧ (s.clauseAt b).covered = false) ∨
      ((s.clauseAt a).covered = (s.clauseAt b).covered ∧
        (s.clauseAt a).size < (s.clauseAt b).size) := by
  unfold clause_covered_or_smaller
  cases ha : (s.clauseAt a).covered <;> cases hb : (s.clauseAt b).covered <;> simp

/-- C28. Schedule order: the stable sort of the schedule by clause_covered_or_smaller
is a permutation in which every clause with covered = true precedes every clause with
covered = false and the sizes do not decrease within a group, the clauses with equal
flag and size keep their order, and the comparison is a strict weak ordering; in the
order of the pops from the back, untried clauses come before tried ones and larger
before smaller ones within a group; the schedule of cover is this sort, and the main
loop calls cover_clause on a clause after it has set its flag covered. -/
theorem schedule_order (s : Internal) (xs : List Nat) :
    (stableSort (clause_covered_or_smaller s) xs).Perm xs ∧
    (stableSort (clause_covered_or_smaller s) xs).Pairwise (fun a b =>
      ((s.clauseAt a).covered = true ∨ (s.clauseAt b).covered = false) ∧
      ((s.clauseAt a).covered = (s.clauseAt b).covered →
        (s.clauseAt a).size ≤ (s.clauseAt b).size)) ∧
    (stableSort (clause_covered_or_smaller s) xs).reverse.Pairwise (fun a b =>
      ((s.clauseAt a).covered = false ∨ (s.clauseAt b).covered = true) ∧
      ((s.clauseAt a).covered = (s.clauseAt b).covered →
        (s.clauseAt b).size ≤ (s.clauseAt a).size)) ∧
    (∀ a, (stableSort (clause_covered_or_smaller s) xs).filter (fun b =>
        decide ((s.clauseAt b).covered = (s.clauseAt a).covered ∧
          (s.clauseAt b).size = (s.clauseAt a).size)) =
      xs.filter (fun b => decide ((s.clauseAt b).covered = (s.clauseAt a).covered ∧
          (s.clauseAt b).size = (s.clauseAt a).size))) ∧
    ((∀ a, clause_covered_or_smaller s a a = false) ∧
     (∀ a b c, clause_covered_or_smaller s a b = true → clause_covered_or_smaller s b c = true →
        clause_covered_or_smaller s a c = true) ∧
     (∀ a b c, clause_covered_or_smaller s a b = false → clause_covered_or_smaller s b a = false →
        clause_covered_or_smaller s b c = false → clause_covered_or_smaller s c b = false →
        clause_covered_or_smaller s a c = false ∧ clause_covered_or_smaller s c a = false)) ∧
    (coverSchedule s).2 =
      stableSort (clause_covered_or_smaller (coverSchedule s).1)
        (coverSecond ((List.range s.clauses.length).foldl
          (fun ss c => coverCollect c ss) (s, []))).2 ∧
    (∀ (env : Env) (limit : Int) (c : Nat) (rest : List Nat) (sc : Internal × Coveror)
        (covered : Int) (tcalls : Nat),
      env.terminating tcalls = false → sc.1.stats.propagations_cover < limit →
      c < sc.1.clauses.length →
      ((sc.1.setClause c { sc.1.clauseAt c with covered := true }).clauseAt c).covered = true ∧
      coverMain env limit (c :: rest) sc covered tcalls =
        match cover_clause c (sc.1.setClause c { sc.1.clauseAt c with covered := true }, sc.2) with
        | none => none
        | some r =>
          coverMain env limit rest r.2 (if r.1 then covered + 1 else covered) (tcalls + 1)) := by
  have hR1 : ∀ a b, clause_covered_or_smaller s a b = true →
      ((s.clauseAt a).covered = true ∨ (s.clauseAt b).covered = false) ∧
      ((s.clauseAt a).covered = (s.clauseAt b).covered →
        (s.clauseAt a).size ≤ (s.clauseAt b).size) := by
    intro a b h
    rw [clause_covered_or_smaller_iff] at h
    rcases h with ⟨h1, h2⟩ | ⟨h1, h2⟩
    · exact ⟨Or.inl h1, fun e => by rw [h1, h2] at e; cases e⟩
    · refine ⟨?_, fun _ => by omega⟩
      cases hb : (s.clauseAt b).covered
      · exact Or.inr rfl
      · exact Or.inl (by rw [h1, hb])
  have hR2 : ∀ a b, clause_covered_or_smaller s a b = false →
      ((s.clauseAt b).covered = true ∨ (s.clauseAt a).covered = false) ∧
      ((s.clauseAt b).covered = (s.clauseAt a).covered →
        (s.clauseAt b).size ≤ (s.clauseAt a).size) := by
    intro a b h
    have hn : ¬ clause_covered_or_smaller s a b = true := by rw [h]; simp
    rw [clause_covered_or_smaller_iff] at hn
    constructor
    · cases ha : (s.clauseAt a).covered
      · exact Or.inr rfl
      · cases hb : (s.clauseAt b).covered
        · exact absurd (Or.inl ⟨ha, hb⟩) hn
        · exact Or.inl rfl
    · intro e
      by_contra hlt
      exact hn (Or.inr ⟨e.symm, by omega⟩)
  have hR3 : ∀ a b c : Nat,
      (((s.clauseAt a).covered = true ∨ (s.clauseAt b).covered = false) ∧
        ((s.clauseAt a).covered = (s.clauseAt b).covered →
          (s.clauseAt a).size ≤ (s.clauseAt b).size)) →
      (((s.clauseAt b).covered = true ∨ (s.clauseAt c).covered = false) ∧
        ((s.clauseAt b).covered = (s.clauseAt c).covered →
          (s.clauseAt b).size ≤ (s.clauseAt c).size)) →
      (((s.clauseAt a).covered = true ∨ (s.clauseAt c).covered = false) ∧
        ((s.clauseAt a).covered = (s.clauseAt c).covered →
          (s.clauseAt a).size ≤ (s.clauseAt c).size)) := by
    intro a b c
    cases (s.clauseAt a).covered <;> cases (s.clauseAt b).covered <;>
      cases (s.clauseAt c).covered <;> simp <;> omega
  have hsorted := stableSort_pairwise (clause_covered_or_smaller s) _ hR1 hR2 hR3 xs
  refine ⟨stableSort_perm _ xs, hsorted, ?_, ?_, ⟨?_, ?_, ?_⟩, rfl, ?_⟩
  · rw [List.pairwise_reverse]
    refine hsorted.imp ?_
    intro a b h
    refine ⟨?_, fun e => h.2 e.symm⟩
    rcases h.1 with h1 | h1
    · exact Or.inr h1
    · exact Or.inl h1
  · intro a
    apply stableSort_filter
    intro x hx y hlt
    rw [clause_covered_or_smaller_iff] at hlt
    simp only [decide_eq_true_eq] at hx
    simp only [decide_eq_false_iff_not]
    intro hy
    rcases hlt with ⟨h1, h2⟩ | ⟨h1, h2⟩
    · rw [hx.1, ← hy.1, h1] at h2; cases h2
    · omega
  · intro a
    have : ¬ clause_covered_or_smaller s a a = true := by
      rw [clause_covered_or_smaller_iff]
      rintro (⟨h1, h2⟩ | ⟨_, h2⟩)
      · rw [h1] at h2; cases h2
      · omega
    simpa using this
  · intro a b c h1 h2
    rw [clause_covered_or_smaller_iff] at h1 h2 ⊢
    rcases h1 with ⟨a1, a2⟩ | ⟨a1, a2⟩ <;> rcases h2 with ⟨b1, b2⟩ | ⟨b1, b2⟩
    · rw [a2] at b1; cases b1
    · exact Or.inl ⟨a1, by rw [← b1]; exact a2⟩
    · exact Or.inl ⟨by rw [a1]; exact b1, b2⟩
    · exact Or.inr ⟨a1.trans b1, by omega⟩
  · intro a b c h1 h2 h3 h4
    have e1 := hR2 _ _ h1
    have e2 := hR2 _ _ h2
    have e3 := hR2 _ _ h3
    have e4 := hR2 _ _ h4
    constructor
    · have hn : ¬ clause_covered_or_smaller s a c = true := by
        rw [clause_covered_or_smaller_iff]
        revert e1 e2 e3 e4
        cases (s.clauseAt a).covered <;> cases (s.clauseAt b).covered <;>
          cases (s.clauseAt c).covered <;> simp <;> omega
      simpa using hn
    · have hn : ¬ clause_covered_or_smaller s c a = true := by
        rw [clause_covered_or_smaller_iff]
        revert e1 e2 e3 e4
        cases (s.clauseAt a).covered <;> cases (s.clauseAt b).covered <;>
          cases (s.clauseAt c).covered <;> simp <;> omega
      simpa using hn
  · intro env limit c rest sc covered tcalls ht hl hc
    constructor
    · rw [clauseAt_setClause, if_pos ⟨rfl, hc⟩]
    · first
        | (rw [coverMain, if_neg (by rw [ht]; simp), if_neg (by simpa using hl)]
           done)
        | (rw [coverMain, if_neg (by rw [ht]; simp), if_neg (by simpa using hl)]
           generalize cover_clause c
             (sc.1.setClause c { sc.1.clauseAt c with covered := true }, sc.2) = o
           cases o <;> rfl)

end Internal

end CaDiCaL

namespace CaDiCaL

namespace Internal

theorem sameBase_refl (s : Internal) : SameBase s s := ⟨rfl, rfl, rfl⟩

theorem sameBase_trans {s t u : Internal} (h1 : SameBase s t) (h2 : SameBase t u) :
    SameBase s u := ⟨h2.1.trans h1.1, h2.2.1.trans h1.2.1, h2.2.2.trans h1.2.2⟩

theorem sameBase_setClause (s : Internal) (c : Nat) (cl : Clause) :
    SameBase s (s.setClause c cl) := ⟨rfl, rfl, length_setClause s c cl⟩

theorem satisfied_congr {s t : Internal} (h : SameBase s t) {D : Nat}
    (hc : t.clauseAt D = s.clauseAt D) : Satisfied t D = Satisfied s D := by
  unfold Satisfied Internal.val
  rw [hc, h.1]

theorem allFrozen_congr {s t : Internal} (h : SameBase s t) {D : Nat}
    (hc : t.clauseAt D = s.clauseAt D) : AllFrozen t D = AllFrozen s D := by
  unfold AllFrozen Internal.frozen
  rw [hc, h.2.1]

theorem eligible_congr {s t : Internal} (h : SameBase s t) {D : Nat}
    (hc : t.clauseAt D = s.clauseAt D) : Eligible t D = Eligible s D := by
  unfold Eligible
  rw [satisfied_congr h hc, allFrozen_congr h hc, hc, h.2.2]

theorem afterCollect_congr {s t : Internal} (h : SameBase s t) {D : Nat}
    (hc : t.clauseAt D = s.clauseAt D) : afterCollect t D = afterCollect s D := by
  unfold afterCollect
  rw [satisfied_congr h hc, allFrozen_congr h hc, hc]

theorem afterSecond_congr (reset : Bool) {s t : Internal} {D : Nat}
    (hc : t.clauseAt D = s.clauseAt D) : afterSecond reset t D = afterSecond reset s D := by
  unfold afterSecond
  rw [hc]

/-- A loop over clause pointers whose body changes only the record of its clause and
appends the clause to the schedule on a condition that depends on that record only. -/
theorem schedule_fold (f : Nat → Internal × List Nat → Internal × List Nat)
    (sel : Internal → Nat → Bool) (new : Internal → Nat → Clause)
    (hf1 : ∀ c ss, SameBase ss.1 (f c ss).1)
    (hf2 : ∀ c ss D, D ≠ c → (f c ss).1.clauseAt D = ss.1.clauseAt D)
    (hf3 : ∀ c ss, (f c ss).2 = ss.2 ++ (if sel ss.1 c then [c] else []))
    (hf4 : ∀ c ss, c < ss.1.clauses.length → (f c ss).1.clauseAt c = new ss.1 c)
    (hloc : ∀ s t c, SameBase s t → t.clauseAt c = s.clauseAt c →
      sel t c = sel s c ∧ new t c = new s c) :
    ∀ (ds : List Nat) (ss : Internal × List Nat), ds.Nodup →
      (∀ D ∈ ds, D < ss.1.clauses.length) →
      SameBase ss.1 (ds.foldl (fun ss c => f c ss) ss).1 ∧
      (ds.foldl (fun ss c => f c ss) ss).2 = ss.2 ++ ds.filter (sel ss.1) ∧
      ∀ D, (ds.foldl (fun ss c => f c ss) ss).1.clauseAt D =
        if D ∈ ds then new ss.1 D else ss.1.clauseAt D := by
  intro ds
  induction ds with
  | nil =>
    intro ss _ _
    exact ⟨sameBase_refl _, by simp, fun D => by simp⟩
  | cons c ds ih =>
    intro ss hnd hlt
    obtain ⟨hc, hnd2⟩ := List.nodup_cons.mp hnd
    have hbase := hf1 c ss
    have hlt2 : ∀ D ∈ ds, D < (f c ss).1.clauses.length := by
      intro D hD
      rw [hbase.2.2]
      exact hlt D (List.mem_cons_of_mem _ hD)
    obtain ⟨a1, a2, a3⟩ := ih (f c ss) hnd2 hlt2
    rw [List.foldl_cons]
    refine ⟨sameBase_trans hbase a1, ?_, ?_⟩
    · rw [a2, hf3]
      have hfil : ds.filter (sel (f c ss).1) = ds.filter (sel ss.1) := by
        apply List.filter_congr
        intro D hD
        have hne : D ≠ c := fun e => hc (e ▸ hD)
        exact (hloc ss.1 (f c ss).1 D hbase (hf2 c ss D hne)).1
      rw [hfil]
      by_cases hs : sel ss.1 c = true
      · rw [if_pos hs, List.filter_cons_of_pos hs]; simp
      · rw [if_neg hs, List.filter_cons_of_neg hs]; simp
    · intro D
      rw [a3]
      by_cases hD : D ∈ ds
      · have hne : D ≠ c := fun e => hc (e ▸ hD)
        rw [if_pos hD, if_pos (List.mem_cons_of_mem _ hD)]
        exact (hloc ss.1 (f c ss).1 D hbase (hf2 c ss D hne)).2
      · rw [if_neg hD]
        by_cases e : D = c
        · rw [e, if_pos (List.mem_cons_self _ _)]
          exact hf4 c ss (hlt c (List.mem_cons_self _ _))
        · rw [if_neg (by simp [e, hD])]
          exact hf2 c ss D e

theorem clauseAt_mark_garbage (s : Internal) (c D : Nat) :
    (s.mark_garbage c).clauseAt D =
      if D = c ∧ c < s.clauses.length then { s.clauseAt c with garbage := true }
      else s.clauseAt D := by
  unfold Internal.mark_garbage
  rw [clauseAt_setClause]

theorem coverCollect_base (c : Nat) (ss : Internal × List Nat) :
    SameBase ss.1 (coverCollect c ss).1 := by
  unfold coverCollect
  split
  · exact sameBase_refl _
  split
  · exact sameBase_refl _
  split
  · exact sameBase_setClause _ _ _
  split
  · exact sameBase_setClause _ _ _
  split <;> exact ⟨rfl, rfl, rfl⟩

theorem coverCollect_other (c : Nat) (ss : Internal × List Nat) (D : Nat) (h : D ≠ c) :
    (coverCollect c ss).1.clauseAt D = ss.1.clauseAt D := by
  unfold coverCollect
  split
  · rfl
  split
  · rfl
  split
  · rw [clauseAt_mark_garbage, if_neg (fun e => h e.1)]
  split
  · rw [clauseAt_setClause, if_neg (fun e => h e.1)]
  split <;> rfl

theorem coverCollect_sched (c : Nat) (ss : Internal × List Nat)
    (hc : c < ss.1.clauses.length) :
    (coverCollect c ss).2 =
      ss.2 ++ (if (Eligible ss.1 c && !(ss.1.clauseAt c).covered) = true then [c] else []) := by
  unfold coverCollect Eligible Satisfied AllFrozen
  split
  · rename_i h; simp [h]
  split
  · rename_i h1 h2; simp [h2]
  split
  · rename_i h1 h2 h3
    rw [h3]; simp
  split
  · rename_i h1 h2 h3 h4
    rw [h4]; simp
  rename_i h1 h2 h3 h4
  split
  · rename_i h5; simp [h5]
  · rename_i h5
    simp [h1, h2, h3, h4, h5, hc]

theorem coverCollect_self (c : Nat) (ss : Internal × List Nat)
    (hc : c < ss.1.clauses.length) :
    (coverCollect c ss).1.clauseAt c = afterCollect ss.1 c := by
  unfold coverCollect afterCollect Satisfied AllFrozen
  split
  · rfl
  split
  · rfl
  split
  · rw [clauseAt_mark_garbage, if_pos ⟨rfl, hc⟩]
  split
  · rw [clauseAt_setClause, if_pos ⟨rfl, hc⟩]
  split <;> rfl

/-- The first loop of cover over the clauses. -/
theorem collect_fold (ds : List Nat) (ss : Internal × List Nat) (hnd : ds.Nodup)
    (hlt : ∀ D ∈ ds, D < ss.1.clauses.length) :
    SameBase ss.1 (ds.foldl (fun ss c => coverCollect c ss) ss).1 ∧
    (ds.foldl (fun ss c => coverCollect c ss) ss).2 =
      ss.2 ++ ds.filter (fun D => Eligible ss.1 D && !(ss.1.clauseAt D).covered) ∧
    ∀ D, (ds.foldl (fun ss c => coverCollect c ss) ss).1.clauseAt D =
      if D ∈ ds then afterCollect ss.1 D else ss.1.clauseAt D := by
  have hsch : ∀ c (ss : Internal × List Nat), (coverCollect c ss).2 =
      ss.2 ++ (if (fun (s : Internal) D =>
        (decide (D < s.clauses.length) && (Eligible s D && !(s.clauseAt D).covered))) ss.1 c
          = true then [c] else []) := by
    intro c ss
    by_cases hc : c < ss.1.clauses.length
    · rw [coverCollect_sched c ss hc]
      simp [hc]
    · have : (coverCollect c ss).2 = ss.2 := by
        have hd : ss.1.clauseAt c = default := by
          unfold Internal.clauseAt
          rw [List.getD_eq_getElem?_getD, List.getElem?_eq_none (by omega)]
          rfl
        unfold coverCollect
        rw [hd]
        rfl
      rw [this]
      simp [hc]
  obtain ⟨a1, a2, a3⟩ := schedule_fold (fun c ss => coverCollect c ss)
    (fun s D => decide (D < s.clauses.length) && (Eligible s D && !(s.clauseAt D).covered))
    afterCollect coverCollect_base coverCollect_other hsch coverCollect_self
    (fun s t c hb hc => ⟨by
      show (decide (c < t.clauses.length) && (Eligible t c && !(t.clauseAt c).covered)) =
        (decide (c < s.clauses.length) && (Eligible s c && !(s.clauseAt c).covered))
      rw [eligible_congr hb hc, hc, hb.2.2], afterCollect_congr hb hc⟩)
    ds ss hnd hlt
  refine ⟨a1, ?_, a3⟩
  rw [a2]
  congr 1
  apply List.filter_congr
  intro D hD
  simp [hlt D hD]

end Internal

end CaDiCaL

namespace CaDiCaL

namespace Internal

theorem schedFrame_refl (a : Internal) : SchedFrame a a := rfl

theorem schedFrame_trans {a b c : Internal} (h1 : SchedFrame a b) (h2 : SchedFrame b c) :
    SchedFrame a c := by
  unfold SchedFrame at *
  rw [h2, h1]

theorem schedFrame_fold (f : Nat → Internal × List Nat → Internal × List Nat)
    (hf : ∀ c ss, SchedFrame ss.1 (f c ss).1) (ds : List Nat) :
    ∀ ss : Internal × List Nat, SchedFrame ss.1 (ds.foldl (fun ss c => f c ss) ss).1 := by
  induction ds with
  | nil => intro ss; exact schedFrame_refl _
  | cons c ds ih =>
    intro ss
    rw [List.foldl_cons]
    exact schedFrame_trans (hf c ss) (ih _)

theorem coverCollect_frame (c : Nat) (ss : Internal × List Nat) :
    SchedFrame ss.1 (coverCollect c ss).1 := by
  unfold coverCollect
  split
  · rfl
  split
  · rfl
  split
  · rfl
  split
  · rfl
  split <;> rfl

theorem coverReschedule_frame (c : Nat) (ss : Internal × List Nat) :
    SchedFrame ss.1 (coverReschedule c ss).1 := by
  unfold coverReschedule
  split
  · rfl
  split
  · rfl
  split <;> rfl

theorem coverAddTried_frame (c : Nat) (ss : Internal × List Nat) :
    SchedFrame ss.1 (coverAddTried c ss).1 := by
  unfold coverAddTried
  split
  · rfl
  split
  · rfl
  split
  · rfl
  split <;> rfl

theorem coverReschedule_otab (c : Nat) (ss : Internal × List Nat) :
    (coverReschedule c ss).1.otab = ss.1.otab := by
  unfold coverReschedule
  split
  · rfl
  split
  · rfl
  split <;> rfl

theorem coverAddTried_otab (c : Nat) (ss : Internal × List Nat) :
    (coverAddTried c ss).1.otab = ss.1.otab := by
  unfold coverAddTried
  split
  · rfl
  split
  · rfl
  split
  · rfl
  split <;> rfl

theorem otab_fold (f : Nat → Internal × List Nat → Internal × List Nat)
    (hf : ∀ c ss, (f c ss).1.otab = ss.1.otab) (ds : List Nat) :
    ∀ ss : Internal × List Nat, (ds.foldl (fun ss c => f c ss) ss).1.otab = ss.1.otab := by
  induction ds with
  | nil => intro ss; rfl
  | cons c ds ih =>
    intro ss
    rw [List.foldl_cons, ih, hf]

theorem coverCollect_otab (c : Nat) (ss : Internal × List Nat)
    (hc : c < ss.1.clauses.length) (x : Int) (D : Nat) :
    D ∈ (coverCollect c ss).1.otab x ↔
      D ∈ ss.1.otab x ∨ (D = c ∧ Eligible ss.1 c = true ∧ x ∈ (ss.1.clauseAt c).literals) := by
  have hmem : D ∈ ss.1.otab x ++
      ((ss.1.clauseAt c).literals.filter (fun lit => lit = x)).map (fun _ => c) ↔
      D ∈ ss.1.otab x ∨ (D = c ∧ x ∈ (ss.1.clauseAt c).literals) := by
    rw [List.mem_append, List.mem_map]
    constructor
    · rintro (h | ⟨l, hl, e⟩)
      · exact Or.inl h
      · have := List.mem_filter.mp hl
        have e2 : l = x := by simpa using this.2
        exact Or.inr ⟨e.symm, e2 ▸ this.1⟩
    · rintro (h | ⟨e, hx⟩)
      · exact Or.inl h
      · exact Or.inr ⟨x, List.mem_filter.mpr ⟨hx, by simp⟩, e.symm⟩
  unfold coverCollect Eligible Satisfied AllFrozen
  split
  · rename_i h; simp [h]
  split
  · rename_i h1 h2; simp [h2]
  split
  · rename_i h1 h2 h3
    show D ∈ ss.1.otab x ↔ _
    rw [h3]; simp
  split
  · rename_i h1 h2 h3 h4
    show D ∈ ss.1.otab x ↔ _
    rw [h4]; simp
  rename_i h1 h2 h3 h4
  have he : (decide (c < ss.1.clauses.length) && !(ss.1.clauseAt c).garbage &&
      !(ss.1.clauseAt c).redundant &&
      !(ss.1.clauseAt c).literals.any (fun lit => decide (0 < ss.1.val lit)) &&
      !(ss.1.clauseAt c).literals.all (fun lit => ss.1.frozen lit)) = true := by
    simp only [Bool.and_eq_true, decide_eq_true_eq, Bool.not_eq_true']
    refine ⟨⟨⟨⟨hc, by simpa using h1⟩, by simpa using h2⟩, by simpa using h3⟩, by simpa using h4⟩
  rw [he]
  split
  · show D ∈ ss.1.otab x ++ _ ↔ _
    rw [hmem]; simp
  · show D ∈ ss.1.otab x ++ _ ↔ _
    rw [hmem]; simp

/-- The occurrence lists after the first loop of cover over the clauses. -/
theorem collect_otab (ds : List Nat) : ∀ (ss : Internal × List Nat), ds.Nodup →
    (∀ D ∈ ds, D < ss.1.clauses.length) → ∀ (x : Int) (D : Nat),
    D ∈ (ds.foldl (fun ss c => coverCollect c ss) ss).1.otab x ↔
      D ∈ ss.1.otab x ∨
        (D ∈ ds ∧ Eligible ss.1 D = true ∧ x ∈ (ss.1.clauseAt D).literals) := by
  induction ds with
  | nil => intro ss _ _ x D; simp
  | cons c ds ih =>
    intro ss hnd hlt x D
    obtain ⟨hc, hnd2⟩ := List.nodup_cons.mp hnd
    have hbase := coverCollect_base c ss
    have hlt2 : ∀ D ∈ ds, D < (coverCollect c ss).1.clauses.length := by
      intro D hD
      rw [hbase.2.2]
      exact hlt D (List.mem_cons_of_mem _ hD)
    rw [List.foldl_cons, ih _ hnd2 hlt2, coverCollect_otab c ss (hlt c (List.mem_cons_self _ _))]
    constructor
    · rintro ((h | ⟨e, h1, h2⟩) | ⟨h1, h2, h3⟩)
      · exact Or.inl h
      · exact Or.inr ⟨by rw [e]; exact List.mem_cons_self _ _, by rw [e]; exact h1,
          by rw [e]; exact h2⟩
      · have hne : D ≠ c := fun e => hc (e ▸ h1)
        have hcl := coverCollect_other c ss D hne
        rw [eligible_congr hbase hcl] at h2
        rw [hcl] at h3
        exact Or.inr ⟨List.mem_cons_of_mem _ h1, h2, h3⟩
    · rintro (h | ⟨h1, h2, h3⟩)
      · exact Or.inl (Or.inl h)
      · rcases List.mem_cons.mp h1 with e | h1
        · exact Or.inl (Or.inr ⟨e, by rw [← e]; exact h2, by rw [← e]; exact h3⟩)
        · have hne : D ≠ c := fun e => hc (e ▸ h1)
          have hcl := coverCollect_other c ss D hne
          refine Or.inr ⟨h1, ?_, ?_⟩
          · rw [eligible_congr hbase hcl]; exact h2
          · rw [hcl]; exact h3

theorem coverSecond_base_other (reset : Bool) (c : Nat) (ss : Internal × List Nat) :
    SameBase ss.1 ((if reset then coverReschedule c ss else coverAddTried c ss)).1 ∧
    (∀ D, D ≠ c →
      ((if reset then coverReschedule c ss else coverAddTried c ss)).1.clauseAt D =
        ss.1.clauseAt D) ∧
    ((if reset then coverReschedule c ss else coverAddTried c ss)).2 =
      ss.2 ++ (if (!(ss.1.clauseAt c).garbage && !(ss.1.clauseAt c).redundant &&
        !(ss.1.clauseAt c).frozen && (reset || (ss.1.clauseAt c).covered)) = true
        then [c] else []) ∧
    (c < ss.1.clauses.length →
      ((if reset then coverReschedule c ss else coverAddTried c ss)).1.clauseAt c =
        afterSecond reset ss.1 c) := by
  cases reset
  · simp only [Bool.false_eq_true, if_false, Bool.false_or]
    unfold coverAddTried afterSecond
    split
    · rename_i h
      refine ⟨sameBase_refl _, fun _ _ => rfl, by simp [h], fun _ => rfl⟩
    split
    · rename_i h1 h2
      refine ⟨sameBase_refl _, fun _ _ => rfl, by simp [h2], fun _ => rfl⟩
    split
    · rename_i h1 h2 h3
      refine ⟨sameBase_setClause _ _ _, ?_, by simp [h3], ?_⟩
      · intro D hD
        rw [clauseAt_setClause, if_neg (fun e => hD e.1)]
      · intro hc
        rw [clauseAt_setClause, if_pos ⟨rfl, hc⟩]
    split
    · rename_i h1 h2 h3 h4
      have h5 : (ss.1.clauseAt c).covered = false := by simpa using h4
      refine ⟨sameBase_refl _, fun _ _ => rfl, by simp [h5], fun _ => by simp⟩
    · rename_i h1 h2 h3 h4
      have h5 : (ss.1.clauseAt c).covered = true := by simpa using h4
      refine ⟨sameBase_refl _, fun _ _ => rfl, by simp [h1, h2, h3, h5], fun _ => by simp⟩
  · simp only [if_true, Bool.true_or, Bool.and_true]
    unfold coverReschedule afterSecond
    split
    · rename_i h
      refine ⟨sameBase_refl _, fun _ _ => rfl, by simp [h], fun _ => rfl⟩
    split
    · rename_i h1 h2
      refine ⟨sameBase_refl _, fun _ _ => rfl, by simp [h2], fun _ => rfl⟩
    split
    · rename_i h1 h2 h3
      refine ⟨sameBase_setClause _ _ _, ?_, by simp [h3], ?_⟩
      · intro D hD
        rw [clauseAt_setClause, if_neg (fun e => hD e.1)]
      · intro hc
        rw [clauseAt_setClause, if_pos ⟨rfl, hc⟩]
    · rename_i h1 h2 h3
      refine ⟨sameBase_setClause _ _ _, ?_, by simp [h1, h2, h3], ?_⟩
      · intro D hD
        rw [clauseAt_setClause, if_neg (fun e => hD e.1)]
      · intro hc
        rw [clauseAt_setClause, if_pos ⟨rfl, hc⟩]
        simp

/-- The second loop of cover over the clauses. -/
theorem second_fold (reset : Bool) (ds : List Nat) (ss : Internal × List Nat) (hnd : ds.Nodup)
    (hlt : ∀ D ∈ ds, D < ss.1.clauses.length) :
    SameBase ss.1 (ds.foldl (fun ss c =>
      if reset then coverReschedule c ss else coverAddTried c ss) ss).1 ∧
    (ds.foldl (fun ss c => if reset then coverReschedule c ss else coverAddTried c ss) ss).2 =
      ss.2 ++ ds.filter (fun D => !(ss.1.clauseAt D).garbage && !(ss.1.clauseAt D).redundant &&
        !(ss.1.clauseAt D).frozen && (reset || (ss.1.clauseAt D).covered)) ∧
    ∀ D, (ds.foldl (fun ss c =>
        if reset then coverReschedule c ss else coverAddTried c ss) ss).1.clauseAt D =
      if D ∈ ds then afterSecond reset ss.1 D else ss.1.clauseAt D :=
  schedule_fold (fun c ss => if reset then coverReschedule c ss else coverAddTried c ss)
    (fun s D => !(s.clauseAt D).garbage && !(s.clauseAt D).redundant &&
        !(s.clauseAt D).frozen && (reset || (s.clauseAt D).covered))
    (afterSecond reset)
    (fun c ss => (coverSecond_base_other reset c ss).1)
    (fun c ss => (coverSecond_base_other reset c ss).2.1)
    (fun c ss => (coverSecond_base_other reset c ss).2.2.1)
    (fun c ss => (coverSecond_base_other reset c ss).2.2.2)
    (fun s t c _ hc => ⟨by simp only [hc], afterSecond_congr reset hc⟩)
    ds ss hnd hlt

end Internal

end CaDiCaL

namespace CaDiCaL

namespace Internal

theorem foldl_watch_frame (ds : List Nat) : ∀ s : Internal,
    ds.foldl watch_clause s = { s with wtab := (ds.foldl watch_clause s).wtab } := by
  induction ds with
  | nil => intro s; rfl
  | cons c ds ih =>
    intro s
    rw [List.foldl_cons, ih]
    rfl

theorem connect_watches_frame (s : Internal) (b : Bool) :
    s.connect_watches b = { s with wtab := (s.connect_watches b).wtab } := by
  unfold connect_watches
  rw [foldl_watch_frame, foldl_watch_frame]

theorem coverSecond_eq (ss : Internal × List Nat) :
    coverSecond ss = (List.range ss.1.clauses.length).foldl (fun st c =>
      if ss.2.isEmpty then coverReschedule c st else coverAddTried c st) ss := by
  unfold coverSecond
  cases ss.2.isEmpty <;> simp

/-- The record of a clause after both loops of cover over the clauses, for a clause
whose flag frozen was false. -/
theorem afterSecond_afterCollect (reset : Bool) (s t : Internal) (D : Nat)
    (hD : D < s.clauses.length) (hfr : (s.clauseAt D).frozen = false)
    (ht : t.clauseAt D = afterCollect s D) :
    afterSecond reset t D = scheduledClause reset s D ∧
    (!(t.clauseAt D).garbage && !(t.clauseAt D).redundant && !(t.clauseAt D).frozen) =
      Eligible s D := by
  unfold afterSecond scheduledClause Eligible
  rw [ht]
  unfold afterCollect
  generalize hsat : Satisfied s D = sat
  generalize hall : AllFrozen s D = all
  generalize hcl : s.clauseAt D = cl at hfr
  obtain ⟨lits, g, r, hy, fr, cov, tr, pos⟩ := cl
  simp only at hfr
  subst hfr
  cases g <;> cases r <;> cases sat <;> cases all <;> cases reset <;> simp [hD]

theorem scheduledClause_out (reset : Bool) (s : Internal) (D : Nat)
    (hD : ¬ D < s.clauses.length) : scheduledClause reset s D = s.clauseAt D := by
  unfold scheduledClause Eligible
  simp [hD]

theorem eligible_lt {s : Internal} {D : Nat} (h : Eligible s D = true) :
    D < s.clauses.length := by
  unfold Eligible at h
  simp only [Bool.and_eq_true, decide_eq_true_eq] at h
  exact h.1.1.1.1

/-- The scheduling part of cover, from a state in which no clause has the flag
frozen: the schedule holds exactly the clauses to try, each once; the records of the
clauses are those of scheduledClause; the occurrence lists get the clauses to try. -/
theorem coverSchedule_spec (s : Internal) (hfr : ∀ D, (s.clauseAt D).frozen = false) :
    SameBase s (coverSchedule s).1 ∧ SchedFrame s (coverSchedule s).1 ∧
    (coverSchedule s).2.Nodup ∧
    (∀ D, D ∈ (coverSchedule s).2 ↔ Eligible s D = true) ∧
    (∃ reset : Bool, (reset = true ↔ ¬ HasUntried s) ∧
      ∀ D, (coverSchedule s).1.clauseAt D = scheduledClause reset s D) ∧
    (∀ x D, D ∈ (coverSchedule s).1.otab x ↔
      D ∈ s.otab x ∨ (Eligible s D = true ∧ x ∈ (s.clauseAt D).literals)) := by
  have hnd := List.nodup_range s.clauses.length
  have hlt : ∀ D ∈ List.range s.clauses.length, D < s.clauses.length :=
    fun D hD => List.mem_range.mp hD
  obtain ⟨b1, e1, c1⟩ := collect_fold (List.range s.clauses.length) (s, []) hnd hlt
  have o1 := collect_otab (List.range s.clauses.length) (s, []) hnd hlt
  have f1 := schedFrame_fold (fun c ss => coverCollect c ss) coverCollect_frame
    (List.range s.clauses.length) (s, [])
  generalize hss1 : (List.range s.clauses.length).foldl (fun ss c => coverCollect c ss)
    (s, []) = ss1 at b1 e1 c1 o1 f1
  simp only at b1 e1 c1 o1 f1
  have hlen : ss1.1.clauses.length = s.clauses.length := b1.2.2
  have hlt2 : ∀ D ∈ List.range ss1.1.clauses.length, D < ss1.1.clauses.length :=
    fun D hD => List.mem_range.mp hD
  obtain ⟨b2, e2, c2⟩ := second_fold ss1.2.isEmpty (List.range ss1.1.clauses.length) ss1
    (List.nodup_range _) hlt2
  have o2 := otab_fold (fun c st =>
      if ss1.2.isEmpty then coverReschedule c st else coverAddTried c st)
    (fun c st => by
      show (if ss1.2.isEmpty = true then coverReschedule c st else coverAddTried c st).1.otab = _
      split
      · exact coverReschedule_otab c st
      · exact coverAddTried_otab c st)
    (List.range ss1.1.clauses.length) ss1
  have f2 := schedFrame_fold (fun c st =>
      if ss1.2.isEmpty then coverReschedule c st else coverAddTried c st)
    (fun c st => by
      show SchedFrame st.1
        (if ss1.2.isEmpty = true then coverReschedule c st else coverAddTried c st).1
      split
      · exact coverReschedule_frame c st
      · exact coverAddTried_frame c st)
    (List.range ss1.1.clauses.length) ss1
  have hsch : coverSchedule s = coverSorted (coverSecond ss1) := by
    unfold coverSchedule
    rw [hss1]
  rw [hsch, coverSecond_eq]
  generalize hss2 : (List.range ss1.1.clauses.length).foldl (fun st c =>
      if ss1.2.isEmpty then coverReschedule c st else coverAddTried c st) ss1 = ss2
    at b2 e2 c2 o2 f2
  show SameBase s ss2.1 ∧ SchedFrame s ss2.1 ∧
    (stableSort (clause_covered_or_smaller ss2.1) ss2.2).Nodup ∧
    (∀ D, D ∈ stableSort (clause_covered_or_smaller ss2.1) ss2.2 ↔ Eligible s D = true) ∧
    (∃ reset : Bool, (reset = true ↔ ¬ HasUntried s) ∧
      ∀ D, ss2.1.clauseAt D = scheduledClause reset s D) ∧
    (∀ x D, D ∈ ss2.1.otab x ↔
      D ∈ s.otab x ∨ (Eligible s D = true ∧ x ∈ (s.clauseAt D).literals))
  have hperm := stableSort_perm (clause_covered_or_smaller ss2.1) ss2.2
  have hc1 : ∀ D, D < s.clauses.length → ss1.1.clauseAt D = afterCollect s D := by
    intro D hD
    rw [c1 D, if_pos (List.mem_range.mpr hD)]
  have hsel : ∀ D, D < s.clauses.length →
      (!(ss1.1.clauseAt D).garbage && !(ss1.1.clauseAt D).redundant &&
        !(ss1.1.clauseAt D).frozen) = Eligible s D :=
    fun D hD => (afterSecond_afterCollect false s ss1.1 D hD (hfr D) (hc1 D hD)).2
  have hcov : ∀ D, Eligible s D = true → (ss1.1.clauseAt D).covered = (s.clauseAt D).covered := by
    intro D hE
    rw [hc1 D (eligible_lt hE)]
    unfold Eligible at hE
    simp only [Bool.and_eq_true, decide_eq_true_eq, Bool.not_eq_true'] at hE
    unfold afterCollect
    simp [hE.1.1.1.2, hE.1.1.2, hE.1.2, hE.2]
  have hmem2 : ∀ D, D ∈ ss2.2 ↔ Eligible s D = true := by
    intro D
    rw [e2, e1, hlen]
    simp only [List.nil_append, List.mem_append, List.mem_filter, List.mem_range,
      Bool.and_eq_true, Bool.not_eq_true', Bool.or_eq_true]
    constructor
    · rintro (⟨_, h, _⟩ | ⟨hD, h, _⟩)
      · exact h
      · rw [← hsel D hD]
        simpa using h
    · intro hE
      have hD := eligible_lt hE
      by_cases hcv : (s.clauseAt D).covered = true
      swap
      · exact Or.inl ⟨hD, hE, by simpa using hcv⟩
      · refine Or.inr ⟨hD, ?_, Or.inr ?_⟩
        · have := hsel D hD
          rw [hE] at this
          simpa using this
        · rw [hcov D hE]; exact hcv
  have hempty : ss1.2.isEmpty = true ↔ ¬ HasUntried s := by
    rw [e1, List.isEmpty_iff]
    simp only [List.nil_append, List.filter_eq_nil_iff, List.mem_range, Bool.and_eq_true,
      Bool.not_eq_true']
    constructor
    · rintro h ⟨D, hE, hc⟩
      exact h D (eligible_lt hE) ⟨hE, hc⟩
    · intro h D _ hh
      exact h ⟨D, hh.1, hh.2⟩
  have hnd2 : ss2.2.Nodup := by
    rw [e2, e1, hlen]
    simp only [List.nil_append]
    refine List.Nodup.append (hnd.filter _) (hnd.filter _) ?_
    intro D h1 h2
    have h1 := List.mem_filter.mp h1
    have h2 := List.mem_filter.mp h2
    have hD := List.mem_range.mp h1.1
    simp only [Bool.and_eq_true, Bool.not_eq_true', Bool.or_eq_true] at h1 h2
    rcases h2.2.2 with hr | hc
    · have := List.isEmpty_iff.mp hr
      simp only [List.nil_append, List.filter_eq_nil_iff, List.mem_range, Bool.and_eq_true,
        Bool.not_eq_true'] at this
      exact this D hD h1.2
    · rw [hcov D h1.2.1, h1.2.2] at hc
      cases hc
  refine ⟨sameBase_trans b1 b2, schedFrame_trans f1 f2, hperm.nodup_iff.mpr hnd2,
    fun D => (hperm.mem_iff).trans (hmem2 D), ⟨ss1.2.isEmpty, hempty, ?_⟩, ?_⟩
  · intro D
    rw [c2 D]
    by_cases hD : D < s.clauses.length
    · rw [if_pos (List.mem_range.mpr (hlen ▸ hD))]
      exact (afterSecond_afterCollect _ s ss1.1 D hD (hfr D) (hc1 D hD)).1
    · rw [if_neg (fun h => hD (hlen ▸ List.mem_range.mp h)), c1 D,
        if_neg (fun h => hD (List.mem_range.mp h)), scheduledClause_out _ _ _ hD]
  · intro x D
    rw [o2, o1 x D]
    constructor
    · rintro (h | ⟨_, h2, h3⟩)
      · exact Or.inl h
      · exact Or.inr ⟨h2, h3⟩
    · rintro (h | ⟨h2, h3⟩)
      · exact Or.inl h
      · exact Or.inr ⟨List.mem_range.mpr (eligible_lt h2), h2, h3⟩

end Internal

end CaDiCaL

namespace CaDiCaL

namespace Internal

theorem prepareStart_frame (s : Internal) :
    ((s.reset_watches).connect_watches true).reset_occs =
      { s with wtab := ((s.reset_watches).connect_watches true).wtab, otab := fun _ => [] } := by
  unfold reset_occs
  rw [connect_watches_frame]
  rfl

theorem prepareStart_base (s : Internal) :
    SameBase s (((s.reset_watches).connect_watches true).reset_occs) := by
  rw [prepareStart_frame]
  exact ⟨rfl, rfl, rfl⟩

theorem prepareStart_clauseAt (s : Internal) (D : Nat) :
    (((s.reset_watches).connect_watches true).reset_occs).clauseAt D = s.clauseAt D := by
  rw [prepareStart_frame]
  rfl

theorem scheduledClause_congr (reset : Bool) {s t : Internal} (hb : SameBase s t)
    (hc : ∀ D, t.clauseAt D = s.clauseAt D) (D : Nat) :
    scheduledClause reset t D = scheduledClause reset s D := by
  unfold scheduledClause
  rw [eligible_congr hb (hc D), satisfied_congr hb (hc D), hc D, hb.2.2]

theorem hasUntried_congr {s t : Internal} (hb : SameBase s t)
    (hc : ∀ D, t.clauseAt D = s.clauseAt D) : HasUntried t ↔ HasUntried s := by
  unfold HasUntried
  constructor
  · rintro ⟨D, h1, h2⟩
    exact ⟨D, by rw [← eligible_congr hb (hc D)]; exact h1, by rw [← hc D]; exact h2⟩
  · rintro ⟨D, h1, h2⟩
    exact ⟨D, by rw [eligible_congr hb (hc D)]; exact h1, by rw [hc D]; exact h2⟩

/-- The state of cover when the main loop starts, from a state in which no clause has
the flag frozen. -/
theorem coverPrepare_spec (s : Internal) (hfr : ∀ D, (s.clauseAt D).frozen = false) :
    (coverPrepare s).1 =
      { s with
        clauses := (coverPrepare s).1.clauses,
        otab := (coverPrepare s).1.otab,
        wtab := ((s.reset_watches).connect_watches true).wtab } ∧
    (coverPrepare s).1.clauses.length = s.clauses.length ∧
    (coverPrepare s).2.Nodup ∧
    (∀ D, D ∈ (coverPrepare s).2 ↔ Eligible s D = true) ∧
    (∃ reset : Bool, (reset = true ↔ ¬ HasUntried s) ∧
      ∀ D, (coverPrepare s).1.clauseAt D = scheduledClause reset s D) ∧
    (∀ x D, D ∈ (coverPrepare s).1.otab x ↔
      (Eligible s D = true ∧ x ∈ (s.clauseAt D).literals)) := by
  have hb := prepareStart_base s
  have hc := prepareStart_clauseAt s
  obtain ⟨a1, a2, a3, a4, ⟨reset, a5, a6⟩, a7⟩ :=
    coverSchedule_spec (((s.reset_watches).connect_watches true).reset_occs)
      (fun D => by rw [hc]; exact hfr D)
  unfold coverPrepare
  generalize coverSchedule (((s.reset_watches).connect_watches true).reset_occs) = r
    at a1 a2 a3 a4 a6 a7
  refine ⟨?_, a1.2.2.trans hb.2.2, a3, ?_, ⟨reset, ?_, ?_⟩, ?_⟩
  · show coverSortOccs r.1 = _
    unfold coverSortOccs
    unfold SchedFrame at a2
    rw [a2, prepareStart_frame]
  · intro D
    rw [a4, eligible_congr hb (hc D)]
  · rw [a5, hasUntried_congr hb hc]
  · intro D
    show (coverSortOccs r.1).clauseAt D = _
    rw [← scheduledClause_congr reset hb hc, ← a6]
    rfl
  · intro x D
    have h7 := a7 x D
    rw [eligible_congr hb (hc D), hc D] at h7
    have h0 : D ∉ (((s.reset_watches).connect_watches true).reset_occs).otab x := by
      intro h
      cases h
    have h8 : D ∈ (((s.reset_watches).connect_watches true).reset_occs).otab x ∨
        (Eligible s D = true ∧ x ∈ (s.clauseAt D).literals) ↔
        (Eligible s D = true ∧ x ∈ (s.clauseAt D).literals) := or_iff_right h0
    rw [← h8, ← h7]
    show D ∈ (if _ then _ else _) ↔ _
    split
    · exact (stableSort_perm _ _).mem_iff
    · exact Iff.rfl

/-- C27. Schedule composition: when cover () schedules from a state in which no clause
has the flag frozen (the source asserts this), the schedule holds each clause pointer of
a non-garbage irredundant clause that is neither satisfied nor made of frozen literals
only exactly once and no other pointer; if one of these clauses has covered = false, the
flag covered of every clause is as it was, and if none has, the flag covered of every
scheduled clause is false when the main loop starts. -/
theorem schedule_composition (s : Internal) (hfr : ∀ D, (s.clauseAt D).frozen = false) :
    (∀ D, (coverPrepare s).2.count D = if Eligible s D = true then 1 else 0) ∧
    (HasUntried s →
      ∀ D, ((coverPrepare s).1.clauseAt D).covered = (s.clauseAt D).covered) ∧
    (¬ HasUntried s →
      ∀ D ∈ (coverPrepare s).2, ((coverPrepare s).1.clauseAt D).covered = false) := by
  obtain ⟨_, _, a3, a4, ⟨reset, a5, a6⟩, _⟩ := coverPrepare_spec s hfr
  refine ⟨?_, ?_, ?_⟩
  · intro D
    split
    · rename_i h
      exact List.count_eq_one_of_mem a3 ((a4 D).mpr h)
    · rename_i h
      exact List.count_eq_zero_of_not_mem (fun hm => h ((a4 D).mp hm))
  · intro hu D
    have hr : reset = false := by
      cases reset
      · rfl
      · exact absurd hu (a5.mp rfl)
    rw [a6, hr]
    unfold scheduledClause
    split
    · rfl
    split <;> rfl
  · intro hu D hD
    have hr : reset = true := a5.mpr hu
    rw [a6, hr]
    unfold scheduledClause
    rw [if_pos ((a4 D).mp hD)]
    rfl

/-- Witness for C27: the schedule of cover on the clauses (1 2), (1 -2). -/
theorem schedule_composition_witness :
    (∀ D, (coverPrepare Examples.twoBlocked).2.count D =
      if Eligible Examples.twoBlocked D = true then 1 else 0) ∧
    (HasUntried Examples.twoBlocked →
      ∀ D, ((coverPrepare Examples.twoBlocked).1.clauseAt D).covered =
        (Examples.twoBlocked.clauseAt D).covered) ∧
    (¬ HasUntried Examples.twoBlocked →
      ∀ D ∈ (coverPrepare Examples.twoBlocked).2,
        ((coverPrepare Examples.twoBlocked).1.clauseAt D).covered = false) :=
  schedule_composition Examples.twoBlocked (fun D => by
    unfold clauseAt
    by_cases h0 : D = 0
    · subst h0; rfl
    by_cases h1 : D = 1
    · subst h1; rfl
    · have : 2 ≤ D := by omega
      obtain ⟨k, rfl⟩ := Nat.exists_eq_add_of_le this
      rw [Nat.add_comm]
      rfl)

/-- Counterexample to C30 as stated: the only clause (1 2) is satisfied by the unit 1,
cover () returns false, and the flag garbage of the clause, false on entry, is true
afterwards. -/
theorem cover_empty_schedule_counterexample :
    (∀ D, D < Examples.satisfiedOnly.clauses.length →
      (Examples.satisfiedOnly.clauseAt D).garbage = false →
      (Examples.satisfiedOnly.clauseAt D).redundant = false →
      Satisfied Examples.satisfiedOnly D = true ∨ AllFrozen Examples.satisfiedOnly D = true) ∧
    (Examples.satisfiedOnly.clauseAt 0).garbage = false ∧
    (cover Examples.env0 Examples.satisfiedOnly).map
      (fun r => (r.1, (r.2.clauseAt 0).garbage)) = some (false, true) := by
  refine ⟨?_, rfl, by decide!⟩
  intro D hD _ _
  have h0 : D = 0 := Nat.lt_one_iff.mp hD
  subst h0
  exact Or.inl (by decide)

/-- C30, amended. Empty-schedule boundary: in a run of cover () that passes the guards
with no pending unit, from a state in which no clause has the flag frozen and every
non-garbage irredundant clause is satisfied or made of frozen literals only, cover ()
returns false; the values, the external solver with its extension stack and the
literals and flags of every clause are as on entry, except that every satisfied
non-garbage irredundant clause is garbage afterwards. -/
theorem cover_empty_schedule (env : Env) (s : Internal)
    (h1 : s.opts.cover = true) (h2 : s.opts.restoreflush = false) (h3 : s.unsat = false)
    (h4 : env.terminating 0 = false) (h5 : s.stats.current_irredundant ≠ 0)
    (h6 : s.propagated = s.trail.length)
    (hfr : ∀ D, (s.clauseAt D).frozen = false)
    (hall : ∀ D, D < s.clauses.length → (s.clauseAt D).garbage = false →
      (s.clauseAt D).redundant = false → Satisfied s D = true ∨ AllFrozen s D = true) :
    ∃ s2, cover env s = some (false, s2) ∧ s2.vals = s.vals ∧ s2.external = s.external ∧
      ∀ D, s2.clauseAt D =
        if D < s.clauses.length ∧ (s.clauseAt D).garbage = false ∧
            (s.clauseAt D).redundant = false ∧ Satisfied s D = true
        then { s.clauseAt D with garbage := true } else s.clauseAt D := by
  have hu : coverUnits env (countCover s) = countCover s := by
    unfold coverUnits
    rw [if_neg]
    show ¬ s.propagated < s.trail.length
    omega
  have hno : ∀ D, Eligible s D = false := by
    intro D
    unfold Eligible
    by_cases hD : D < s.clauses.length
    · cases hg : (s.clauseAt D).garbage
      · cases hr : (s.clauseAt D).redundant
        · rcases hall D hD hg hr with h | h <;> simp [h]
        · simp
      · simp
    · simp [hD]
  have hbc : SameBase s (countCover s) := ⟨rfl, rfl, rfl⟩
  have hcc : ∀ D, (countCover s).clauseAt D = s.clauseAt D := fun _ => rfl
  obtain ⟨a1, a2, a3, a4, ⟨reset, a5, a6⟩, a7⟩ :=
    coverPrepare_spec (countCover s) (fun D => hfr D)
  have hcov : cover env s = (match coverRun env (countCover s) with
      | none => none
      | some r => some (decide (r.1 ≠ 0), r.2)) := by
    unfold cover
    rw [hu, if_neg (by rw [h1]; decide), if_neg (by rw [h3, h4]; simpa using h5),
      if_neg (by rw [h2]; decide),
      if_neg (by
        show ¬ s.unsat = true
        rw [h3]
        decide)] <;> rfl
  have hrun : coverRun env (countCover s) =
      (match coverMain env (coverLimit (((countCover s).reset_watches).connect_watches true))
        (coverPrepare (countCover s)).2.reverse ((coverPrepare (countCover s)).1, Coveror.init)
        0 1 with
      | none => none
      | some r => some (r.1, (r.2.1.reset_occs).reset_watches)) := rfl
  rw [hcov, hrun]
  generalize coverPrepare (countCover s) = p at a1 a2 a3 a4 a6 a7
  have hnil : p.2 = [] := by
    apply List.eq_nil_iff_forall_not_mem.mpr
    intro D hD
    have := (a4 D).mp hD
    rw [eligible_congr hbc (hcc D), hno D] at this
    cases this
  rw [hnil]
  refine ⟨((p.1.reset_occs).reset_watches), rfl, ?_, ?_, ?_⟩
  · show p.1.vals = _
    rw [a1]
    rfl
  · show p.1.external = _
    rw [a1]
    rfl
  · intro D
    show p.1.clauseAt D = _
    rw [a6, scheduledClause_congr reset hbc hcc]
    unfold scheduledClause
    rw [hno D]
    simp only [Bool.false_eq_true, if_false, Bool.and_eq_true, decide_eq_true_eq,
      Bool.not_eq_true', and_assoc]

/-- Witness for C30: the run of cover () on the clause (1 2) satisfied by the
unit 1. -/
theorem cover_empty_schedule_witness :
    ∃ s2, cover Examples.env0 Examples.satisfiedOnly = some (false, s2) ∧
      s2.vals = Examples.satisfiedOnly.vals ∧
      s2.external = Examples.satisfiedOnly.external ∧
      ∀ D, s2.clauseAt D =
        if D < Examples.satisfiedOnly.clauses.length ∧
            (Examples.satisfiedOnly.clauseAt D).garbage = false ∧
            (Examples.satisfiedOnly.clauseAt D).redundant = false ∧
            Satisfied Examples.satisfiedOnly D = true
        then { Examples.satisfiedOnly.clauseAt D with garbage := true }
        else Examples.satisfiedOnly.clauseAt D :=
  cover_empty_schedule Examples.env0 Examples.satisfiedOnly rfl rfl rfl rfl (by decide) rfl
    (fun D => by
      unfold clauseAt
      by_cases h0 : D = 0
      · subst h0; rfl
      · have : 1 ≤ D := by omega
        obtain ⟨k, rfl⟩ := Nat.exists_eq_add_of_le this
        rw [Nat.add_comm]
        rfl)
    (fun D hD _ _ => by
      have h0 : D = 0 := Nat.lt_one_iff.mp hD
      subst h0
      exact Or.inl (by decide))

end Internal

end CaDiCaL

namespace CaDiCaL

namespace Internal

theorem wcomplete_congr {P : Nat → Prop} {s t : Internal} (h : t.clauses = s.clauses) {wt : Int → List Watch}
    (hw : WCompleteOn P s wt) : WCompleteOn P t wt := by
  intro D
  rw [clauseAt_congr h D]
  exact hw D

theorem wcomplete_mono {P : Nat → Prop} {s : Internal} {wt wt2 : Int → List Watch}
    (hw : WCompleteOn P s wt)
    (h : ∀ x D, (s.clauseAt D).garbage = false → (∃ w ∈ wt x, w.clause = D) →
      ∃ w ∈ wt2 x, w.clause = D) : WCompleteOn P s wt2 := by
  intro D hP hg h2
  obtain ⟨a, b⟩ := hw D hP hg h2
  exact ⟨h _ D hg a, h _ D hg b⟩

theorem wcomplete_keep {P : Nat → Prop} {s : Internal} {lit : Int} {st st2 : AsymState}
    {w w2 : Watch}
    {rest : List Watch} (hw : WCompleteOn P s (asymWatches lit st (w :: rest)))
    (hc : w2.clause = w.clause) (hs : st2.s.wtab = st.s.wtab)
    (hk : st2.kept = st.kept ++ [w2]) : WCompleteOn P s (asymWatches lit st2 rest) := by
  apply wcomplete_mono hw
  intro x D _ hex
  obtain ⟨w3, hm, hc3⟩ := hex
  unfold asymWatches at hm ⊢
  by_cases hx : x = lit
  · rw [if_pos hx] at hm ⊢
    rw [hk]
    rcases List.mem_append.mp hm with hm | hm
    · exact ⟨w3, List.mem_append_left _ (List.mem_append_left _ hm), hc3⟩
    · rcases List.mem_cons.mp hm with hm | hm
      · refine ⟨w2, List.mem_append_left _ (List.mem_append_right _ (List.mem_singleton.mpr rfl)),
          ?_⟩
        rw [hc, ← hm]; exact hc3
      · exact ⟨w3, List.mem_append_right _ hm, hc3⟩
  · rw [if_neg hx] at hm ⊢
    rw [hs]
    exact ⟨w3, hm, hc3⟩

theorem wcomplete_drop {P : Nat → Prop} {s : Internal} {lit : Int} {st : AsymState}
    {w : Watch}
    {rest : List Watch} (hw : WCompleteOn P s (asymWatches lit st (w :: rest)))
    (hg : (s.clauseAt w.clause).garbage = true) :
    WCompleteOn P s (asymWatches lit st rest) := by
  apply wcomplete_mono hw
  intro x D hgD hex
  obtain ⟨w3, hm, hc3⟩ := hex
  unfold asymWatches at hm ⊢
  by_cases hx : x = lit
  · rw [if_pos hx] at hm ⊢
    rcases List.mem_append.mp hm with hm | hm
    · exact ⟨w3, List.mem_append_left _ hm, hc3⟩
    · rcases List.mem_cons.mp hm with hm | hm
      · exfalso
        rw [← hc3, hm, hg] at hgD
        cases hgD
      · exact ⟨w3, List.mem_append_right _ hm, hc3⟩
  · rw [if_neg hx] at hm ⊢
    exact ⟨w3, hm, hc3⟩

/-- The clause record at a pointer after a write through the pointer D. -/
theorem clauseAt_set_at (s : Internal) (D : Nat) (cl : Clause) (hD : D < s.clauses.length)
    (d : Nat) : (s.setClause D cl).clauseAt d = if d = D then cl else s.clauseAt d := by
  rw [clauseAt_setClause]
  by_cases h : d = D
  · rw [if_pos ⟨h, hD⟩, if_pos h]
  · rw [if_neg (fun h2 => h h2.1), if_neg h]

theorem wcomplete_reorder {P : Nat → Prop} (s : Internal) (wt : Int → List Watch) (D : Nat)
    (L2 : List Int)
    (p : Nat) (hw : WCompleteOn P s wt) (hD : D < s.clauses.length)
    (hset : (L2.getD 0 0 = (s.clauseAt D).literals.getD 0 0 ∧
        L2.getD 1 0 = (s.clauseAt D).literals.getD 1 0) ∨
      (L2.getD 0 0 = (s.clauseAt D).literals.getD 1 0 ∧
        L2.getD 1 0 = (s.clauseAt D).literals.getD 0 0))
    (hlen : L2.length = (s.clauseAt D).literals.length) :
    WCompleteOn P (s.setClause D { s.clauseAt D with literals := L2, pos := p }) wt := by
  intro d
  rw [clauseAt_set_at s D _ hD d]
  by_cases h : d = D
  · rw [if_pos h]
    intro hP hg h2
    have h2b : 2 ≤ (s.clauseAt D).size := by
      show 2 ≤ (s.clauseAt D).literals.length
      rw [← hlen]; exact h2
    obtain ⟨a, b⟩ := hw D (h ▸ hP) hg h2b
    show (∃ w ∈ wt (L2.getD 0 0), w.clause = d) ∧ (∃ w ∈ wt (L2.getD 1 0), w.clause = d)
    rw [h]
    rcases hset with ⟨e0, e1⟩ | ⟨e0, e1⟩
    · rw [e0, e1]; exact ⟨a, b⟩
    · rw [e0, e1]; exact ⟨b, a⟩
  · rw [if_neg h]
    exact hw d

theorem setClause_setClause (s : Internal) (D : Nat) (a b : Clause) :
    (s.setClause D a).setClause D b = s.setClause D b := by
  unfold setClause
  simp only [List.set_set]

theorem nodup_clause_not_mem {kept rest : List Watch} {w : Watch}
    (h : ((kept ++ w :: rest).map Watch.clause).Nodup) :
    ∀ w3 ∈ kept ++ rest, w3.clause ≠ w.clause := by
  intro w3 hm e
  rw [List.map_append, List.map_cons] at h
  have hperm : (List.map Watch.clause kept ++ w.clause :: List.map Watch.clause rest).Perm
      (w.clause :: (List.map Watch.clause kept ++ List.map Watch.clause rest)) :=
    List.perm_middle
  have h2 := (hperm.nodup_iff).mp h
  have h3 := (List.nodup_cons.mp h2).1
  apply h3
  rw [← List.map_append, ← e]
  exact List.mem_map_of_mem _ hm

/-- The replacement of the watch of lit by a watch of the unassigned literal r found at
position k of the clause. -/
theorem watch_move {P : Nat → Prop} (s : Internal) (lit r : Int) (k : Nat) (st : AsymState) (w : Watch)
    (rest : List Watch) (wt2 : Int → List Watch)
    (hcl : ClInv s) (hW : WInv s (asymWatches lit st (w :: rest)))
    (hC : WCompleteOn P s (asymWatches lit st (w :: rest)))
    (hg : (s.clauseAt w.clause).garbage = false) (h3 : 3 ≤ (s.clauseAt w.clause).size)
    (hD : w.clause < s.clauses.length)
    (h1 : (s.clauseAt w.clause).literals.getD 1 0 = lit)
    (hk : 2 ≤ k) (hk2 : k < (s.clauseAt w.clause).size)
    (hr : (s.clauseAt w.clause).literals.getD k 0 = r)
    (hwt2 : ∀ x, wt2 x = if x = r then
      st.s.wtab r ++ [⟨w.clause, lit, (s.clauseAt w.clause).size⟩] else st.s.wtab x) :
    ClInv (s.setClause w.clause { s.clauseAt w.clause with
      literals := ((s.clauseAt w.clause).literals.set 1 r).set k lit, pos := k }) ∧
    WInv (s.setClause w.clause { s.clauseAt w.clause with
      literals := ((s.clauseAt w.clause).literals.set 1 r).set k lit, pos := k })
      (fun x => if x = lit then st.kept ++ rest else wt2 x) ∧
    WCompleteOn P (s.setClause w.clause { s.clauseAt w.clause with
      literals := ((s.clauseAt w.clause).literals.set 1 r).set k lit, pos := k })
      (fun x => if x = lit then st.kept ++ rest else wt2 x) ∧
    SameClauses s (s.setClause w.clause { s.clauseAt w.clause with
      literals := ((s.clauseAt w.clause).literals.set 1 r).set k lit, pos := k }) := by
  generalize hL : (s.clauseAt w.clause).literals = L at h1 hr
  have hsz : (s.clauseAt w.clause).size = L.length := by
    unfold Clause.size; rw [hL]
  rw [hsz] at h3 hk2
  have hdv : DistinctVars L := hL ▸ (hcl w.clause).1
  have hperm : ((L.set 1 r).set k lit).Perm L := by
    have := perm_swap_set L 1 k (by omega) hk2
    rw [hr, h1] at this
    exact this
  have hlen : ((L.set 1 r).set k lit).length = L.length := hperm.length_eq
  have hg0 : ((L.set 1 r).set k lit).getD 0 0 = L.getD 0 0 := by
    rw [getD_set_eq, if_neg (by omega), getD_set_eq, if_neg (by omega)]
  have hg1 : ((L.set 1 r).set k lit).getD 1 0 = r := by
    rw [getD_set_eq, if_neg (by omega), getD_set_eq, if_pos ⟨rfl, by omega⟩]
  have hrl : r ≠ lit := by
    rw [← hr, ← h1]
    exact distinctVars_getD_ne hdv hk2 (by omega) (by omega)
  have hr0 : r ≠ L.getD 0 0 := by
    rw [← hr]
    exact distinctVars_getD_ne hdv hk2 (by omega) (by omega)
  have h0l : L.getD 0 0 ≠ lit := by
    rw [← h1]
    exact distinctVars_getD_ne hdv (by omega) (by omega) (by omega)
  have hat := clauseAt_set_at s w.clause { s.clauseAt w.clause with
      literals := (L.set 1 r).set k lit, pos := k } hD
  generalize s.setClause w.clause { s.clauseAt w.clause with
      literals := (L.set 1 r).set k lit, pos := k } = s2 at hat ⊢
  have hTl : asymWatches lit st (w :: rest) lit = st.kept ++ w :: rest := by
    unfold asymWatches; rw [if_pos rfl]
  have hTx : ∀ x, x ≠ lit → asymWatches lit st (w :: rest) x = st.s.wtab x := by
    intro x hx
    unfold asymWatches; rw [if_neg hx]
  have hnd := (hW lit).1
  rw [hTl] at hnd
  have hne := nodup_clause_not_mem hnd
  have hnoR : ∀ w3 ∈ st.s.wtab r, w3.clause ≠ w.clause := by
    intro w3 hm e
    have hok := (hW r).2 w3 (by rw [hTx r hrl]; exact hm)
    unfold WOK at hok
    rw [e] at hok
    obtain ⟨_, _, o3⟩ := hok hg
    rw [hL] at o3
    rcases o3 with ⟨o, _⟩ | ⟨o, _⟩
    · exact hr0 o.symm
    · rw [h1] at o; exact hrl o.symm
  have hwok : ∀ x w3, w3.clause ≠ w.clause → WOK s x w3 → WOK s2 x w3 := by
    intro x w3 hc hok
    unfold WOK at hok ⊢
    rw [hat, if_neg hc]
    exact hok
  refine ⟨?_, ?_, ?_, ?_⟩
  · intro d
    rw [hat]
    by_cases h : d = w.clause
    · rw [if_pos h]
      refine ⟨distinctVars_perm hperm hdv, ?_⟩
      intro _
      show 2 ≤ k ∧ k ≤ ((L.set 1 r).set k lit).length
      rw [hlen]
      exact ⟨hk, by omega⟩
    · rw [if_neg h]; exact hcl d
  · intro x
    show ((if x = lit then st.kept ++ rest else wt2 x).map Watch.clause).Nodup ∧
      ∀ w3 ∈ (if x = lit then st.kept ++ rest else wt2 x), WOK s2 x w3
    by_cases hx : x = lit
    · rw [if_pos hx]
      have hsub : List.Sublist (st.kept ++ rest) (st.kept ++ w :: rest) :=
        List.Sublist.append_left (List.sublist_cons_self _ _) _
      refine ⟨(hsub.map Watch.clause).nodup hnd, ?_⟩
      intro w3 hm
      apply hwok x w3 (hne w3 hm)
      apply (hW x).2
      rw [hx, hTl]
      exact hsub.subset hm
    · rw [if_neg hx, hwt2]
      by_cases hxr : x = r
      · rw [if_pos hxr]
        constructor
        · rw [List.map_append, List.map_cons, List.map_nil]
          have hold := (hW r).1
          rw [hTx r hrl] at hold
          refine List.Nodup.append hold (List.nodup_singleton _) ?_
          intro c hc1 hc2
          obtain ⟨w3, hm3, e3⟩ := List.mem_map.mp hc1
          rw [List.mem_singleton.mp hc2] at e3
          exact hnoR w3 hm3 e3
        · intro w3 hm
          rcases List.mem_append.mp hm with hm | hm
          · apply hwok x w3 (hnoR w3 hm)
            apply (hW x).2
            rw [hTx x hx, hxr]
            exact hm
          · rw [List.mem_singleton.mp hm]
            unfold WOK
            rw [hat, if_pos rfl]
            intro _
            refine ⟨?_, ?_, Or.inr ⟨?_, ?_⟩⟩
            · show (s.clauseAt w.clause).size = ((L.set 1 r).set k lit).length
              rw [hlen, hsz]
            · show 2 ≤ ((L.set 1 r).set k lit).length
              rw [hlen]; omega
            · show ((L.set 1 r).set k lit).getD 1 0 = x
              rw [hg1, hxr]
            · intro e
              exfalso
              have : (s.clauseAt w.clause).size = 2 := e
              rw [hsz] at this
              omega
      · rw [if_neg hxr]
        have hold := hW x
        rw [hTx x hx] at hold
        refine ⟨hold.1, ?_⟩
        intro w3 hm
        by_cases hc : w3.clause = w.clause
        · have hok := hold.2 w3 hm
          unfold WOK at hok ⊢
          rw [hat, if_pos hc]
          rw [hc] at hok
          intro _
          obtain ⟨o1, o2, o3⟩ := hok hg
          rw [hL] at o3
          rw [hsz] at o1 o2
          have hx0 : L.getD 0 0 = x := by
            rcases o3 with ⟨o, _⟩ | ⟨o, _⟩
            · exact o
            · rw [h1] at o; exact absurd o.symm hx
          refine ⟨?_, ?_, Or.inl ⟨?_, ?_⟩⟩
          · show w3.size = ((L.set 1 r).set k lit).length
            rw [hlen]; exact o1
          · show 2 ≤ ((L.set 1 r).set k lit).length
            rw [hlen]; exact o2
          · show ((L.set 1 r).set k lit).getD 0 0 = x
            rw [hg0]; exact hx0
          · intro e
            exfalso
            omega
        · exact hwok x w3 hc (hold.2 w3 hm)
  · intro d
    rw [hat]
    have hin : ∀ x, x ≠ lit → ∀ w3 ∈ st.s.wtab x,
        w3 ∈ (fun y => if y = lit then st.kept ++ rest else wt2 y) x := by
      intro x hx w3 hm
      show w3 ∈ (if x = lit then st.kept ++ rest else wt2 x)
      rw [if_neg hx, hwt2]
      split
      · rename_i hxr
        rw [← hxr]
        exact List.mem_append_left _ hm
      · exact hm
    by_cases h : d = w.clause
    · rw [if_pos h]
      intro hP _ _
      show (∃ w3 ∈ (fun y => if y = lit then st.kept ++ rest else wt2 y)
          (((L.set 1 r).set k lit).getD 0 0), w3.clause = d) ∧
        (∃ w3 ∈ (fun y => if y = lit then st.kept ++ rest else wt2 y)
          (((L.set 1 r).set k lit).getD 1 0), w3.clause = d)
      rw [hg0, hg1, h]
      constructor
      · obtain ⟨⟨w3, hm, hc⟩, _⟩ := hC w.clause (h ▸ hP) hg (by rw [hsz]; omega)
        rw [hL, hTx _ h0l] at hm
        exact ⟨w3, hin _ h0l w3 hm, hc⟩
      · refine ⟨⟨w.clause, lit, (s.clauseAt w.clause).size⟩, ?_, rfl⟩
        show _ ∈ (if r = lit then st.kept ++ rest else wt2 r)
        rw [if_neg hrl, hwt2, if_pos rfl]
        exact List.mem_append_right _ (List.mem_singleton.mpr rfl)
    · rw [if_neg h]
      intro hP hgd h2
      have hmove : ∀ x, (∃ w3 ∈ asymWatches lit st (w :: rest) x, w3.clause = d) →
          ∃ w3 ∈ (fun y => if y = lit then st.kept ++ rest else wt2 y) x, w3.clause = d := by
        intro x hex
        obtain ⟨w3, hm, hc⟩ := hex
        by_cases hx : x = lit
        · refine ⟨w3, ?_, hc⟩
          show w3 ∈ (if x = lit then st.kept ++ rest else wt2 x)
          rw [if_pos hx]
          rw [hx, hTl] at hm
          rcases List.mem_append.mp hm with hm | hm
          · exact List.mem_append_left _ hm
          · rcases List.mem_cons.mp hm with hm | hm
            · exfalso
              rw [hm] at hc
              exact h hc.symm
            · exact List.mem_append_right _ hm
        · rw [hTx x hx] at hm
          exact ⟨w3, hin x hx w3 hm, hc⟩
      obtain ⟨a, b⟩ := hC d hP hgd h2
      exact ⟨hmove _ a, hmove _ b⟩
  · intro d
    rw [hat]
    by_cases h : d = w.clause
    · rw [if_pos h, h]
      refine ⟨rfl, ?_⟩
      show ((L.set 1 r).set k lit).Perm (s.clauseAt w.clause).literals
      rw [hL]
      exact hperm
    · rw [if_neg h]; exact clauseSim_refl _

end Internal

end CaDiCaL

namespace CaDiCaL

namespace Internal

theorem wok_blit {s : Internal} {x : Int} {w : Watch} (b : Int) (h : WOK s x w)
    (hb : w.binary = false) : WOK s x { w with blit := b } := by
  have hne : w.size ≠ 2 := by
    unfold Watch.binary at hb
    simpa using hb
  intro hg
  obtain ⟨o1, o2, o3⟩ := h hg
  refine ⟨o1, o2, ?_⟩
  rcases o3 with ⟨o, _⟩ | ⟨o, _⟩
  · exact Or.inl ⟨o, fun e => absurd e hne⟩
  · exact Or.inr ⟨o, fun e => absurd e hne⟩

theorem asymInv_head_ok {P : Nat → Prop} {lit : Int} {s0 : Internal} {st : AsymState} {w : Watch}
    {rest : List Watch} (h : AsymInv P lit s0 st (w :: rest)) : WOK st.s lit w := by
  apply (h.1 lit).2
  unfold asymWatches
  rw [if_pos rfl]
  exact List.mem_append_right _ (List.mem_cons_self _ _)

/-- The watch at the head of the watches to visit is kept, possibly with another
blocking literal, and the values may change as long as lit stays false. -/
theorem asymInv_keep {P : Nat → Prop} {lit : Int} {s0 : Internal} {st : AsymState} {w : Watch}
    {rest : List Watch} (h : AsymInv P lit s0 st (w :: rest)) (st2 : AsymState) (w2 : Watch)
    (hc : w2.clause = w.clause) (hok : WOK st.s lit w2)
    (hcl : st2.s.clauses = st.s.clauses) (hwt : st2.s.wtab = st.s.wtab)
    (hk : st2.kept = st.kept ++ [w2]) (hv : st2.s.vals lit < 0) :
    AsymInv P lit s0 st2 rest := by
  obtain ⟨hW, hC, hI, hS, _⟩ := h
  refine ⟨winv_congr hcl (winv_keep hW hc hok hwt hk),
    wcomplete_congr hcl (wcomplete_keep hC hc hwt hk), clInv_congr hcl hI,
    sameClauses_trans hS (sameClauses_congr hcl), hv⟩

/-- The watch at the head of the watches to visit, of a garbage clause, is dropped. -/
theorem asymInv_drop {P : Nat → Prop} {lit : Int} {s0 : Internal} {st : AsymState} {w : Watch}
    {rest : List Watch} (h : AsymInv P lit s0 st (w :: rest))
    (hg : (st.s.clauseAt w.clause).garbage = true) : AsymInv P lit s0 st rest := by
  obtain ⟨hW, hC, hI, hS, hv⟩ := h
  exact ⟨winv_drop hW, wcomplete_drop hC hg, hI, hS, hv⟩

/-- The first two literals of the long clause of the watch at the head are put in the
order other, lit and the cursor pos is moved. -/
theorem asymInv_reorder {P : Nat → Prop} {lit : Int} {s0 : Internal} {st : AsymState} {w : Watch}
    {rest : List Watch} (h : AsymInv P lit s0 st (w :: rest))
    (hg : (st.s.clauseAt w.clause).garbage = false) (hb : w.binary = false) (p : Nat)
    (hp : 2 ≤ p ∧ p ≤ (st.s.clauseAt w.clause).size) (st1 : AsymState)
    (hs1 : st1.s = st.s.setClause w.clause { st.s.clauseAt w.clause with
      literals := swapWatched (st.s.clauseAt w.clause).literals
        (otherWatched (st.s.clauseAt w.clause).literals lit) lit, pos := p })
    (hk1 : st1.kept = st.kept) :
    AsymInv P lit s0 st1 (w :: rest) := by
  have hok := asymInv_head_ok h
  obtain ⟨hW, hC, hI, hS, hv⟩ := h
  obtain ⟨f1, f2, f3, f4, f5⟩ := long_watch_facts hI hok hg hb
  obtain ⟨p1, p2, p3, p4, p5, p6⟩ := swapWatched_spec (st.s.clauseAt w.clause).literals lit
    (by unfold Clause.size at f1; omega) f3
  have hfirst : ∀ x, (∃ w3 ∈ asymWatches lit st (w :: rest) x, w3.clause = w.clause) →
      (st.s.clauseAt w.clause).garbage = false →
      (swapWatched (st.s.clauseAt w.clause).literals
        (otherWatched (st.s.clauseAt w.clause).literals lit) lit).getD 0 0 = x ∨
      (swapWatched (st.s.clauseAt w.clause).literals
        (otherWatched (st.s.clauseAt w.clause).literals lit) lit).getD 1 0 = x := by
    rintro x ⟨w3, hm, hc3⟩ _
    have hok3 := (hW x).2 w3 hm
    unfold WOK at hok3
    rw [hc3] at hok3
    obtain ⟨_, _, o3⟩ := hok3 hg
    rw [p2, p3]
    rcases p6 with ⟨e1, e2⟩ | ⟨e1, e2⟩
    · rcases o3 with ⟨o, _⟩ | ⟨o, _⟩
      · exact Or.inr (by rw [← o, e1])
      · exact Or.inl (by rw [← o, e2])
    · rcases o3 with ⟨o, _⟩ | ⟨o, _⟩
      · exact Or.inl (by rw [← o, e2])
      · exact Or.inr (by rw [← o, e1])
  obtain ⟨r1, r2, r3⟩ := winv_reorder st.s (asymWatches lit st (w :: rest)) w.clause _ p hI hW f2
    p1 f1 hp hfirst
  have r4 := wcomplete_reorder st.s (asymWatches lit st (w :: rest)) w.clause
    (swapWatched (st.s.clauseAt w.clause).literals
      (otherWatched (st.s.clauseAt w.clause).literals lit) lit) p hC f2
    (by
      rw [p2, p3]
      rcases p6 with ⟨e1, e2⟩ | ⟨e1, e2⟩
      · exact Or.inr ⟨e2, e1.symm⟩
      · exact Or.inl ⟨e2, e1.symm⟩) p5
  have htab : asymWatches lit st1 (w :: rest) = asymWatches lit st (w :: rest) := by
    funext x
    unfold asymWatches
    rw [hk1, hs1]
    rfl
  unfold AsymInv
  rw [htab, hs1]
  exact ⟨r2, r4, r1, sameClauses_trans hS r3, hv⟩

end Internal

end CaDiCaL

namespace CaDiCaL

namespace Internal

theorem setClause_length (s : Internal) (D : Nat) (cl : Clause) :
    (s.setClause D cl).clauses.length = s.clauses.length := by
  unfold setClause
  simp

/-- The values after asymmetric_literal_addition of the negation of an unassigned
literal: a literal that was false is still false. -/
theorem assumeFalse_neg_keeps (s : Internal) (lit other : Int) (hv : s.vals lit < 0)
    (hu : s.vals other = 0) : (s.assumeFalse (-other)).vals lit < 0 := by
  have hne : lit ≠ other := by
    intro e
    rw [e, hu] at hv
    exact absurd hv (by decide)
  show setVal (setVal s.vals (-other) (-1)) (- -other) 1 lit < 0
  unfold setVal
  rw [neg_neg, if_neg hne]
  split
  · decide
  · exact hv

/-- The branch of cover_propagate_asymmetric for a long clause whose other watched
literal is not true keeps the invariant of the loop. -/
theorem asymReplace_inv {P : Nat → Prop} {lit : Int} {s0 : Internal} {st : AsymState} {w : Watch}
    {rest : List Watch} (h : AsymInv P lit s0 st (w :: rest))
    (hg : (st.s.clauseAt w.clause).garbage = false) (hb : w.binary = false) :
    AsymInv P lit s0
      (asymReplace lit w st (otherWatched (st.s.clauseAt w.clause).literals lit)
        (swapWatched (st.s.clauseAt w.clause).literals
          (otherWatched (st.s.clauseAt w.clause).literals lit) lit)
        (findReplacement st.s.vals
          (swapWatched (st.s.clauseAt w.clause).literals
            (otherWatched (st.s.clauseAt w.clause).literals lit) lit)
          (st.s.clauseAt w.clause).pos)) rest := by
  have hok := asymInv_head_ok h
  obtain ⟨f1, f2, f3, f4, f5⟩ := long_watch_facts h.2.2.1 hok hg hb
  have hLlen : 3 ≤ (st.s.clauseAt w.clause).literals.length := f1
  obtain ⟨p1, p2, p3, p4, p5, p6⟩ := swapWatched_spec (st.s.clauseAt w.clause).literals lit
    (by omega) f3
  generalize hother : otherWatched (st.s.clauseAt w.clause).literals lit = other
    at p1 p2 p3 p4 p5 p6 ⊢
  generalize hlits : swapWatched (st.s.clauseAt w.clause).literals other lit = lits
    at p1 p2 p3 p4 p5 ⊢
  have hpos : (st.s.clauseAt w.clause).pos ≤ lits.length := by
    rw [p5]; exact f5
  obtain ⟨q1, q2, q3⟩ := findReplacement_spec st.s.vals lits (st.s.clauseAt w.clause).pos f4 hpos
  generalize hkvr : findReplacement st.s.vals lits (st.s.clauseAt w.clause).pos = kvr
    at q1 q2 q3 ⊢
  have hk : 2 ≤ kvr.1 ∧ kvr.1 ≤ (st.s.clauseAt w.clause).size := by
    refine ⟨q1, ?_⟩
    show kvr.1 ≤ (st.s.clauseAt w.clause).literals.length
    rw [← p5]; exact q2
  have h1 := asymInv_reorder h hg hb kvr.1 hk
    ⟨st.s.setClause w.clause { st.s.clauseAt w.clause with literals := lits, pos := kvr.1 },
      st.cv, st.kept, st.subsumed⟩
    (by rw [hother, hlits]) rfl
  unfold asymReplace
  split
  · exact asymInv_keep h1 _ { w with blit := kvr.2.2 } rfl
      (wok_blit kvr.2.2 (asymInv_head_ok h1) hb) rfl rfl rfl h1.2.2.2.2
  split
  · rename_i hv1 hv0
    rcases q3 with ⟨q, _⟩ | ⟨_, qk, _, qr⟩
    · rw [hv0] at q
      exact absurd q (by decide)
    have hat := clauseAt_set_at st.s w.clause
      { st.s.clauseAt w.clause with literals := lits, pos := kvr.1 } f2
    have hcl1 : (st.s.setClause w.clause
        { st.s.clauseAt w.clause with literals := lits, pos := kvr.1 }).clauseAt w.clause =
        { st.s.clauseAt w.clause with literals := lits, pos := kvr.1 } := by
      rw [hat, if_pos rfl]
    obtain ⟨m1, m2, m3, m4⟩ := watch_move
      (st.s.setClause w.clause { st.s.clauseAt w.clause with literals := lits, pos := kvr.1 })
      lit kvr.2.2 kvr.1
      ⟨st.s.setClause w.clause { st.s.clauseAt w.clause with literals := lits, pos := kvr.1 },
        st.cv, st.kept, st.subsumed⟩
      w rest
      (fun x => if x = kvr.2.2 then
        st.s.wtab kvr.2.2 ++ [⟨w.clause, lit, lits.length⟩] else st.s.wtab x)
      h1.2.2.1 h1.1 h1.2.1
      (by rw [hcl1]; exact hg)
      (by rw [hcl1]; show 3 ≤ lits.length; rw [p5]; exact hLlen)
      (by rw [setClause_length]; exact f2)
      (by rw [hcl1]; exact p3)
      q1
      (by rw [hcl1]; exact qk)
      (by rw [hcl1]; exact qr.symm)
      (by
        intro x
        rw [hcl1]
        rfl)
    rw [hcl1, setClause_setClause] at m1 m2 m3 m4
    have hfin : ({ st with
        s := (st.s.setClause w.clause
          { st.s.clauseAt w.clause with
            literals := (lits.set 1 kvr.2.2).set kvr.1 lit, pos := kvr.1 }).watch_literal
              kvr.2.2 lit w.clause } : AsymState).s.clauses =
        (st.s.setClause w.clause
          { st.s.clauseAt w.clause with
            literals := (lits.set 1 kvr.2.2).set kvr.1 lit, pos := kvr.1 }).clauses := rfl
    have hsize : ((st.s.setClause w.clause
          { st.s.clauseAt w.clause with
            literals := (lits.set 1 kvr.2.2).set kvr.1 lit, pos := kvr.1 }).clauseAt
              w.clause).size = lits.length := by
      rw [clauseAt_set_at _ _ _ f2, if_pos rfl]
      show ((lits.set 1 kvr.2.2).set kvr.1 lit).length = lits.length
      simp
    have htab : asymWatches lit { st with
        s := (st.s.setClause w.clause
          { st.s.clauseAt w.clause with
            literals := (lits.set 1 kvr.2.2).set kvr.1 lit, pos := kvr.1 }).watch_literal
              kvr.2.2 lit w.clause } rest =
        (fun x => if x = lit then st.kept ++ rest else
          (fun x => if x = kvr.2.2 then
            st.s.wtab kvr.2.2 ++ [⟨w.clause, lit, lits.length⟩] else st.s.wtab x) x) := by
      funext x
      unfold asymWatches watch_literal
      simp only
      rw [hsize]
      rfl
    refine ⟨?_, ?_, clInv_congr hfin m1, sameClauses_trans h1.2.2.2.1
      (sameClauses_trans m4 (sameClauses_congr hfin)), h.2.2.2.2⟩
    · rw [htab]
      exact winv_congr hfin m2
    · rw [htab]
      exact wcomplete_congr hfin m3
  split
  · rename_i hv1 hv0 hu
    exact asymInv_keep h1 _ w rfl (asymInv_head_ok h1) rfl rfl rfl
      (assumeFalse_neg_keeps _ lit other h.2.2.2.2 hu)
  · exact asymInv_keep h1 _ w rfl (asymInv_head_ok h1) rfl rfl rfl h.2.2.2.2

/-- One iteration of the loop of cover_propagate_asymmetric keeps the invariant of
the loop. -/
theorem asymWatch_inv {P : Nat → Prop} {lit : Int} (ignore : Nat) {s0 : Internal} {st : AsymState}
    {w : Watch} {rest : List Watch} (h : AsymInv P lit s0 st (w :: rest)) :
    AsymInv P lit s0 (asymWatch lit ignore w st) rest := by
  have hok := asymInv_head_ok h
  unfold asymWatch
  split
  · exact asymInv_keep h _ w rfl hok rfl rfl rfl h.2.2.2.2
  split
  · exact asymInv_keep h _ w rfl hok rfl rfl rfl h.2.2.2.2
  split
  · rename_i hg
    exact asymInv_drop h hg
  rename_i hi hbl hg
  have hg2 : (st.s.clauseAt w.clause).garbage = false := by simpa using hg
  split
  · unfold asymBinary
    split
    · exact asymInv_keep h _ w rfl hok rfl rfl rfl h.2.2.2.2
    · rename_i hb hneg
      have hu : st.s.vals w.blit = 0 := by
        have a : ¬ 0 < st.s.vals w.blit := hbl
        have b : ¬ st.s.vals w.blit < 0 := hneg
        omega
      exact asymInv_keep h _ w rfl hok rfl rfl rfl
        (assumeFalse_neg_keeps _ lit w.blit h.2.2.2.2 hu)
  · rename_i hb
    have hb2 : w.binary = false := by simpa using hb
    unfold asymLong
    split
    · obtain ⟨f1, f2, f3, f4, f5⟩ := long_watch_facts h.2.2.1 hok hg2 hb2
      have h1 := asymInv_reorder h hg2 hb2 (st.s.clauseAt w.clause).pos ⟨f4, f5⟩
        ⟨st.s.setClause w.clause { st.s.clauseAt w.clause with
            literals := swapWatched (st.s.clauseAt w.clause).literals
              (otherWatched (st.s.clauseAt w.clause).literals lit) lit },
          st.cv, st.kept, st.subsumed⟩
        rfl rfl
      exact asymInv_keep h1 _
        { w with blit := otherWatched (st.s.clauseAt w.clause).literals lit } rfl
        (wok_blit _ (asymInv_head_ok h1) hb2) rfl rfl rfl h.2.2.2.2
    · exact asymReplace_inv h hg2 hb2

/-- The watches kept by one iteration: the copy of the watch, possibly with another
blocking literal, or nothing. -/
theorem asymWatch_kept (lit : Int) (ignore : Nat) (w : Watch) (st : AsymState) :
    (asymWatch lit ignore w st).kept = st.kept ∨
    ∃ b, (asymWatch lit ignore w st).kept = st.kept ++ [{ w with blit := b }] := by
  unfold asymWatch
  split
  · exact Or.inr ⟨w.blit, rfl⟩
  split
  · exact Or.inr ⟨w.blit, rfl⟩
  split
  · exact Or.inl rfl
  split
  · unfold asymBinary
    split
    · exact Or.inr ⟨w.blit, rfl⟩
    · exact Or.inr ⟨w.blit, rfl⟩
  · unfold asymLong
    split
    · exact Or.inr ⟨_, rfl⟩
    · unfold asymReplace
      split
      · exact Or.inr ⟨_, rfl⟩
      split
      · exact Or.inl rfl
      split
      · exact Or.inr ⟨w.blit, rfl⟩
      · exact Or.inr ⟨w.blit, rfl⟩

/-- The loop of cover_propagate_asymmetric keeps its invariant; the watches it did
not visit are a suffix of the list, empty unless the loop ended on subsumption, and the
watches kept watch clauses of the watches visited, in their order. -/
theorem asymLoop_inv (P : Nat → Prop) (lit : Int) (ignore : Nat) (s0 : Internal) :
    ∀ (ws : List Watch) (st : AsymState), AsymInv P lit s0 st ws →
      AsymInv P lit s0 (asymLoop lit ignore ws st).1 (asymLoop lit ignore ws st).2 ∧
      ((asymLoop lit ignore ws st).1.subsumed = false → (asymLoop lit ignore ws st).2 = []) ∧
      ∃ visited added, ws = visited ++ (asymLoop lit ignore ws st).2 ∧
        (asymLoop lit ignore ws st).1.kept = st.kept ++ added ∧
        (added.map Watch.clause).Sublist (visited.map Watch.clause) := by
  intro ws
  induction ws with
  | nil =>
    intro st h
    exact ⟨h, fun _ => rfl, [], [], rfl, by simp [asymLoop], List.Sublist.refl _⟩
  | cons w ws ih =>
    intro st h
    unfold asymLoop
    split
    · rename_i hs
      refine ⟨h, ?_, [], [], rfl, by simp, List.Sublist.refl _⟩
      intro hf
      rw [hs] at hf
      cases hf
    · obtain ⟨a, b, visited, added, c1, c2, c3⟩ := ih _ (asymWatch_inv ignore h)
      refine ⟨a, b, w :: visited, ?_⟩
      rcases asymWatch_kept lit ignore w st with hk | ⟨bl, hk⟩
      · refine ⟨added, by rw [List.cons_append, ← c1], by rw [c2, hk], ?_⟩
        rw [List.map_cons]
        exact c3.cons _
      · refine ⟨{ w with blit := bl } :: added, by rw [List.cons_append, ← c1],
          by rw [c2, hk, List.append_assoc]; rfl, ?_⟩
        rw [List.map_cons, List.map_cons]
        exact c3.cons₂ _

end Internal

end CaDiCaL

namespace CaDiCaL

namespace Internal

theorem clauseAt_out {s : Internal} {D : Nat} (h : ¬ D < s.clauses.length) :
    s.clauseAt D = default := by
  unfold clauseAt
  rw [List.getD_eq_getElem?_getD, List.getElem?_eq_none (by omega)]
  rfl

theorem lookup_mem {α : Type} (tbl : List (Int × List α)) (x : Int) (ws : List α)
    (h : tbl.lookup x = some ws) : (x, ws) ∈ tbl := by
  induction tbl with
  | nil => cases h
  | cons e tbl ih =>
    obtain ⟨k, v⟩ := e
    by_cases hk : x = k
    · subst hk
      rw [List.lookup_cons, beq_self_eq_true] at h
      cases h
      exact List.mem_cons_self _ _
    · rw [List.lookup_cons, beq_false_of_ne hk] at h
      exact List.mem_cons_of_mem _ (ih h)

/-- A watch table given by entries that pass the check satisfies the watch
invariant. -/
theorem watchInv_of_check (s : Internal) (tbl : List (Int × List Watch))
    (hwt : s.wtab = Examples.tableOf tbl) (h : WatchCheck s tbl) : WatchInv s := by
  obtain ⟨h1, h2, h3⟩ := h
  refine ⟨?_, ?_, ?_⟩
  · intro x
    rw [hwt]
    unfold Examples.tableOf
    cases hl : tbl.lookup x with
    | none => exact ⟨List.nodup_nil, fun w hm => by cases hm⟩
    | some ws => exact h1 (x, ws) (lookup_mem tbl x ws hl)
  · intro D _ hg hs
    have hD : D < s.clauses.length := by
      by_contra hc
      rw [clauseAt_out hc] at hs
      exact absurd hs (by decide)
    rw [hwt]
    exact h2 D hD hg hs
  · intro D
    by_cases hD : D < s.clauses.length
    · exact h3 D hD
    · rw [clauseAt_out hD]
      exact ⟨by decide, fun hc => absurd hc (by decide)⟩

/-- C23. Watch invariant under asymmetric propagation (R3): from a state that
satisfies the watch invariant I1 (with the invariants of the clause data the source
asserts) and a literal lit with val (lit) < 0, the state after
cover_propagate_asymmetric (lit, ignore, coveror) satisfies it again, whether the call
returns false or returns true on subsumption; every clause keeps its flags and its
literals up to their order; the watches of lit that the loop did not visit are all
still in the list of lit, behind the watches kept, which watch clauses of the watches
visited, and there is no unvisited watch when the call returns false. -/
theorem asym_watch_invariant (lit : Int) (ignore : Nat) (sc : Internal × Coveror)
    (hv : sc.1.val lit < 0) (hI : WatchInv sc.1) :
    WatchInv (cover_propagate_asymmetric lit ignore sc).2.1 ∧
    SameClauses sc.1 (cover_propagate_asymmetric lit ignore sc).2.1 ∧
    ((cover_propagate_asymmetric lit ignore sc).1 = false →
      (asymLoop lit ignore (sc.1.watches lit)
        ⟨countCoverPropagation sc.1, sc.2, [], false⟩).2 = []) ∧
    ∃ visited kept,
      sc.1.watches lit = visited ++ (asymLoop lit ignore (sc.1.watches lit)
        ⟨countCoverPropagation sc.1, sc.2, [], false⟩).2 ∧
      (cover_propagate_asymmetric lit ignore sc).2.1.watches lit =
        kept ++ (asymLoop lit ignore (sc.1.watches lit)
          ⟨countCoverPropagation sc.1, sc.2, [], false⟩).2 ∧
      (kept.map Watch.clause).Sublist (visited.map Watch.clause) := by
  have htab : asymWatches lit ⟨countCoverPropagation sc.1, sc.2, [], false⟩
      (sc.1.watches lit) = sc.1.wtab := by
    funext x
    unfold asymWatches
    split
    · rename_i hx
      rw [hx]
      rfl
    · rfl
  have h0 : AsymInv (fun _ => True) lit sc.1 ⟨countCoverPropagation sc.1, sc.2, [], false⟩
      (sc.1.watches lit) := by
    unfold AsymInv
    rw [htab]
    exact ⟨winv_congr rfl hI.1, wcomplete_congr rfl hI.2.1, clInv_congr rfl hI.2.2,
      sameClauses_congr rfl, hv⟩
  obtain ⟨⟨a1, a2, a3, a4, _⟩, b, visited, added, c1, c2, c3⟩ :=
    asymLoop_inv _ lit ignore sc.1 _ _ h0
  unfold cover_propagate_asymmetric
  generalize asymLoop lit ignore (sc.1.watches lit)
    ⟨countCoverPropagation sc.1, sc.2, [], false⟩ = r at a1 a2 a3 a4 b c1 c2 c3
  have hfin : (asymFinish lit r).2.1.wtab = asymWatches lit r.1 r.2 := rfl
  have hcl : (asymFinish lit r).2.1.clauses = r.1.s.clauses := rfl
  refine ⟨⟨?_, ?_, clInv_congr hcl a3⟩, sameClauses_trans a4 (sameClauses_congr hcl), b,
    visited, added, c1, ?_, c3⟩
  · rw [hfin]
    exact winv_congr hcl a1
  · rw [hfin]
    exact wcomplete_congr hcl a2
  · show (asymFinish lit r).2.1.wtab lit = _
    rw [hfin]
    unfold asymWatches
    rw [if_pos rfl, c2]
    rfl

/-- Witness for C23: the propagation of the false literal 1 over the clauses (1 2 3),
(-1 2), which moves the watch of the first clause from 1 to 3. -/
theorem asym_watch_invariant_witness :
    WatchInv (cover_propagate_asymmetric 1 5 (Examples.watchedState, Coveror.init)).2.1 ∧
    SameClauses Examples.watchedState
      (cover_propagate_asymmetric 1 5 (Examples.watchedState, Coveror.init)).2.1 ∧
    ((cover_propagate_asymmetric 1 5 (Examples.watchedState, Coveror.init)).1 = false →
      (asymLoop 1 5 (Examples.watchedState.watches 1)
        ⟨countCoverPropagation Examples.watchedState, Coveror.init, [], false⟩).2 = []) ∧
    ∃ visited kept,
      Examples.watchedState.watches 1 = visited ++ (asymLoop 1 5
        (Examples.watchedState.watches 1)
        ⟨countCoverPropagation Examples.watchedState, Coveror.init, [], false⟩).2 ∧
      (cover_propagate_asymmetric 1 5 (Examples.watchedState, Coveror.init)).2.1.watches 1 =
        kept ++ (asymLoop 1 5 (Examples.watchedState.watches 1)
          ⟨countCoverPropagation Examples.watchedState, Coveror.init, [], false⟩).2 ∧
      (kept.map Watch.clause).Sublist (visited.map Watch.clause) :=
  asym_watch_invariant 1 5 (Examples.watchedState, Coveror.init) (by decide)
    (watchInv_of_check Examples.watchedState Examples.watchedTable rfl (by decide))

end Internal

end CaDiCaL

namespace CaDiCaL

namespace Internal

theorem asymFrame_refl (a : Internal) : AsymFrame a a := rfl

theorem asymFrame_trans {a b c : Internal} (h1 : AsymFrame a b) (h2 : AsymFrame b c) :
    AsymFrame a c := by
  unfold AsymFrame at *
  rw [h2, h1]

/-- One iteration of the loop of cover_propagate_asymmetric changes only values,
clauses, watches and, of the Coveror, the vector added. -/
theorem asymWatch_frame (lit : Int) (ignore : Nat) (w : Watch) (st : AsymState) :
    AsymFrame st.s (asymWatch lit ignore w st).s ∧
    (asymWatch lit ignore w st).cv =
      { st.cv with added := (asymWatch lit ignore w st).cv.added } := by
  unfold asymWatch
  split
  · exact ⟨rfl, rfl⟩
  split
  · exact ⟨rfl, rfl⟩
  split
  · exact ⟨rfl, rfl⟩
  split
  · unfold asymBinary
    split
    · exact ⟨rfl, rfl⟩
    · exact ⟨rfl, rfl⟩
  · unfold asymLong
    split
    · exact ⟨rfl, rfl⟩
    · unfold asymReplace
      split
      · exact ⟨rfl, rfl⟩
      split
      · exact ⟨rfl, rfl⟩
      split
      · exact ⟨rfl, rfl⟩
      · exact ⟨rfl, rfl⟩

theorem getD_of_mem {L : List Int} {y : Int} (h : y ∈ L) : ∃ i, i < L.length ∧ L.getD i 0 = y := by
  obtain ⟨i, hi, e⟩ := List.mem_iff_getElem.mp h
  refine ⟨i, hi, ?_⟩
  rw [List.getD_eq_getElem?_getD, List.getElem?_eq_getElem hi]
  exact e

/-- What one iteration of the loop of cover_propagate_asymmetric does to the values
and to the Coveror: nothing, or the asymmetric addition of the negation of an
unassigned literal other of a clause that is not the candidate, not garbage, and whose
literals apart from other are all false. -/
theorem asymWatch_cases {P : Nat → Prop} {lit : Int} {s0 : Internal} {st : AsymState}
    {w : Watch} {rest : List Watch} (ignore : Nat) (h : AsymInv P lit s0 st (w :: rest)) :
    ((asymWatch lit ignore w st).s.vals = st.s.vals ∧ (asymWatch lit ignore w st).cv = st.cv) ∨
    ∃ other, w.clause ≠ ignore ∧ (st.s.clauseAt w.clause).garbage = false ∧
      other ∈ (st.s.clauseAt w.clause).literals ∧ st.s.vals other = 0 ∧
      (∀ y ∈ (st.s.clauseAt w.clause).literals, y ≠ other → st.s.vals y < 0) ∧
      (asymWatch lit ignore w st).s.vals = (st.s.assumeFalse (-other)).vals ∧
      (asymWatch lit ignore w st).cv = { st.cv with added := st.cv.added ++ [-other] } := by
  have hok := asymInv_head_ok h
  have hvl := h.2.2.2.2
  unfold asymWatch
  split
  · exact Or.inl ⟨rfl, rfl⟩
  split
  · exact Or.inl ⟨rfl, rfl⟩
  split
  · exact Or.inl ⟨rfl, rfl⟩
  rename_i hi hbl hg
  have hg2 : (st.s.clauseAt w.clause).garbage = false := by simpa using hg
  split
  · rename_i hb
    unfold asymBinary
    split
    · exact Or.inl ⟨rfl, rfl⟩
    · rename_i hneg
      have hu : st.s.vals w.blit = 0 := by
        have a : ¬ 0 < st.s.vals w.blit := hbl
        have b : ¬ st.s.vals w.blit < 0 := hneg
        omega
      have hsz : w.size = 2 := by
        unfold Watch.binary at hb
        simpa using hb
      obtain ⟨o1, o2, o3⟩ := hok hg2
      have hlen : (st.s.clauseAt w.clause).literals.length = 2 := by
        rw [← hsz, o1]; rfl
      refine Or.inr ⟨w.blit, hi, hg2, ?_, hu, ?_, rfl, rfl⟩
      · rcases o3 with ⟨_, o⟩ | ⟨_, o⟩
        · rw [← o hsz]; exact getD_mem _ 1 (by omega)
        · rw [← o hsz]; exact getD_mem _ 0 (by omega)
      · intro y hy hne
        obtain ⟨i, hi2, e⟩ := getD_of_mem hy
        have hi01 : i = 0 ∨ i = 1 := by omega
        rcases o3 with ⟨oa, o⟩ | ⟨oa, o⟩
        · rcases hi01 with e0 | e1
          · rw [e0, oa] at e; rw [← e]; exact hvl
          · rw [e1, o hsz] at e; exact absurd e.symm hne
        · rcases hi01 with e0 | e1
          · rw [e0, o hsz] at e; exact absurd e.symm hne
          · rw [e1, oa] at e; rw [← e]; exact hvl
  · rename_i hb
    have hb2 : w.binary = false := by simpa using hb
    unfold asymLong
    split
    · exact Or.inl ⟨rfl, rfl⟩
    obtain ⟨f1, f2, f3, f4, f5⟩ := long_watch_facts h.2.2.1 hok hg2 hb2
    have hLlen : 3 ≤ (st.s.clauseAt w.clause).literals.length := f1
    obtain ⟨p1, p2, p3, p4, p5, p6⟩ := swapWatched_spec (st.s.clauseAt w.clause).literals lit
      (by omega) f3
    generalize hother : otherWatched (st.s.clauseAt w.clause).literals lit = other
      at p1 p2 p3 p4 p5 p6 ⊢
    generalize hlits : swapWatched (st.s.clauseAt w.clause).literals other lit = lits
      at p1 p2 p3 p4 p5 ⊢
    have hpos : (st.s.clauseAt w.clause).pos ≤ lits.length := by
      rw [p5]; exact f5
    obtain ⟨q1, q2, q3⟩ := findReplacement_spec st.s.vals lits (st.s.clauseAt w.clause).pos
      f4 hpos
    generalize hkvr : findReplacement st.s.vals lits (st.s.clauseAt w.clause).pos = kvr
      at q1 q2 q3 ⊢
    unfold asymReplace
    split
    · exact Or.inl ⟨rfl, rfl⟩
    split
    · exact Or.inl ⟨rfl, rfl⟩
    split
    · rename_i hv1 hv0 hu
      have hall : ∀ i, 2 ≤ i → i < lits.length → st.s.vals (lits.getD i 0) < 0 := by
        rcases q3 with ⟨_, q⟩ | ⟨q, _⟩
        · exact q
        · exfalso
          omega
      refine Or.inr ⟨other, hi, hg2, ?_, hu, ?_, rfl, rfl⟩
      · rw [← p1.mem_iff, ← p2]
        exact getD_mem _ 0 (by omega)
      · intro y hy hne
        obtain ⟨i, hi2, e⟩ := getD_of_mem (p1.mem_iff.mpr hy)
        by_cases h0 : i = 0
        · rw [h0, p2] at e; exact absurd e.symm hne
        by_cases h1 : i = 1
        · rw [h1, p3] at e; rw [← e]; exact hvl
        · rw [← e]; exact hall i (by omega) hi2
    · exact Or.inl ⟨rfl, rfl⟩

/-- The watched clauses after one iteration were watched before. -/
theorem asymWatch_watched (lit : Int) (ignore : Nat) (w : Watch) (st : AsymState)
    (rest : List Watch) (x : Int) (w3 : Watch)
    (hm : w3 ∈ asymWatches lit (asymWatch lit ignore w st) rest x) :
    ∃ x2, ∃ w4 ∈ asymWatches lit st (w :: rest) x2, w4.clause = w3.clause := by
  have hw : w ∈ asymWatches lit st (w :: rest) lit := by
    unfold asymWatches
    rw [if_pos rfl]
    exact List.mem_append_right _ (List.mem_cons_self _ _)
  have hkept : ∀ w5 ∈ (asymWatch lit ignore w st).kept ++ rest,
      ∃ x2, ∃ w4 ∈ asymWatches lit st (w :: rest) x2, w4.clause = w5.clause := by
    intro w5 h5
    rcases List.mem_append.mp h5 with h5 | h5
    · rcases asymWatch_kept lit ignore w st with hk | ⟨b, hk⟩
      · rw [hk] at h5
        refine ⟨lit, w5, ?_, rfl⟩
        unfold asymWatches
        rw [if_pos rfl]
        exact List.mem_append_left _ h5
      · rw [hk] at h5
        rcases List.mem_append.mp h5 with h5 | h5
        · refine ⟨lit, w5, ?_, rfl⟩
          unfold asymWatches
          rw [if_pos rfl]
          exact List.mem_append_left _ h5
        · rw [List.mem_singleton.mp h5]
          exact ⟨lit, w, hw, rfl⟩
    · refine ⟨lit, w5, ?_, rfl⟩
      unfold asymWatches
      rw [if_pos rfl]
      exact List.mem_append_right _ (List.mem_cons_of_mem _ h5)
  have hold : ∀ x3, x3 ≠ lit → ∀ w5 ∈ st.s.wtab x3,
      ∃ x2, ∃ w4 ∈ asymWatches lit st (w :: rest) x2, w4.clause = w5.clause := by
    intro x3 hx3 w5 h5
    refine ⟨x3, w5, ?_, rfl⟩
    unfold asymWatches
    rw [if_neg hx3]
    exact h5
  unfold asymWatches at hm
  by_cases hx : x = lit
  · rw [if_pos hx] at hm
    exact hkept w3 hm
  rw [if_neg hx] at hm
  have hsame : (asymWatch lit ignore w st).s.wtab = st.s.wtab → 
      ∃ x2, ∃ w4 ∈ asymWatches lit st (w :: rest) x2, w4.clause = w3.clause := by
    intro e
    rw [e] at hm
    exact hold x hx w3 hm
  revert hm hsame
  unfold asymWatch
  split
  · intro _ hs; exact hs rfl
  split
  · intro _ hs; exact hs rfl
  split
  · intro _ hs; exact hs rfl
  split
  · unfold asymBinary
    split
    · intro _ hs; exact hs rfl
    · intro _ hs; exact hs rfl
  · unfold asymLong
    split
    · intro _ hs; exact hs rfl
    · unfold asymReplace
      split
      · intro _ hs; exact hs rfl
      split
      · intro hm _
        have hm2 : w3 ∈ (if x = _ then _ ++ [_] else _) := hm
        split at hm2
        · rcases List.mem_append.mp hm2 with h5 | h5
          · rename_i hxr
            exact hold _ (hxr ▸ hx) w3 h5
          · rw [List.mem_singleton.mp h5]
            exact ⟨lit, w, hw, rfl⟩
        · exact hold x hx w3 hm2
      split
      · intro _ hs; exact hs rfl
      · intro _ hs; exact hs rfl

end Internal

end CaDiCaL

namespace CaDiCaL

namespace Internal

theorem allFrozen_of {s t : Internal} (hf : t.frozentab = s.frozentab) {D : Nat}
    (hm : ∀ l, l ∈ (t.clauseAt D).literals ↔ l ∈ (s.clauseAt D).literals) :
    AllFrozen t D = AllFrozen s D := by
  unfold AllFrozen
  have hfr : ∀ l, t.frozen l = s.frozen l := by
    intro l
    unfold frozen
    rw [hf]
  rw [Bool.eq_iff_iff, List.all_eq_true, List.all_eq_true]
  constructor
  · intro h l hl
    rw [← hfr]
    exact h l ((hm l).mpr hl)
  · intro h l hl
    rw [hfr]
    exact h l ((hm l).mp hl)

/-- The invariant of the occurrence lists depends only on the occurrence lists, the
freeze counters, the flags of the clauses and the sets of their literals. -/
theorem occInv_congr {s t : Internal} (hS : SameClauses s t) (ho : ∀ l D, D ∈ t.otab l ↔ D ∈ s.otab l)
    (hf : t.frozentab = s.frozentab) (h : OccInv s) : OccInv t := by
  constructor
  · intro l D hD
    obtain ⟨a, b⟩ := h.1 l D ((ho l D).mp hD)
    exact ⟨(sameClauses_mem hS D l).mpr a, by rw [sameClauses_redundant hS]; exact b⟩
  · intro l D hg hr hfz hl
    apply (ho l D).mpr
    apply h.2 l D
    · rw [← sameClauses_garbage hS]; exact hg
    · rw [← sameClauses_redundant hS]; exact hr
    · rw [← allFrozen_of hf (sameClauses_mem hS D)]; exact hfz
    · exact (sameClauses_mem hS D l).mp hl

theorem alaj_congr {s t : Internal} {c : Nat} {l : Int} (hS : SameClauses s t)
    (hv : ∀ y, s.vals y < 0 → t.vals y < 0) (h : ALAJ s c l) : ALAJ t c l := by
  obtain ⟨D, h1, h2, h3, h4, h5⟩ := h
  refine ⟨D, h1, ?_, ?_, (sameClauses_mem hS D _).mpr h4, ?_⟩
  · rw [sameClauses_garbage hS]; exact h2
  · rw [sameClauses_redundant hS]; exact h3
  · intro y hy hne
    exact hv y (h5 y ((sameClauses_mem hS D y).mp hy) hne)

theorem grow_neg {v v2 : Int → Int} (h : Grow v v2) (y : Int) (hy : v y < 0) : v2 y < 0 := by
  rw [h y (by omega)]
  exact hy

theorem grow_refl (v : Int → Int) : Grow v v := fun _ _ => rfl

/-- The assumption of an unassigned literal keeps the values of the assigned ones. -/
theorem grow_assumeFalse (s : Internal) (l : Int) (h0 : s.vals l = 0) (h1 : s.vals (-l) = 0) :
    Grow s.vals (s.assumeFalse l).vals := by
  intro y hy
  rw [assumeFalse_vals, if_neg, if_neg]
  · intro e
    rw [e] at hy
    exact hy h0
  · intro e
    rw [e] at hy
    exact hy h1

theorem sym_zero {v : Int → Int} (h : Sym v) {l : Int} (h0 : v l = 0) : v (-l) = 0 := by
  by_cases hl : l = 0
  · rw [hl]
    rw [hl] at h0
    exact h0
  · rw [h l hl, h0]
    rfl

/-- The invariant of the points of cover_clause depends only on the clauses, the
tables, the values, the marks and the freeze counters of the state and on the vectors
of the Coveror. -/
theorem pointInv_of_eq {c : Nat} {x y : Internal × Coveror} (h : PointInv c x)
    (h1 : y.1.clauses = x.1.clauses) (h2 : y.1.wtab = x.1.wtab) (h3 : y.1.vals = x.1.vals)
    (h4 : y.1.marks = x.1.marks) (h5 : y.1.otab = x.1.otab)
    (h6 : y.1.frozentab = x.1.frozentab) (h7 : y.2.added = x.2.added)
    (h8 : y.2.clause = x.2.clause) (h9 : y.2.covered = x.2.covered)
    (h10 : y.2.intersection = x.2.intersection) : PointInv c y := by
  have hS : SameClauses x.1 y.1 := sameClauses_congr h1
  refine ⟨?_, clInv_congr h1 h.clinv, ?_, ?_, ?_, ?_, ?_, ?_, ?_, ?_, ?_⟩
  · rw [h2]; exact winv_congr h1 h.winv
  · rw [h2]
    exact wirr_congr (fun D => by rw [clauseAt_congr h1]) h.wirr
  · rw [h3]; exact h.sym
  · rw [h4]; exact h.marks
  · rw [h10]; exact h.inter
  · rw [h7, h3]; exact h.added
  · exact occInv_congr hS (fun l D => by rw [h5]) h6 h.occ
  · rw [h8, h9]; exact h.nodup
  · rw [h8, h9, h7]; exact h.sub
  · rw [h7, h8, h9]
    intro l hl
    rcases h.just l hl with a | a
    · exact Or.inl a
    · exact Or.inr (alaj_congr hS (fun y hy => by rw [h3]; exact hy) a)

/-- One iteration of the loop of cover_propagate_asymmetric with the candidate c
ignored keeps the invariant of the points of cover_clause. -/
theorem pointInv_asymWatch (c : Nat) (lit : Int) (w : Watch) (st : AsymState)
    (rest : List Watch) (h : PointInv c (asymView lit st (w :: rest)))
    (hv : st.s.vals lit < 0) :
    PointInv c (asymView lit (asymWatch lit c w st) rest) ∧
      (asymWatch lit c w st).s.vals lit < 0 := by
  have hA : AsymInv (fun _ => False) lit st.s st (w :: rest) :=
    ⟨winv_congr rfl h.winv, fun _ hF => hF.elim, clInv_congr rfl h.clinv,
      sameClauses_refl _, hv⟩
  obtain ⟨a1, _, a3, a4, a5⟩ := asymWatch_inv c hA
  obtain ⟨hF, hcv⟩ := asymWatch_frame lit c w st
  have hcases := asymWatch_cases c hA
  have hsym : Sym st.s.vals := h.sym
  have hadd : ∀ l ∈ st.cv.added, st.s.vals l < 0 := h.added
  have hmarks : (asymWatch lit c w st).s.marks = st.s.marks := by
    have := congrArg Internal.marks hF
    exact this
  have hotab : (asymWatch lit c w st).s.otab = st.s.otab := by
    have := congrArg Internal.otab hF
    exact this
  have hfz : (asymWatch lit c w st).s.frozentab = st.s.frozentab := by
    have := congrArg Internal.frozentab hF
    exact this
  have hcl : (asymWatch lit c w st).cv.clause = st.cv.clause := by
    rw [hcv]
  have hco : (asymWatch lit c w st).cv.covered = st.cv.covered := by
    rw [hcv]
  have hin : (asymWatch lit c w st).cv.intersection = st.cv.intersection := by
    rw [hcv]
  have hwin : w ∈ asymWatches lit st (w :: rest) lit := by
    unfold asymWatches
    rw [if_pos rfl]
    exact List.mem_append_right _ (List.mem_cons_self _ _)
  have hgrow : Grow st.s.vals (asymWatch lit c w st).s.vals ∧
      (∀ l ∈ (asymWatch lit c w st).cv.added, (asymWatch lit c w st).s.vals l < 0) ∧
      (∀ l ∈ st.cv.added, l ∈ (asymWatch lit c w st).cv.added) ∧
      (∀ l ∈ (asymWatch lit c w st).cv.added, l ∈ st.cv.added ∨
        ALAJ (asymWatch lit c w st).s c l) := by
    rcases hcases with ⟨e1, e2⟩ | ⟨other, b1, b2, b3, b4, b5, b6, b7⟩
    · rw [e1, e2]
      exact ⟨grow_refl _, hadd, fun l hl => hl, fun l hl => Or.inl hl⟩
    · have hne : other ≠ 0 := by
        intro e
        rw [e] at b3
        exact (h.clinv w.clause).1.2 b3
      have hg : Grow st.s.vals (asymWatch lit c w st).s.vals := by
        rw [b6]
        exact grow_assumeFalse st.s (-other) (sym_zero hsym b4) (by rw [neg_neg]; exact b4)
      have hnew : (asymWatch lit c w st).s.vals (-other) < 0 := by
        rw [b6, assumeFalse_vals, if_neg, if_pos rfl]
        · decide
        · rw [neg_neg]
          intro e
          apply hne
          omega
      refine ⟨hg, ?_, ?_, ?_⟩
      · rw [b7]
        intro l hl
        rcases List.mem_append.mp hl with hl | hl
        · exact grow_neg hg l (hadd l hl)
        · rw [List.mem_singleton.mp hl]; exact hnew
      · rw [b7]
        intro l hl
        exact List.mem_append_left _ hl
      · rw [b7]
        intro l hl
        rcases List.mem_append.mp hl with hl | hl
        · exact Or.inl hl
        · right
          rw [List.mem_singleton.mp hl]
          refine ⟨w.clause, b1, ?_, ?_, ?_, ?_⟩
          · rw [sameClauses_garbage a4]; exact b2
          · rw [sameClauses_redundant a4]
            exact h.wirr lit w hwin
          · rw [neg_neg]
            exact (sameClauses_mem a4 _ _).mpr b3
          · intro y hy hyne
            rw [neg_neg] at hyne
            exact grow_neg hg y (b5 y ((sameClauses_mem a4 _ _).mp hy) hyne)
  obtain ⟨g1, g2, g3, g4⟩ := hgrow
  refine ⟨⟨winv_congr rfl a1, clInv_congr rfl a3, ?_, sym_asymWatch lit c w st hsym, ?_, ?_,
    g2, ?_, ?_, ?_, ?_⟩, a5⟩
  · intro x w3 hm
    obtain ⟨x2, w4, hm4, e⟩ := asymWatch_watched lit c w st rest x w3 hm
    show ((asymWatch lit c w st).s.clauseAt w3.clause).redundant = false
    rw [sameClauses_redundant a4, ← e]
    exact h.wirr x2 w4 hm4
  · intro v
    show (asymWatch lit c w st).s.marks v = 0
    rw [hmarks]
    exact h.marks v
  · show (asymWatch lit c w st).cv.intersection = []
    rw [hin]
    exact h.inter
  · exact occInv_congr (s := (asymView lit st (w :: rest)).1) a4
      (fun l D => by
        show D ∈ (asymWatch lit c w st).s.otab l ↔ D ∈ st.s.otab l
        rw [hotab]) hfz h.occ
  · show ((asymWatch lit c w st).cv.clause ++ (asymWatch lit c w st).cv.covered).Nodup
    rw [hcl, hco]
    exact h.nodup
  · show ∀ l ∈ (asymWatch lit c w st).cv.clause ++ (asymWatch lit c w st).cv.covered,
      l ∈ (asymWatch lit c w st).cv.added
    rw [hcl, hco]
    intro l hl
    exact g3 l (h.sub l hl)
  · show ∀ l ∈ (asymWatch lit c w st).cv.added,
      l ∈ (asymWatch lit c w st).cv.clause ++ (asymWatch lit c w st).cv.covered ∨
        ALAJ (asymView lit (asymWatch lit c w st) rest).1 c l
    rw [hcl, hco]
    intro l hl
    rcases g4 l hl with a | a
    · rcases h.just l a with b | b
      · exact Or.inl b
      · exact Or.inr (alaj_congr (s := (asymView lit st (w :: rest)).1) a4
          (fun y hy => grow_neg g1 y hy) b)
    · exact Or.inr (alaj_congr (sameClauses_congr rfl) (fun y hy => hy) a)

/-- The loop of cover_propagate_asymmetric keeps the invariant of the points of
cover_clause. -/
theorem pointInv_asymLoop (c : Nat) (lit : Int) :
    ∀ (ws : List Watch) (st : AsymState), PointInv c (asymView lit st ws) →
      st.s.vals lit < 0 →
      PointInv c (asymView lit (asymLoop lit c ws st).1 (asymLoop lit c ws st).2) := by
  intro ws
  induction ws with
  | nil => intro st h _; exact h
  | cons w ws ih =>
    intro st h hv
    unfold asymLoop
    split
    · exact h
    · obtain ⟨a, b⟩ := pointInv_asymWatch c lit w st ws h hv
      exact ih _ a b

/-- The call cover_propagate_asymmetric (lit, c, coveror) on a false literal keeps the
invariant of the points of cover_clause. -/
theorem pointInv_asymmetric (c : Nat) (lit : Int) (sc : Internal × Coveror)
    (h : PointInv c sc) (hv : sc.1.vals lit < 0) :
    PointInv c (cover_propagate_asymmetric lit c sc).2 := by
  have htab : asymWatches lit ⟨countCoverPropagation sc.1, sc.2, [], false⟩
      (sc.1.watches lit) = sc.1.wtab := by
    funext x
    unfold asymWatches
    split
    · rename_i hx
      rw [hx]
      rfl
    · rfl
  have h0 : PointInv c (asymView lit ⟨countCoverPropagation sc.1, sc.2, [], false⟩
      (sc.1.watches lit)) :=
    pointInv_of_eq h rfl htab rfl rfl rfl rfl rfl rfl rfl rfl
  exact pointInv_asymLoop c lit _ _ h0 hv

end Internal

end CaDiCaL

namespace CaDiCaL

namespace Internal

theorem valFrame_refl (a : Internal) : ValFrame a a := rfl

theorem valFrame_trans {a b c : Internal} (h1 : ValFrame a b) (h2 : ValFrame b c) :
    ValFrame a c := by
  unfold ValFrame at *
  rw [h2, h1]

theorem MarksOnly.valFrame {a b : Internal × Coveror} (h : MarksOnly a b) :
    ValFrame a.1 b.1 := by
  unfold ValFrame
  rw [h.1]

theorem valFrame_foldl_coveredAdd (I : List Int) : ∀ sc : Internal × Coveror,
    ValFrame sc.1 (I.foldl coveredAdd sc).1 := by
  induction I with
  | nil => intro sc; exact valFrame_refl _
  | cons a I ih =>
    intro sc
    rw [List.foldl_cons]
    exact valFrame_trans (show ValFrame sc.1 (coveredAdd sc a).1 from rfl) (ih _)

theorem valFrame_coveredFinish (lit : Int) (first : Bool) (sc : Internal × Coveror) :
    ValFrame sc.1 (coveredFinish lit first sc).2.1 := by
  unfold coveredFinish
  split
  · exact (coveredReset_marksOnly (sc.1, cover_push_extension lit sc.2)).valFrame
  split
  · exact (coveredReset_marksOnly sc).valFrame
  · have h1 : ValFrame sc.1 (covered_literal_addition lit sc).1 :=
      valFrame_foldl_coveredAdd sc.2.intersection (sc.1, cover_push_extension lit sc.2)
    exact valFrame_trans (valFrame_trans h1 (coveredReset_marksOnly _).valFrame)
      (coveredReset_marksOnly (coveredReset (covered_literal_addition lit sc))).valFrame

/-- The occurrence list left by the loop of cover_propagate_covered is a permutation
of the list it was given. -/
theorem coveredLoop_perm (lit : Int) (rest : List Nat) :
    ∀ (before : List Nat) (first : Bool) (sc : Internal × Coveror),
      (coveredLoop lit before rest first sc).2.2.Perm (before ++ rest) := by
  induction rest with
  | nil =>
    intro before first sc
    unfold coveredLoop
    simp
  | cons c rest ih =>
    intro before first sc
    have hstep : ∀ f2 sc2, (coveredLoop lit (before ++ [c]) rest f2 sc2).2.2.Perm
        (before ++ c :: rest) := by
      intro f2 sc2
      have := ih (before ++ [c]) f2 sc2
      rw [List.append_assoc] at this
      exact this
    have hbrk : (c :: before ++ rest).Perm (before ++ c :: rest) := by
      rw [List.cons_append]
      exact List.perm_middle.symm
    unfold coveredLoop
    split
    · exact hstep _ _
    split
    · exact hstep _ _
    split
    · split
      · exact hbrk
      · exact hstep _ _
    · split
      · exact hbrk
      · exact hstep _ _

/-- The call cover_propagate_covered leaves the clauses, the watches and the freeze
counters alone and permutes the occurrence list of -lit. -/
theorem covered_frame (lit : Int) (sc : Internal × Coveror) :
    (cover_propagate_covered lit sc).2.1.clauses = sc.1.clauses ∧
    (cover_propagate_covered lit sc).2.1.wtab = sc.1.wtab ∧
    (cover_propagate_covered lit sc).2.1.frozentab = sc.1.frozentab ∧
    ∀ l D, D ∈ (cover_propagate_covered lit sc).2.1.otab l ↔ D ∈ sc.1.otab l := by
  unfold cover_propagate_covered
  split
  · exact ⟨rfl, rfl, rfl, fun _ _ => Iff.rfl⟩
  · unfold coveredAfterLoop
    have h1 := (coveredLoop_marksOnly lit (sc.1.occs (-lit)) [] true
      (countCoverPropagation sc.1, sc.2)).valFrame
    have hp := coveredLoop_perm lit (sc.1.occs (-lit)) [] true
      (countCoverPropagation sc.1, sc.2)
    rw [List.nil_append] at hp
    generalize coveredLoop lit [] (sc.1.occs (-lit)) true (countCoverPropagation sc.1, sc.2) = r
      at h1 hp
    have h2 := valFrame_coveredFinish lit r.1
      ({ r.2.1.1 with otab := fun x => if x = -lit then r.2.2 else r.2.1.1.otab x }, r.2.1.2)
    generalize (coveredFinish lit r.1
      ({ r.2.1.1 with otab := fun x => if x = -lit then r.2.2 else r.2.1.1.otab x },
        r.2.1.2)).2.1 = q at h2
    unfold ValFrame at h1 h2
    simp only at h1 h2
    have e1 : q.clauses = sc.1.clauses := by rw [h2, h1]; rfl
    have e2 : q.wtab = sc.1.wtab := by rw [h2, h1]; rfl
    have e3 : q.frozentab = sc.1.frozentab := by rw [h2, h1]; rfl
    have e4 : q.otab = fun x => if x = -lit then r.2.2 else sc.1.otab x := by
      rw [h2]
      show (fun x => if x = -lit then r.2.2 else r.2.1.1.otab x) = _
      rw [h1]
      rfl
    refine ⟨e1, e2, e3, ?_⟩
    intro l D
    rw [e4]
    show D ∈ (if l = -lit then r.2.2 else sc.1.otab l) ↔ _
    split
    · rename_i hl
      rw [hl]
      exact hp.mem_iff
    · exact Iff.rfl

theorem distinctVars_nodup {L : List Int} (h : DistinctVars L) : L.Nodup :=
  List.Nodup.of_map _ h.1

/-- The call cover_propagate_covered (lit, coveror) at a point of cover_clause keeps
the invariant of the points. -/
theorem pointInv_covered (c : Nat) (lit : Int) (sc : Internal × Coveror)
    (h : PointInv c sc) : PointInv c (cover_propagate_covered lit sc).2 := by
  obtain ⟨f1, f2, f3, f4⟩ := covered_frame lit sc
  obtain ⟨K, k1, _, k3, k4, k5, k6⟩ := cover_propagate_covered_spec lit sc h.marks h.inter
    (fun D _ => (h.clinv D).1)
  have hS : SameClauses sc.1 (cover_propagate_covered lit sc).2.1 := sameClauses_congr f1
  have hK0 : ∀ l ∈ K, l ≠ 0 := by
    intro l hl e
    rw [e] at hl
    exact k5.2 hl
  have hgrow : Grow sc.1.vals (cover_propagate_covered lit sc).2.1.vals := by
    intro y hy
    apply k4 y
    intro l hl
    have h0 := (k6 l hl).2.2.1
    constructor
    · intro e
      rw [e] at hy
      exact hy h0
    · intro e
      rw [e] at hy
      exact hy (sym_zero h.sym h0)
  have hadded : (cover_propagate_covered lit sc).2.2.added = sc.2.added ++ K := by rw [k1]
  have hcov : (cover_propagate_covered lit sc).2.2.covered = sc.2.covered ++ K := by rw [k1]
  have hcl : (cover_propagate_covered lit sc).2.2.clause = sc.2.clause := by rw [k1]
  have hint : (cover_propagate_covered lit sc).2.2.intersection = sc.2.intersection := by
    rw [k1]
  refine ⟨?_, clInv_congr f1 h.clinv, ?_, sym_covered lit sc h.sym, k3, ?_, ?_, ?_, ?_, ?_, ?_⟩
  · rw [f2]; exact winv_congr f1 h.winv
  · rw [f2]
    exact wirr_congr (fun D => by rw [clauseAt_congr f1]) h.wirr
  · rw [hint]; exact h.inter
  · rw [hadded]
    intro l hl
    rcases List.mem_append.mp hl with hl | hl
    · exact grow_neg hgrow l (h.added l hl)
    · have := (k6 l hl).1
      show (cover_propagate_covered lit sc).2.1.val l < 0
      rw [this]
      decide
  · exact occInv_congr hS f4 f3 h.occ
  · rw [hcl, hcov, ← List.append_assoc]
    refine List.Nodup.append h.nodup (distinctVars_nodup k5) ?_
    intro l h1 h2
    have a := h.added l (h.sub l h1)
    have b : sc.1.vals l = 0 := (k6 l h2).2.2.1
    omega
  · rw [hcl, hcov, hadded, ← List.append_assoc]
    intro l hl
    rcases List.mem_append.mp hl with hl | hl
    · exact List.mem_append_left _ (h.sub l hl)
    · exact List.mem_append_right _ hl
  · rw [hcl, hcov, hadded, ← List.append_assoc]
    intro l hl
    rcases List.mem_append.mp hl with hl | hl
    · rcases h.just l hl with a | a
      · exact Or.inl (List.mem_append_left _ a)
      · exact Or.inr (alaj_congr hS (fun y hy => grow_neg hgrow y hy) a)
    · exact Or.inl (List.mem_append_right _ hl)

/-- A literal with a justification by asymmetric literal addition is never pushed:
its covered propagation meets the justifying clause, which is a resolution candidate
without an unassigned literal. -/
theorem alaj_no_push (c : Nat) (lit : Int) (sc : Internal × Coveror) (h : PointInv c sc)
    (hj : ALAJ sc.1 c lit) : coveredPushes lit sc = false := by
  obtain ⟨D, _, d2, d3, d4, d5⟩ := hj
  unfold coveredPushes
  by_cases hf : sc.1.frozen lit = true
  · rw [hf]; rfl
  have hf2 : sc.1.frozen lit = false := by simpa using hf
  rw [hf2]
  have hfD : AllFrozen sc.1 D = false := by
    unfold AllFrozen
    rw [Bool.eq_false_iff]
    intro hall
    have := List.all_eq_true.mp hall (-lit) d4
    have e : sc.1.frozen (-lit) = sc.1.frozen lit := by
      unfold frozen
      rw [Int.natAbs_neg]
    rw [e, hf2] at this
    cases this
  have hD : D ∈ sc.1.occs (-lit) := h.occ.2 (-lit) D d2 d3 hfD d4
  have hnb : ¬ Blocked (countCoverPropagation sc.1) lit D := by
    rintro ⟨other, ho, hne, hpos⟩
    have := d5 other ho hne
    have hpos2 : 0 < sc.1.vals other := hpos
    omega
  have hcand : Candidate (countCoverPropagation sc.1) lit D := ⟨d2, hnb⟩
  have hfirst := coveredLoop_first lit (sc.1.occs (-lit)) [] true
    (countCoverPropagation sc.1, sc.2)
  have hinv := coveredLoop_inv lit (countCoverPropagation sc.1, sc.2) (sc.1.occs (-lit)) [] true
    (countCoverPropagation sc.1, sc.2) (MarksOnly.refl _) (fun D2 _ => (h.clinv D2).1)
    (loopInv_of_zero h.marks h.inter (fun _ c2 hc2 => (by cases hc2)))
  rw [List.nil_append] at hinv
  generalize coveredLoop lit [] (sc.1.occs (-lit)) true (countCoverPropagation sc.1, sc.2) = r
    at hfirst hinv
  have h1 : r.1 = false := by
    rw [Bool.eq_false_iff]
    intro e
    exact hnb ((hfirst.mp e).2 D hD d2)
  rw [h1]
  obtain ⟨_, kk⟩ := hinv.2 h1
  have hempty : r.2.1.2.intersection = [] := by
    apply List.eq_nil_iff_forall_not_mem.mpr
    intro l hl
    obtain ⟨v0, vne, vall⟩ := kk l hl
    have hlD := vall D hD hcand
    have := d5 l hlD vne
    have v0b : sc.1.vals l = 0 := v0
    omega
  rw [hempty]
  rfl

/-- The assertion found of cover_push_extension at a point of cover_clause: when the
covered propagation of a literal of coveror.added calls cover_push_extension, the
literal occurs exactly once in coveror.clause followed by coveror.covered. -/
theorem pushes_found (c : Nat) (lit : Int) (sc : Internal × Coveror) (h : PointInv c sc)
    (hl : lit ∈ sc.2.added) (hp : coveredPushes lit sc = true) :
    (sc.2.clause ++ sc.2.covered).count lit = 1 := by
  rcases h.just lit hl with a | a
  · exact List.count_eq_one_of_mem h.nodup a
  · rw [alaj_no_push c lit sc h a] at hp
    cases hp

/-- The vector coveror.extend after cover_propagate_covered: the result of
cover_push_extension if it is called, unchanged otherwise. -/
theorem covered_extend (lit : Int) (sc : Internal × Coveror) :
    (cover_propagate_covered lit sc).2.2.extend =
      if coveredPushes lit sc = true then (cover_push_extension lit sc.2).extend
      else sc.2.extend := by
  unfold cover_propagate_covered coveredPushes
  by_cases hf : sc.1.frozen lit = true
  · rw [if_pos hf, hf]
    rfl
  have hf2 : sc.1.frozen lit = false := by simpa using hf
  rw [if_neg hf, hf2]
  have hmo := (coveredLoop_marksOnly lit (sc.1.occs (-lit)) [] true
    (countCoverPropagation sc.1, sc.2)).cv
  unfold coveredAfterLoop
  generalize coveredLoop lit [] (sc.1.occs (-lit)) true (countCoverPropagation sc.1, sc.2) = r
    at hmo
  obtain ⟨first, ⟨s1, cv1⟩, os⟩ := r
  simp only at hmo
  obtain ⟨m1, m2, m3, _⟩ := hmo
  have hpush : (cover_push_extension lit cv1).extend = (cover_push_extension lit sc.2).extend := by
    unfold cover_push_extension
    simp only
    rw [m1, m2, m3]
  unfold coveredFinish
  simp only [Bool.not_false, Bool.true_and]
  cases first
  · simp only [Bool.false_eq_true, if_false, Bool.false_or]
    cases hi : cv1.intersection.isEmpty
    · simp only [Bool.false_eq_true, if_false, Bool.not_false, if_true]
      have := (foldl_coveredAdd cv1.intersection
        ({ s1 with otab := fun x => if x = -lit then os else s1.otab x },
          cover_push_extension lit cv1)).1
      show (List.foldl coveredAdd _ cv1.intersection).2.extend = _
      rw [this]
      exact hpush
    · simp only [if_true, Bool.not_true, Bool.false_eq_true, if_false]
      exact m1
  · simp only [if_true, Bool.true_or]
    exact hpush

end Internal

end CaDiCaL

namespace CaDiCaL

namespace Internal

theorem sameLits_refl (s : Internal) : SameLits s s := fun _ => ⟨rfl, rfl, rfl, fun h => h⟩

theorem sameLits_trans {s t u : Internal} (h1 : SameLits s t) (h2 : SameLits t u) :
    SameLits s u := by
  intro D
  obtain ⟨a1, a2, a3, a4⟩ := h1 D
  obtain ⟨b1, b2, b3, b4⟩ := h2 D
  exact ⟨b1.trans a1, b2.trans a2, b3.trans a3, fun h => a4 (b4 h)⟩

theorem sameLits_congr {s t : Internal} (h : t.clauses = s.clauses) : SameLits s t := by
  intro D
  rw [clauseAt_congr h D]
  exact ⟨rfl, rfl, rfl, fun h => h⟩

theorem winv_lits {s t : Internal} (h : SameLits s t) {wt : Int → List Watch}
    (hw : WInv s wt) : WInv t wt := by
  intro x
  refine ⟨(hw x).1, ?_⟩
  intro w hm
  have hok := (hw x).2 w hm
  obtain ⟨a1, _, _, a4⟩ := h w.clause
  unfold WOK at hok ⊢
  unfold Clause.size at hok ⊢
  rw [a1]
  intro hg
  exact hok (a4 hg)

theorem clInv_lits {s t : Internal} (h : SameLits s t) (hc : ClInv s) : ClInv t := by
  intro D
  obtain ⟨a1, a2, _, _⟩ := h D
  have := hc D
  unfold Clause.size at this ⊢
  rw [a1, a2]
  exact this

theorem wirr_lits {s t : Internal} (h : SameLits s t) {wt : Int → List Watch}
    (hw : WIrr s wt) : WIrr t wt :=
  wirr_congr (fun D => (h D).2.2.1) hw

theorem occInv_lits {s t : Internal} (h : SameLits s t) (ho : t.otab = s.otab)
    (hf : t.frozentab = s.frozentab) (hi : OccInv s) : OccInv t := by
  have hmem : ∀ D l, l ∈ (t.clauseAt D).literals ↔ l ∈ (s.clauseAt D).literals := by
    intro D l
    rw [(h D).1]
  constructor
  · intro l D hD
    rw [ho] at hD
    obtain ⟨a, b⟩ := hi.1 l D hD
    exact ⟨(hmem D l).mpr a, by rw [(h D).2.2.1]; exact b⟩
  · intro l D hg hr hfz hl
    rw [ho]
    apply hi.2 l D ((h D).2.2.2 hg)
    · rw [← (h D).2.2.1]; exact hr
    · rw [← allFrozen_of hf (hmem D)]; exact hfz
    · exact (hmem D l).mp hl

/-- Writing flags through a clause pointer. -/
theorem sameLits_setClause (s : Internal) (c : Nat) (cl : Clause)
    (h1 : cl.literals = (s.clauseAt c).literals) (h2 : cl.pos = (s.clauseAt c).pos)
    (h3 : cl.redundant = (s.clauseAt c).redundant)
    (h4 : cl.garbage = false → (s.clauseAt c).garbage = false) :
    SameLits s (s.setClause c cl) := by
  intro D
  rw [clauseAt_setClause]
  split
  · rename_i h
    rw [h.1]
    exact ⟨h1, h2, h3, h4⟩
  · exact ⟨rfl, rfl, rfl, fun h => h⟩

theorem watch_clause_wtab (s : Internal) (c : Nat) (x : Int) :
    (s.watch_clause c).wtab x =
      if x = (s.clauseAt c).literals.getD 1 0 then
        (if (s.clauseAt c).literals.getD 1 0 = (s.clauseAt c).literals.getD 0 0 then
          s.wtab ((s.clauseAt c).literals.getD 0 0) ++
            [⟨c, (s.clauseAt c).literals.getD 1 0, (s.clauseAt c).size⟩]
         else s.wtab ((s.clauseAt c).literals.getD 1 0)) ++
          [⟨c, (s.clauseAt c).literals.getD 0 0, (s.clauseAt c).size⟩]
      else if x = (s.clauseAt c).literals.getD 0 0 then
        s.wtab ((s.clauseAt c).literals.getD 0 0) ++
          [⟨c, (s.clauseAt c).literals.getD 1 0, (s.clauseAt c).size⟩]
      else s.wtab x := rfl

/-- The watches of a list of distinct clauses with at least two literals of distinct
variables, added to a table that satisfies the watch invariant and watches none of
them. -/
theorem watch_fold_inv (s0 : Internal) : ∀ (cs : List Nat) (s : Internal), cs.Nodup →
    (∀ c ∈ cs, 2 ≤ (s0.clauseAt c).size ∧ DistinctVars (s0.clauseAt c).literals ∧
      (s0.clauseAt c).redundant = false) →
    s.clauses = s0.clauses →
    (∀ x, ((s.wtab x).map Watch.clause).Nodup ∧ ∀ w ∈ s.wtab x,
      w.clause ∉ cs ∧ WOK s0 x w ∧ (s0.clauseAt w.clause).redundant = false) →
    (cs.foldl watch_clause s).clauses = s0.clauses ∧
    ∀ x, (((cs.foldl watch_clause s).wtab x).map Watch.clause).Nodup ∧
      ∀ w ∈ (cs.foldl watch_clause s).wtab x,
        WOK s0 x w ∧ (s0.clauseAt w.clause).redundant = false := by
  intro cs
  induction cs with
  | nil =>
    intro s _ _ hc h
    exact ⟨hc, fun x => ⟨(h x).1, fun w hm => ((h x).2 w hm).2⟩⟩
  | cons c cs ih =>
    intro s hnd hgood hc h
    obtain ⟨hc1, hnd2⟩ := List.nodup_cons.mp hnd
    obtain ⟨g1, g2, g3⟩ := hgood c (List.mem_cons_self _ _)
    rw [List.foldl_cons]
    apply ih (s.watch_clause c) hnd2 (fun d hd => hgood d (List.mem_cons_of_mem _ hd)) hc
    have hcl : s.clauseAt c = s0.clauseAt c := clauseAt_congr hc c
    have hlen : 2 ≤ (s0.clauseAt c).literals.length := g1
    have h01 : (s0.clauseAt c).literals.getD 1 0 ≠ (s0.clauseAt c).literals.getD 0 0 :=
      distinctVars_getD_ne g2 (by omega) (by omega) (by omega)
    intro x
    rw [watch_clause_wtab, hcl, if_neg h01]
    have hnew0 : WOK s0 ((s0.clauseAt c).literals.getD 0 0)
        ⟨c, (s0.clauseAt c).literals.getD 1 0, (s0.clauseAt c).size⟩ := by
      unfold WOK
      intro _
      exact ⟨rfl, g1, Or.inl ⟨rfl, fun _ => rfl⟩⟩
    have hnew1 : WOK s0 ((s0.clauseAt c).literals.getD 1 0)
        ⟨c, (s0.clauseAt c).literals.getD 0 0, (s0.clauseAt c).size⟩ := by
      unfold WOK
      intro _
      exact ⟨rfl, g1, Or.inr ⟨rfl, fun _ => rfl⟩⟩
    have hstep : ∀ (y b : Int), WOK s0 y ⟨c, b, (s0.clauseAt c).size⟩ →
        ((s.wtab y ++ [Watch.mk c b (s0.clauseAt c).size]).map Watch.clause).Nodup ∧
        ∀ w ∈ s.wtab y ++ [Watch.mk c b (s0.clauseAt c).size],
          w.clause ∉ cs ∧ WOK s0 y w ∧ (s0.clauseAt w.clause).redundant = false := by
      intro y b hok
      constructor
      · rw [List.map_append, List.map_cons, List.map_nil]
        refine List.Nodup.append (h y).1 (List.nodup_singleton _) ?_
        intro d hd1 hd2
        obtain ⟨w, hm, e⟩ := List.mem_map.mp hd1
        rw [List.mem_singleton.mp hd2] at e
        apply ((h y).2 w hm).1
        rw [e]
        exact List.mem_cons_self _ _
      · intro w hm
        rcases List.mem_append.mp hm with hm | hm
        · obtain ⟨a, b2, c2⟩ := (h y).2 w hm
          exact ⟨fun hin => a (List.mem_cons_of_mem _ hin), b2, c2⟩
        · rw [List.mem_singleton.mp hm]
          exact ⟨hc1, hok, g3⟩
    split
    · rename_i hx
      rw [hx]
      exact hstep _ _ hnew1
    split
    · rename_i hx1 hx0
      rw [hx0]
      exact hstep _ _ hnew0
    · refine ⟨(h x).1, ?_⟩
      intro w hm
      obtain ⟨a, b2, c2⟩ := (h x).2 w hm
      exact ⟨fun hin => a (List.mem_cons_of_mem _ hin), b2, c2⟩

/-- The watches built by cover satisfy the watch invariant and watch irredundant
clauses only. -/
theorem connect_watches_inv (s : Internal) (hcl : ClInv s)
    (hsz : ∀ D, D < s.clauses.length → 2 ≤ (s.clauseAt D).size) :
    WInv s ((s.reset_watches).connect_watches true).wtab ∧
    WIrr s ((s.reset_watches).connect_watches true).wtab := by
  have hfold : (s.reset_watches).connect_watches true =
      (((List.range s.clauses.length).filter (fun c =>
        !(true && (s.clauseAt c).redundant) && !(s.clauseAt c).garbage &&
        decide ((s.clauseAt c).size = 2))) ++
       ((List.range s.clauses.length).filter (fun c =>
        !(true && (s.clauseAt c).redundant) && !(s.clauseAt c).garbage &&
        decide ((s.clauseAt c).size ≠ 2)))).foldl watch_clause (s.reset_watches) := by
    rw [List.foldl_append]
    rfl
  rw [hfold]
  have hnd : (((List.range s.clauses.length).filter (fun c =>
        !(true && (s.clauseAt c).redundant) && !(s.clauseAt c).garbage &&
        decide ((s.clauseAt c).size = 2))) ++
       ((List.range s.clauses.length).filter (fun c =>
        !(true && (s.clauseAt c).redundant) && !(s.clauseAt c).garbage &&
        decide ((s.clauseAt c).size ≠ 2)))).Nodup := by
    refine List.Nodup.append ((List.nodup_range _).filter _) ((List.nodup_range _).filter _) ?_
    intro d h1 h2
    have a := (List.mem_filter.mp h1).2
    have b := (List.mem_filter.mp h2).2
    simp only [Bool.and_eq_true, decide_eq_true_eq] at a b
    exact b.2 a.2
  have hgood : ∀ c ∈ (((List.range s.clauses.length).filter (fun c =>
        !(true && (s.clauseAt c).redundant) && !(s.clauseAt c).garbage &&
        decide ((s.clauseAt c).size = 2))) ++
       ((List.range s.clauses.length).filter (fun c =>
        !(true && (s.clauseAt c).redundant) && !(s.clauseAt c).garbage &&
        decide ((s.clauseAt c).size ≠ 2)))),
      2 ≤ (s.clauseAt c).size ∧ DistinctVars (s.clauseAt c).literals ∧
        (s.clauseAt c).redundant = false := by
    intro c hc
    have hc2 : c < s.clauses.length ∧ (s.clauseAt c).redundant = false := by
      rcases List.mem_append.mp hc with hc | hc
      · have a := List.mem_filter.mp hc
        have b := a.2
        simp only [Bool.and_eq_true, Bool.true_and, Bool.not_eq_true'] at b
        exact ⟨List.mem_range.mp a.1, b.1.1⟩
      · have a := List.mem_filter.mp hc
        have b := a.2
        simp only [Bool.and_eq_true, Bool.true_and, Bool.not_eq_true'] at b
        exact ⟨List.mem_range.mp a.1, b.1.1⟩
    exact ⟨hsz c hc2.1, (hcl c).1, hc2.2⟩
  obtain ⟨_, h2⟩ := watch_fold_inv s _ (s.reset_watches) hnd hgood rfl
    (fun x => ⟨List.nodup_nil, fun w hm => (by cases hm)⟩)
  exact ⟨fun x => ⟨(h2 x).1, fun w hm => ((h2 x).2 w hm).1⟩, fun x w hm => ((h2 x).2 w hm).2⟩

theorem scheduledClause_lits (reset : Bool) (s : Internal) (D : Nat) :
    (scheduledClause reset s D).literals = (s.clauseAt D).literals ∧
    (scheduledClause reset s D).pos = (s.clauseAt D).pos ∧
    (scheduledClause reset s D).redundant = (s.clauseAt D).redundant ∧
    ((scheduledClause reset s D).garbage = false → (s.clauseAt D).garbage = false) := by
  unfold scheduledClause
  split
  · split
    · exact ⟨rfl, rfl, rfl, fun h => h⟩
    · exact ⟨rfl, rfl, rfl, fun h => h⟩
  split
  · exact ⟨rfl, rfl, rfl, fun h => (by cases h)⟩
  · exact ⟨rfl, rfl, rfl, fun h => h⟩

/-- The state in which the main loop of cover starts satisfies the invariant of the
main loop. -/
theorem mainInv_start (s : Internal) (hs : CoverStart s) :
    MainInv ((coverPrepare s).1, Coveror.init) := by
  obtain ⟨a1, _, _, _, ⟨reset, _, a6⟩, a7⟩ := coverPrepare_spec s hs.frozen
  obtain ⟨w1, w2⟩ := connect_watches_inv s hs.clinv hs.size
  generalize (coverPrepare s).1 = p at a1 a6 a7
  have hL : SameLits s p := by
    intro D
    rw [a6]
    exact scheduledClause_lits reset s D
  have hwt : p.wtab = ((s.reset_watches).connect_watches true).wtab := by
    rw [a1]
  have hvals : p.vals = s.vals := by rw [a1]
  have hmarks : p.marks = s.marks := by rw [a1]
  have hfz : p.frozentab = s.frozentab := by rw [a1]
  refine ⟨?_, clInv_lits hL hs.clinv, ?_, ?_, ?_, ?_, rfl, rfl, rfl, rfl, rfl⟩
  · show WInv p p.wtab
    rw [hwt]
    exact winv_lits hL w1
  · show WIrr p p.wtab
    rw [hwt]
    exact wirr_lits hL w2
  · show Sym p.vals
    rw [hvals]; exact hs.sym
  · intro v
    show p.marks v = 0
    rw [hmarks]; exact hs.marks v
  · show OccInv p
    have hmem : ∀ D l, l ∈ (p.clauseAt D).literals ↔ l ∈ (s.clauseAt D).literals := by
      intro D l
      rw [(hL D).1]
    constructor
    · intro l D hD
      obtain ⟨e1, e2⟩ := (a7 l D).mp hD
      refine ⟨(hmem D l).mpr e2, ?_⟩
      rw [(hL D).2.2.1]
      unfold Eligible at e1
      simp only [Bool.and_eq_true, decide_eq_true_eq, Bool.not_eq_true'] at e1
      exact e1.1.1.2
    · intro l D hg hr hfr hl
      apply (a7 l D).mpr
      have hl2 := (hmem D l).mp hl
      refine ⟨?_, hl2⟩
      have hD : D < s.clauses.length := by
        apply lt_length_of_literals_ne
        intro e
        rw [e] at hl2
        cases hl2
      have hr2 : (s.clauseAt D).redundant = false := by
        rw [← (hL D).2.2.1]; exact hr
      have hg2 : (s.clauseAt D).garbage = false := (hL D).2.2.2 hg
      have hfr2 : AllFrozen s D = false := by
        rw [← allFrozen_of hfz (hmem D)]; exact hfr
      by_contra hE
      have hE2 : Eligible s D = false := by simpa using hE
      have hsat : Satisfied s D = true := by
        unfold Eligible at hE2
        rw [hg2, hr2, hfr2] at hE2
        simpa [hD] using hE2
      have hgp : (p.clauseAt D).garbage = true := by
        rw [a6]
        unfold scheduledClause
        rw [hE2, hg2, hr2, hsat]
        simp [hD]
      rw [hg] at hgp
      cases hgp

end Internal

end CaDiCaL

namespace CaDiCaL

namespace Internal

theorem endFrame_refl (a : Internal) : EndFrame a a := rfl

theorem endFrame_trans {a b c : Internal} (h1 : EndFrame a b) (h2 : EndFrame b c) :
    EndFrame a c := by
  unfold EndFrame at *
  rw [h2, h1]

theorem endFrame_coverUnassign (added : List Int) : ∀ s : Internal,
    EndFrame s (coverUnassign s added) := by
  induction added with
  | nil => intro s; exact endFrame_refl _
  | cons a added ih =>
    intro s
    have e : coverUnassign s (a :: added) =
      coverUnassign { s with vals := setVal (setVal s.vals (-a) 0) a 0 } added := rfl
    rw [e]
    exact endFrame_trans (show EndFrame s { s with vals := setVal (setVal s.vals (-a) 0) a 0 }
      from rfl) (ih _)

theorem endFrame_coverReplay (ext : List Int) : ∀ (prev : Int) (s : Internal),
    EndFrame s (coverReplay ext prev s) := by
  induction ext with
  | nil => intro prev s; exact endFrame_refl _
  | cons other rest ih =>
    intro prev s
    unfold coverReplay
    refine endFrame_trans ?_ (ih _ _)
    split
    · split
      · rfl
      · rfl
    · split
      · rfl
      · rfl

theorem endFrame_coverCount (s : Internal) (cv : Coveror) : EndFrame s (coverCount s cv) := by
  unfold coverCount
  split <;> rfl

/-- The invariant of the main loop depends only on the tables, the values, the marks
and the freeze counters of the state and on the clauses up to their flags. -/
theorem mainInv_of {x y : Internal × Coveror} (h : MainInv x) (hL : SameLits x.1 y.1)
    (h2 : y.1.wtab = x.1.wtab) (h3 : Sym y.1.vals) (h4 : y.1.marks = x.1.marks)
    (h5 : y.1.otab = x.1.otab) (h6 : y.1.frozentab = x.1.frozentab)
    (h7 : y.2.added = [] ∧ y.2.clause = [] ∧ y.2.covered = [] ∧ y.2.extend = [] ∧
      y.2.intersection = []) : MainInv y := by
  refine ⟨?_, clInv_lits hL h.clinv, ?_, h3, ?_, occInv_lits hL h5 h6 h.occ, h7⟩
  · rw [h2]; exact winv_lits hL h.winv
  · rw [h2]; exact wirr_lits hL h.wirr
  · rw [h4]; exact h.marks

/-- The loop of cover_clause that assumes the unassigned literals of the candidate
establishes the invariant of the points. -/
theorem pointInv_coverAssume (c : Nat) (lits : List Int) : ∀ x : Internal × Coveror,
    (∀ l ∈ lits, l ≠ 0) → PointInv c x → x.2.covered = [] → x.2.added = x.2.clause →
    PointInv c (coverAssume lits x) ∧ (coverAssume lits x).2.covered = [] ∧
      (coverAssume lits x).2.added = (coverAssume lits x).2.clause := by
  induction lits with
  | nil => intro x _ h h1 h2; exact ⟨h, h1, h2⟩
  | cons lit lits ih =>
    intro x hne h hcov hadd
    unfold coverAssume
    split
    · rename_i h0
      have h0v : x.1.vals lit = 0 := h0
      have hl0 : lit ≠ 0 := hne lit (List.mem_cons_self _ _)
      have hg : Grow x.1.vals (x.1.assumeFalse lit).vals :=
        grow_assumeFalse x.1 lit h0v (sym_zero h.sym h0v)
      have hnew : (x.1.assumeFalse lit).vals lit < 0 := by
        rw [assumeFalse_vals, if_neg, if_pos rfl]
        · decide
        · intro e
          apply hl0
          omega
      have hnot : lit ∉ x.2.clause := by
        intro hin
        have := h.added lit (hadd ▸ hin)
        omega
      refine ih _ (fun l hl => hne l (List.mem_cons_of_mem _ hl)) ?_ hcov ?_
      swap
      · show x.2.added ++ [lit] = x.2.clause ++ [lit]
        rw [hadd]
      · refine ⟨winv_congr rfl h.winv, clInv_congr rfl h.clinv,
          wirr_congr (fun _ => rfl) h.wirr, sym_assumeFalse lit h.sym, h.marks, h.inter,
          ?_, occInv_congr (sameClauses_congr rfl) (fun _ _ => Iff.rfl) rfl h.occ, ?_, ?_, ?_⟩
        · show ∀ l ∈ x.2.added ++ [lit], (x.1.assumeFalse lit).vals l < 0
          intro l hl
          rcases List.mem_append.mp hl with hl | hl
          · exact grow_neg hg l (h.added l hl)
          · rw [List.mem_singleton.mp hl]; exact hnew
        · show ((x.2.clause ++ [lit]) ++ x.2.covered).Nodup
          rw [hcov, List.append_nil]
          have hn := h.nodup
          rw [hcov, List.append_nil] at hn
          exact List.Nodup.append hn (List.nodup_singleton _)
            (fun l h1 h2 => hnot (List.mem_singleton.mp h2 ▸ h1))
        · show ∀ l ∈ (x.2.clause ++ [lit]) ++ x.2.covered, l ∈ x.2.added ++ [lit]
          rw [hcov, List.append_nil, hadd]
          exact fun l hl => hl
        · show ∀ l ∈ x.2.added ++ [lit], l ∈ (x.2.clause ++ [lit]) ++ x.2.covered ∨ _
          rw [hcov, List.append_nil, hadd]
          exact fun l hl => Or.inl hl
    · exact ih x (fun l hl => hne l (List.mem_cons_of_mem _ hl)) h hcov hadd

/-- The state in which the loop of cover_clause starts in a state of the main loop
satisfies the invariant of the points. -/
theorem pointInv_loopStart (c : Nat) (sc1 : Internal × Coveror) (h1 : MainInv sc1) :
    PointInv c (loopStart c sc1) := by
  obtain ⟨e1, e2, e3, e4, e5⟩ := h1.empty
  have h0 : PointInv c ({ sc1.1 with level := 1 }, sc1.2) := by
    refine ⟨winv_congr rfl h1.winv, clInv_congr rfl h1.clinv, wirr_congr (fun _ => rfl) h1.wirr,
      h1.sym, h1.marks, e5, ?_,
      occInv_congr (sameClauses_congr rfl) (fun _ _ => Iff.rfl) rfl h1.occ, ?_, ?_, ?_⟩
    · show ∀ l ∈ sc1.2.added, _
      rw [e1]
      intro l hl
      cases hl
    · show (sc1.2.clause ++ sc1.2.covered).Nodup
      rw [e2, e3]
      exact List.nodup_nil
    · show ∀ l ∈ sc1.2.clause ++ sc1.2.covered, _
      rw [e2, e3]
      intro l hl
      cases hl
    · show ∀ l ∈ sc1.2.added, _
      rw [e1]
      intro l hl
      cases hl
  obtain ⟨a, _, _⟩ := pointInv_coverAssume c (sc1.1.clauseAt c).literals
    ({ sc1.1 with level := 1 }, sc1.2)
    (fun l hl e => (h1.clinv c).1.2 (e ▸ hl)) h0 e3 (by
      show sc1.2.added = sc1.2.clause
      rw [e1, e2])
  exact pointInv_of_eq a rfl rfl rfl rfl rfl rfl rfl rfl rfl rfl

/-- The state in which the loop of cover_clause starts satisfies the invariant of the
points. -/
theorem pointInv_start (c : Nat) (sc : Internal × Coveror) (h : MainInv sc) :
    PointInv c (loopStart c (sc.1.setClause c { sc.1.clauseAt c with covered := true }, sc.2)) :=
  pointInv_loopStart c _
    (mainInv_of h (sameLits_setClause sc.1 c _ rfl rfl rfl (fun hg => hg)) rfl h.sym rfl rfl rfl
      h.empty)

/-- Every point of the loop of cover_clause satisfies the invariant of the points. -/
theorem pointInv_loopPoint (c : Nat) (sc0 sc : Internal × Coveror) (h0 : PointInv c sc0)
    (hp : LoopPoint c sc0 sc) : PointInv c sc := by
  induction hp with
  | start => exact h0
  | asym x _ hlt ih =>
    have hm : x.2.added.getD x.2.next_asymmetric 0 ∈ x.2.added := getD_mem _ _ hlt
    exact pointInv_asymmetric c _ (x.1, { x.2 with next_asymmetric := x.2.next_asymmetric + 1 })
      (pointInv_of_eq ih rfl rfl rfl rfl rfl rfl rfl rfl rfl rfl) (ih.added _ hm)
  | covered x _ _ hlt ih =>
    exact pointInv_covered c _ (x.1, { x.2 with next_covered := x.2.next_covered + 1 })
      (pointInv_of_eq ih rfl rfl rfl rfl rfl rfl rfl rfl rfl rfl)

/-- The end of cover_clause re-establishes the invariant of the main loop. -/
theorem mainInv_coverFinish (c : Nat) (r : Bool × Internal × Coveror)
    (h : PointInv c r.2) : MainInv (coverFinish c r).2 := by
  have hmi : MainInv (r.2.1,
      { r.2.2 with
        covered := [], extend := [], clause := [], added := [] }) :=
    ⟨h.winv, h.clinv, h.wirr, h.sym, h.marks, h.occ, rfl, rfl, rfl, rfl, h.inter⟩
  unfold coverFinish
  cases hr : r.1
  · simp only [Bool.false_eq_true, if_false]
    have hf := endFrame_coverUnassign r.2.2.added r.2.1
    have hsym := sym_coverUnassign r.2.2.added r.2.1 h.sym
    generalize coverUnassign r.2.1 r.2.2.added = t at hf hsym
    unfold EndFrame at hf
    refine mainInv_of hmi (sameLits_congr ?_) ?_ hsym ?_ ?_ ?_ ⟨rfl, rfl, rfl, rfl, h.inter⟩
    · show t.clauses = _
      rw [hf]
    · show t.wtab = _
      rw [hf]
    · show t.marks = _
      rw [hf]
    · show t.otab = _
      rw [hf]
    · show t.frozentab = _
      rw [hf]
  · simp only [if_true]
    have hf0 := endFrame_coverCount r.2.1 r.2.2
    have hv0 := coverCount_vals r.2.1 r.2.2
    generalize coverCount r.2.1 r.2.2 = s1 at hf0 hv0
    have hf1 := endFrame_coverReplay r.2.2.extend (-2147483648) (s1.mark_garbage c)
    have hv1 := coverReplay_vals r.2.2.extend (-2147483648) (s1.mark_garbage c)
    generalize coverReplay r.2.2.extend (-2147483648) (s1.mark_garbage c) = s2 at hf1 hv1
    have hf2 := endFrame_coverUnassign r.2.2.added s2
    have hsym := sym_coverUnassign r.2.2.added s2 (by
      rw [hv1]
      show Sym s1.vals
      rw [hv0]
      exact h.sym)
    generalize coverUnassign s2 r.2.2.added = t at hf2 hsym
    unfold EndFrame at hf0 hf1 hf2
    have hL : SameLits r.2.1 t := by
      have a : SameLits r.2.1 s1 := sameLits_congr (by rw [hf0])
      have b : SameLits s1 (s1.mark_garbage c) :=
        sameLits_setClause s1 c _ rfl rfl rfl (fun hg => (by cases hg))
      have d : SameLits (s1.mark_garbage c) t := sameLits_congr (by rw [hf2, hf1])
      exact sameLits_trans (sameLits_trans a b) d
    refine mainInv_of hmi hL ?_ hsym ?_ ?_ ?_ ⟨rfl, rfl, rfl, rfl, h.inter⟩
    · show t.wtab = r.2.1.wtab
      rw [hf2, hf1]
      show s1.wtab = _
      rw [hf0]
    · show t.marks = r.2.1.marks
      rw [hf2, hf1]
      show s1.marks = _
      rw [hf0]
    · show t.otab = r.2.1.otab
      rw [hf2, hf1]
      show s1.otab = _
      rw [hf0]
    · show t.frozentab = r.2.1.frozentab
      rw [hf2, hf1]
      show s1.frozentab = _
      rw [hf0]

/-- A call of cover_clause from the main loop keeps the invariant of the main loop. -/
theorem mainInv_step (c : Nat) (sc : Internal × Coveror) (r : Bool × Internal × Coveror)
    (h : MainInv sc)
    (hr : cover_clause c (sc.1.setClause c { sc.1.clauseAt c with covered := true }, sc.2) =
      some r) : MainInv r.2 := by
  have hp := pointInv_start c sc h
  have h1 : MainInv (sc.1.setClause c { sc.1.clauseAt c with covered := true }, sc.2) :=
    mainInv_of h (sameLits_setClause sc.1 c _ rfl rfl rfl (fun hg => hg)) rfl h.sym rfl rfl rfl
      h.empty
  generalize (sc.1.setClause c { sc.1.clauseAt c with covered := true }, sc.2) = sc1
    at hr hp h1
  rw [cover_clause_eq] at hr
  split at hr
  · cases hr
    exact mainInv_of h1 (sameLits_setClause sc1.1 c _ rfl rfl rfl (fun hg => (by cases hg)))
      rfl h1.sym rfl rfl rfl h1.empty
  · cases hl : coverLoop c (coverFuel sc1.1) (loopStart c sc1) with
    | none =>
      rw [hl] at hr
      cases hr
    | some r0 =>
      rw [hl] at hr
      cases hr
      have hpt := coverLoop_point c (loopStart c sc1) _ _ r0 LoopPoint.start hl
      exact mainInv_coverFinish c r0 (pointInv_loopPoint c _ _ hp hpt)

/-- Every state of the main loop of cover satisfies the invariant of the main loop. -/
theorem mainInv_mainPoint (s : Internal) (hs : CoverStart s) (x : Internal × Coveror)
    (hx : MainPoint s x) : MainInv x := by
  induction hx with
  | start => exact mainInv_start s hs
  | step sc c r _ hr ih => exact mainInv_step c sc r ih hr

/-- The result of the main loop of cover is one of its states. -/
theorem coverMain_point (s : Internal) (env : Env) (limit : Int) :
    ∀ (schedule : List Nat) (sc : Internal × Coveror) (covered : Int) (tcalls : Nat)
      (r : Int × Internal × Coveror), MainPoint s sc →
      coverMain env limit schedule sc covered tcalls = some r → MainPoint s r.2 := by
  intro schedule
  induction schedule with
  | nil =>
    intro sc covered tcalls r hm h
    unfold coverMain at h
    cases h
    exact hm
  | cons c rest ih =>
    intro sc covered tcalls r hm h
    unfold coverMain at h
    split at h
    · cases h; exact hm
    split at h
    · cases h; exact hm
    · split at h
      · cases h
      · rename_i r1 hr1
        exact ih _ _ _ r (MainPoint.step sc c r1 hm hr1) h

/-- Every point of a run of cover satisfies the invariant of the points of its
kind. -/
theorem coverPoint_inv (s : Internal) (hs : CoverStart s) (x : Internal × Coveror)
    (hx : CoverPoint s x) : MainInv x ∨ ∃ c, PointInv c x := by
  rcases hx with hx | ⟨sc, c, hm, _, hp⟩
  · exact Or.inl (mainInv_mainPoint s hs x hx)
  · exact Or.inr ⟨c, pointInv_loopPoint c _ _
      (pointInv_start c sc (mainInv_mainPoint s hs sc hm)) hp⟩

/-- A start state given by a check of the clauses of the clause list. -/
theorem coverStart_of_bounded (s : Internal)
    (h : ∀ D < s.clauses.length, (s.clauseAt D).frozen = false ∧
      DistinctVars (s.clauseAt D).literals ∧ 2 ≤ (s.clauseAt D).size ∧
      (3 ≤ (s.clauseAt D).size →
        2 ≤ (s.clauseAt D).pos ∧ (s.clauseAt D).pos ≤ (s.clauseAt D).size))
    (hsym : Sym s.vals) (hm : ∀ v, s.marks v = 0) : CoverStart s := by
  refine ⟨?_, ?_, fun D hD => (h D hD).2.2.1, hsym, hm⟩
  · intro D
    by_cases hD : D < s.clauses.length
    · exact (h D hD).1
    · rw [clauseAt_out hD]; rfl
  · intro D
    by_cases hD : D < s.clauses.length
    · exact ⟨(h D hD).2.1, (h D hD).2.2.2⟩
    · rw [clauseAt_out hD]
      exact ⟨by decide, fun hc => absurd hc (by decide)⟩

end Internal

end CaDiCaL

namespace CaDiCaL

namespace Internal

/-- Counterexample to C26 as stated: in the run of cover on the clauses (1 2), (1 -2)
the first clause is eliminated, and in the state in which the main loop ends, before
the occurrence lists are reset, it is garbage and still in the occurrence list of its
literal 1. -/
theorem occs_invariant_counterexample :
    (coverMain Examples.env0
        (coverLimit
          (((coverUnits Examples.env0 (countCover Examples.twoBlocked)).reset_watches
            ).connect_watches true))
        (coverPrepare (coverUnits Examples.env0 (countCover Examples.twoBlocked))).2.reverse
        ((coverPrepare (coverUnits Examples.env0 (countCover Examples.twoBlocked))).1,
          Coveror.init) 0 1).map
      (fun r => (decide (0 ∈ r.2.1.occs 1), decide ((1 : Int) ∈ (r.2.1.clauseAt 0).literals),
        (r.2.1.clauseAt 0).garbage)) = some (true, true, true) := by
  decide!

/-- C26, amended. Occurrence-list invariant: at every point of a run of cover between
the construction of the occurrence lists and their reset (the states of the main loop
between two calls of cover_clause and the states between the calls of the propagators
inside cover_clause), every clause in the occurrence list of a literal is irredundant
and contains the literal, and every irredundant clause that is not garbage and has a
literal that is not frozen is in the occurrence list of each of its literals; the state
in which the main loop ends is such a point. An eliminated clause stays in the lists as
garbage. -/
theorem occs_invariant (s : Internal) (hs : CoverStart s) :
    (∀ x, CoverPoint s x →
      (∀ l D, D ∈ x.1.occs l →
        l ∈ (x.1.clauseAt D).literals ∧ (x.1.clauseAt D).redundant = false) ∧
      (∀ l D, (x.1.clauseAt D).garbage = false → (x.1.clauseAt D).redundant = false →
        AllFrozen x.1 D = false → l ∈ (x.1.clauseAt D).literals → D ∈ x.1.occs l)) ∧
    (∀ env limit covered tcalls r,
      coverMain env limit (coverPrepare s).2.reverse ((coverPrepare s).1, Coveror.init)
        covered tcalls = some r → CoverPoint s r.2) := by
  constructor
  · intro x hx
    rcases coverPoint_inv s hs x hx with h | ⟨c, h⟩
    · exact h.occ
    · exact h.occ
  · intro env limit covered tcalls r hr
    exact Or.inl (coverMain_point s env limit _ _ covered tcalls r MainPoint.start hr)

/-- Witness for C26: the run of cover on the clauses (1 2), (1 -2). -/
theorem occs_invariant_witness :
    (∀ x, CoverPoint Examples.twoBlocked x →
      (∀ l D, D ∈ x.1.occs l →
        l ∈ (x.1.clauseAt D).literals ∧ (x.1.clauseAt D).redundant = false) ∧
      (∀ l D, (x.1.clauseAt D).garbage = false → (x.1.clauseAt D).redundant = false →
        AllFrozen x.1 D = false → l ∈ (x.1.clauseAt D).literals → D ∈ x.1.occs l)) ∧
    (∀ env limit covered tcalls r,
      coverMain env limit (coverPrepare Examples.twoBlocked).2.reverse
        ((coverPrepare Examples.twoBlocked).1, Coveror.init)
        covered tcalls = some r → CoverPoint Examples.twoBlocked r.2) :=
  occs_invariant Examples.twoBlocked
    (coverStart_of_bounded Examples.twoBlocked (by decide) (fun _ _ => rfl) (fun _ => rfl))

/-- C21. Validity of the assertion found: in a run of cover, at every point of the
fixed-point loop of cover_clause at which the covered propagation of the next literal
lit of coveror.added calls cover_push_extension (lit, coveror), lit occurs exactly once
in coveror.clause followed by coveror.covered, so lit was not added by asymmetric
literal addition only; coveror.extend is then the result of that call. -/
theorem found_assertion (s : Internal) (hs : CoverStart s) (sc : Internal × Coveror)
    (c : Nat) (x : Internal × Coveror) (hm : MainPoint s sc)
    (hp : LoopPoint c
      (loopStart c (sc.1.setClause c { sc.1.clauseAt c with covered := true }, sc.2)) x)
    (hnc : x.2.next_covered < x.2.added.length)
    (hpush : coveredPushes (x.2.added.getD x.2.next_covered 0)
      (x.1, { x.2 with next_covered := x.2.next_covered + 1 }) = true) :
    (x.2.clause ++ x.2.covered).count (x.2.added.getD x.2.next_covered 0) = 1 ∧
    (cover_propagate_covered (x.2.added.getD x.2.next_covered 0)
      (x.1, { x.2 with next_covered := x.2.next_covered + 1 })).2.2.extend =
      (cover_push_extension (x.2.added.getD x.2.next_covered 0)
        { x.2 with next_covered := x.2.next_covered + 1 }).extend := by
  have hI := pointInv_loopPoint c _ _ (pointInv_start c sc (mainInv_mainPoint s hs sc hm)) hp
  constructor
  · exact pushes_found c _ (x.1, { x.2 with next_covered := x.2.next_covered + 1 })
      (pointInv_of_eq hI rfl rfl rfl rfl rfl rfl rfl rfl rfl rfl) (getD_mem _ _ hnc) hpush
  · rw [covered_extend, if_pos hpush]

/-- Witness for C21: cover_clause on the clause (1 -2) of (1 2), (1 -2); after the
asymmetric propagation of the two literals assumed, the covered propagation of 1 finds
no clause with -1 and pushes 1, which is in coveror.clause. -/
theorem found_assertion_witness :
    (Examples.loopTwo2.2.clause ++ Examples.loopTwo2.2.covered).count
      (Examples.loopTwo2.2.added.getD Examples.loopTwo2.2.next_covered 0) = 1 ∧
    (cover_propagate_covered
      (Examples.loopTwo2.2.added.getD Examples.loopTwo2.2.next_covered 0)
      (Examples.loopTwo2.1,
        { Examples.loopTwo2.2 with next_covered := Examples.loopTwo2.2.next_covered + 1 })
      ).2.2.extend =
      (cover_push_extension
        (Examples.loopTwo2.2.added.getD Examples.loopTwo2.2.next_covered 0)
        { Examples.loopTwo2.2 with
          next_covered := Examples.loopTwo2.2.next_covered + 1 }).extend :=
  found_assertion Examples.twoBlocked
    (coverStart_of_bounded Examples.twoBlocked (by decide) (fun _ _ => rfl) (fun _ => rfl))
    ((coverPrepare Examples.twoBlocked).1, Coveror.init) 1 Examples.loopTwo2
    MainPoint.start
    (LoopPoint.asym Examples.loopTwo1
      (LoopPoint.asym Examples.loopTwo0 LoopPoint.start (by decide!)) (by decide!))
    (by decide!) (by decide!)

end Internal

end CaDiCaL

namespace CaDiCaL

namespace Internal

theorem rem_congr {P : Nat → Prop} {s t : Internal} (h : SameClauses s t) (c : Nat)
    (τ : Int → Bool) (hr : Rem P s c τ) : Rem P t c τ := by
  intro D hD hP hg hred hne
  have hp := (h D).2
  obtain ⟨l, hl, ht⟩ := hr D hD hP (by rw [← sameClauses_garbage h]; exact hg)
    (by rw [← sameClauses_redundant h]; exact hred)
    (by
      intro e
      rw [e] at hp
      exact hne (List.Perm.eq_nil hp))
  exact ⟨l, hp.mem_iff.mpr hl, ht⟩

theorem sameClauses_symm {s t : Internal} (h : SameClauses s t) : SameClauses t s := by
  intro D
  obtain ⟨a, b⟩ := h D
  refine ⟨?_, b.symm⟩
  rw [a]

/-- What one iteration of the loop of cover_propagate_asymmetric does to the flag
subsumed: it sets it only for a clause other than the candidate, not garbage, all of
whose literals are false. -/
theorem asymWatch_subsumed {P : Nat → Prop} {lit : Int} {s0 : Internal} {st : AsymState}
    {w : Watch} {rest : List Watch} (ignore : Nat) (h : AsymInv P lit s0 st (w :: rest))
    (hs : (asymWatch lit ignore w st).subsumed = true) :
    st.subsumed = true ∨
      (w.clause ≠ ignore ∧ (st.s.clauseAt w.clause).garbage = false ∧
        (st.s.clauseAt w.clause).literals ≠ [] ∧
        (asymWatch lit ignore w st).s.vals = st.s.vals ∧
        ∀ y ∈ (st.s.clauseAt w.clause).literals, st.s.vals y < 0) := by
  have hok := asymInv_head_ok h
  have hvl := h.2.2.2.2
  revert hs
  unfold asymWatch
  split
  · intro hs; exact Or.inl hs
  split
  · intro hs; exact Or.inl hs
  split
  · intro hs; exact Or.inl hs
  rename_i hi hbl hg
  have hg2 : (st.s.clauseAt w.clause).garbage = false := by simpa using hg
  obtain ⟨o1, o2, o3⟩ := hok hg2
  have hne : (st.s.clauseAt w.clause).literals ≠ [] := by
    intro e
    have : (st.s.clauseAt w.clause).size = 0 := by
      unfold Clause.size
      rw [e]
      rfl
    omega
  split
  · rename_i hb
    unfold asymBinary
    split
    · rename_i hneg
      intro _
      have hsz : w.size = 2 := by
        unfold Watch.binary at hb
        simpa using hb
      have hlen : (st.s.clauseAt w.clause).literals.length = 2 := by
        rw [← hsz, o1]; rfl
      refine Or.inr ⟨hi, hg2, hne, rfl, ?_⟩
      intro y hy
      obtain ⟨i, hi2, e⟩ := getD_of_mem hy
      have hi01 : i = 0 ∨ i = 1 := by omega
      have hbv : st.s.vals w.blit < 0 := hneg
      rcases o3 with ⟨oa, o⟩ | ⟨oa, o⟩
      · rcases hi01 with e0 | e1
        · rw [e0, oa] at e; rw [← e]; exact hvl
        · rw [e1, o hsz] at e; rw [← e]; exact hbv
      · rcases hi01 with e0 | e1
        · rw [e0, o hsz] at e; rw [← e]; exact hbv
        · rw [e1, oa] at e; rw [← e]; exact hvl
    · intro hs; exact Or.inl hs
  · rename_i hb
    have hb2 : w.binary = false := by simpa using hb
    unfold asymLong
    split
    · intro hs; exact Or.inl hs
    rename_i hu0
    obtain ⟨f1, f2, f3, f4, f5⟩ := long_watch_facts h.2.2.1 hok hg2 hb2
    have hLlen : 3 ≤ (st.s.clauseAt w.clause).literals.length := f1
    obtain ⟨p1, p2, p3, p4, p5, p6⟩ := swapWatched_spec (st.s.clauseAt w.clause).literals lit
      (by omega) f3
    generalize hother : otherWatched (st.s.clauseAt w.clause).literals lit = other
      at p1 p2 p3 p4 p5 p6 hu0 ⊢
    generalize hlits : swapWatched (st.s.clauseAt w.clause).literals other lit = lits
      at p1 p2 p3 p4 p5 ⊢
    have hpos : (st.s.clauseAt w.clause).pos ≤ lits.length := by
      rw [p5]; exact f5
    obtain ⟨q1, q2, q3⟩ := findReplacement_spec st.s.vals lits (st.s.clauseAt w.clause).pos
      f4 hpos
    generalize hkvr : findReplacement st.s.vals lits (st.s.clauseAt w.clause).pos = kvr
      at q1 q2 q3 ⊢
    unfold asymReplace
    split
    · intro hs; exact Or.inl hs
    split
    · intro hs; exact Or.inl hs
    split
    · intro hs; exact Or.inl hs
    · rename_i hv1 hv0 hu
      intro _
      have hall : ∀ i, 2 ≤ i → i < lits.length → st.s.vals (lits.getD i 0) < 0 := by
        rcases q3 with ⟨_, q⟩ | ⟨q, _⟩
        · exact q
        · exfalso
          omega
      have hu1 : ¬ 0 < st.s.vals other := hu0
      have hu2 : ¬ st.s.vals other = 0 := hu
      refine Or.inr ⟨hi, hg2, hne, rfl, ?_⟩
      intro y hy
      obtain ⟨i, hi2, e⟩ := getD_of_mem (p1.mem_iff.mpr hy)
      by_cases h0 : i = 0
      · rw [h0, p2] at e; rw [← e]; omega
      by_cases h1 : i = 1
      · rw [h1, p3] at e; rw [← e]; exact hvl
      · rw [← e]; exact hall i (by omega) hi2

/-- One iteration of the loop of cover_propagate_asymmetric with the candidate c
ignored keeps the semantic invariant, and when it sets the flag subsumed a clause is
falsified. -/
theorem semInv_asymWatch (P : Nat → Prop) (R : Int → Int) (c : Nat) (lit : Int) (w : Watch) (st : AsymState)
    (rest : List Watch) (h : PointInv c (asymView lit st (w :: rest)))
    (hsem : SemInv P R c (asymView lit st (w :: rest))) (hv : st.s.vals lit < 0) :
    SemInv P R c (asymView lit (asymWatch lit c w st) rest) ∧
    ((asymWatch lit c w st).subsumed = true → st.subsumed = true ∨
      ∃ D, Falsified (asymView lit (asymWatch lit c w st) rest).1 c D ∧
        ((asymView lit (asymWatch lit c w st) rest).1.clauseAt D).redundant = false ∧
        P D) := by
  have hA : AsymInv (fun _ => False) lit st.s st (w :: rest) :=
    ⟨winv_congr rfl h.winv, fun _ hF => hF.elim, clInv_congr rfl h.clinv,
      sameClauses_refl _, hv⟩
  obtain ⟨a1, _, a3, a4, a5⟩ := asymWatch_inv c hA
  obtain ⟨hF, hcv⟩ := asymWatch_frame lit c w st
  have hcases := asymWatch_cases c hA
  have hcl : (asymWatch lit c w st).cv.clause = st.cv.clause := by rw [hcv]
  have hco : (asymWatch lit c w st).cv.covered = st.cv.covered := by rw [hcv]
  have hex : (asymWatch lit c w st).cv.extend = st.cv.extend := by rw [hcv]
  have hwin : w ∈ asymWatches lit st (w :: rest) lit := by
    unfold asymWatches
    rw [if_pos rfl]
    exact List.mem_append_right _ (List.mem_cons_self _ _)
  have hirr : (st.s.clauseAt w.clause).redundant = false := h.wirr lit w hwin
  have hremb : ∀ τ, Rem P (asymWatch lit c w st).s c τ → Rem P st.s c τ :=
    fun τ hr => rem_congr (sameClauses_symm a4) c τ hr
  have hremf : ∀ τ, Rem P st.s c τ → Rem P (asymWatch lit c w st).s c τ :=
    fun τ hr => rem_congr a4 c τ hr
  have hclo0 : ∀ τ, Consistent τ → Agree R τ → Rem P st.s c τ →
      (∀ l ∈ st.cv.clause ++ st.cv.covered, τ l = false) → ∀ y, st.s.vals y < 0 → τ y = false :=
    hsem.closure
  have hPw : P w.clause := hsem.watched lit w hwin
  constructor
  · refine ⟨?_, ?_, ?_, ?_, ?_⟩
    · intro x w3 hm
      obtain ⟨x2, w4, hm4, e⟩ := asymWatch_watched lit c w st rest x w3 hm
      rw [← e]
      exact hsem.watched x2 w4 hm4
    · show ∀ l ∈ (asymWatch lit c w st).cv.clause ++ (asymWatch lit c w st).cv.covered, l ≠ 0
      rw [hcl, hco]
      exact hsem.nz
    · show ∀ l ∈ (asymWatch lit c w st).cv.clause,
        l ∈ ((asymWatch lit c w st).s.clauseAt c).literals
      rw [hcl]
      intro l hl
      exact (sameClauses_mem a4 c l).mpr (hsem.clsub l hl)
    · show ∀ τ, Consistent τ → Agree R τ → Rem P (asymWatch lit c w st).s c τ →
        (∀ l ∈ (asymWatch lit c w st).cv.clause ++ (asymWatch lit c w st).cv.covered,
          τ l = false) → ∀ y, (asymWatch lit c w st).s.vals y < 0 → τ y = false
      rw [hcl, hco]
      intro τ hc hag hr hf
      have hold := hclo0 τ hc hag (hremb τ hr) hf
      rcases hcases with ⟨e1, e2⟩ | ⟨other, b1, b2, b3, b4, b5, b6, b7⟩
      · rw [e1]; exact hold
      · rw [b6]
        intro y hy
        rw [assumeFalse_vals] at hy
        split at hy
        · exact absurd hy (by decide)
        split at hy
        · rename_i _ e
          rw [e]
          have hne : other ≠ 0 := by
            intro e
            rw [e] at b3
            exact (h.clinv w.clause).1.2 b3
          have hnil : (st.s.clauseAt w.clause).literals ≠ [] := by
            intro e
            rw [e] at b3
            cases b3
          obtain ⟨l2, hl2, ht⟩ := hremb τ hr w.clause b1 hPw b2 hirr hnil
          have hl2o : l2 = other := by
            by_contra hne2
            have := hold l2 (b5 l2 hl2 hne2)
            rw [this] at ht
            cases ht
          rw [hl2o] at ht
          rw [hc.2 other hne, ht]
          rfl
        · exact hold y hy
    · obtain ⟨ps, p1, p2, p3⟩ := hsem.pushes
      refine ⟨ps, ?_, p2, ?_⟩
      · show (asymWatch lit c w st).cv.extend = _
        rw [hex]; exact p1
      · show ∀ τ, Consistent τ → Agree R τ → Rem P (asymWatch lit c w st).s c τ →
          (∃ l ∈ (asymWatch lit c w st).cv.clause ++ (asymWatch lit c w st).cv.covered,
            τ l = true) →
          Consistent (ps.foldr pushStep τ) ∧ Agree R (ps.foldr pushStep τ) ∧
          Rem P (asymWatch lit c w st).s c (ps.foldr pushStep τ) ∧
          ∃ l ∈ (asymWatch lit c w st).cv.clause, (ps.foldr pushStep τ) l = true
        rw [hcl, hco]
        intro τ hc hag hr hex2
        obtain ⟨q1, qa, q2, q3⟩ := p3 τ hc hag (hremb τ hr) hex2
        exact ⟨q1, qa, hremf _ q2, q3⟩
  · intro hs
    rcases asymWatch_subsumed c hA hs with h1 | ⟨b1, b2, b3, b4, b5⟩
    · exact Or.inl h1
    · right
      refine ⟨w.clause, ⟨b1, ?_, ?_, ?_⟩, ?_⟩
      · show ((asymWatch lit c w st).s.clauseAt w.clause).garbage = false
        rw [sameClauses_garbage a4]; exact b2
      · show ((asymWatch lit c w st).s.clauseAt w.clause).literals ≠ []
        intro e
        have hp := (a4 w.clause).2
        rw [e] at hp
        exact b3 (List.Perm.eq_nil hp.symm)
      · show ∀ y ∈ ((asymWatch lit c w st).s.clauseAt w.clause).literals,
          (asymWatch lit c w st).s.vals y < 0
        rw [b4]
        intro y hy
        exact b5 y ((sameClauses_mem a4 _ _).mp hy)
      · refine ⟨?_, hPw⟩
        show ((asymWatch lit c w st).s.clauseAt w.clause).redundant = false
        rw [sameClauses_redundant a4]; exact hirr

end Internal

end CaDiCaL

namespace CaDiCaL

namespace Internal

/-- The semantic invariant depends only on the clauses and the values of the state
and on the vectors of the Coveror. -/
theorem semInv_of_eq {P : Nat → Prop} {R : Int → Int} {c : Nat} {x y : Internal × Coveror} (h : SemInv P R c x)
    (h1 : y.1.clauses = x.1.clauses) (h2 : y.1.wtab = x.1.wtab) (h3 : y.1.vals = x.1.vals)
    (h8 : y.2.clause = x.2.clause)
    (h9 : y.2.covered = x.2.covered) (h10 : y.2.extend = x.2.extend) : SemInv P R c y := by
  have hS : SameClauses x.1 y.1 := sameClauses_congr h1
  have hS2 : SameClauses y.1 x.1 := sameClauses_symm hS
  refine ⟨?_, ?_, ?_, ?_, ?_⟩
  · rw [h2]; exact h.watched
  · rw [h8, h9]; exact h.nz
  · rw [h8, clauseAt_congr h1]; exact h.clsub
  · rw [h8, h9, h3]
    intro τ hc hag hr hf
    exact h.closure τ hc hag (rem_congr hS2 c τ hr) hf
  · obtain ⟨ps, p1, p2, p3⟩ := h.pushes
    refine ⟨ps, by rw [h10]; exact p1, p2, ?_⟩
    rw [h8, h9]
    intro τ hc hag hr hex
    obtain ⟨q1, qa, q2, q3⟩ := p3 τ hc hag (rem_congr hS2 c τ hr) hex
    exact ⟨q1, qa, rem_congr hS c _ q2, q3⟩

theorem asymLoop_stop (lit : Int) (ignore : Nat) (ws : List Watch) (st : AsymState)
    (h : st.subsumed = true) : asymLoop lit ignore ws st = (st, ws) := by
  cases ws with
  | nil => rfl
  | cons w ws =>
    unfold asymLoop
    rw [if_pos h]

/-- The loop of cover_propagate_asymmetric keeps the semantic invariant, and it ends
with the flag subsumed only when a clause is falsified. -/
theorem semInv_asymLoop (P : Nat → Prop) (R : Int → Int) (c : Nat) (lit : Int) :
    ∀ (ws : List Watch) (st : AsymState), PointInv c (asymView lit st ws) →
      SemInv P R c (asymView lit st ws) → st.s.vals lit < 0 → st.subsumed = false →
      SemInv P R c (asymView lit (asymLoop lit c ws st).1 (asymLoop lit c ws st).2) ∧
      ((asymLoop lit c ws st).1.subsumed = true →
        ∃ D, Falsified (asymView lit (asymLoop lit c ws st).1 (asymLoop lit c ws st).2).1 c D ∧
          ((asymView lit (asymLoop lit c ws st).1
            (asymLoop lit c ws st).2).1.clauseAt D).redundant = false ∧ P D) := by
  intro ws
  induction ws with
  | nil =>
    intro st _ hsem _ hs
    refine ⟨hsem, ?_⟩
    intro h
    have : (asymLoop lit c [] st).1.subsumed = st.subsumed := rfl
    rw [this, hs] at h
    cases h
  | cons w ws ih =>
    intro st h hsem hv hs
    obtain ⟨a, b⟩ := pointInv_asymWatch c lit w st ws h hv
    obtain ⟨a2, b2⟩ := semInv_asymWatch P R c lit w st ws h hsem hv
    have e : asymLoop lit c (w :: ws) st = asymLoop lit c ws (asymWatch lit c w st) := by
      show (if st.subsumed = true then _ else _) = _
      rw [if_neg (by rw [hs]; decide)]
    rw [e]
    by_cases h1 : (asymWatch lit c w st).subsumed = true
    · rw [asymLoop_stop lit c ws _ h1]
      refine ⟨a2, ?_⟩
      intro _
      rcases b2 h1 with h2 | h2
      · rw [hs] at h2
        cases h2
      · exact h2
    · exact ih _ a a2 b (by simpa using h1)

/-- The clauses after cover_propagate_asymmetric at a point of cover_clause are the
clauses before up to the order of their literals. -/
theorem sameClauses_asymmetric (c : Nat) (lit : Int) (sc : Internal × Coveror)
    (h : PointInv c sc) (hv : sc.1.vals lit < 0) :
    SameClauses sc.1 (cover_propagate_asymmetric lit c sc).2.1 := by
  have htab : asymWatches lit ⟨countCoverPropagation sc.1, sc.2, [], false⟩
      (sc.1.watches lit) = sc.1.wtab := by
    funext x
    unfold asymWatches
    split
    · rename_i hx
      rw [hx]
      rfl
    · rfl
  have h0 : AsymInv (fun _ => False) lit sc.1 ⟨countCoverPropagation sc.1, sc.2, [], false⟩
      (sc.1.watches lit) := by
    unfold AsymInv
    rw [htab]
    exact ⟨winv_congr rfl h.winv, fun _ hF => hF.elim, clInv_congr rfl h.clinv,
      sameClauses_congr rfl, hv⟩
  obtain ⟨⟨_, _, _, a4, _⟩, _⟩ := asymLoop_inv _ lit c sc.1 _ _ h0
  exact sameClauses_trans a4 (sameClauses_congr rfl)

/-- The call cover_propagate_asymmetric (lit, c, coveror) on a false literal keeps the
semantic invariant, and it returns true only when a clause is falsified. -/
theorem semInv_asymmetric (P : Nat → Prop) (R : Int → Int) (c : Nat) (lit : Int) (sc : Internal × Coveror)
    (h : PointInv c sc) (hsem : SemInv P R c sc) (hv : sc.1.vals lit < 0) :
    SemInv P R c (cover_propagate_asymmetric lit c sc).2 ∧
    ((cover_propagate_asymmetric lit c sc).1 = true →
      ∃ D, Falsified (cover_propagate_asymmetric lit c sc).2.1 c D ∧
        ((cover_propagate_asymmetric lit c sc).2.1.clauseAt D).redundant = false ∧ P D) := by
  have htab : asymWatches lit ⟨countCoverPropagation sc.1, sc.2, [], false⟩
      (sc.1.watches lit) = sc.1.wtab := by
    funext x
    unfold asymWatches
    split
    · rename_i hx
      rw [hx]
      rfl
    · rfl
  have h0 : PointInv c (asymView lit ⟨countCoverPropagation sc.1, sc.2, [], false⟩
      (sc.1.watches lit)) :=
    pointInv_of_eq h rfl htab rfl rfl rfl rfl rfl rfl rfl rfl
  have h1 : SemInv P R c (asymView lit ⟨countCoverPropagation sc.1, sc.2, [], false⟩
      (sc.1.watches lit)) :=
    semInv_of_eq hsem rfl htab rfl rfl rfl rfl
  exact semInv_asymLoop P R c lit _ _ h0 h1 hv rfl

/-- A falsified irredundant clause makes the covered clause a consequence of the other
clauses. -/
theorem taut_of_falsified (P : Nat → Prop) (R : Int → Int) (c : Nat) (x : Internal × Coveror)
    (hsem : SemInv P R c x) (D : Nat)
    (hD : Falsified x.1 c D) (hr : (x.1.clauseAt D).redundant = false) (hP : P D)
    (τ : Int → Bool)
    (hc : Consistent τ) (hag : Agree R τ) (hrem : Rem P x.1 c τ) :
    ∃ l ∈ x.2.clause ++ x.2.covered, τ l = true := by
  by_contra hno
  have hall : ∀ l ∈ x.2.clause ++ x.2.covered, τ l = false := by
    intro l hl
    cases ht : τ l
    · rfl
    · exact absurd ⟨l, hl, ht⟩ hno
  have hadd := hsem.closure τ hc hag hrem hall
  obtain ⟨d1, d2, d3, d4⟩ := hD
  obtain ⟨l, hl, ht⟩ := hrem D d1 hP d2 hr d3
  have := hadd l (d4 l hl)
  rw [this] at ht
  cases ht

/-- The end of the loop of cover_clause on subsumption. -/
theorem endInv_of_taut (P : Nat → Prop) (R : Int → Int) (c : Nat) (x : Internal × Coveror)
    (hsem : SemInv P R c x)
    (ht : ∀ τ, Consistent τ → Agree R τ → Rem P x.1 c τ →
      ∃ l ∈ x.2.clause ++ x.2.covered, τ l = true) :
    EndInv P R c x := by
  obtain ⟨ps, p1, p2, p3⟩ := hsem.pushes
  refine ⟨ps, p1, p2, ?_⟩
  intro τ hc hag hr
  obtain ⟨q1, qa, q2, l, hl, q3⟩ := p3 τ hc hag hr (ht τ hc hag hr)
  exact ⟨q1, qa, q2, l, hsem.clsub l hl, q3⟩

end Internal

end CaDiCaL

namespace CaDiCaL

namespace Internal

theorem prefixesOf_append (ps qs : List (Int × List Int × List Int)) :
    prefixesOf (ps ++ qs) = prefixesOf ps ++ prefixesOf qs := by
  induction ps with
  | nil => rfl
  | cons p ps ih =>
    show 0 :: p.1 :: (_ ++ _) ++ prefixesOf (ps ++ qs) = _
    rw [ih]
    show _ = (0 :: p.1 :: (_ ++ _) ++ prefixesOf ps) ++ prefixesOf qs
    simp

theorem push_extend_prefix (lit : Int) (cv : Coveror) :
    (cover_push_extension lit cv).extend =
      cv.extend ++ prefixesOf [(lit, cv.clause, cv.covered)] := by
  unfold cover_push_extension prefixesOf prefixesOf
  simp

theorem pushesOK_append {ps qs : List (Int × List Int × List Int)} (h1 : PushesOK ps)
    (h2 : PushesOK qs) : PushesOK (ps ++ qs) := by
  intro p hp
  rcases List.mem_append.mp hp with hp | hp
  · exact h1 p hp
  · exact h2 p hp

theorem mem_pushClause (p : Int × List Int × List Int) (hlit : p.1 ∈ p.2.1 ++ p.2.2) (l : Int) :
    l ∈ pushClause p ↔ l ∈ p.2.1 ++ p.2.2 := by
  unfold pushClause
  rw [List.mem_cons, ← List.filter_append, List.mem_filter]
  constructor
  · rintro (e | ⟨h, _⟩)
    · rw [e]; exact hlit
    · exact h
  · intro h
    by_cases e : l = p.1
    · exact Or.inl e
    · exact Or.inr ⟨h, by simpa using e⟩

/-- The reconstruction step of a block: if every clause with the negated witness
literal has another true literal whenever the block clause is falsified, the step keeps
the other clauses satisfied and satisfies the block clause. -/
theorem pushStep_sem (P : Nat → Prop) (R : Int → Int) (s : Internal) (c : Nat) (p : Int × List Int × List Int)
    (τ : Int → Bool) (hlit : p.1 ∈ p.2.1 ++ p.2.2) (hnz : p.1 ≠ 0) (hR : R p.1 = 0)
    (hc : Consistent τ) (hag : Agree R τ) (hrem : Rem P s c τ)
    (hflip : (∀ l ∈ p.2.1 ++ p.2.2, τ l = false) → ∀ D, D ≠ c →
      (s.clauseAt D).garbage = false → (s.clauseAt D).redundant = false →
      -p.1 ∈ (s.clauseAt D).literals →
      ∃ o ∈ (s.clauseAt D).literals, o ≠ -p.1 ∧ τ o = true) :
    Consistent (pushStep p τ) ∧ Agree R (pushStep p τ) ∧ Rem P s c (pushStep p τ) ∧
      ∃ l ∈ p.2.1 ++ p.2.2, pushStep p τ l = true := by
  unfold pushStep
  by_cases hany : (pushClause p).any τ = true
  · rw [if_pos hany]
    refine ⟨hc, hag, hrem, ?_⟩
    obtain ⟨l, hl, ht⟩ := List.any_eq_true.mp hany
    exact ⟨l, (mem_pushClause p hlit l).mp hl, ht⟩
  · rw [if_neg hany]
    have hall : ∀ l ∈ p.2.1 ++ p.2.2, τ l = false := by
      intro l hl
      cases ht : τ l
      · rfl
      · exact absurd (List.any_eq_true.mpr ⟨l, (mem_pushClause p hlit l).mpr hl, ht⟩) hany
    have hneg : -p.1 ≠ p.1 := by
      intro e
      apply hnz
      omega
    refine ⟨⟨?_, ?_⟩, ?_, ?_, ⟨p.1, hlit, by simp⟩⟩
    · show (if (0 : Int) = p.1 then true else if (0 : Int) = -p.1 then false else τ 0) = false
      rw [if_neg (fun e => hnz e.symm), if_neg (by
        intro e
        apply hnz
        omega)]
      exact hc.1
    · intro l hl
      show (if -l = p.1 then true else if -l = -p.1 then false else τ (-l)) =
        !(if l = p.1 then true else if l = -p.1 then false else τ l)
      by_cases e1 : l = p.1
      · rw [if_pos e1, e1, if_neg hneg, if_pos rfl]
        rfl
      by_cases e2 : l = -p.1
      · rw [if_neg e1, if_pos e2, e2, neg_neg, if_pos rfl]
        rfl
      · rw [if_neg e1, if_neg e2, if_neg (by
          intro e
          apply e2
          omega), if_neg (by
          intro e
          apply e1
          omega)]
        exact hc.2 l hl
    · intro y hy
      show (if y = p.1 then true else if y = -p.1 then false else τ y) = false
      rw [if_neg (by
        intro e
        rw [e, hR] at hy
        exact absurd hy (by decide))]
      split
      · rfl
      · exact hag y hy
    · intro D hD hP hg hr hne
      obtain ⟨l0, hl0, ht0⟩ := hrem D hD hP hg hr hne
      by_cases e : l0 = -p.1
      · rw [e] at hl0
        obtain ⟨o, ho, hone, hto⟩ := hflip hall D hD hg hr hl0
        refine ⟨o, ho, ?_⟩
        show (if o = p.1 then true else if o = -p.1 then false else τ o) = true
        rw [if_neg hone]
        split
        · rfl
        · exact hto
      · refine ⟨l0, hl0, ?_⟩
        show (if l0 = p.1 then true else if l0 = -p.1 then false else τ l0) = true
        rw [if_neg e]
        split
        · rfl
        · exact ht0

/-- The call cover_propagate_covered returns true only if lit is not frozen and every
clause in the occurrence list of -lit that is not garbage is blocked. -/
theorem covered_true_blocked (lit : Int) (sc : Internal × Coveror)
    (h : (cover_propagate_covered lit sc).1 = true) :
    sc.1.frozen lit = false ∧
      ∀ D ∈ sc.1.occs (-lit), (sc.1.clauseAt D).garbage = false → Blocked sc.1 lit D := by
  have hloop := coveredLoop_first lit (sc.1.occs (-lit)) [] true (countCoverPropagation sc.1, sc.2)
  unfold cover_propagate_covered at h
  by_cases hf : sc.1.frozen lit = true
  · rw [if_pos hf] at h
    cases h
  · rw [if_neg hf] at h
    unfold coveredAfterLoop at h
    rw [coveredFinish_fst, hloop] at h
    exact ⟨by simpa using hf, h.2⟩

theorem frozen_neg (s : Internal) (lit : Int) : s.frozen (-lit) = s.frozen lit := by
  unfold frozen
  rw [Int.natAbs_neg]

/-- The call cover_propagate_covered (lit, coveror) on a literal added keeps the
semantic invariant when it returns false, and when it returns true the blocks pushed
reconstruct the candidate. -/
theorem semInv_covered (P : Nat → Prop) (R : Int → Int) (c : Nat) (lit : Int) (sc : Internal × Coveror)
    (h : PointInv c sc) (hsem : SemInv P R c sc) (hvi : VInv R sc.1.vals sc.2.added)
    (hl : lit ∈ sc.2.added) :
    ((cover_propagate_covered lit sc).1 = false →
      SemInv P R c (cover_propagate_covered lit sc).2) ∧
    ((cover_propagate_covered lit sc).1 = true →
      EndInv P R c (cover_propagate_covered lit sc).2) := by
  by_cases hfz : sc.1.frozen lit = true
  · have e : cover_propagate_covered lit sc = (false, sc) := by
      unfold cover_propagate_covered
      rw [if_pos hfz]
    rw [e]
    exact ⟨fun _ => hsem, fun h2 => (by cases h2)⟩
  have hfz2 : sc.1.frozen lit = false := by simpa using hfz
  obtain ⟨f1, f2, _, _⟩ := covered_frame lit sc
  obtain ⟨K, k1, k2, _, k4, k5, k6⟩ := cover_propagate_covered_spec lit sc h.marks h.inter
    (fun D _ => (h.clinv D).1)
  have hext := covered_extend lit sc
  have hS : SameClauses sc.1 (cover_propagate_covered lit sc).2.1 := sameClauses_congr f1
  have hS2 := sameClauses_symm hS
  have hcov : (cover_propagate_covered lit sc).2.2.covered = sc.2.covered ++ K := by rw [k1]
  have hcl : (cover_propagate_covered lit sc).2.2.clause = sc.2.clause := by rw [k1]
  have hexs : (cover_propagate_covered lit sc).2.2.extend =
      if (cover_propagate_covered lit sc).1 = true ∨ K ≠ [] then
        (cover_push_extension lit sc.2).extend else sc.2.extend := by
    rw [k1]
  have hK0 : ∀ l ∈ K, l ≠ 0 := by
    intro l hl2 e
    rw [e] at hl2
    exact k5.2 hl2
  have hR : R lit = 0 := (hvi.2.2 lit hl).1
  -- the literal is in clause ++ covered whenever a block is pushed
  have hmem : (cover_propagate_covered lit sc).1 = true ∨ K ≠ [] →
      lit ∈ sc.2.clause ++ sc.2.covered := by
    intro hp
    rcases h.just lit hl with a | a
    · exact a
    · exfalso
      have hno := alaj_no_push c lit sc h a
      rw [hno] at hext
      rw [hexs, if_pos hp, push_extend_prefix] at hext
      simp only [Bool.false_eq_true, if_false] at hext
      have := congrArg List.length hext
      simp [prefixesOf] at this
  have hlit0 : lit ∈ sc.2.clause ++ sc.2.covered → lit ≠ 0 := fun hm => hsem.nz lit hm
  -- the false literals afterwards
  have hneg : ∀ y, (cover_propagate_covered lit sc).2.1.vals y < 0 →
      y ∈ K ∨ sc.1.vals y < 0 := by
    intro y hy
    by_cases hyK : y ∈ K
    · exact Or.inl hyK
    by_cases hyK2 : -y ∈ K
    · have := (k6 (-y) hyK2).2.1
      rw [neg_neg] at this
      have hy2 : (cover_propagate_covered lit sc).2.1.val y < 0 := hy
      rw [this] at hy2
      exact absurd hy2 (by decide)
    · have hfr := k4 y (fun l hl2 => ⟨fun e => hyK (e ▸ hl2), fun e => hyK2 (by
        rw [e, neg_neg]; exact hl2)⟩)
      have hy2 : (cover_propagate_covered lit sc).2.1.val y < 0 := hy
      rw [hfr] at hy2
      exact Or.inr hy2
  -- the condition of the flip, common to both kinds of push
  have hflip : ∀ τ, Consistent τ → Agree R τ → Rem P sc.1 c τ →
      ((cover_propagate_covered lit sc).1 = true ∨ ∃ k ∈ K, τ k = true) →
      (∀ l ∈ sc.2.clause ++ sc.2.covered, τ l = false) → ∀ D, D ≠ c →
      (sc.1.clauseAt D).garbage = false → (sc.1.clauseAt D).redundant = false →
      -lit ∈ (sc.1.clauseAt D).literals →
      ∃ o ∈ (sc.1.clauseAt D).literals, o ≠ -lit ∧ τ o = true := by
    intro τ hc hag hrem hcase hall D hD hg hr hm
    have hfD : AllFrozen sc.1 D = false := by
      unfold AllFrozen
      rw [Bool.eq_false_iff]
      intro hallf
      have := List.all_eq_true.mp hallf (-lit) hm
      rw [frozen_neg, hfz2] at this
      cases this
    have hocc : D ∈ sc.1.occs (-lit) := h.occ.2 (-lit) D hg hr hfD hm
    have hadd := hsem.closure τ hc hag hrem hall
    have hblocked : Blocked sc.1 lit D →
        ∃ o ∈ (sc.1.clauseAt D).literals, o ≠ -lit ∧ τ o = true := by
      rintro ⟨o, ho, hone, hpo⟩
      have ho0 : o ≠ 0 := by
        intro e
        rw [e] at ho
        exact (h.clinv D).1.2 ho
      have hno : sc.1.vals (-o) < 0 := by
        rw [h.sym o ho0]
        have : 0 < sc.1.vals o := hpo
        omega
      have hf := hadd (-o) hno
      have := hc.2 o ho0
      rw [hf] at this
      refine ⟨o, ho, hone, ?_⟩
      cases hto : τ o
      · rw [hto] at this
        cases this
      · rfl
    by_cases hB : Blocked sc.1 lit D
    · exact hblocked hB
    · rcases hcase with hres | ⟨k, hk, htk⟩
      · exact absurd ((covered_true_blocked lit sc hres).2 D hocc hg) hB
      · have hkD := (k6 k hk).2.2.2.2 D hocc ⟨hg, hB⟩
        exact ⟨k, hkD, (k6 k hk).2.2.2.1, htk⟩
  have hremb : ∀ τ, Rem P (cover_propagate_covered lit sc).2.1 c τ → Rem P sc.1 c τ :=
    fun τ hr => rem_congr hS2 c τ hr
  have hremf : ∀ τ, Rem P sc.1 c τ → Rem P (cover_propagate_covered lit sc).2.1 c τ :=
    fun τ hr => rem_congr hS c τ hr
  obtain ⟨ps, p1, p2, p3⟩ := hsem.pushes
  constructor
  · intro hres
    refine ⟨?_, ?_, ?_, ?_, ?_⟩
    · rw [f2]; exact hsem.watched
    · rw [hcl, hcov, ← List.append_assoc]
      intro l hl2
      rcases List.mem_append.mp hl2 with hl2 | hl2
      · exact hsem.nz l hl2
      · exact hK0 l hl2
    · rw [hcl, clauseAt_congr f1]
      exact hsem.clsub
    · rw [hcl, hcov, ← List.append_assoc]
      intro τ hc hag hr hf y hy
      rcases hneg y hy with hy | hy
      · exact hf y (List.mem_append_right _ hy)
      · exact hsem.closure τ hc hag (hremb τ hr)
          (fun l2 h2 => hf l2 (List.mem_append_left _ h2)) y hy
    · by_cases hK : K = []
      · refine ⟨ps, ?_, p2, ?_⟩
        · rw [hexs, if_neg (by
            rintro (a | a)
            · rw [hres] at a
              cases a
            · exact a hK)]
          exact p1
        · rw [hcl, hcov, hK, List.append_nil]
          intro τ hc hag hr hex2
          obtain ⟨q1, qa, q2, q3⟩ := p3 τ hc hag (hremb τ hr) hex2
          exact ⟨q1, qa, hremf _ q2, q3⟩
      · have hm := hmem (Or.inr hK)
        refine ⟨ps ++ [(lit, sc.2.clause, sc.2.covered)], ?_, ?_, ?_⟩
        · rw [hexs, if_pos (Or.inr hK), push_extend_prefix, prefixesOf_append, p1]
        · apply pushesOK_append p2
          intro p hp
          rw [List.mem_singleton.mp hp]
          exact ⟨hlit0 hm, fun l hl2 => hsem.nz l (List.mem_append_left _ hl2),
            fun l hl2 => hsem.nz l (List.mem_append_right _ hl2)⟩
        · rw [hcl, hcov, ← List.append_assoc]
          intro τ hc hag hr hex2
          rw [List.foldr_append]
          show Consistent (ps.foldr pushStep (pushStep (lit, sc.2.clause, sc.2.covered) τ)) ∧ _
          have hr0 := hremb τ hr
          obtain ⟨s1, sa, s2, s3⟩ := pushStep_sem P R sc.1 c (lit, sc.2.clause, sc.2.covered) τ hm
            (hlit0 hm) hR hc hag hr0 (by
              intro hall
              obtain ⟨l, hl2, ht⟩ := hex2
              rcases List.mem_append.mp hl2 with hl2 | hl2
              · rw [hall l hl2] at ht
                cases ht
              · exact hflip τ hc hag hr0 (Or.inr ⟨l, hl2, ht⟩) hall)
          obtain ⟨q1, qa, q2, q3⟩ := p3 _ s1 sa s2 s3
          exact ⟨q1, qa, hremf _ q2, q3⟩
  · intro hres
    have hm := hmem (Or.inl hres)
    refine ⟨ps ++ [(lit, sc.2.clause, sc.2.covered)], ?_, ?_, ?_⟩
    · rw [hexs, if_pos (Or.inl hres), push_extend_prefix, prefixesOf_append, p1]
    · apply pushesOK_append p2
      intro p hp
      rw [List.mem_singleton.mp hp]
      exact ⟨hlit0 hm, fun l hl2 => hsem.nz l (List.mem_append_left _ hl2),
        fun l hl2 => hsem.nz l (List.mem_append_right _ hl2)⟩
    · intro τ hc hag hr
      rw [List.foldr_append]
      show Consistent (ps.foldr pushStep (pushStep (lit, sc.2.clause, sc.2.covered) τ)) ∧ _
      have hr0 := hremb τ hr
      obtain ⟨s1, sa, s2, s3⟩ := pushStep_sem P R sc.1 c (lit, sc.2.clause, sc.2.covered) τ hm
        (hlit0 hm) hR hc hag hr0 (fun hall => hflip τ hc hag hr0 (Or.inl hres) hall)
      obtain ⟨q1, qa, q2, l, hl2, q3⟩ := p3 _ s1 sa s2 s3
      refine ⟨q1, qa, hremf _ q2, l, ?_, q3⟩
      rw [clauseAt_congr f1]
      exact hsem.clsub l hl2

end Internal

end CaDiCaL

namespace CaDiCaL

namespace Internal

theorem coverAssume_clauses (lits : List Int) : ∀ x : Internal × Coveror,
    (coverAssume lits x).1.clauses = x.1.clauses := by
  induction lits with
  | nil => intro x; rfl
  | cons lit lits ih =>
    intro x
    unfold coverAssume
    split
    · rw [ih]
      rfl
    · exact ih x

/-- The invariant of the assumption loop gives the semantic invariant of the points. -/
theorem semInv_of_assume {P : Nat → Prop} {R : Int → Int} {c : Nat} {x : Internal × Coveror}
    (h : AssumeInv P R c x) : SemInv P R c x := by
  obtain ⟨hw, h1, h2, h3, h4⟩ := h
  refine ⟨hw, ?_, ?_, ?_, ?_⟩
  · rw [h1, List.append_nil]
    exact fun l hl => (h3 l hl).1
  · exact fun l hl => (h3 l hl).2
  · rw [h1, List.append_nil]
    intro τ _ hag _ hf
    exact h4 τ hag hf
  · refine ⟨[], ?_, ?_, ?_⟩
    · rw [h2]; rfl
    · intro p hp
      cases hp
    · rw [h1, List.append_nil]
      intro τ hc hag hr hex
      exact ⟨hc, hag, hr, hex⟩

/-- The loop of cover_clause that assumes the unassigned literals of the candidate
keeps its semantic invariant. -/
theorem assumeInv_coverAssume (P : Nat → Prop) (R : Int → Int) (c : Nat) (lits : List Int) :
    ∀ x : Internal × Coveror, (∀ l ∈ lits, l ≠ 0 ∧ l ∈ (x.1.clauseAt c).literals) →
      AssumeInv P R c x → AssumeInv P R c (coverAssume lits x) := by
  induction lits with
  | nil => intro x _ h; exact h
  | cons lit lits ih =>
    intro x hl h
    unfold coverAssume
    split
    · obtain ⟨hw, h1, h2, h3, h4⟩ := h
      have hlit := hl lit (List.mem_cons_self _ _)
      refine ih _ (fun l hm => hl l (List.mem_cons_of_mem _ hm)) ⟨hw, h1, h2, ?_, ?_⟩
      · show ∀ l ∈ x.2.clause ++ [lit], _
        intro l hm
        rcases List.mem_append.mp hm with hm | hm
        · exact h3 l hm
        · rw [List.mem_singleton.mp hm]
          exact hlit
      · show ∀ τ, Agree R τ → (∀ l ∈ x.2.clause ++ [lit], τ l = false) →
          ∀ y, (x.1.assumeFalse lit).vals y < 0 → τ y = false
        intro τ hag hf y hy
        rw [assumeFalse_vals] at hy
        split at hy
        · exact absurd hy (by decide)
        split at hy
        · rename_i _ e
          rw [e]
          exact hf lit (List.mem_append_right _ (List.mem_singleton.mpr rfl))
        · exact h4 τ hag (fun l hm => hf l (List.mem_append_left _ hm)) y hy
    · exact ih x (fun l hm => hl l (List.mem_cons_of_mem _ hm)) h

/-- The state in which the loop of cover_clause starts satisfies the semantic invariant
for the values on entry. -/
theorem semInv_start (P : Nat → Prop) (c : Nat) (sc : Internal × Coveror) (h : MainInv sc)
    (hw : ∀ y w, w ∈ sc.1.wtab y → P w.clause) :
    SemInv P sc.1.vals c (loopStart c sc) := by
  obtain ⟨e1, e2, e3, e4, e5⟩ := h.empty
  have h0 : AssumeInv P sc.1.vals c ({ sc.1 with level := 1 }, sc.2) := by
    refine ⟨hw, e3, e4, ?_, ?_⟩
    · show ∀ l ∈ sc.2.clause, _
      rw [e2]
      intro l hl
      cases hl
    · intro τ hag _ y hy
      exact hag y hy
  have h1 := assumeInv_coverAssume P sc.1.vals c (sc.1.clauseAt c).literals
    ({ sc.1 with level := 1 }, sc.2)
    (fun l hl => ⟨fun e => (h.clinv c).1.2 (e ▸ hl), hl⟩) h0
  exact semInv_of_eq (semInv_of_assume h1) rfl rfl rfl rfl rfl rfl

/-- The values in the state in which the loop of cover_clause starts, in terms of the
values on entry. -/
theorem vinv_start (c : Nat) (sc : Internal × Coveror) (h : MainInv sc) :
    VInv sc.1.vals (loopStart c sc).1.vals (loopStart c sc).2.added := by
  obtain ⟨e1, e2, e3, e4, e5⟩ := h.empty
  have h0 : VInv sc.1.vals sc.1.vals sc.2.added := by
    rw [e1]
    exact ⟨h.sym, fun x hx => absurd rfl hx, fun l hl => (by cases hl)⟩
  exact (vinv_coverAssume (sc.1.clauseAt c).literals ({ sc.1 with level := 1 }, sc.2) h0).1

/-- The fixed-point loop of cover_clause keeps the clauses up to the order of their
literals, and when it ends with the candidate eliminated the blocks pushed reconstruct
the candidate. -/
theorem coverLoop_sem (P : Nat → Prop) (R : Int → Int) (c : Nat) (fuel : Nat) :
    ∀ (sc : Internal × Coveror) (r : Bool × Internal × Coveror),
      PointInv c sc → SemInv P R c sc → VInv R sc.1.vals sc.2.added →
      coverLoop c fuel sc = some r →
      SameClauses sc.1 r.2.1 ∧ (r.1 = true → EndInv P R c r.2) := by
  induction fuel with
  | zero =>
    intro sc r hp hsem hv h
    unfold coverLoop at h
    split at h
    · cases h
    split at h
    · cases h
    · cases h
      exact ⟨sameClauses_refl _, fun e => (by cases e)⟩
  | succ fuel ih =>
    intro sc r hp hsem hv h
    unfold coverLoop at h
    split at h
    · rename_i hlt
      simp only at h
      have hm : sc.2.added.getD sc.2.next_asymmetric 0 ∈ sc.2.added := getD_mem _ _ hlt
      have hvl := hp.added _ hm
      have hp1 : PointInv c (sc.1, { sc.2 with next_asymmetric := sc.2.next_asymmetric + 1 }) :=
        pointInv_of_eq hp rfl rfl rfl rfl rfl rfl rfl rfl rfl rfl
      have hs1 : SemInv P R c (sc.1, { sc.2 with next_asymmetric := sc.2.next_asymmetric + 1 }) :=
        semInv_of_eq hsem rfl rfl rfl rfl rfl rfl
      have hp2 := pointInv_asymmetric c _ _ hp1 hvl
      obtain ⟨hs2, hsub⟩ := semInv_asymmetric P R c _ _ hp1 hs1 hvl
      obtain ⟨hv2, _⟩ := vinv_asymmetric (sc.2.added.getD sc.2.next_asymmetric 0) c
        (sc.1, { sc.2 with next_asymmetric := sc.2.next_asymmetric + 1 }) hv
      have hS := sameClauses_asymmetric c _ _ hp1 hvl
      split at h
      · rename_i hres
        cases h
        refine ⟨hS, fun _ => ?_⟩
        obtain ⟨D, hD, hred, hPD⟩ := hsub hres
        exact endInv_of_taut P R c _ hs2
          (fun τ hc hag hr => taut_of_falsified P R c _ hs2 D hD hred hPD τ hc hag hr)
      · obtain ⟨a, b⟩ := ih _ _ hp2 hs2 hv2 h
        exact ⟨sameClauses_trans hS a, b⟩
    split at h
    · rename_i hlt
      simp only at h
      have hm : sc.2.added.getD sc.2.next_covered 0 ∈ sc.2.added := getD_mem _ _ hlt
      have hp1 : PointInv c (sc.1, { sc.2 with next_covered := sc.2.next_covered + 1 }) :=
        pointInv_of_eq hp rfl rfl rfl rfl rfl rfl rfl rfl rfl rfl
      have hs1 : SemInv P R c (sc.1, { sc.2 with next_covered := sc.2.next_covered + 1 }) :=
        semInv_of_eq hsem rfl rfl rfl rfl rfl rfl
      have hp2 := pointInv_covered c (sc.2.added.getD sc.2.next_covered 0) _ hp1
      obtain ⟨hsf, hst⟩ := semInv_covered P R c (sc.2.added.getD sc.2.next_covered 0) _ hp1 hs1
        hv hm
      obtain ⟨hv2, _⟩ := vinv_covered (sc.2.added.getD sc.2.next_covered 0)
        (sc.1, { sc.2 with next_covered := sc.2.next_covered + 1 }) hv hp.inter
      have hS : SameClauses sc.1 (cover_propagate_covered (sc.2.added.getD sc.2.next_covered 0)
          (sc.1, { sc.2 with next_covered := sc.2.next_covered + 1 })).2.1 :=
        sameClauses_congr (covered_frame _ _).1
      split at h
      · rename_i hres
        cases h
        exact ⟨hS, fun _ => hst hres⟩
      · rename_i hres
        obtain ⟨a, b⟩ := ih _ _ hp2 (hsf (by simpa using hres)) hv2 h
        exact ⟨sameClauses_trans hS a, b⟩
    · cases h
      exact ⟨sameClauses_refl _, fun e => (by cases e)⟩

end Internal

end CaDiCaL

namespace CaDiCaL

namespace Internal

theorem prefixesOf_eq_nil (ps : List (Int × List Int × List Int)) (h : prefixesOf ps = []) :
    ps = [] := by
  cases ps with
  | nil => rfl
  | cons p ps => simp [prefixesOf] at h

theorem option_some_getD {α : Type} (o : Option α) (d : α) (h : o.isSome = true) :
    o = some (o.getD d) := by
  cases o with
  | none => cases h
  | some x => rfl

theorem coverUnassign_external (added : List Int) : ∀ s : Internal,
    (coverUnassign s added).external = s.external := by
  induction added with
  | nil => intro s; rfl
  | cons a added ih =>
    intro s
    unfold coverUnassign
    rw [List.foldl_cons]
    exact ih _

/-- A watched clause that is not garbage is a clause of the clause list. -/
theorem watched_lt (s : Internal) (hW : WInv s s.wtab) (lit : Int) (w : Watch)
    (hw : w ∈ s.wtab lit) (hg : (s.clauseAt w.clause).garbage = false) :
    w.clause < s.clauses.length := by
  obtain ⟨_, h2, _⟩ := (hW lit).2 w hw hg
  apply lt_length_of_literals_ne
  intro e
  unfold Clause.size at h2
  rw [e] at h2
  simp at h2

/-- An assignment that satisfies the clauses of the clause list other than c that are
not garbage satisfies the watched ones. -/
theorem watched_sat_of_bounded (s : Internal) (hW : WInv s s.wtab) (c : Nat) (τ : Int → Bool)
    (hb : ∀ D, D < s.clauses.length → D ≠ c → (s.clauseAt D).garbage = false →
      ∃ l ∈ (s.clauseAt D).literals, τ l = true) :
    ∀ lit w, w ∈ s.wtab lit → w.clause ≠ c → (s.clauseAt w.clause).garbage = false →
      ∃ l ∈ (s.clauseAt w.clause).literals, τ l = true :=
  fun lit w hw hne hg => hb w.clause (watched_lt s hW lit w hw hg) hne hg

/-- The assignment of the example is consistent. -/
theorem ateAssignment_consistent : Consistent Examples.ateAssignment := by
  refine ⟨rfl, ?_⟩
  intro l hl
  unfold Examples.ateAssignment
  have hn : ¬ (-l = 0) := by omega
  rw [if_neg hn, if_neg hl, Int.natAbs_neg]
  split
  · rcases Int.lt_or_gt_of_ne hl with h | h
    · simp [h, Int.le_of_lt h]
    · simp [h, Int.le_of_lt h]
  · rcases Int.lt_or_gt_of_ne hl with h | h
    · simp [h, Int.le_of_lt h]
    · simp [h, Int.le_of_lt h]

/-- C37: let cover_clause be called on the candidate c in a state of the main loop of
cover, none of the literals of c being true, and let the fixed-point loop end with the
candidate found tautological while no covered literal has been added and nothing has been
appended to coveror.extend. Then cover_clause returns true, counts an asymmetric
tautology and leaves the extension stack as it was, and c is entailed by the other
clauses: every total assignment that agrees with the values on entry and satisfies every
non-garbage clause other than c that is present in the watch lists also satisfies c. -/
theorem asymmetric_tautology_implied (c : Nat) (sc : Internal × Coveror)
    (r0 : Bool × Internal × Coveror) (τ : Int → Bool) (h : MainInv sc)
    (hns : (sc.1.clauseAt c).literals.any (fun lit => decide (0 < sc.1.val lit)) = false)
    (hloop : coverLoop c (coverFuel sc.1) (loopStart c sc) = some r0)
    (ht : r0.1 = true) (hpure : r0.2.2.covered = [] ∧ r0.2.2.extend = [])
    (hc : Consistent τ) (hag : Agree sc.1.vals τ)
    (hw : ∀ lit w, w ∈ sc.1.wtab lit → w.clause ≠ c →
      (sc.1.clauseAt w.clause).garbage = false →
      ∃ l ∈ (sc.1.clauseAt w.clause).literals, τ l = true) :
    cover_clause c sc = some (coverFinish c r0) ∧ (coverFinish c r0).1 = true ∧
    (coverFinish c r0).2.1.stats.cover_asymmetric = sc.1.stats.cover_asymmetric + 1 ∧
    (coverFinish c r0).2.1.external.extension = sc.1.external.extension ∧
    ∃ l ∈ (sc.1.clauseAt c).literals, τ l = true := by
  have hcc : cover_clause c sc = some (coverFinish c r0) := by
    rw [cover_clause_eq, if_neg (by rw [hns]; simp), hloop]
  have hframe : PropFrame ({ sc.1 with level := 1 } : Internal) r0.2.1 :=
    (propFrame_coverAssume (sc.1.clauseAt c).literals ({ sc.1 with level := 1 }, sc.2)).chain
      (propFrame_coverLoop c _ (loopStart c sc) r0 hloop)
  refine ⟨hcc, ht, ?_, ?_, ?_⟩
  · unfold coverFinish
    show (coverUnassign _ _).stats.cover_asymmetric = _
    rw [coverUnassign_stats, if_pos ht, hpure.2]
    show (coverCount r0.2.1 r0.2.2).stats.cover_asymmetric = _
    unfold coverCount
    rw [hpure.1]
    show r0.2.1.stats.cover_asymmetric + 1 = _
    rw [hframe.2]
  · unfold coverFinish
    show (coverUnassign _ _).external.extension = _
    rw [coverUnassign_external, if_pos ht, hpure.2]
    have e : ∀ (s : Internal) (cv : Coveror), (coverCount s cv).external = s.external := by
      intro s cv
      unfold coverCount
      split <;> rfl
    show (coverCount r0.2.1 r0.2.2).external.extension = _
    rw [e, hframe.1]
  · have hsem := semInv_start (fun D => ∃ lit w, w ∈ sc.1.wtab lit ∧ w.clause = D) c sc h
      (fun y w hm => ⟨y, w, hm, rfl⟩)
    obtain ⟨hS, hend⟩ := coverLoop_sem (fun D => ∃ lit w, w ∈ sc.1.wtab lit ∧ w.clause = D)
      sc.1.vals c (coverFuel sc.1) (loopStart c sc) r0 (pointInv_loopStart c sc h) hsem
      (vinv_start c sc h) hloop
    obtain ⟨ps, p1, _, p3⟩ := hend ht
    have hps : ps = [] := prefixesOf_eq_nil ps (by rw [← p1, hpure.2])
    rw [hps] at p3
    have hS0 : SameClauses sc.1 r0.2.1 :=
      sameClauses_trans
        (sameClauses_congr (coverAssume_clauses (sc.1.clauseAt c).literals
          ({ sc.1 with level := 1 }, sc.2))) hS
    have hrem : Rem (fun D => ∃ lit w, w ∈ sc.1.wtab lit ∧ w.clause = D) sc.1 c τ := by
      intro D hD hP hg _ _
      obtain ⟨lit, w, hm, e⟩ := hP
      rw [← e] at hD hg ⊢
      exact hw lit w hm hD hg
    obtain ⟨_, _, _, l, hl, htl⟩ := p3 τ hc hag (rem_congr hS0 c τ hrem)
    exact ⟨l, (sameClauses_mem hS0 c l).mp hl, htl⟩

/-- Witness for C37: in (1 2), (1 -3), (2 3) the clause (1 2) is an asymmetric tautology,
and the assignment that makes only the variable 2 true satisfies the other two clauses
and the clause itself. -/
theorem asymmetric_tautology_implied_witness :
    cover_clause 0 Examples.preparedAte = some (coverFinish 0 Examples.ateLoop) ∧
    (coverFinish 0 Examples.ateLoop).1 = true ∧
    (coverFinish 0 Examples.ateLoop).2.1.stats.cover_asymmetric
      = Examples.preparedAte.1.stats.cover_asymmetric + 1 ∧
    (coverFinish 0 Examples.ateLoop).2.1.external.extension
      = Examples.preparedAte.1.external.extension ∧
    ∃ l ∈ (Examples.preparedAte.1.clauseAt 0).literals, Examples.ateAssignment l = true :=
  asymmetric_tautology_implied 0 Examples.preparedAte Examples.ateLoop Examples.ateAssignment
    (mainInv_start Examples.ateFormula
      (coverStart_of_bounded Examples.ateFormula (by decide) (fun _ _ => rfl) (fun _ => rfl)))
    (by decide!)
    (option_some_getD _ _ (by decide!))
    (by decide!) (by decide!) ateAssignment_consistent
    (fun _ hy => absurd hy (show ¬ ((0 : Int) < 0) by decide))
    (watched_sat_of_bounded _
      (mainInv_start Examples.ateFormula
        (coverStart_of_bounded Examples.ateFormula (by decide) (fun _ _ => rfl)
          (fun _ => rfl))).winv 0 Examples.ateAssignment (by decide!))

end Internal

end CaDiCaL

namespace CaDiCaL

namespace Internal

/-- Counterexample to C33 as stated: for the candidate (-1 2) of the clauses (-1 2),
(-2 3), (-1 3) the list watches (-src) = watches (-1) has two watches and watches (dst) =
watches (2) has one, so the claim prescribes the swapped pair (-2, -1); the search keeps
(src, dst) = (1, 2), and the start literal has more watches to visit than the target. -/
theorem transred_direction_counterexample :
    (Examples.chainFormula.watches (-1)).length = 2 ∧
    (Examples.chainFormula.watches 2).length = 1 ∧
    transredDirection Examples.chainFormula (-1) 2 = (1, 2) ∧
    ¬ ((Examples.chainFormula.watches
          (-(transredDirection Examples.chainFormula (-1) 2).1)).length ≤
        (Examples.chainFormula.watches
          (transredDirection Examples.chainFormula (-1) 2).2).length) := by
  decide

/-- C33, amended. Direction choice in transred: for a candidate with literals (l0, l1),
with src = -l0 and dst = l1, the search keeps (src, dst) when watches (-src) has at least
as many watches as watches (dst) and runs on the swapped pair (-dst, -src) when
watches (-src) has fewer; the start literal s and the target d finally used satisfy
|watches (-s)| ≥ |watches (d)|, and the search of the candidate starts with s marked and
alone on the working stack and looks for d. -/
theorem transred_direction (s : Internal) (l0 l1 : Int) (c : Nat) (props : Int) :
    transredDirection s l0 l1 =
      (if (s.watches l0).length < (s.watches l1).length then (-l1, l0) else (-l0, l1)) ∧
    (s.watches (transredDirection s l0 l1).2).length ≤
      (s.watches (-(transredDirection s l0 l1).1)).length ∧
    transredSearch c s props =
      transredBfs c (!(s.clauseAt c).redundant)
        (transredDirection s ((s.clauseAt c).literals.getD 0 0)
          ((s.clauseAt c).literals.getD 1 0)).2
        (2 * s.clauses.length + 2) 0
        ⟨s.mark (transredDirection s ((s.clauseAt c).literals.getD 0 0)
            ((s.clauseAt c).literals.getD 1 0)).1,
          [(transredDirection s ((s.clauseAt c).literals.getD 0 0)
            ((s.clauseAt c).literals.getD 1 0)).1], false, false⟩ props := by
  have h : transredDirection s l0 l1 =
      (if (s.watches l0).length < (s.watches l1).length then (-l1, l0) else (-l0, l1)) := by
    unfold transredDirection
    simp only [neg_neg]
  refine ⟨h, ?_, rfl⟩
  rw [h]
  split
  · rename_i hlt
    show (s.watches l0).length ≤ (s.watches (- -l1)).length
    rw [neg_neg]
    omega
  · rename_i hlt
    show (s.watches l1).length ≤ (s.watches (- -l0)).length
    rw [neg_neg]
    omega

end Internal

end CaDiCaL

namespace CaDiCaL

namespace Options

/-- C40. Evaluation of Options::parse_option_value at the inputs 1000000000e10 and
-922337204e10, with the 64-bit intermediate taken modulo 2^64: the product of the
mantissa and 10^10 leaves the range of int64_t, the value of val64 at the assertions is
-8446744073709551616 for the first input and 9223372033709551616 for the second, so an
assertion fails for each, and the values stored are -1981284352 and 1149743104 instead
of INT_MAX and INT_MIN. -/
theorem parse_option_value_overflow :
    parseNumber "1000000000e10".toList = some (-8446744073709551616) ∧
    assertsHold (-8446744073709551616) = false ∧
    parse_option_value "1000000000e10".toList = some (-1981284352) ∧
    parse_option_value "1000000000e10".toList ≠ some INT_MAX ∧
    parseNumber "-922337204e10".toList = some 9223372033709551616 ∧
    assertsHold 9223372033709551616 = false ∧
    parse_option_value "-922337204e10".toList = some 1149743104 ∧
    parse_option_value "-922337204e10".toList ≠ some INT_MIN := by
  decide!

end Options

end CaDiCaL

namespace CaDiCaL

namespace Internal

/-- Counterexample to C31 as stated: on the clauses (1 2 3), (-1 2), (-1 3) the covered
propagation of the literal 1 in cover_clause applied to the first clause finds no
intersection, since 2 and 3 are already false: it adds no covered literal and returns
false; the block appended to the extension stack has the witness 2, not 1. -/
theorem cover_scenario_two_counterexample :
    (cover_propagate_covered 1 (Examples.scenarioTwoLoop.1,
      { Examples.scenarioTwoLoop.2 with next_covered := 1 })).1 = false ∧
    (cover_propagate_covered 1 (Examples.scenarioTwoLoop.1,
      { Examples.scenarioTwoLoop.2 with next_covered := 1 })).2.2.covered = [] ∧
    ((cover_clause 0 Examples.preparedScenarioTwo).getD
      (false, Examples.preparedScenarioTwo)).2.1.external.extension ≠ [0, 1, 0, 1, 2, 3] := by
  decide!

/-- C31, amended. Scenario 2: on the clauses (1 2 3), (-1 2), (-1 3) with nothing
assigned or frozen, cover_clause applied to the first clause assumes -1, -2, -3 (the
literals 1, 2, 3 become false); the asymmetric propagations add no literal; the covered
propagation of 1 finds the occurrences (-1 2), (-1 3) of -1 not blocked and their
intersection empty, adds nothing and returns false; the covered propagation of 2 finds
no occurrence of -2 and returns true. The call returns true, the clause is garbage, the
other two clauses are not, and the block appended to the extension stack is 0 2 0 2 1 3:
witness 2, body 2 1 3. -/
theorem cover_scenario_two :
    (cover_clause 0 Examples.preparedScenarioTwo).isSome = true ∧
    ((loopStart 0 Examples.preparedScenarioTwo).2.clause = [1, 2, 3] ∧
     (loopStart 0 Examples.preparedScenarioTwo).2.added = [1, 2, 3] ∧
     [1, 2, 3].map (loopStart 0 Examples.preparedScenarioTwo).1.val = [-1, -1, -1]) ∧
    (Examples.scenarioTwoLoop.2.added = [1, 2, 3] ∧
     Examples.preparedScenarioTwo.1.occs (-1) = [1, 2] ∧
     Examples.preparedScenarioTwo.1.occs (-2) = []) ∧
    ((cover_propagate_covered 1 (Examples.scenarioTwoLoop.1,
        { Examples.scenarioTwoLoop.2 with next_covered := 1 })).1 = false ∧
     (cover_propagate_covered 1 (Examples.scenarioTwoLoop.1,
        { Examples.scenarioTwoLoop.2 with next_covered := 1 })).2.2.covered = [] ∧
     (cover_propagate_covered 2
        ((cover_propagate_covered 1 (Examples.scenarioTwoLoop.1,
          { Examples.scenarioTwoLoop.2 with next_covered := 1 })).2.1,
         { (cover_propagate_covered 1 (Examples.scenarioTwoLoop.1,
            { Examples.scenarioTwoLoop.2 with next_covered := 1 })).2.2 with
           next_covered := 2 })).1 = true) ∧
    ((cover_clause 0 Examples.preparedScenarioTwo).getD
      (false, Examples.preparedScenarioTwo)).1 = true ∧
    (((cover_clause 0 Examples.preparedScenarioTwo).getD
      (false, Examples.preparedScenarioTwo)).2.1.clauses.map (fun cl => cl.garbage) =
        [true, false, false]) ∧
    ((cover_clause 0 Examples.preparedScenarioTwo).getD
      (false, Examples.preparedScenarioTwo)).2.1.external.extension = [0, 2, 0, 2, 1, 3] := by
  decide!

end Internal

end CaDiCaL

namespace CaDiCaL

namespace Internal

/-- The loop over false literals returns the first position of its range whose
literal is not false, and the end of the range if there is none. -/
theorem scanFalse_find (vals : Int → Int) (lits : List Int) :
    ∀ (n k : Nat) (v r : Int), v < 0 →
      (∀ i, (List.range' k n).find? (fun i => decide (0 ≤ vals (lits.getD i 0))) = some i →
        scanFalse vals lits n k v r = (i, vals (lits.getD i 0), lits.getD i 0)) ∧
      ((List.range' k n).find? (fun i => decide (0 ≤ vals (lits.getD i 0))) = none →
        (scanFalse vals lits n k v r).1 = k + n ∧ (scanFalse vals lits n k v r).2.1 < 0) := by
  intro n
  induction n with
  | zero =>
    intro k v r hv
    refine ⟨fun i h => ?_, fun _ => ⟨rfl, hv⟩⟩
    simp at h
  | succ n ih =>
    intro k v r hv
    rw [List.range'_succ]
    unfold scanFalse
    by_cases hneg : vals (lits.getD k 0) < 0
    · rw [if_pos hneg, List.find?_cons_of_neg _ (by simpa using hneg)]
      obtain ⟨a, b⟩ := ih (k + 1) (vals (lits.getD k 0)) (lits.getD k 0) hneg
      refine ⟨a, fun h => ?_⟩
      obtain ⟨b1, b2⟩ := b h
      exact ⟨by omega, b2⟩
    · rw [if_neg hneg, List.find?_cons_of_pos _ (by simpa using hneg)]
      refine ⟨fun i h => ?_, fun h => (by cases h)⟩
      cases h
      rfl

/-- The search for a replacement watch finds the first position in the cyclic order
whose literal is not false; if there is none it ends at pos with a negative value. -/
theorem findReplacement_order (vals : Int → Int) (lits : List Int) (pos : Nat)
    (h2 : 2 ≤ pos) :
    (∀ k, firstNonFalse vals lits pos = some k →
      findReplacement vals lits pos = (k, vals (lits.getD k 0), lits.getD k 0)) ∧
    (firstNonFalse vals lits pos = none →
      (findReplacement vals lits pos).1 = pos ∧ (findReplacement vals lits pos).2.1 < 0) := by
  obtain ⟨a1, a2⟩ := scanFalse_find vals lits (lits.length - pos) pos (-1) 0 (by decide)
  unfold firstNonFalse searchOrder
  rw [List.find?_append]
  unfold findReplacement
  cases hf : (List.range' pos (lits.length - pos)).find?
      (fun i => decide (0 ≤ vals (lits.getD i 0))) with
  | some k0 =>
    have e := a1 k0 hf
    have hk0 : 0 ≤ vals (lits.getD k0 0) := by
      have := List.find?_some hf
      simpa using this
    rw [e]
    rw [if_neg (by simpa using hk0)]
    refine ⟨fun k h => ?_, fun h => (by cases h)⟩
    simp only [Option.or_some] at h
    cases h
    rfl
  | none =>
    obtain ⟨b1, b2⟩ := a2 hf
    rw [if_pos b2]
    obtain ⟨c1, c2⟩ := scanFalse_find vals lits (pos - 2) 2
      (scanFalse vals lits (lits.length - pos) pos (-1) 0).2.1
      (scanFalse vals lits (lits.length - pos) pos (-1) 0).2.2 b2
    simp only [Option.none_or]
    refine ⟨c1, fun h => ?_⟩
    obtain ⟨d1, d2⟩ := c2 h
    exact ⟨by omega, d2⟩

/-- C34. Replacement search order in cover_propagate_asymmetric: for a watch w of a
long clause that is not garbage and not the ignored clause, whose blocking literal is
not true, whose cursor satisfies 2 ≤ pos ≤ size and whose other watched literal is not
true, let L be the literals after the first two have been put in the order other, lit.
The literal r examined last by the search is the first literal that is not false in the
cyclic order of the positions pos, ..., size - 1, 2, ..., pos - 1, at position k. If r
is true, the clause gets the literals L and pos = k and the watch is kept with blocking
literal r; if r is unassigned, r and lit swap positions (positions 1 and k), pos becomes
k and the watch moves from the list of lit to the list of r, with blocking literal lit.
If no literal of the cyclic order is not false, pos is unchanged. -/
theorem asym_replacement_order (lit : Int) (ignore : Nat) (w : Watch) (st : AsymState)
    (L : List Int) (hi : w.clause ≠ ignore) (hbl : ¬ 0 < st.s.val w.blit)
    (hg : (st.s.clauseAt w.clause).garbage = false) (hb : w.binary = false)
    (hpos : 2 ≤ (st.s.clauseAt w.clause).pos ∧
      (st.s.clauseAt w.clause).pos ≤ (st.s.clauseAt w.clause).size)
    (hu : ¬ 0 < st.s.val (otherWatched (st.s.clauseAt w.clause).literals lit))
    (hL : L = swapWatched (st.s.clauseAt w.clause).literals
      (otherWatched (st.s.clauseAt w.clause).literals lit) lit) :
    L.getD 1 0 = lit ∧
    (∀ k, firstNonFalse st.s.vals L (st.s.clauseAt w.clause).pos = some k →
      findReplacement st.s.vals L (st.s.clauseAt w.clause).pos =
        (k, st.s.vals (L.getD k 0), L.getD k 0) ∧
      0 ≤ st.s.vals (L.getD k 0) ∧
      (0 < st.s.vals (L.getD k 0) →
        asymWatch lit ignore w st =
          { st with
            s := st.s.setClause w.clause
              { st.s.clauseAt w.clause with literals := L, pos := k },
            kept := st.kept ++ [{ w with blit := L.getD k 0 }] }) ∧
      (st.s.vals (L.getD k 0) = 0 →
        asymWatch lit ignore w st =
          { st with
            s := (st.s.setClause w.clause
              { st.s.clauseAt w.clause with
                literals := (L.set 1 (L.getD k 0)).set k lit, pos := k }).watch_literal
                  (L.getD k 0) lit w.clause })) ∧
    (firstNonFalse st.s.vals L (st.s.clauseAt w.clause).pos = none →
      (findReplacement st.s.vals L (st.s.clauseAt w.clause).pos).1 =
        (st.s.clauseAt w.clause).pos ∧
      ((asymWatch lit ignore w st).s.clauseAt w.clause).pos = (st.s.clauseAt w.clause).pos) := by
  have hlen : 2 ≤ (st.s.clauseAt w.clause).literals.length := le_trans hpos.1 hpos.2
  have hlt : w.clause < st.s.clauses.length := by
    apply lt_length_of_literals_ne
    intro e
    rw [e] at hlen
    simp at hlen
  have hL1 : L.getD 1 0 = lit := by
    rw [hL]
    unfold swapWatched
    rw [getD_set_eq, if_pos ⟨rfl, by simp; omega⟩]
  obtain ⟨o1, o2⟩ := findReplacement_order st.s.vals L (st.s.clauseAt w.clause).pos hpos.1
  have hw : asymWatch lit ignore w st =
      asymReplace lit w st (otherWatched (st.s.clauseAt w.clause).literals lit) L
        (findReplacement st.s.vals L (st.s.clauseAt w.clause).pos) := by
    unfold asymWatch
    rw [if_neg hi, if_neg hbl, if_neg (by rw [hg]; decide), if_neg (by rw [hb]; decide)]
    unfold asymLong
    rw [if_neg hu, hL]
  refine ⟨hL1, fun k hk => ?_, fun hn => ?_⟩
  · have e := o1 k hk
    have hk0 : 0 ≤ st.s.vals (L.getD k 0) := by
      have := List.find?_some hk
      simpa using this
    refine ⟨e, hk0, fun hp => ?_, fun hz => ?_⟩
    · rw [hw, e]
      unfold asymReplace
      rw [if_pos hp]
    · rw [hw, e]
      unfold asymReplace
      rw [if_neg (by show ¬ 0 < st.s.vals (L.getD k 0); omega), if_pos hz]
  · obtain ⟨e1, e2⟩ := o2 hn
    refine ⟨e1, ?_⟩
    rw [hw]
    unfold asymReplace
    rw [if_neg (by omega), if_neg (by omega)]
    split
    · show ((st.s.setClause w.clause _).clauseAt w.clause).pos = _
      rw [clauseAt_setClause, if_pos ⟨rfl, hlt⟩]
      exact e1
    · show ((st.s.setClause w.clause _).clauseAt w.clause).pos = _
      rw [clauseAt_setClause, if_pos ⟨rfl, hlt⟩]
      exact e1

/-- Witness for C34: in the clauses (1 2 3), (-1 2) with the literal 1 false, the search
for the watch of (1 2 3) in the list of 1 starts at pos = 2 in the literals 2 1 3, finds
the unassigned literal 3 at position 2 and swaps it with 1. -/
theorem asym_replacement_order_witness :
    firstNonFalse Examples.watchedState.vals [2, 1, 3] 2 = some 2 ∧
    findReplacement Examples.watchedState.vals [2, 1, 3] 2 = (2, 0, 3) ∧
    ((asymWatch 1 5 ⟨0, 2, 3⟩ ⟨Examples.watchedState, Coveror.init, [], false⟩).s.clauseAt
      0).literals = [2, 3, 1] :=
  ⟨by decide,
   ((asym_replacement_order 1 5 ⟨0, 2, 3⟩ ⟨Examples.watchedState, Coveror.init, [], false⟩
      [2, 1, 3] (by decide) (by decide) (by decide) (by decide) (by decide) (by decide)
      (by decide)).2.1 2 (by decide)).1,
   by decide⟩

end Internal

end CaDiCaL

namespace CaDiCaL

namespace Internal

/-- The checked loop over false literals agrees with the loop when its range lies
inside the clause. -/
theorem scanFalseChecked_eq (vals : Int → Int) (lits : List Int) (stop : Nat)
    (hs : stop ≤ lits.length) :
    ∀ (fuel k : Nat) (v r : Int), k ≤ stop → stop - k < fuel →
      scanFalseChecked vals lits stop fuel k v r = some (scanFalse vals lits (stop - k) k v r) := by
  intro fuel
  induction fuel with
  | zero => intro k v r _ h; omega
  | succ fuel ih =>
    intro k v r hk hf
    unfold scanFalseChecked
    by_cases e : k = stop
    · rw [if_pos e, e, Nat.sub_self]
      rfl
    · rw [if_neg e]
      have hlt : k < lits.length := by omega
      have hd : stop - k = (stop - (k + 1)) + 1 := by omega
      have hget : lits.getD k 0 = lits[k] := by
        rw [List.getD_eq_getElem?_getD, List.getElem?_eq_getElem hlt]
        rfl
      rw [List.getElem?_eq_getElem hlt, hd]
      show (if vals lits[k] < 0 then _ else _) = some (scanFalse vals lits (stop - (k + 1) + 1) k v r)
      unfold scanFalse
      rw [hget]
      split
      · exact ih (k + 1) _ _ (by omega) (by omega)
      · rfl

/-- The checked search for a replacement watch agrees with the search when the cursor
lies between 2 and the size. -/
theorem findReplacementChecked_eq (vals : Int → Int) (lits : List Int) (pos : Nat)
    (h2 : 2 ≤ pos) (hp : pos ≤ lits.length) :
    findReplacementChecked vals lits pos = some (findReplacement vals lits pos) := by
  unfold findReplacementChecked findReplacement
  rw [scanFalseChecked_eq vals lits lits.length (le_refl _) _ pos (-1) 0 hp (by omega)]
  simp only
  split
  · exact scanFalseChecked_eq vals lits pos hp _ 2 _ _ h2 (by omega)
  · rfl

/-- The checked branch for a long clause agrees with the branch when the clause has
at least two literals and its cursor lies between 2 and the size. -/
theorem asymLongChecked_eq (lit : Int) (w : Watch) (st : AsymState)
    (hsz : 2 ≤ (st.s.clauseAt w.clause).size)
    (hpos : 2 ≤ (st.s.clauseAt w.clause).pos ∧
      (st.s.clauseAt w.clause).pos ≤ (st.s.clauseAt w.clause).size) :
    asymLongChecked lit w st = some (asymLong lit w st) := by
  have hlen : (swapWatched (st.s.clauseAt w.clause).literals
      (otherWatched (st.s.clauseAt w.clause).literals lit) lit).length =
      (st.s.clauseAt w.clause).size := by
    unfold swapWatched Clause.size
    simp
  obtain ⟨q1, q2, q3⟩ := findReplacement_spec st.s.vals
    (swapWatched (st.s.clauseAt w.clause).literals
      (otherWatched (st.s.clauseAt w.clause).literals lit) lit)
    (st.s.clauseAt w.clause).pos hpos.1 (by rw [hlen]; exact hpos.2)
  unfold asymLongChecked
  rw [if_neg (by omega)]
  split
  · rfl
  · rename_i hu
    rw [findReplacementChecked_eq _ _ _ hpos.1 (by rw [hlen]; exact hpos.2)]
    simp only
    rw [hlen] at q2 q3
    rw [if_neg (by
      intro hbad
      exact hbad ⟨q1, q2⟩)]
    rw [if_neg (by
      rintro ⟨hz, hnot⟩
      rcases q3 with ⟨hneg, _⟩ | ⟨_, hk, _⟩
      · omega
      · exact hnot hk)]
    unfold asymLong
    rw [if_neg hu]

/-- The bounds of the cursor through one iteration of the loop of
cover_propagate_asymmetric: a clause record changes only for the clause of a watch of a
long clause that is not garbage. -/
theorem asymWatch_clause_cases (lit : Int) (ignore : Nat) (w : Watch) (st : AsymState)
    (D : Nat) :
    (asymWatch lit ignore w st).s.clauseAt D = st.s.clauseAt D ∨
    (D = w.clause ∧ w.binary = false ∧ (st.s.clauseAt w.clause).garbage = false) := by
  unfold asymWatch
  split
  · exact Or.inl rfl
  split
  · exact Or.inl rfl
  split
  · exact Or.inl rfl
  rename_i hg
  have hg2 : (st.s.clauseAt w.clause).garbage = false := by simpa using hg
  split
  · unfold asymBinary
    split
    · exact Or.inl rfl
    · exact Or.inl rfl
  · rename_i hb
    have hb2 : w.binary = false := by simpa using hb
    by_cases hD : D = w.clause
    · exact Or.inr ⟨hD, hb2, hg2⟩
    · left
      unfold asymLong
      split
      · show (st.s.setClause w.clause _).clauseAt D = _
        rw [clauseAt_setClause, if_neg (fun h => hD h.1)]
      · unfold asymReplace
        split
        · show (st.s.setClause w.clause _).clauseAt D = _
          rw [clauseAt_setClause, if_neg (fun h => hD h.1)]
        split
        · show (st.s.setClause w.clause _).clauseAt D = _
          rw [clauseAt_setClause, if_neg (fun h => hD h.1)]
        split
        · show (st.s.setClause w.clause _).clauseAt D = _
          rw [clauseAt_setClause, if_neg (fun h => hD h.1)]
        · show (st.s.setClause w.clause _).clauseAt D = _
          rw [clauseAt_setClause, if_neg (fun h => hD h.1)]

/-- One iteration of the loop of cover_propagate_asymmetric under the invariant of the
loop: no access is outside a clause and the bounds of the cursors are kept. -/
theorem asymWatchChecked_eq {P : Nat → Prop} {lit : Int} (ignore : Nat) {s0 : Internal}
    {st : AsymState} {w : Watch} {rest : List Watch} (h : AsymInv P lit s0 st (w :: rest))
    (hP : PosInv st.s) :
    asymWatchChecked lit ignore w st = some (asymWatch lit ignore w st) ∧
    PosInv (asymWatch lit ignore w st).s := by
  have hok := asymInv_head_ok h
  have hnext := asymWatch_inv ignore h
  constructor
  · unfold asymWatchChecked
    split
    · rfl
    split
    · rfl
    split
    · rfl
    split
    · rfl
    rename_i hi hbl hg hb
    have hg2 : (st.s.clauseAt w.clause).garbage = false := by simpa using hg
    obtain ⟨o1, o2, _⟩ := hok hg2
    rw [asymLongChecked_eq lit w st o2 (hP w.clause o2)]
    unfold asymWatch
    rw [if_neg hi, if_neg hbl, if_neg hg, if_neg hb]
  · intro D hD
    rcases asymWatch_clause_cases lit ignore w st D with e | ⟨e, hb, hg⟩
    · rw [e] at hD ⊢
      exact hP D hD
    · obtain ⟨f1, _, _, _, _⟩ := long_watch_facts h.2.2.1 hok hg hb
      have hsz := sameClauses_size (sameClauses_trans (sameClauses_symm h.2.2.2.1)
        hnext.2.2.2.1) D
      apply (hnext.2.2.1 D).2
      rw [hsz, e]
      exact f1

/-- The loop of cover_propagate_asymmetric under its invariant: no access is outside a
clause and the bounds of the cursors are kept. -/
theorem asymLoopChecked_eq (P : Nat → Prop) (lit : Int) (ignore : Nat) (s0 : Internal) :
    ∀ (ws : List Watch) (st : AsymState), AsymInv P lit s0 st ws → PosInv st.s →
      asymLoopChecked lit ignore ws st = some (asymLoop lit ignore ws st) ∧
      PosInv (asymLoop lit ignore ws st).1.s := by
  intro ws
  induction ws with
  | nil =>
    intro st _ hP
    exact ⟨rfl, hP⟩
  | cons w ws ih =>
    intro st h hP
    unfold asymLoopChecked asymLoop
    split
    · exact ⟨rfl, hP⟩
    · obtain ⟨a, b⟩ := asymWatchChecked_eq ignore h hP
      rw [a]
      exact ih _ (asymWatch_inv ignore h) b

theorem posInv_of_bounded (s : Internal)
    (h : ∀ D < s.clauses.length, 2 ≤ (s.clauseAt D).size →
      2 ≤ (s.clauseAt D).pos ∧ (s.clauseAt D).pos ≤ (s.clauseAt D).size) : PosInv s := by
  intro D hD
  by_cases hlt : D < s.clauses.length
  · exact h D hlt hD
  · rw [clauseAt_out hlt] at hD
    exact absurd hD (by decide)

/-- C35. The cursor pos and in-bounds indexing: in a state with false lit that
satisfies the watch invariant and the clause invariant and in which every clause with
at least two literals has 2 ≤ pos ≤ size, every access of cover_propagate_asymmetric to
the literals of a clause is inside the clause and the assertions `lits + 2 <= k` and
`k <= end` hold (the call with checked accesses returns, with the result of the call),
and every clause with at least two literals has 2 ≤ pos ≤ size afterwards. -/
theorem asym_pos_in_bounds (lit : Int) (ignore : Nat) (sc : Internal × Coveror)
    (hv : sc.1.val lit < 0) (hW : WInv sc.1 sc.1.wtab) (hC : ClInv sc.1) (hP : PosInv sc.1) :
    cover_propagate_asymmetric_checked lit ignore sc =
      some (cover_propagate_asymmetric lit ignore sc) ∧
    PosInv (cover_propagate_asymmetric lit ignore sc).2.1 := by
  have htab : asymWatches lit ⟨countCoverPropagation sc.1, sc.2, [], false⟩
      (sc.1.watches lit) = sc.1.wtab := by
    funext x
    unfold asymWatches
    split
    · rename_i hx
      rw [hx]
      rfl
    · rfl
  have h0 : AsymInv (fun _ => False) lit sc.1 ⟨countCoverPropagation sc.1, sc.2, [], false⟩
      (sc.1.watches lit) := by
    unfold AsymInv
    rw [htab]
    exact ⟨winv_congr rfl hW, fun _ hF => hF.elim, clInv_congr rfl hC,
      sameClauses_congr rfl, hv⟩
  obtain ⟨a, b⟩ := asymLoopChecked_eq _ lit ignore sc.1 _ _ h0 hP
  unfold cover_propagate_asymmetric_checked cover_propagate_asymmetric
  rw [a]
  exact ⟨rfl, b⟩

/-- Witness for C35: the propagation of the false literal 1 over the clauses (1 2 3),
(-1 2). -/
theorem asym_pos_in_bounds_witness :
    cover_propagate_asymmetric_checked 1 5 (Examples.watchedState, Coveror.init) =
      some (cover_propagate_asymmetric 1 5 (Examples.watchedState, Coveror.init)) ∧
    PosInv (cover_propagate_asymmetric 1 5 (Examples.watchedState, Coveror.init)).2.1 :=
  asym_pos_in_bounds 1 5 (Examples.watchedState, Coveror.init) (by decide)
    (watchInv_of_check Examples.watchedState Examples.watchedTable rfl (by decide)).1
    (watchInv_of_check Examples.watchedState Examples.watchedTable rfl (by decide)).2.2
    (posInv_of_bounded Examples.watchedState (by decide))

end Internal

end CaDiCaL

namespace CaDiCaL

namespace Internal

/-- The occurrence list left by the loop of cover_propagate_covered: the list it was
given, or that list with one resolution candidate, at which the loop ended with an empty
intersection, moved to the front. -/
theorem coveredLoop_move (lit : Int) (sc0 : Internal × Coveror) (rest : List Nat) :
    ∀ (before : List Nat) (first : Bool) (sc : Internal × Coveror), MarksOnly sc0 sc →
      (coveredLoop lit before rest first sc).2.2 = before ++ rest ∨
      ∃ b c r, rest = b ++ c :: r ∧
        (coveredLoop lit before rest first sc).2.2 = c :: (before ++ b ++ r) ∧
        Candidate sc0.1 lit c ∧
        (coveredLoop lit before rest first sc).1 = false ∧
        (coveredLoop lit before rest first sc).2.1.2.intersection = [] := by
  induction rest with
  | nil =>
    intro before first sc _
    left
    unfold coveredLoop
    simp
  | cons c rest ih =>
    intro before first sc hm
    have hstep : ∀ f2 sc2, MarksOnly sc0 sc2 →
        ((coveredLoop lit (before ++ [c]) rest f2 sc2).2.2 = before ++ c :: rest ∨
        ∃ b c2 r, c :: rest = b ++ c2 :: r ∧
          (coveredLoop lit (before ++ [c]) rest f2 sc2).2.2 = c2 :: (before ++ b ++ r) ∧
          Candidate sc0.1 lit c2 ∧
          (coveredLoop lit (before ++ [c]) rest f2 sc2).1 = false ∧
          (coveredLoop lit (before ++ [c]) rest f2 sc2).2.1.2.intersection = []) := by
      intro f2 sc2 hm2
      rcases ih (before ++ [c]) f2 sc2 hm2 with e | ⟨b, c2, r, e1, e2, e3, e4, e5⟩
      · left
        rw [e, List.append_assoc]
        rfl
      · right
        refine ⟨c :: b, c2, r, by rw [e1]; rfl, ?_, e3, e4, e5⟩
        rw [e2]
        simp
    have hscan := coveredScan_marksOnly lit first (sc.1.clauseAt c).literals sc
    have hcand : (sc.1.clauseAt c).garbage = false →
        (coveredScan lit first (sc.1.clauseAt c).literals sc).1 = false →
        Candidate sc0.1 lit c := by
      intro hg hb
      refine ⟨by rw [← hm.clauseAt c]; exact hg, ?_⟩
      intro hbl
      have h2 : Blocked sc.1 lit c := (hm.blocked lit c).mpr hbl
      have := (coveredScan_blocked lit first (sc.1.clauseAt c).literals sc).mpr h2
      rw [hb] at this
      cases this
    have hbrk : ∀ (x : Internal × Coveror), x.2.intersection.isEmpty = true →
        (sc.1.clauseAt c).garbage = false →
        (coveredScan lit first (sc.1.clauseAt c).literals sc).1 = false →
        ∃ b c2 r, c :: rest = b ++ c2 :: r ∧
          ((false, x, c :: before ++ rest) : Bool × (Internal × Coveror) × List Nat).2.2 =
            c2 :: (before ++ b ++ r) ∧
          Candidate sc0.1 lit c2 ∧
          ((false, x, c :: before ++ rest) : Bool × (Internal × Coveror) × List Nat).1 = false ∧
          ((false, x, c :: before ++ rest) :
            Bool × (Internal × Coveror) × List Nat).2.1.2.intersection = [] := by
      intro x hx hg hb
      refine ⟨[], c, rest, rfl, by simp, hcand hg hb, rfl, ?_⟩
      exact List.isEmpty_iff.mp hx
    unfold coveredLoop
    split
    · exact hstep _ _ hm
    rename_i hg
    have hg2 : (sc.1.clauseAt c).garbage = false := by simpa using hg
    split
    · exact hstep _ _ (hm.trans (hscan.trans (coveredReset_marksOnly _)))
    rename_i hb
    have hb2 : (coveredScan lit first (sc.1.clauseAt c).literals sc).1 = false := by
      simpa using hb
    split
    · split
      · rename_i hx
        exact Or.inr (hbrk _ hx hg2 hb2)
      · exact hstep _ _ (hm.trans hscan)
    · split
      · rename_i hx
        exact Or.inr (hbrk _ hx hg2 hb2)
      · exact hstep _ _ (hm.trans (hscan.trans (coveredShrink_marksOnly _)))

/-- The occurrence lists after a call of cover_propagate_covered on a literal that is
not frozen are those before, the list of -lit replaced by the list left by the loop. -/
theorem covered_otab (lit : Int) (sc : Internal × Coveror) (hf : sc.1.frozen lit = false) :
    (cover_propagate_covered lit sc).2.1.otab = fun x =>
      if x = -lit then
        (coveredLoop lit [] (sc.1.occs (-lit)) true (countCoverPropagation sc.1, sc.2)).2.2
      else sc.1.otab x := by
  unfold cover_propagate_covered
  rw [if_neg (by rw [hf]; decide)]
  unfold coveredAfterLoop
  have h1 := (coveredLoop_marksOnly lit (sc.1.occs (-lit)) [] true
    (countCoverPropagation sc.1, sc.2)).valFrame
  generalize coveredLoop lit [] (sc.1.occs (-lit)) true (countCoverPropagation sc.1, sc.2) = r
    at h1
  have h2 := valFrame_coveredFinish lit r.1
    ({ r.2.1.1 with otab := fun x => if x = -lit then r.2.2 else r.2.1.1.otab x }, r.2.1.2)
  generalize (coveredFinish lit r.1
    ({ r.2.1.1 with otab := fun x => if x = -lit then r.2.2 else r.2.1.1.otab x },
      r.2.1.2)).2.1 = q at h2
  unfold ValFrame at h1 h2
  simp only at h1 h2
  rw [h2]
  show (fun x => if x = -lit then r.2.2 else r.2.1.1.otab x) = _
  rw [h1]
  rfl

/-- C36. Move-to-front keeps the occurrence list intact: after a call of
cover_propagate_covered (lit) the list occs (-lit) is a permutation of the list before
and every other occurrence list is unchanged; occs (-lit) is unchanged, or it is the
list before with one clause c moved to the front and the other clauses in their order,
where c is a resolution candidate (not garbage, not blocked) at which the loop ended
with an empty intersection; in that case the call returns false and adds no covered
literal. -/
theorem covered_move_to_front (lit : Int) (sc : Internal × Coveror) :
    ((cover_propagate_covered lit sc).2.1.occs (-lit)).Perm (sc.1.occs (-lit)) ∧
    (∀ x, x ≠ -lit → (cover_propagate_covered lit sc).2.1.occs x = sc.1.occs x) ∧
    ((cover_propagate_covered lit sc).2.1.occs (-lit) = sc.1.occs (-lit) ∨
      ∃ before c rest, sc.1.occs (-lit) = before ++ c :: rest ∧
        (cover_propagate_covered lit sc).2.1.occs (-lit) = c :: (before ++ rest) ∧
        Candidate sc.1 lit c ∧
        (coveredLoop lit [] (sc.1.occs (-lit)) true (countCoverPropagation sc.1, sc.2)).1
          = false ∧
        (coveredLoop lit [] (sc.1.occs (-lit)) true
          (countCoverPropagation sc.1, sc.2)).2.1.2.intersection = [] ∧
        (cover_propagate_covered lit sc).1 = false ∧
        (cover_propagate_covered lit sc).2.2.covered = sc.2.covered ∧
        (cover_propagate_covered lit sc).2.2.added = sc.2.added) := by
  by_cases hf : sc.1.frozen lit = true
  · have e : cover_propagate_covered lit sc = (false, sc) := by
      unfold cover_propagate_covered
      rw [if_pos hf]
    rw [e]
    exact ⟨List.Perm.refl _, fun _ _ => rfl, Or.inl rfl⟩
  have hf2 : sc.1.frozen lit = false := by simpa using hf
  have ho := covered_otab lit sc hf2
  have hp := coveredLoop_perm lit (sc.1.occs (-lit)) [] true (countCoverPropagation sc.1, sc.2)
  have hmv := coveredLoop_move lit (countCoverPropagation sc.1, sc.2) (sc.1.occs (-lit)) []
    true (countCoverPropagation sc.1, sc.2) (MarksOnly.refl _)
  have hmo := coveredLoop_marksOnly lit (sc.1.occs (-lit)) [] true
    (countCoverPropagation sc.1, sc.2)
  rw [List.nil_append] at hp hmv
  have hocc : (cover_propagate_covered lit sc).2.1.occs (-lit) =
      (coveredLoop lit [] (sc.1.occs (-lit)) true (countCoverPropagation sc.1, sc.2)).2.2 := by
    show (cover_propagate_covered lit sc).2.1.otab (-lit) = _
    rw [ho]
    show (if -lit = -lit then _ else _) = _
    rw [if_pos rfl]
  refine ⟨by rw [hocc]; exact hp, ?_, ?_⟩
  · intro x hx
    show (cover_propagate_covered lit sc).2.1.otab x = _
    rw [ho]
    show (if x = -lit then _ else _) = _
    rw [if_neg hx]
    rfl
  · rcases hmv with e | ⟨b, c, r, e1, e2, e3, e4, e5⟩
    · left
      rw [hocc, e]
    · right
      refine ⟨b, c, r, e1, ?_, e3, e4, e5, ?_⟩
      · rw [hocc, e2]
        simp
      · have hres : cover_propagate_covered lit sc =
            coveredFinish lit false
              ({ (coveredLoop lit [] (sc.1.occs (-lit)) true
                    (countCoverPropagation sc.1, sc.2)).2.1.1 with
                  otab := fun x => if x = -lit then
                    (coveredLoop lit [] (sc.1.occs (-lit)) true
                      (countCoverPropagation sc.1, sc.2)).2.2
                    else (coveredLoop lit [] (sc.1.occs (-lit)) true
                      (countCoverPropagation sc.1, sc.2)).2.1.1.otab x },
                (coveredLoop lit [] (sc.1.occs (-lit)) true
                  (countCoverPropagation sc.1, sc.2)).2.1.2) := by
          unfold cover_propagate_covered
          rw [if_neg hf]
          unfold coveredAfterLoop
          rw [e4]
        have hcv := hmo.cv
        rw [hres]
        unfold coveredFinish
        rw [if_neg (by decide), if_pos (by
          show List.isEmpty _ = true
          rw [e5]
          rfl)]
        exact ⟨rfl, hcv.2.2.1, hcv.2.2.2.1⟩

/-- Witness for C36: with the clauses (-1 2), (-1 3) and the literal 1 false, the
covered propagation of 1 finds the intersection empty at the second occurrence of -1 and
moves it to the front. -/
theorem covered_move_to_front_witness :
    Examples.moveState.1.occs (-1) = [0, 1] ∧
    (cover_propagate_covered 1 Examples.moveState).2.1.occs (-1) = [1, 0] ∧
    ((cover_propagate_covered 1 Examples.moveState).2.1.occs (-1)).Perm
      (Examples.moveState.1.occs (-1)) :=
  ⟨by decide, by decide!, (covered_move_to_front 1 Examples.moveState).1⟩

end Internal

end CaDiCaL

namespace CaDiCaL

namespace Internal

theorem coveredLoop_cons (lit : Int) (before : List Nat) (c : Nat) (rest : List Nat)
    (first : Bool) (sc : Internal × Coveror) :
    coveredLoop lit before (c :: rest) first sc =
      if (sc.1.clauseAt c).garbage then coveredLoop lit (before ++ [c]) rest first sc
      else if (coveredScan lit first (sc.1.clauseAt c).literals sc).1 then
        coveredLoop lit (before ++ [c]) rest first
          (coveredReset (coveredScan lit first (sc.1.clauseAt c).literals sc).2)
      else if first then
        if (coveredScan lit first (sc.1.clauseAt c).literals sc).2.2.intersection.isEmpty then
          (false, (coveredScan lit first (sc.1.clauseAt c).literals sc).2, c :: before ++ rest)
        else coveredLoop lit (before ++ [c]) rest false
          (coveredScan lit first (sc.1.clauseAt c).literals sc).2
      else
        if (coveredShrink (coveredScan lit first (sc.1.clauseAt c).literals sc).2
            ).2.intersection.isEmpty then
          (false, coveredShrink (coveredScan lit first (sc.1.clauseAt c).literals sc).2,
            c :: before ++ rest)
        else coveredLoop lit (before ++ [c]) rest false
          (coveredShrink (coveredScan lit first (sc.1.clauseAt c).literals sc).2) := by
  rw [coveredLoop]

/-- The result of cover_propagate_covered on a literal that is not frozen in terms of
the state in which the loop over the occurrence list ends: the call returns the flag
first, and the intersection is appended to covered and added unless first holds. -/
theorem covered_result (lit : Int) (sc : Internal × Coveror) (hf : sc.1.frozen lit = false) :
    (cover_propagate_covered lit sc).1 =
      (coveredLoop lit [] (sc.1.occs (-lit)) true (countCoverPropagation sc.1, sc.2)).1 ∧
    ((coveredLoop lit [] (sc.1.occs (-lit)) true (countCoverPropagation sc.1, sc.2)).1 = false →
      (cover_propagate_covered lit sc).2.2.covered = sc.2.covered ++
        (coveredLoop lit [] (sc.1.occs (-lit)) true
          (countCoverPropagation sc.1, sc.2)).2.1.2.intersection ∧
      (cover_propagate_covered lit sc).2.2.added = sc.2.added ++
        (coveredLoop lit [] (sc.1.occs (-lit)) true
          (countCoverPropagation sc.1, sc.2)).2.1.2.intersection) := by
  have hmo := coveredLoop_marksOnly lit (sc.1.occs (-lit)) [] true
    (countCoverPropagation sc.1, sc.2)
  have hcv := hmo.cv
  unfold cover_propagate_covered
  rw [if_neg (by rw [hf]; decide)]
  unfold coveredAfterLoop
  generalize coveredLoop lit [] (sc.1.occs (-lit)) true (countCoverPropagation sc.1, sc.2) = r
    at hmo hcv
  obtain ⟨first, ⟨s1, cv1⟩, os⟩ := r
  simp only at hmo hcv
  refine ⟨coveredFinish_fst _ _ _, ?_⟩
  intro h1
  simp only at h1
  subst h1
  unfold coveredFinish
  rw [if_neg (show ¬ ((false : Bool) = true) by decide)]
  simp only
  by_cases h2 : cv1.intersection.isEmpty = true
  · rw [if_pos h2, List.isEmpty_iff.mp h2, List.append_nil, List.append_nil]
    exact ⟨hcv.2.2.1, hcv.2.2.2.1⟩
  · rw [if_neg h2]
    unfold covered_literal_addition
    obtain ⟨a1, _, _, _⟩ := foldl_coveredAdd cv1.intersection
      ({ s1 with otab := fun x => if x = -lit then os else s1.otab x },
        cover_push_extension lit cv1)
    simp only at a1 ⊢
    generalize List.foldl coveredAdd
      ({ s1 with otab := fun x => if x = -lit then os else s1.otab x },
        cover_push_extension lit cv1) cv1.intersection = q at a1
    constructor
    · show q.2.covered = _
      rw [a1]
      show cv1.covered ++ _ = _
      rw [hcv.2.2.1]
    · show q.2.added = _
      rw [a1]
      show cv1.added ++ _ = _
      rw [hcv.2.2.2.1]

/-- The scan of a clause after the first candidate leaves the intersection as it
is. -/
theorem coveredScan_false_inter (lit : Int) (lits : List Int) : ∀ sc : Internal × Coveror,
    (coveredScan lit false lits sc).2.2.intersection = sc.2.intersection := by
  induction lits with
  | nil => intro sc; rfl
  | cons o lits ih =>
    intro sc
    unfold coveredScan
    split
    · exact ih sc
    split
    · exact ih sc
    split
    · rfl
    rw [if_neg (show ¬ ((false : Bool) = true) by decide)]
    split
    · exact ih _
    · exact ih sc

/-- Once a candidate has been seen, the loop of cover_propagate_covered ends with an
empty intersection if the intersection is empty or a blocked clause is still to
come. -/
theorem coveredLoop_cleared (lit : Int) (sc0 : Internal × Coveror) (rest : List Nat) :
    ∀ (before : List Nat) (sc : Internal × Coveror), MarksOnly sc0 sc →
      (sc.2.intersection = [] ∨
        ∃ d ∈ rest, (sc0.1.clauseAt d).garbage = false ∧ Blocked sc0.1 lit d) →
      (coveredLoop lit before rest false sc).1 = false ∧
      (coveredLoop lit before rest false sc).2.1.2.intersection = [] := by
  induction rest with
  | nil =>
    intro before sc _ h
    rcases h with h | ⟨d, hd, _⟩
    · exact ⟨rfl, h⟩
    · cases hd
  | cons c rest ih =>
    intro before sc hmo h
    have hs := coveredScan_marksOnly lit false (sc.1.clauseAt c).literals sc
    have hb := coveredScan_blocked lit false (sc.1.clauseAt c).literals sc
    rw [coveredLoop_cons]
    split
    · rename_i hg
      apply ih _ _ hmo
      rcases h with h | ⟨d, hd, hd1, hd2⟩
      · exact Or.inl h
      · right
        refine ⟨d, ?_, hd1, hd2⟩
        rcases List.mem_cons.mp hd with e | e
        · rw [e, ← hmo.clauseAt, hg] at hd1
          cases hd1
        · exact e
    split
    · exact ih _ _ ((hmo.trans hs).trans (coveredReset_marksOnly _)) (Or.inl rfl)
    rename_i hg hbl
    rw [if_neg (show ¬ ((false : Bool) = true) by decide)]
    split
    · rename_i he
      exact ⟨rfl, List.isEmpty_iff.mp he⟩
    · rename_i he
      apply ih _ _ ((hmo.trans hs).trans (coveredShrink_marksOnly _))
      rcases h with h | ⟨d, hd, hd1, hd2⟩
      · exfalso
        apply he
        show List.isEmpty (coveredFilter
          (coveredScan lit false (sc.1.clauseAt c).literals sc).2.2.intersection _).2 = true
        rw [coveredScan_false_inter, h]
        rfl
      · right
        refine ⟨d, ?_, hd1, hd2⟩
        rcases List.mem_cons.mp hd with e | e
        · exfalso
          apply hbl
          rw [e] at hd2
          exact hb.mpr ((hmo.blocked lit c).mpr hd2)
        · exact e

/-- The loop of cover_propagate_covered ends without first and with an empty
intersection if a blocked clause that is not garbage comes after a candidate. -/
theorem coveredLoop_blocked_later (lit : Int) (sc0 : Internal × Coveror) (c1 d : Nat)
    (b e : List Nat) (hc1 : Candidate sc0.1 lit c1)
    (hd : (sc0.1.clauseAt d).garbage = false ∧ Blocked sc0.1 lit d) :
    ∀ (a before : List Nat) (first : Bool) (sc : Internal × Coveror), MarksOnly sc0 sc →
      (coveredLoop lit before (a ++ c1 :: b ++ d :: e) first sc).1 = false ∧
      (coveredLoop lit before (a ++ c1 :: b ++ d :: e) first sc).2.1.2.intersection = [] := by
  have hstep : ∀ (c : Nat) (tail : List Nat) (before : List Nat) (first : Bool)
      (sc : Internal × Coveror), MarksOnly sc0 sc → d ∈ tail →
      Candidate sc0.1 lit c →
      (coveredLoop lit before (c :: tail) first sc).1 = false ∧
      (coveredLoop lit before (c :: tail) first sc).2.1.2.intersection = [] := by
    intro c tail before first sc hmo hdt hc
    have hs := coveredScan_marksOnly lit first (sc.1.clauseAt c).literals sc
    have hb := coveredScan_blocked lit first (sc.1.clauseAt c).literals sc
    rw [coveredLoop_cons]
    rw [if_neg (by rw [hmo.clauseAt, hc.1]; decide)]
    rw [if_neg (fun hbl => hc.2 ((hmo.blocked lit c).mp (hb.mp hbl)))]
    split
    · split
      · rename_i he
        exact ⟨rfl, List.isEmpty_iff.mp he⟩
      · exact coveredLoop_cleared lit sc0 tail _ _ (hmo.trans hs) (Or.inr ⟨d, hdt, hd.1, hd.2⟩)
    · split
      · rename_i he
        exact ⟨rfl, List.isEmpty_iff.mp he⟩
      · exact coveredLoop_cleared lit sc0 tail _ _
          ((hmo.trans hs).trans (coveredShrink_marksOnly _)) (Or.inr ⟨d, hdt, hd.1, hd.2⟩)
  intro a
  induction a with
  | nil =>
    intro before first sc hmo
    exact hstep c1 (b ++ d :: e) before first sc hmo (by simp) hc1
  | cons c a ih =>
    intro before first sc hmo
    have hs := coveredScan_marksOnly lit first (sc.1.clauseAt c).literals sc
    have hb := coveredScan_blocked lit first (sc.1.clauseAt c).literals sc
    by_cases hcand : Candidate sc0.1 lit c
    · exact hstep c (a ++ c1 :: b ++ d :: e) before first sc hmo (by simp) hcand
    · show (coveredLoop lit before (c :: (a ++ c1 :: b ++ d :: e)) first sc).1 = false ∧
        (coveredLoop lit before (c :: (a ++ c1 :: b ++ d :: e)) first sc).2.1.2.intersection = []
      rw [coveredLoop_cons]
      split
      · exact ih _ _ _ hmo
      rename_i hg
      split
      · exact ih _ _ _ ((hmo.trans hs).trans (coveredReset_marksOnly _))
      · rename_i hbl
        exfalso
        apply hcand
        refine ⟨by rw [← hmo.clauseAt]; simpa using hg, ?_⟩
        intro h
        exact hbl (hb.mpr ((hmo.blocked lit c).mpr h))

end Internal

end CaDiCaL

namespace CaDiCaL

namespace Internal

theorem coveredScan_cons (lit : Int) (first : Bool) (o : Int) (rest : List Int)
    (sc : Internal × Coveror) :
    coveredScan lit first (o :: rest) sc =
      if o = -lit then coveredScan lit first rest sc
      else if sc.1.val o < 0 then coveredScan lit first rest sc
      else if 0 < sc.1.val o then (true, sc)
      else if first then
        coveredScan lit first rest
          (sc.1.mark o, { sc.2 with intersection := sc.2.intersection ++ [o] })
      else if 0 < sc.1.marked o then coveredScan lit first rest (sc.1.unmark o, sc.2)
      else coveredScan lit first rest sc := by
  rw [coveredScan]

/-- The scan of the first candidate appends its unassigned literals other than -lit
to the intersection, in the order of the clause. -/
theorem coveredScan_collect (lit : Int) (lits : List Int) : ∀ sc : Internal × Coveror,
    (coveredScan lit true lits sc).1 = false →
    (coveredScan lit true lits sc).2.2.intersection =
      sc.2.intersection ++
        lits.filter (fun l => decide (l ≠ -lit) && decide (sc.1.val l = 0)) := by
  induction lits with
  | nil =>
    intro sc _
    show sc.2.intersection = sc.2.intersection ++ []
    rw [List.append_nil]
  | cons o lits ih =>
    intro sc h
    rw [coveredScan_cons] at h ⊢
    by_cases h1 : o = -lit
    · rw [if_pos h1] at h ⊢
      rw [List.filter_cons_of_neg (by simp [h1])]
      exact ih sc h
    rw [if_neg h1] at h ⊢
    by_cases h2 : sc.1.val o < 0
    · rw [if_pos h2] at h ⊢
      rw [List.filter_cons_of_neg (by
        simp only [Bool.and_eq_true, decide_eq_true_eq, not_and]
        intro _
        omega)]
      exact ih sc h
    rw [if_neg h2] at h ⊢
    by_cases h3 : 0 < sc.1.val o
    · rw [if_pos h3] at h
      cases h
    rw [if_neg h3, if_pos rfl] at h ⊢
    have h0 : sc.1.val o = 0 := by omega
    rw [List.filter_cons_of_pos (by simp [h1, h0]), ih _ h]
    show (sc.2.intersection ++ [o]) ++ _ = _
    rw [List.append_assoc]
    rfl

/-- The scan of a later candidate only clears marks. -/
theorem coveredScan_false_marks (lit : Int) (lits : List Int) : ∀ (sc : Internal × Coveror)
    (v : Nat), (coveredScan lit false lits sc).2.1.marks v = sc.1.marks v ∨
      (coveredScan lit false lits sc).2.1.marks v = 0 := by
  induction lits with
  | nil => intro sc v; exact Or.inl rfl
  | cons o lits ih =>
    intro sc v
    rw [coveredScan_cons]
    split
    · exact ih sc v
    split
    · exact ih sc v
    split
    · exact Or.inl rfl
    rw [if_neg (show ¬ ((false : Bool) = true) by decide)]
    split
    · rcases ih (sc.1.unmark o, sc.2) v with h | h
      · rw [h]
        show (if v = o.natAbs then 0 else sc.1.marks v) = sc.1.marks v ∨
          (if v = o.natAbs then 0 else sc.1.marks v) = 0
        split
        · exact Or.inr rfl
        · exact Or.inl rfl
      · exact Or.inr h
    · exact ih sc v

theorem marked_not_pos_of {s t : Internal} (h : ∀ v, t.marks v = s.marks v ∨ t.marks v = 0)
    (l : Int) (hl : ¬ 0 < s.marked l) : ¬ 0 < t.marked l := by
  unfold Internal.marked at hl ⊢
  rcases h l.natAbs with e | e
  · rw [e]; exact hl
  · rw [e]
    split <;> decide

/-- After the scan of a later candidate no unassigned literal of the clause other
than -lit is marked. -/
theorem coveredScan_false_unmarked (lit : Int) (lits : List Int) :
    ∀ sc : Internal × Coveror, (coveredScan lit false lits sc).1 = false →
      ∀ l ∈ lits, l ≠ -lit → sc.1.val l = 0 →
        ¬ 0 < (coveredScan lit false lits sc).2.1.marked l := by
  induction lits with
  | nil => intro sc _ l hl; cases hl
  | cons o lits ih =>
    intro sc h l hl hne hv
    rw [coveredScan_cons] at h ⊢
    by_cases h1 : o = -lit
    · rw [if_pos h1] at h ⊢
      rcases List.mem_cons.mp hl with e | e
      · exact absurd (e.trans h1) hne
      · exact ih sc h l e hne hv
    rw [if_neg h1] at h ⊢
    by_cases h2 : sc.1.val o < 0
    · rw [if_pos h2] at h ⊢
      rcases List.mem_cons.mp hl with e | e
      · rw [e] at hv
        omega
      · exact ih sc h l e hne hv
    rw [if_neg h2] at h ⊢
    by_cases h3 : 0 < sc.1.val o
    · rw [if_pos h3] at h
      cases h
    rw [if_neg h3, if_neg (show ¬ ((false : Bool) = true) by decide)] at h ⊢
    by_cases h4 : 0 < sc.1.marked o
    · rw [if_pos h4] at h ⊢
      rcases List.mem_cons.mp hl with e | e
      · apply marked_not_pos_of (coveredScan_false_marks lit lits (sc.1.unmark o, sc.2))
        rw [e]
        show ¬ 0 < (if o < 0 then -(if o.natAbs = o.natAbs then 0 else sc.1.marks o.natAbs)
          else (if o.natAbs = o.natAbs then 0 else sc.1.marks o.natAbs))
        rw [if_pos rfl]
        split <;> decide
      · exact ih _ h l e hne hv
    · rw [if_neg h4] at h ⊢
      rcases List.mem_cons.mp hl with e | e
      · apply marked_not_pos_of (coveredScan_false_marks lit lits sc)
        rw [e]
        exact h4
      · exact ih sc h l e hne hv

/-- The filter keeps exactly the literals of the intersection that are not marked, in
their order. -/
theorem coveredFilter_exact (I : List Int) : ∀ s : Internal, DistinctVars I →
    (coveredFilter I s).2 = I.filter (fun l => decide (s.marks l.natAbs = 0)) := by
  induction I with
  | nil => intro s _; rfl
  | cons o I ih =>
    intro s hd
    obtain ⟨d1, d2, d3⟩ := distinctVars_tail hd
    rw [coveredFilter]
    by_cases hm : s.marked o ≠ 0
    · rw [if_pos hm]
      have hm2 : s.marks o.natAbs ≠ 0 := fun e => hm ((marked_eq_zero_iff s o).mpr e)
      rw [List.filter_cons_of_neg (by simpa using hm2), ih _ d1]
      apply List.filter_congr
      intro l hl
      show decide ((if l.natAbs = o.natAbs then 0 else s.marks l.natAbs) = 0) = _
      rw [if_neg (d3 l hl)]
    · rw [if_neg hm]
      have hm2 : s.marks o.natAbs = 0 := (marked_eq_zero_iff s o).mp (by
        by_contra h
        exact hm h)
      rw [List.filter_cons_of_pos (by simpa using hm2)]
      show o :: (coveredFilter I (s.mark o)).2 = _
      rw [ih _ d1]
      congr 1
      apply List.filter_congr
      intro l hl
      show decide ((if l.natAbs = o.natAbs then Int.sign o else s.marks l.natAbs) = 0) = _
      rw [if_neg (d3 l hl)]

theorem marked_of_sign (s : Internal) (l : Int) (hl : l ≠ 0)
    (h : s.marks l.natAbs = Int.sign l) : 0 < s.marked l := by
  unfold Internal.marked
  rw [h]
  split
  · rename_i hneg
    rw [Int.sign_eq_neg_one_of_neg hneg]
    decide
  · rw [Int.sign_eq_one_of_pos (by omega)]
    decide

/-- The scan and the filter for a later candidate keep exactly the literals of the
intersection that occur in the clause, in their order. -/
theorem coveredShrink_exact (lit : Int) (C : List Int) (sc : Internal × Coveror)
    (hM : MarkInv sc.1.marks sc.2.intersection)
    (hI : ∀ l ∈ sc.2.intersection, sc.1.val l = 0 ∧ l ≠ -lit)
    (hb : (coveredScan lit false C sc).1 = false) :
    (coveredShrink (coveredScan lit false C sc).2).2.intersection =
      sc.2.intersection.filter (fun l => decide (l ∈ C)) := by
  obtain ⟨m1, m2, m3⟩ := hM
  obtain ⟨q1, q2⟩ := coveredScan_false lit C C sc (fun o ho => ho) m1
    (fun l hl => Or.inl (m2 l hl))
  have hun := coveredScan_false_unmarked lit C sc hb
  show (coveredFilter (coveredScan lit false C sc).2.2.intersection
    (coveredScan lit false C sc).2.1).2 = _
  rw [q1, coveredFilter_exact _ _ m1]
  apply List.filter_congr
  intro l hl
  have hl0 : l ≠ 0 := fun e => m1.2 (e ▸ hl)
  by_cases hc : l ∈ C
  · have h0 : (coveredScan lit false C sc).2.1.marks l.natAbs = 0 := by
      rcases q2 l hl with h | ⟨h, _⟩
      · exact absurd (marked_of_sign _ l hl0 h) (hun l hc (hI l hl).2 (hI l hl).1)
      · exact h
    simp [h0, hc]
  · have h0 : (coveredScan lit false C sc).2.1.marks l.natAbs ≠ 0 := by
      rcases q2 l hl with h | ⟨_, h⟩
      · rw [h]
        exact sign_ne_zero_of_ne hl0
      · exact absurd h hc
    simp [h0, hc]

end Internal

end CaDiCaL

namespace CaDiCaL

namespace Internal

/-- After the first candidate, over clauses none of which is blocked, the loop of
cover_propagate_covered ends with exactly the literals of the intersection that occur
in every clause still to visit that is not garbage. -/
theorem coveredLoop_exact_false (lit : Int) (sc0 : Internal × Coveror) (rest : List Nat) :
    ∀ (before : List Nat) (sc : Internal × Coveror), MarksOnly sc0 sc →
      MarkInv sc.1.marks sc.2.intersection →
      (∀ l ∈ sc.2.intersection, sc0.1.val l = 0 ∧ l ≠ -lit) →
      (∀ c ∈ rest, (sc0.1.clauseAt c).garbage = false → ¬ Blocked sc0.1 lit c) →
      (coveredLoop lit before rest false sc).1 = false ∧
      (coveredLoop lit before rest false sc).2.1.2.intersection =
        sc.2.intersection.filter (fun l =>
          rest.all (fun d => (sc0.1.clauseAt d).garbage ||
            decide (l ∈ (sc0.1.clauseAt d).literals))) := by
  induction rest with
  | nil =>
    intro before sc _ _ _ _
    refine ⟨rfl, ?_⟩
    show sc.2.intersection = _
    simp
  | cons c rest ih =>
    intro before sc hmo hM hI hrest
    have hrest1 : ∀ d ∈ rest, (sc0.1.clauseAt d).garbage = false → ¬ Blocked sc0.1 lit d :=
      fun d hd => hrest d (List.mem_cons_of_mem _ hd)
    have hs := coveredScan_marksOnly lit false (sc.1.clauseAt c).literals sc
    have hb := coveredScan_blocked lit false (sc.1.clauseAt c).literals sc
    have hsupp := coveredScan_supp lit false (sc.1.clauseAt c).literals sc hM.2.2
    rw [coveredLoop_cons]
    split
    · rename_i hg
      have hg0 : (sc0.1.clauseAt c).garbage = true := by rw [← hmo.clauseAt]; exact hg
      obtain ⟨a1, a2⟩ := ih (before ++ [c]) sc hmo hM hI hrest1
      refine ⟨a1, ?_⟩
      rw [a2]
      apply List.filter_congr
      intro l _
      simp [hg0]
    rename_i hg
    have hg0 : (sc0.1.clauseAt c).garbage = false := by
      rw [← hmo.clauseAt]; simpa using hg
    have hnb : ¬ Blocked sc0.1 lit c := hrest c (List.mem_cons_self _ _) hg0
    have hb2 : (coveredScan lit false (sc.1.clauseAt c).literals sc).1 = false := by
      cases hx : (coveredScan lit false (sc.1.clauseAt c).literals sc).1
      · rfl
      · exact absurd ((hmo.blocked lit c).mp (hb.mp hx)) hnb
    rw [if_neg (by rw [hb2]; decide), if_neg (show ¬ ((false : Bool) = true) by decide)]
    have hIs : ∀ l ∈ sc.2.intersection, sc.1.val l = 0 ∧ l ≠ -lit := by
      intro l hl
      rw [hmo.val]
      exact hI l hl
    have hex := coveredShrink_exact lit (sc.1.clauseAt c).literals sc hM hIs hb2
    obtain ⟨m1, m2, m3⟩ := hM
    obtain ⟨q1, q2⟩ := coveredScan_false lit (sc.1.clauseAt c).literals
      (sc.1.clauseAt c).literals sc (fun o ho => ho) m1 (fun l hl => Or.inl (m2 l hl))
    have hsh : MarkInv
        (coveredShrink (coveredScan lit false (sc.1.clauseAt c).literals sc).2).1.marks
        (coveredShrink (coveredScan lit false (sc.1.clauseAt c).literals sc).2).2.intersection := by
      unfold coveredShrink
      rw [q1]
      obtain ⟨f1, f2, f3, f4⟩ := coveredFilter_spec (sc.1.clauseAt c).literals
        sc.2.intersection (coveredScan lit false (sc.1.clauseAt c).literals sc).2.1 m1 q2
      refine ⟨f2, f3, ?_⟩
      intro v hv
      rcases f4 v hv with h | ⟨h1, h2⟩
      · exact h
      · obtain ⟨l, hl, e⟩ := hsupp v h1
        rw [q1] at hl
        exact absurd e (h2 l hl)
    have hkey : sc.2.intersection.filter (fun l =>
          (c :: rest).all (fun d => (sc0.1.clauseAt d).garbage ||
            decide (l ∈ (sc0.1.clauseAt d).literals))) =
        ((coveredShrink (coveredScan lit false (sc.1.clauseAt c).literals sc).2
          ).2.intersection).filter (fun l =>
            rest.all (fun d => (sc0.1.clauseAt d).garbage ||
              decide (l ∈ (sc0.1.clauseAt d).literals))) := by
      rw [hex, List.filter_filter]
      apply List.filter_congr
      intro l _
      rw [List.all_cons, hg0, hmo.clauseAt, Bool.false_or, Bool.and_comm]
    rw [hkey]
    split
    · rename_i he
      refine ⟨rfl, ?_⟩
      show (coveredShrink _).2.intersection = _
      rw [List.isEmpty_iff.mp he]
      rfl
    · apply ih _ _ ((hmo.trans hs).trans (coveredShrink_marksOnly _)) hsh
      · intro l hl
        rw [hex] at hl
        exact hI l (List.mem_filter.mp hl).1
      · exact hrest1

/-- Over an occurrence list in which no blocked clause that is not garbage follows the
first candidate c1, the loop of cover_propagate_covered ends with exactly the unassigned
literals of c1 other than -lit that occur in every later clause that is not garbage. -/
theorem coveredLoop_exact_true (lit : Int) (sc0 : Internal × Coveror) (c1 : Nat)
    (post : List Nat) (hc1 : Candidate sc0.1 lit c1)
    (hd1 : DistinctVars (sc0.1.clauseAt c1).literals)
    (hpost : ∀ c ∈ post, (sc0.1.clauseAt c).garbage = false → ¬ Blocked sc0.1 lit c) :
    ∀ (pre before : List Nat) (sc : Internal × Coveror), MarksOnly sc0 sc →
      (∀ v, sc.1.marks v = 0) → sc.2.intersection = [] →
      (∀ c ∈ pre, ¬ Candidate sc0.1 lit c) →
      (coveredLoop lit before (pre ++ c1 :: post) true sc).1 = false ∧
      (coveredLoop lit before (pre ++ c1 :: post) true sc).2.1.2.intersection =
        commonLits sc0.1 lit c1 post := by
  intro pre
  induction pre with
  | nil =>
    intro before sc hmo hz hI _
    have hs := coveredScan_marksOnly lit true (sc.1.clauseAt c1).literals sc
    have hb := coveredScan_blocked lit true (sc.1.clauseAt c1).literals sc
    have hb2 : (coveredScan lit true (sc.1.clauseAt c1).literals sc).1 = false := by
      cases hx : (coveredScan lit true (sc.1.clauseAt c1).literals sc).1
      · rfl
      · exact absurd ((hmo.blocked lit c1).mp (hb.mp hx)) hc1.2
    have hcol := coveredScan_collect lit (sc.1.clauseAt c1).literals sc hb2
    have hun : (coveredScan lit true (sc.1.clauseAt c1).literals sc).2.2.intersection =
        unassignedLits sc0.1 lit c1 := by
      rw [hcol, hI, List.nil_append, hmo.clauseAt]
      unfold unassignedLits
      apply List.filter_congr
      intro l _
      rw [hmo.val]
    have hm0 : MarkInv sc.1.marks sc.2.intersection := by
      rw [hI]; exact markInv_nil hz
    obtain ⟨t1, _⟩ := coveredScan_true lit (sc.1.clauseAt c1).literals sc
      (by rw [hmo.clauseAt]; exact hd1)
      (fun o _ l hl => (by rw [hI] at hl; cases hl)) hm0
    show (coveredLoop lit before (c1 :: post) true sc).1 = false ∧
      (coveredLoop lit before (c1 :: post) true sc).2.1.2.intersection = _
    rw [coveredLoop_cons]
    rw [if_neg (by rw [hmo.clauseAt, hc1.1]; decide), if_neg (by rw [hb2]; decide),
      if_pos rfl]
    split
    · rename_i he
      refine ⟨rfl, ?_⟩
      show (coveredScan lit true (sc.1.clauseAt c1).literals sc).2.2.intersection = _
      unfold commonLits
      rw [← hun, List.isEmpty_iff.mp he]
      rfl
    · obtain ⟨a1, a2⟩ := coveredLoop_exact_false lit sc0 post (before ++ [c1])
        (coveredScan lit true (sc.1.clauseAt c1).literals sc).2 (hmo.trans hs) t1
        (by
          intro l hl
          rw [hun] at hl
          have := (List.mem_filter.mp hl).2
          simp only [Bool.and_eq_true, decide_eq_true_eq] at this
          exact ⟨this.2, this.1⟩) hpost
      refine ⟨a1, ?_⟩
      rw [a2, hun]
      rfl
  | cons c pre ih =>
    intro before sc hmo hz hI hpre
    have hnc : ¬ Candidate sc0.1 lit c := hpre c (List.mem_cons_self _ _)
    have hpre1 : ∀ d ∈ pre, ¬ Candidate sc0.1 lit d :=
      fun d hd => hpre d (List.mem_cons_of_mem _ hd)
    have hs := coveredScan_marksOnly lit true (sc.1.clauseAt c).literals sc
    have hb := coveredScan_blocked lit true (sc.1.clauseAt c).literals sc
    have hsupp := coveredScan_supp lit true (sc.1.clauseAt c).literals sc
      (fun v hv => absurd (hz v) hv)
    show (coveredLoop lit before (c :: (pre ++ c1 :: post)) true sc).1 = false ∧
      (coveredLoop lit before (c :: (pre ++ c1 :: post)) true sc).2.1.2.intersection = _
    rw [coveredLoop_cons]
    split
    · exact ih _ _ hmo hz hI hpre1
    rename_i hg
    split
    · exact ih _ _ ((hmo.trans hs).trans (coveredReset_marksOnly _))
        (unmarkAll_zero _ _ hsupp) rfl hpre1
    · rename_i hbl
      exfalso
      apply hnc
      refine ⟨by rw [← hmo.clauseAt]; simpa using hg, ?_⟩
      intro h
      exact hbl (hb.mpr ((hmo.blocked lit c).mpr h))

/-- C38. Exact result of covered literal addition: in a state without marks and with
an empty intersection, for lit not frozen and an occurrence list of -lit whose clauses
have nonzero literals of distinct variables, let N be the clauses of occs (-lit) that
are not garbage and have no true literal other than -lit. If the first clause c1 of N
comes after the clauses pre, none of which is in N, and no clause after c1 that is
not garbage is blocked, the literals appended to covered and added are exactly the
unassigned literals of c1 other than -lit that occur in every later clause that is not
garbage, in the order of c1, and the call returns false. If a blocked clause that is
not garbage comes after a clause of N, the call adds no literal and returns false. -/
theorem covered_addition_exact (lit : Int) (sc : Internal × Coveror)
    (hm : ∀ v, sc.1.marks v = 0) (hI : sc.2.intersection = [])
    (hc : ∀ c ∈ sc.1.occs (-lit), DistinctVars (sc.1.clauseAt c).literals)
    (hf : sc.1.frozen lit = false) :
    (∀ pre c1 post, sc.1.occs (-lit) = pre ++ c1 :: post →
      (∀ c ∈ pre, ¬ Candidate sc.1 lit c) → Candidate sc.1 lit c1 →
      (∀ c ∈ post, (sc.1.clauseAt c).garbage = false → ¬ Blocked sc.1 lit c) →
      (cover_propagate_covered lit sc).1 = false ∧
      (cover_propagate_covered lit sc).2.2.covered =
        sc.2.covered ++ commonLits sc.1 lit c1 post ∧
      (cover_propagate_covered lit sc).2.2.added =
        sc.2.added ++ commonLits sc.1 lit c1 post) ∧
    (∀ a c1 b d e, sc.1.occs (-lit) = a ++ c1 :: b ++ d :: e →
      Candidate sc.1 lit c1 → (sc.1.clauseAt d).garbage = false → Blocked sc.1 lit d →
      (cover_propagate_covered lit sc).1 = false ∧
      (cover_propagate_covered lit sc).2.2.covered = sc.2.covered ∧
      (cover_propagate_covered lit sc).2.2.added = sc.2.added) := by
  obtain ⟨r1, r2⟩ := covered_result lit sc hf
  constructor
  · intro pre c1 post hos hpre hc1 hpost
    have hd1 : DistinctVars (sc.1.clauseAt c1).literals := hc c1 (by rw [hos]; simp)
    obtain ⟨a1, a2⟩ := coveredLoop_exact_true lit (countCoverPropagation sc.1, sc.2) c1 post
      hc1 hd1 hpost pre [] (countCoverPropagation sc.1, sc.2) (MarksOnly.refl _) hm hI hpre
    rw [← hos] at a1 a2
    obtain ⟨b1, b2⟩ := r2 a1
    rw [a2] at b1 b2
    exact ⟨r1.trans a1, b1, b2⟩
  · intro a c1 b d e hos hc1 hdg hdb
    obtain ⟨a1, a2⟩ := coveredLoop_blocked_later lit (countCoverPropagation sc.1, sc.2) c1 d b e
      hc1 ⟨hdg, hdb⟩ a [] true (countCoverPropagation sc.1, sc.2) (MarksOnly.refl _)
    rw [← hos] at a1 a2
    obtain ⟨b1, b2⟩ := r2 a1
    rw [a2, List.append_nil] at b1 b2
    exact ⟨r1.trans a1, b1, b2⟩

/-- Witness for C38: with the clauses (1 2) and (-1 3), the literals -1 and 3 assumed
false, the only occurrence (1 2) of 1 is a candidate and covered propagation of -1 adds
its unassigned literal 2. -/
theorem covered_addition_exact_witness :
    commonLits Examples.coveredState.1 (-1) 0 [] = [2] ∧
    (cover_propagate_covered (-1) Examples.coveredState).1 = false ∧
    (cover_propagate_covered (-1) Examples.coveredState).2.2.covered =
      Examples.coveredState.2.covered ++ commonLits Examples.coveredState.1 (-1) 0 [] ∧
    (cover_propagate_covered (-1) Examples.coveredState).2.2.added =
      Examples.coveredState.2.added ++ commonLits Examples.coveredState.1 (-1) 0 [] :=
  ⟨by decide,
   (covered_addition_exact (-1) Examples.coveredState (fun _ => rfl) rfl (by decide)
      (by decide)).1 [] 0 [] (by decide) (by decide) (by decide) (by decide)⟩

end Internal

end CaDiCaL

namespace CaDiCaL

/-- Twice an element of the Luby sequence is at most its index plus one. -/
theorem luby_le (n : Nat) : ∀ i, 1 ≤ i → i ≤ n → 2 * luby i ≤ i + 1 := by
  induction n with
  | zero => intro i h1 h2; omega
  | succ n ih =>
    intro i h1 h2
    obtain ⟨k, hk1, hk2⟩ := exists_pow2_bracket i h1
    have e : 2 ^ (k + 1) = 2 * 2 ^ k := by rw [pow_succ]; ring
    by_cases c : i + 1 = 2 ^ (k + 1)
    · have hi : i = 2 ^ (k + 1) - 1 := by omega
      rw [hi, luby_top]
      omega
    · have hpos : 1 ≤ 2 ^ k := Nat.one_le_two_pow
      rw [luby_rec k i hk1 (by omega)]
      have hk : 2 ≤ 2 ^ k := by
        rcases k with _ | k
        · simp at hk1 hk2 c; omega
        · have : 1 ≤ 2 ^ k := Nat.one_le_two_pow
          rw [pow_succ]; omega
      have := ih (i + 1 - 2 ^ k) (by omega) (by omega)
      omega

namespace Reluctant

theorem dkStep_fst_le (uv : Nat × Nat) : (dkStep uv).1 ≤ uv.1 + 1 := by
  unfold dkStep
  split
  · exact Nat.mod_le _ _
  · exact Nat.le_succ _

theorem dk_iter_fst_le (k : Nat) : (dkStep^[k] (1, 1)).1 ≤ k + 1 := by
  induction k with
  | zero => simp
  | succ k ih =>
    rw [Function.iterate_succ_apply']
    have := dkStep_fst_le (dkStep^[k] (1, 1))
    omega

theorem tick_u_le (r : Reluctant) : (tick r).u ≤ r.u + 1 := by
  by_cases c1 : r.period = 0 ∨ r.trigger = true
  · rw [tick_idle r c1]; exact Nat.le_succ _
  have hP : 0 < r.period := by
    rcases Nat.eq_zero_or_pos r.period with h | h
    · exact absurd (Or.inl h) c1
    · exact h
  have ht : r.trigger = false := by
    cases h : r.trigger
    · rfl
    · exact absurd (Or.inr h) c1
  obtain ⟨_, s2, s3⟩ := tick_cases r hP ht
  by_cases c3 : (r.countdown + (ULONG - 1)) % ULONG ≠ 0
  · rw [s2 c3]; exact Nat.le_succ _
  · obtain ⟨u1, v1, u2, v2, e1, e2, e3⟩ := s3 (by simpa using c3)
    rw [e3]
    show u2 ≤ r.u + 1
    have h1 : u1 ≤ r.u + 1 := by
      split at e1
      · simp only [Prod.mk.injEq] at e1
        rw [e1.1]; exact Nat.mod_le _ _
      · simp only [Prod.mk.injEq] at e1
        rw [e1.1]; exact Nat.le_succ _
    split at e2
    · simp only [Prod.mk.injEq] at e2
      rw [e2.1]; exact Nat.le_add_left 1 r.u
    · simp only [Prod.mk.injEq] at e2
      rw [e2.1]; exact h1

theorem applyOps_cons (r : Reluctant) (op : Op) (ops : List Op) :
    applyOps r (op :: ops) =
      applyOps (match op with
        | Op.tick => tick r
        | Op.read => (toBool r).2) ops := rfl

theorem applyOps_rounds (n : Nat) : ∀ r, applyOps r (rounds n) = afterRounds r n := by
  induction n with
  | zero => intro r; rfl
  | succ n ih =>
    intro r
    have e : rounds (n + 1) = Op.tick :: Op.read :: rounds n := by
      simp [rounds, List.replicate_succ]
    rw [e, applyOps_cons, applyOps_cons, ih, Nat.add_comm n 1, afterRounds_add]
    rfl

/-- Every number of rounds before the k-th raise lies in one of the countdown phases. -/
theorem rounds_decompose (P : Nat) (k : Nat) : ∀ n, n < lubySum k * P →
    ∃ j t, j < k ∧ t < luby (j + 1) * P ∧ n = lubySum j * P + t := by
  induction k with
  | zero => intro n h; simp [lubySum] at h
  | succ k ih =>
    intro n h
    by_cases c : n < lubySum k * P
    · obtain ⟨j, t, h1, h2, h3⟩ := ih n c
      exact ⟨j, t, by omega, h2, h3⟩
    · refine ⟨k, n - lubySum k * P, by omega, ?_, by omega⟩
      simp only [lubySum, Nat.add_mul] at h
      omega

theorem knuthAux_enable (r0 : Reluctant) (p l : Int) (hp : 0 < p) (hp2 : p < 2 ^ 31) :
    KnuthAux p.toNat (enable r0 p l) := by
  have e : (p % (ULONG : Int)).toNat = p.toNat := by
    have h1 : p % (ULONG : Int) = p := by
      apply Int.emod_eq_of_lt (le_of_lt hp)
      have : ((ULONG : Nat) : Int) = 2 ^ 64 := by unfold ULONG; norm_num
      rw [this]; omega
    rw [h1]
  have hpos : 1 ≤ p.toNat := by omega
  refine ⟨e, ⟨0, 0, 0, rfl, rfl, le_refl _⟩, ?_, ?_⟩
  · intro _
    show 1 ≤ (p % (ULONG : Int)).toNat ∧ (p % (ULONG : Int)).toNat ≤ 1 * p.toNat
    rw [e]; omega
  · intro h
    exact absurd h (by simp [enable])

theorem knuthAux_read (P : Nat) (hP : 0 < P) (r : Reluctant) (h : KnuthAux P r)
    (ho : NoOverflow P r) : KnuthAux P (toBool r).2 := by
  obtain ⟨h1, h2, h3, h4⟩ := h
  rw [toBool_snd]
  refine ⟨h1, h2, ?_, fun e => absurd e (by simp)⟩
  intro _
  show 1 ≤ r.countdown ∧ r.countdown ≤ r.v * P
  cases ht : r.trigger
  · exact h3 ht
  · rw [h4 ht, Nat.mod_eq_of_lt ho.2]
    obtain ⟨a, b, k, _, hv, _⟩ := h2
    have : 1 ≤ r.v := by rw [hv]; exact Nat.one_le_two_pow
    exact ⟨Nat.mul_pos this hP, le_refl _⟩

theorem knuthAux_tick (P : Nat) (hP : 0 < P) (r : Reluctant) (h : KnuthAux P r)
    (ho : NoOverflow P r) : KnuthAux P (tick r) := by
  have hU : ULONG = 2 ^ 64 := rfl
  by_cases c2 : r.trigger = true
  · rw [tick_idle r (Or.inr c2)]; exact h
  have ht : r.trigger = false := by simpa using c2
  obtain ⟨h1, ⟨a, b, k, hu, hv, hka⟩, h3, h4⟩ := h
  obtain ⟨hc1, hc2⟩ := h3 ht
  obtain ⟨s1, s2, s3⟩ := tick_cases r (by omega) ht
  have hdec := s1 hc1 (by have := ho.2; omega)
  by_cases c3 : (r.countdown + (ULONG - 1)) % ULONG ≠ 0
  · rw [s2 c3]
    refine ⟨h1, ⟨a, b, k, hu, hv, hka⟩, ?_, fun e => absurd (ht ▸ e) (by simp)⟩
    intro _
    show 1 ≤ (r.countdown + (ULONG - 1)) % ULONG ∧ (r.countdown + (ULONG - 1)) % ULONG ≤ r.v * P
    omega
  · obtain ⟨u1, v1, u2, v2, e1, e2, e3⟩ := s3 (by simpa using c3)
    rw [e3]
    have hpa : 1 ≤ 2 ^ a := Nat.one_le_two_pow
    have hupos : 1 ≤ r.u := by
      rw [hu]; exact Nat.mul_pos hpa (by omega)
    have hult : 2 ^ a * (2 * b + 1) < 2 ^ 64 := by
      have := ho.1; rw [hU, hu] at this; omega
    have hlow : r.u &&& ((ULONG - r.u) % ULONG) = 2 ^ a := by
      rw [Nat.mod_eq_of_lt (by omega), hu, hU]
      exact lowbit_aux 64 a b hult
    have hrep1 : ∃ a1 b1 k1, u1 = 2 ^ a1 * (2 * b1 + 1) ∧ v1 = 2 ^ k1 ∧ k1 ≤ a1 := by
      rw [hlow] at e1
      by_cases c4 : 2 ^ a = r.v
      · rw [if_pos c4, Nat.mod_eq_of_lt ho.1] at e1
        simp only [Prod.mk.injEq] at e1
        obtain ⟨a1, m, hm, e⟩ := Nat.exists_eq_two_pow_mul_odd (Nat.succ_ne_zero r.u)
        obtain ⟨b1, rfl⟩ := hm
        exact ⟨a1, b1, 0, by rw [e1.1]; exact e, by rw [e1.2]; rfl, Nat.zero_le _⟩
      · rw [if_neg c4] at e1
        simp only [Prod.mk.injEq] at e1
        have hlt : k < a := by
          rcases Nat.lt_or_ge k a with h | h
          · exact h
          · exact absurd (by rw [hv, le_antisymm hka h]) c4
        have hle : 2 ^ (k + 1) ≤ 2 ^ a := Nat.pow_le_pow_right (by norm_num) hlt
        have hle2 : 2 ^ a ≤ 2 ^ a * (2 * b + 1) := Nat.le_mul_of_pos_right _ (by omega)
        have e2k : 2 * 2 ^ k = 2 ^ (k + 1) := by rw [pow_succ]; ring
        refine ⟨a, b, k + 1, by rw [e1.1]; exact hu, ?_, hlt⟩
        rw [e1.2, hv, e2k]
        exact Nat.mod_eq_of_lt (by rw [hU]; omega)
    have hrep2 : ∃ a2 b2 k2, u2 = 2 ^ a2 * (2 * b2 + 1) ∧ v2 = 2 ^ k2 ∧ k2 ≤ a2 := by
      split at e2
      · simp only [Prod.mk.injEq] at e2
        exact ⟨0, 0, 0, by rw [e2.1]; rfl, by rw [e2.2]; rfl, le_refl _⟩
      · simp only [Prod.mk.injEq] at e2
        rw [e2.1, e2.2]; exact hrep1
    refine ⟨h1, hrep2, fun e => absurd e (by simp), ?_⟩
    intro _
    show (v2 * r.period) % ULONG = (v2 * P) % ULONG
    rw [h1]

theorem knuthAux_applyOps (P : Nat) (hP : 0 < P) (ops : List Op) : ∀ r, KnuthAux P r →
    (∀ pre ∈ ops.inits, NoOverflow P (applyOps r pre)) → KnuthAux P (applyOps r ops) := by
  induction ops with
  | nil => intro r h _; exact h
  | cons op ops ih =>
    intro r h hov
    have h0 : NoOverflow P r := hov [] (by simp)
    rw [applyOps_cons]
    apply ih
    · cases op
      · exact knuthAux_tick P hP r h h0
      · exact knuthAux_read P hP r h h0
    · intro pre hpre
      have := hov (op :: pre) (by
        rw [List.mem_inits] at hpre ⊢
        exact List.cons_prefix_cons.mpr ⟨rfl, hpre⟩)
      rw [applyOps_cons] at this
      exact this

/-- Counterexample to C39 as stated: after enable(2^30, 0) and lubySum(2^35 - 2) * 2^30
rounds of a tick followed by a read, the state is u = v = 2^34 with the trigger not raised
and the countdown 2^34 * 2^30 modulo 2^64, which is 0, although u stayed far below the
64-bit overflow after every tick and every read. -/
theorem knuth_invariant_counterexample :
    (∀ n, n ≤ lubySum (2 ^ 35 - 2) * 2 ^ 30 →
      (applyOps (enable ⟨0, 0, 0, 0, 0, false, false⟩ (2 ^ 30) 0) (rounds n)).u + 1 < ULONG ∧
      (tick (applyOps (enable ⟨0, 0, 0, 0, 0, false, false⟩ (2 ^ 30) 0) (rounds n))).u + 1
        < ULONG) ∧
    applyOps (enable ⟨0, 0, 0, 0, 0, false, false⟩ (2 ^ 30) 0)
        (rounds (lubySum (2 ^ 35 - 2) * 2 ^ 30))
      = ⟨2 ^ 34, 2 ^ 34, 0, 2 ^ 30, 0, false, false⟩ ∧
    ¬ (1 ≤ (applyOps (enable ⟨0, 0, 0, 0, 0, false, false⟩ (2 ^ 30) 0)
        (rounds (lubySum (2 ^ 35 - 2) * 2 ^ 30))).countdown) := by
  have hU : ULONG = 2 ^ 64 := rfl
  have eP : ((2 : Int) ^ 30).toNat = 2 ^ 30 := by decide
  have hp : (0 : Int) < 2 ^ 30 := by norm_num
  have hp2 : ((2 : Int) ^ 30).toNat < ULONG := by rw [eP, hU]; norm_num
  have hPne : (2 ^ 30 : Nat) ≠ 0 := by norm_num
  have hov : ∀ j, 1 ≤ j → j ≤ 2 ^ 35 - 2 → luby j * ((2 : Int) ^ 30).toNat < ULONG := by
    intro j h1 h2
    have := luby_le j j h1 (le_refl _)
    rw [eP, hU]
    have h3 : luby j < 2 ^ 34 := by omega
    calc luby j * 2 ^ 30 < 2 ^ 34 * 2 ^ 30 := Nat.mul_lt_mul_of_pos_right h3 (by norm_num)
      _ = 2 ^ 64 := by norm_num
  have hst : ∀ k, k ≤ 2 ^ 35 - 2 →
      afterRounds (enable ⟨0, 0, 0, 0, 0, false, false⟩ (2 ^ 30) 0) (lubySum k * 2 ^ 30)
        = ⟨(dkStep^[k] (1, 1)).1, (dkStep^[k] (1, 1)).2, 0, 2 ^ 30,
            ((dkStep^[k] (1, 1)).2 * 2 ^ 30) % ULONG, false, false⟩ := by
    intro k hk
    have := state_after_raises ⟨0, 0, 0, 0, 0, false, false⟩ (2 ^ 30) 0 hp hp2 (le_refl _) k
      (by rw [hU]; omega) (fun j h1 h2 => hov j h1 (by omega))
    rw [eP] at this
    exact this
  have hend : afterRounds (enable ⟨0, 0, 0, 0, 0, false, false⟩ (2 ^ 30) 0)
      (lubySum (2 ^ 35 - 2) * 2 ^ 30) = ⟨2 ^ 34, 2 ^ 34, 0, 2 ^ 30, 0, false, false⟩ := by
    rw [hst _ (le_refl _)]
    have hb := (dk_block 34 0 (by simp) (by rw [hU]; norm_num)).2
    have e1 : (2 : Nat) ^ (34 + 1) - 2 = 2 ^ 35 - 2 := by norm_num
    rw [e1] at hb
    simp only [Nat.zero_add] at hb
    rw [hb]
    have : ((2 : Nat) ^ 34 * 2 ^ 30) % ULONG = 0 := by rw [hU]; norm_num
    simp only [this]
  refine ⟨?_, ?_, ?_⟩
  · intro n hn
    rw [applyOps_rounds]
    have key : (afterRounds (enable ⟨0, 0, 0, 0, 0, false, false⟩ (2 ^ 30) 0) n).u
        ≤ 2 ^ 35 := by
      rcases Nat.lt_or_ge n (lubySum (2 ^ 35 - 2) * 2 ^ 30) with c | c
      · obtain ⟨j, t, hj, ht, rfl⟩ := rounds_decompose (2 ^ 30) (2 ^ 35 - 2) n c
        have hlt := hov (j + 1) (by omega) (by omega)
        rw [eP] at hlt
        have hv : (dkStep^[j] (1, 1)).2 = luby (j + 1) := by
          have := dk_luby (j + 1) (by omega) (by rw [hU]; omega)
          simpa using this
        rw [afterRounds_add, hst j (by omega), hv, Nat.mod_eq_of_lt hlt,
          (countdown_phase _ _ _ _ hPne t _ ht hlt).1]
        have := dk_iter_fst_le j
        show (dkStep^[j] (1, 1)).1 ≤ 2 ^ 35
        omega
      · have : n = lubySum (2 ^ 35 - 2) * 2 ^ 30 := le_antisymm hn c
        rw [this, hend]
        show 2 ^ 34 ≤ 2 ^ 35
        norm_num
    have := tick_u_le (afterRounds (enable ⟨0, 0, 0, 0, 0, false, false⟩ (2 ^ 30) 0) n)
    rw [hU]
    omega
  · rw [applyOps_rounds]; exact hend
  · rw [applyOps_rounds, hend]
    show ¬ (1 ≤ 0)
    omega

/-- C39 (amended): after enable(P, l) with 0 < P and after any sequence of tick() and bool
reads in which, before every call and at the end, u + 1 and the product v * P are below
2^64, u ≥ 1, v is a power of two, v ≤ (u AND -u), v divides u, and whenever the trigger is
not raised 1 ≤ countdown ≤ v * P. -/
theorem knuth_invariant (r0 : Reluctant) (p l : Int) (hp : 0 < p) (hp2 : p < 2 ^ 31)
    (ops : List Op)
    (hov : ∀ pre ∈ ops.inits, NoOverflow p.toNat (applyOps (enable r0 p l) pre)) :
    1 ≤ (applyOps (enable r0 p l) ops).u ∧
    (∃ k, (applyOps (enable r0 p l) ops).v = 2 ^ k) ∧
    (applyOps (enable r0 p l) ops).v ≤
      (applyOps (enable r0 p l) ops).u &&&
        ((ULONG - (applyOps (enable r0 p l) ops).u) % ULONG) ∧
    (applyOps (enable r0 p l) ops).v ∣ (applyOps (enable r0 p l) ops).u ∧
    ((applyOps (enable r0 p l) ops).trigger = false →
      1 ≤ (applyOps (enable r0 p l) ops).countdown ∧
      (applyOps (enable r0 p l) ops).countdown ≤ (applyOps (enable r0 p l) ops).v * p.toNat) := by
  have hU : ULONG = 2 ^ 64 := rfl
  have hfin : NoOverflow p.toNat (applyOps (enable r0 p l) ops) :=
    hov ops (by rw [List.mem_inits])
  obtain ⟨_, ⟨a, b, k, hu, hv, hka⟩, h3, _⟩ :=
    knuthAux_applyOps p.toNat (by omega) ops _ (knuthAux_enable r0 p l hp hp2) hov
  have hpa : 1 ≤ 2 ^ a := Nat.one_le_two_pow
  have hupos : 1 ≤ (applyOps (enable r0 p l) ops).u := by
    rw [hu]; exact Nat.mul_pos hpa (by omega)
  have hult : 2 ^ a * (2 * b + 1) < 2 ^ 64 := by
    have := hfin.1; rw [hU, hu] at this; omega
  have hlow : (applyOps (enable r0 p l) ops).u &&&
      ((ULONG - (applyOps (enable r0 p l) ops).u) % ULONG) = 2 ^ a := by
    rw [Nat.mod_eq_of_lt (by omega), hu, hU]
    exact lowbit_aux 64 a b hult
  refine ⟨hupos, ⟨k, hv⟩, ?_, ?_, h3⟩
  · rw [hlow, hv]; exact Nat.pow_le_pow_right (by norm_num) hka
  · rw [hu, hv]
    exact Dvd.dvd.mul_right (pow_dvd_pow 2 hka) _

/-- Witness for C39 (amended): enable(3, 0) followed by three ticks, a read and a tick. -/
theorem knuth_invariant_witness :
    (∀ pre ∈ [Op.tick, Op.tick, Op.tick, Op.read, Op.tick].inits,
      NoOverflow (3 : Int).toNat (applyOps (enable ⟨0, 0, 0, 0, 0, false, false⟩ 3 0) pre)) ∧
    (applyOps (enable ⟨0, 0, 0, 0, 0, false, false⟩ 3 0)
      [Op.tick, Op.tick, Op.tick, Op.read, Op.tick]) = ⟨2, 1, 0, 3, 2, false, false⟩ ∧
    ((applyOps (enable ⟨0, 0, 0, 0, 0, false, false⟩ 3 0)
        [Op.tick, Op.tick, Op.tick, Op.read, Op.tick]).trigger = false →
      1 ≤ (applyOps (enable ⟨0, 0, 0, 0, 0, false, false⟩ 3 0)
        [Op.tick, Op.tick, Op.tick, Op.read, Op.tick]).countdown ∧
      (applyOps (enable ⟨0, 0, 0, 0, 0, false, false⟩ 3 0)
        [Op.tick, Op.tick, Op.tick, Op.read, Op.tick]).countdown ≤
      (applyOps (enable ⟨0, 0, 0, 0, 0, false, false⟩ 3 0)
        [Op.tick, Op.tick, Op.tick, Op.read, Op.tick]).v * (3 : Int).toNat) :=
  ⟨by decide, by decide,
   (knuth_invariant ⟨0, 0, 0, 0, 0, false, false⟩ 3 0 (by decide) (by decide)
      [Op.tick, Op.tick, Op.tick, Op.read, Op.tick] (by decide)).2.2.2.2⟩

end Reluctant

end CaDiCaL

